import Mathlib

/-!
# The watcher and deep traversal of `core/observer`

A shallow embedding of `src/core/observer/watcher.js` and
`src/core/observer/traverse.js`.

* JavaScript values are `Val`; containers live in a finite `Heap` and are
  referred to by address, so that identity (`===`) is equality of addresses
  and a container may reach itself.
* A `Watcher` is an explicit record; every method takes the record and the
  rest of the process state (`World`) and returns the updated pair.
* Methods that may throw return an `Except`; a method that may fail to return
  (deep traversal can recurse forever) takes a recursion budget and returns an
  `Option`. What `get()` does when that recursion exhausts the call stack is
  given by `Watcher.getBounded`, a total function of the depth of the stack.
* Calls into collaborators (`addSub`, `removeSub`, `handleError`, `warn`,
  `queueWatcher`, the evaluator, the callback) and calls of `addDep` are
  recorded, in order, in `World.log`.
* An evaluator is a function of the heap and the owning context that yields the
  Dependencies it reads and a value or a thrown error; a callback yields a
  return or a thrown error. Neither calls back into the watcher it belongs to,
  and property reads during a traversal do not change the heap.
* `dep.js`, `scheduler.js`, `lang.js`, `error.js`, `debug.js` and the reactive
  getters are not among the sources; what the watcher uses of them is modelled
  from the specification and marked so.
* Of `src/core/util/options.js`: option values are finite trees (`JS`), and the
  data objects that `mergeData` changes in place live on a heap of their own
  (`DataHeap`).
-/

namespace Vue

/-! ## Values and the heap -/

/-- JavaScript values. A number is an integer or `NaN`, and a container
(plain object, array, VNode) is a reference into the heap. -/
inductive Val where
  | undefined
  | null
  | bool (b : Bool)
  | num (n : Int)
  | str (s : String)
  | ref (addr : Nat)
  | nan
  deriving DecidableEq, Repr

/-- The comparison `a !== b`: `NaN` differs from every value, itself included;
any other value differs from what is not the same primitive or the same
container. -/
def Val.strictNe (a b : Val) : Bool := decide (a = Val.nan ∨ a ≠ b)

/-- A `Dep` is identified by its id; its subscriber list lives in the `World`. -/
structure Dep where
  id : Nat
  deriving DecidableEq, Repr

/-- One own enumerable property (or array element) of a container. A reactive
property carries the id of the `Dep` its getter registers. -/
structure Property where
  key : String
  val : Val
  dep : Option Nat
  deriving DecidableEq, Repr

/-- The container at one heap address. `props` lists the own enumerable
properties in `Object.keys` order; for an array it lists the elements in index
order, so `props.length` is `val.length`. `ob` is the id of `__ob__.dep` when
the container carries a (truthy) `__ob__`. -/
structure Obj where
  isArray : Bool
  frozen : Bool
  isVNode : Bool
  ob : Option Nat
  props : List Property
  deriving DecidableEq, Repr

/-- The heap: the container at address `a` is `heap[a]?`. -/
abbrev Heap := List Obj

/-- Modelled from the spec: the util `isObject`, which is not among the
sources ("the value is a container type"): true of objects, arrays and VNodes,
false of `null` and of primitives. -/
def isObject : Val → Bool
  | .ref _ => true
  | _ => false

/-- JavaScript truthiness. -/
def Val.truthy : Val → Bool
  | .undefined => false
  | .null => false
  | .bool b => b
  | .num n => n != 0
  | .str s => s != ""
  | .ref _ => true
  | .nan => false

/-! ## `traverse.js` -/

/-- What a traversal does, in order: `enter a` when `_traverse` gets past its
guards on the container at `a` and starts on its children, `read a i` when it
evaluates `val[i]` (array) or `val[keys[i]]` (object) on that container. -/
inductive Touch where
  | enter (addr : Nat)
  | read (addr : Nat) (i : Nat)
  deriving DecidableEq, Repr

/-- The loop `while (i--) _traverse(val[i], seen)`: `rec` is `_traverse` one
call deeper, `ps` are the children still to be read, the last one first. -/
def traverseChildren (rec : Val → Finset Nat → Option (Finset Nat × List Touch))
    (addr : Nat) : List Property → Finset Nat → Option (Finset Nat × List Touch)
  | [], seen => some (seen, [])
  | p :: ps, seen =>
    match rec p.val seen with
    | none => none
    | some (seen1, t1) =>
      match traverseChildren rec addr ps seen1 with
      | none => none
      | some (seen2, t2) => some (seen2, Touch.read addr ps.length :: t1 ++ t2)

/-- The function `_traverse (val, seen)`. The first argument bounds how deep
the recursion may descend into containers: `none` means the budget was not
enough. Both branches of `if (isA)` walk `props` from the last entry to the
first. -/
def _traverse : Nat → Heap → Val → Finset Nat → Option (Finset Nat × List Touch)
  | 0, _, .ref _, _ => none
  | fuel + 1, heap, .ref a, seen =>
    match heap[a]? with
    | none => some (seen, [])
    | some o =>
      if o.frozen || o.isVNode then some (seen, [])
      else
        match o.ob with
        | some depId =>
          if depId ∈ seen then some (seen, [])
          else
            match traverseChildren (_traverse fuel heap) a o.props.reverse (insert depId seen) with
            | none => none
            | some (seen1, t) => some (seen1, Touch.enter a :: t)
        | none =>
          match traverseChildren (_traverse fuel heap) a o.props.reverse seen with
          | none => none
          | some (seen1, t) => some (seen1, Touch.enter a :: t)
  | _, _, _, seen => some (seen, [])

/-- The function `traverse (val)`: run `_traverse` on the shared set
`seenObjects`, then clear it. Returns the new `seenObjects` and the trace. -/
def traverse (fuel : Nat) (heap : Heap) (val : Val) (seenObjects : Finset Nat) :
    Option (Finset Nat × List Touch) :=
  match _traverse fuel heap val seenObjects with
  | none => none
  | some (_, t) => some (∅, t)

/-- Modelled from the spec: the reactive getters, which are not among the
sources ("reads register the active watcher with that property's Dependency").
These are the `Dep`s that the reads of a trace register, in order. -/
def touchedDeps (heap : Heap) : List Touch → List Dep
  | [] => []
  | Touch.enter _ :: t => touchedDeps heap t
  | Touch.read a i :: t =>
    match heap[a]? with
    | none => touchedDeps heap t
    | some o =>
      match o.props[i]? with
      | none => touchedDeps heap t
      | some p =>
        match p.dep with
        | none => touchedDeps heap t
        | some d => Dep.mk d :: touchedDeps heap t

/-! ## The process state around a watcher -/

/-- One invocation of an evaluator: the `Dep`s whose `depend()` it triggers, in
order, and whether it returns a value (`ok`) or throws one (`error`). -/
structure Run where
  reads : List Dep
  outcome : Except Val Val

/-- An evaluator, called as `getter.call(vm, vm)`: it sees the heap and the
owning context. -/
abbrev Getter := Heap → Nat → Run

/-- An update callback, called as `cb.call(vm, value, oldValue)`: `some e` when
it throws `e`, `none` when it returns. -/
abbrev Callback := Nat → Val → Val → Option Val

/-- Calls into collaborators, in the order they happen. -/
inductive Event where
  | evaluate (watcher : Nat)
  | addDep (watcher dep : Nat)
  | callback (watcher : Nat) (value oldValue : Val)
  | addSub (dep watcher : Nat)
  | removeSub (dep watcher : Nat)
  | handleError (e : Val) (vm : Nat) (info : String)
  | warn (msg : String) (vm : Nat)
  | queueWatcher (watcher : Nat)
  deriving DecidableEq, Repr

/-- The fields of a component instance that the watcher touches. -/
structure Component where
  _watchers : List Nat
  _isBeingDestroyed : Bool
  _watcher : Option Nat
  deriving DecidableEq, Repr

/-- Everything outside the watcher record: the module-level `uid`, the `Dep`
subscriber lists (by `Dep` id, holding watcher ids), the stack of active
watchers, the components (by address), the scheduler's queue, `seenObjects`
of `traverse.js`, the heap and the log of calls. -/
structure World where
  production : Bool
  heap : Heap
  uid : Nat
  subs : Nat → List Nat
  targetStack : List Nat
  vms : Nat → Component
  queue : List Nat
  has : Finset Nat
  flushing : Bool
  waiting : Bool
  index : Nat
  seenObjects : Finset Nat
  log : List Event

/-- Append one entry to the log. -/
def World.emit (σ : World) (e : Event) : World :=
  { σ with log := σ.log ++ [e] }

/-- Modelled from the spec: `Dep.addSub` of `core/observer/dep.js`, which is
not among the sources ("addSubscriber(watcher) — appends if not already present
(idempotent from the Watcher's perspective; the Watcher itself guards duplicate
adds, see 4.3)"). The guard is the watcher's: the `Dep` appends and makes no
membership test of its own. -/
def Dep.addSub (d : Dep) (watcher : Nat) (σ : World) : World :=
  { σ with subs := Function.update σ.subs d.id (σ.subs d.id ++ [watcher]) }.emit
    (Event.addSub d.id watcher)

/-- Modelled from the spec: `Dep.removeSub` of `core/observer/dep.js`
("removes by identity; no-op if absent"). -/
def Dep.removeSub (d : Dep) (watcher : Nat) (σ : World) : World :=
  { σ with subs := Function.update σ.subs d.id ((σ.subs d.id).erase watcher) }.emit
    (Event.removeSub d.id watcher)

/-- Modelled from the spec: `pushTarget` of `core/observer/dep.js` ("push on
entry to get()"); the active watcher is the head of the stack. -/
def pushTarget (watcher : Nat) (σ : World) : World :=
  { σ with targetStack := watcher :: σ.targetStack }

/-- Modelled from the spec: `popTarget` of `core/observer/dep.js` ("pop on
exit", "restores the previously active watcher"). -/
def popTarget (σ : World) : World :=
  { σ with targetStack := σ.targetStack.tail }

/-- Modelled from the spec: `handleError` of `core/util/error.js` (the
"centralized error handler"); it records the error and returns. -/
def handleError (e : Val) (vm : Nat) (info : String) (σ : World) : World :=
  σ.emit (Event.handleError e vm info)

/-- Modelled from the spec: `warn` of `core/util/debug.js` (the "non-fatal
diagnostic channel"). -/
def warn (msg : String) (vm : Nat) (σ : World) : World :=
  σ.emit (Event.warn msg vm)

/-- Modelled from the spec: the in-flush insertion of `queueWatcher` ("at the
correct position to preserve ascending-id order relative to the flush
cursor"): scan back from the end of the queue while the position is after the
cursor and holds a larger id. -/
def spliceIndex (queue : List Nat) (index id : Nat) : Nat → Nat
  | 0 => 0
  | i + 1 =>
    if i > index ∧ (queue.getD i 0) > id then spliceIndex queue index id i else i + 1

/-- Modelled from the spec: `queueWatcher` of `core/observer/scheduler.js`
("if the watcher's id is not already marked pending, mark it pending and: if no
flush is currently in progress, append to the queue and schedule a flush ...
If a flush IS currently in progress, insert the watcher into the queue at the
correct position to preserve ascending-id order relative to the flush
cursor"). -/
def queueWatcher (watcher : Nat) (σ : World) : World :=
  let σ := σ.emit (Event.queueWatcher watcher)
  if watcher ∈ σ.has then σ
  else
    let queue :=
      if σ.flushing then
        let i := spliceIndex σ.queue σ.index watcher σ.queue.length
        σ.queue.take i ++ watcher :: σ.queue.drop i
      else σ.queue ++ [watcher]
    { σ with has := insert watcher σ.has, queue := queue, waiting := true }

/-! ## Path evaluators -/

/-- Modelled from the spec: a property read `obj[key]` through the reactive
getters, which are not among the sources ("reads register the active watcher
with that property's Dependency"): the value, and the `Dep` registered when the
property is reactive. A primitive has no properties of its own. -/
def readProp (heap : Heap) (obj : Val) (key : String) : Val × List Dep :=
  match obj with
  | .ref a =>
    match heap[a]? with
    | none => (Val.undefined, [])
    | some o =>
      match o.props.find? (fun p => p.key == key) with
      | none => (Val.undefined, [])
      | some p => (p.val, (p.dep.map Dep.mk).toList)
  | _ => (Val.undefined, [])

/-- Modelled from the spec: the accessor returned by `parsePath` ("a
dotted-path accessor string resolved against the context"): for each segment
in turn, `undefined` if the object so far is falsy, else its property. -/
def walkPath (heap : Heap) : List String → Val → List Dep → Run
  | [], obj, reads => ⟨reads, .ok obj⟩
  | seg :: segs, obj, reads =>
    if !obj.truthy then ⟨reads, .ok Val.undefined⟩
    else walkPath heap segs (readProp heap obj seg).1 (reads ++ (readProp heap obj seg).2)

/-- Modelled from the spec: the characters of a "simple property-chain
syntax": letters, digits, `.`, `$` and `_`. -/
def isPathChar (c : Char) : Bool :=
  c.isAlphanum || c == '.' || c == '$' || c == '_'

/-- Modelled from the spec: the segments of a dotted path. -/
def splitDots : List Char → List (List Char)
  | [] => [[]]
  | c :: cs =>
    if c = '.' then [] :: splitDots cs
    else
      match splitDots cs with
      | [] => [[c]]
      | seg :: segs => (c :: seg) :: segs

/-- Modelled from the spec: `parsePath` of `core/util/lang.js`, which is not
among the sources ("a dotted-path accessor string resolved against the
context", "only a simple property-chain syntax"): a string with any other
character is rejected, otherwise the accessor walks the segments. -/
def parsePath (path : String) : Option Getter :=
  if path.data.all isPathChar then
    some (fun heap vm => walkPath heap ((splitDots path.data).map String.mk) (Val.ref vm) [])
  else none

/-- Modelled from the spec: the util `noop`, which is not among the sources
("watcher still constructed with a no-op evaluator"). -/
def noop : Getter := fun _ _ => ⟨[], .ok Val.undefined⟩

/-! ## `watcher.js` -/

/-- The recognised options, after the `!!` coercions. -/
structure Options where
  deep : Bool
  user : Bool
  lazy : Bool
  sync : Bool
  before : Option Nat

/-- The constructor's `expOrFn`: a path string, or a function (with the text
`toString()` gives for it). -/
inductive ExpOrFn where
  | path (s : String)
  | fn (src : String) (f : Getter)

/-- The string `expOrFn.toString()`. -/
def ExpOrFn.toString : ExpOrFn → String
  | .path s => s
  | .fn src _ => src

/-- The class `Watcher`. `vm` is the address of the owning component, `deps` and
`newDeps` the arrays, `depIds` and `newDepIds` the sets of ids. -/
structure Watcher where
  vm : Nat
  expression : String
  cb : Callback
  id : Nat
  deep : Bool
  user : Bool
  lazy : Bool
  sync : Bool
  dirty : Bool
  active : Bool
  deps : List Dep
  newDeps : List Dep
  depIds : Finset Nat
  newDepIds : Finset Nat
  before : Option Nat
  getter : Getter
  value : Val

/-- The method `addDep (dep)`. The call itself is logged first. -/
def Watcher.addDep (w : Watcher) (dep : Dep) (σ : World) : Watcher × World :=
  let id := dep.id
  let σ0 := σ.emit (Event.addDep w.id id)
  if id ∉ w.newDepIds then
    let w1 := { w with newDepIds := insert id w.newDepIds, newDeps := w.newDeps ++ [dep] }
    if id ∉ w.depIds then (w1, dep.addSub w.id σ0) else (w1, σ0)
  else (w, σ0)

/-- A run of `dep.depend()` calls while this watcher is `Dep.target`: each one
is `this.addDep(dep)`. -/
def Watcher.track (w : Watcher) (σ : World) : List Dep → Watcher × World
  | [] => (w, σ)
  | dep :: deps => Watcher.track (w.addDep dep σ).1 (w.addDep dep σ).2 deps

/-- The first loop of `cleanupDeps`, `while (i--)` over `this.deps`: the last
entry is handled first. -/
def Watcher.unsubscribeStale (w : Watcher) (σ : World) : World :=
  w.deps.foldr (fun dep s => if dep.id ∉ w.newDepIds then dep.removeSub w.id s else s) σ

/-- The method `cleanupDeps ()`. -/
def Watcher.cleanupDeps (w : Watcher) (σ : World) : Watcher × World :=
  ({ w with depIds := w.newDepIds, newDepIds := ∅, deps := w.newDeps, newDeps := [] },
    w.unsubscribeStale σ)

/-- The method `get ()` where it gets past the traversal in `finally`: the
completion (`ok value` for `return value`, `error e` for a rethrown `e`) with
the watcher and world after `finally`. The result is `none` when `traverse`
does not return within the budget; in the source the call stack is then
exhausted and `get()` is left from inside `finally`, which is what
`Watcher.getBounded` gives. -/
def Watcher.get (fuel : Nat) (w : Watcher) (σ : World) :
    Option (Except Val Val × Watcher × World) :=
  let σ1 := pushTarget w.id σ
  let r := w.getter σ1.heap w.vm
  let st := w.track (σ1.emit (Event.evaluate w.id)) r.reads
  let w2 := st.1
  let value : Val := match r.outcome with
    | .ok v => v
    | .error _ => Val.undefined
  let σ2 : World := match r.outcome with
    | .ok _ => st.2
    | .error e =>
      if w2.user then
        handleError e w2.vm ("getter for watcher \"" ++ w2.expression ++ "\"") st.2
      else st.2
  match (if w2.deep then traverse fuel σ2.heap value σ2.seenObjects
         else some (σ2.seenObjects, [])) with
  | none => none
  | some (seen, touches) =>
    let st3 := w2.track { σ2 with seenObjects := seen } (touchedDeps σ2.heap touches)
    let st4 := st3.1.cleanupDeps (popTarget st3.2)
    match r.outcome with
    | .ok v => some (.ok v, st4)
    | .error e => if w2.user then some (.ok Val.undefined, st4) else some (.error e, st4)

/-- The method `run ()`. -/
def Watcher.run (fuel : Nat) (w : Watcher) (σ : World) :
    Option (Except Val Unit × Watcher × World) :=
  if w.active then
    match w.get fuel σ with
    | none => none
    | some (.error e, w1, σ1) => some (.error e, w1, σ1)
    | some (.ok value, w1, σ1) =>
      if value.strictNe w1.value = true ∨ isObject value = true ∨ w1.deep = true then
        let oldValue := w1.value
        let w2 := { w1 with value := value }
        let σ2 := σ1.emit (Event.callback w2.id value oldValue)
        match w2.cb w2.vm value oldValue with
        | none => some (.ok (), w2, σ2)
        | some e =>
          if w2.user then
            some (.ok (), w2,
              handleError e w2.vm ("callback for watcher \"" ++ w2.expression ++ "\"") σ2)
          else some (.error e, w2, σ2)
      else some (.ok (), w1, σ1)
  else some (.ok (), w, σ)

/-- The method `update ()`. -/
def Watcher.update (fuel : Nat) (w : Watcher) (σ : World) :
    Option (Except Val Unit × Watcher × World) :=
  if w.lazy then some (.ok (), { w with dirty := true }, σ)
  else if w.sync then w.run fuel σ
  else some (.ok (), w, queueWatcher w.id σ)

/-- The method `evaluate ()`. -/
def Watcher.evaluate (fuel : Nat) (w : Watcher) (σ : World) :
    Option (Except Val Unit × Watcher × World) :=
  match w.get fuel σ with
  | none => none
  | some (.error e, w1, σ1) => some (.error e, w1, σ1)
  | some (.ok value, w1, σ1) => some (.ok (), { w1 with value := value, dirty := false }, σ1)

/-- The method `depend ()`: every `Dep` in `deps`, the last one first, registers
with the watcher that is `Dep.target` (if any); this watcher is not changed. -/
def Watcher.depend (w : Watcher) (target : Option Watcher) (σ : World) :
    Option Watcher × World :=
  match target with
  | none => (none, σ)
  | some t => (some (t.track σ w.deps.reverse).1, (t.track σ w.deps.reverse).2)

/-- The method `teardown ()`. -/
def Watcher.teardown (w : Watcher) (σ : World) : Watcher × World :=
  if w.active then
    let c := σ.vms w.vm
    let σ1 :=
      if !c._isBeingDestroyed then
        { σ with vms := Function.update σ.vms w.vm { c with _watchers := c._watchers.erase w.id } }
      else σ
    let σ2 := w.deps.foldr (fun dep s => dep.removeSub w.id s) σ1
    ({ w with active := false }, σ2)
  else (w, σ)

/-- The constructor. The watcher exists (and is in `vm._watchers`) even when
the first `get()` throws, so it is returned next to the completion. -/
def Watcher.constructor (vm : Nat) (expOrFn : ExpOrFn) (cb : Callback)
    (options : Option Options) (isRenderWatcher : Bool) (fuel : Nat) (σ : World) :
    Option (Except Val Unit × Watcher × World) :=
  let id := σ.uid + 1
  let c0 := σ.vms vm
  let c1 : Component := if isRenderWatcher then { c0 with _watcher := some id } else c0
  let c2 : Component := { c1 with _watchers := c1._watchers ++ [id] }
  let σ1 : World := { σ with vms := Function.update σ.vms vm c2, uid := id }
  let lazy := match options with
    | some o => o.lazy
    | none => false
  let parsed : Option Getter := match expOrFn with
    | .fn _ f => some f
    | .path s => parsePath s
  let σ2 : World := match expOrFn, parsed with
    | .path s, none =>
      if !σ1.production then
        warn ("Failed watching path: \"" ++ s ++ "\" " ++
          "Watcher only accepts simple dot-delimited paths. " ++
          "For full control, use a function instead.") vm σ1
      else σ1
    | _, _ => σ1
  let w : Watcher :=
    { vm := vm
      expression := if !σ.production then expOrFn.toString else ""
      cb := cb
      id := id
      deep := match options with
        | some o => o.deep
        | none => false
      user := match options with
        | some o => o.user
        | none => false
      lazy := lazy
      sync := match options with
        | some o => o.sync
        | none => false
      dirty := lazy
      active := true
      deps := []
      newDeps := []
      depIds := ∅
      newDepIds := ∅
      before := match options with
        | some o => o.before
        | none => none
      getter := parsed.getD noop
      value := Val.undefined }
  if lazy then some (.ok (), w, σ2)
  else
    match w.get fuel σ2 with
    | none => none
    | some (.error e, w1, σ3) => some (.error e, w1, σ3)
    | some (.ok value, w1, σ3) => some (.ok (), { w1 with value := value }, σ3)

/-! ## Sequences of operations on one watcher -/

/-- What may happen to a watcher after construction: one of its methods is
called, or the environment writes to the heap. -/
inductive Action where
  | get
  | run
  | update
  | evaluate
  | teardown
  | write (heap : Heap)

/-- One action; the completion (return or throw) is dropped, the state left
behind is kept. -/
def Watcher.perform (fuel : Nat) (w : Watcher) (σ : World) : Action → Option (Watcher × World)
  | .get => (w.get fuel σ).map (fun r => r.2)
  | .run => (w.run fuel σ).map (fun r => r.2)
  | .update => (w.update fuel σ).map (fun r => r.2)
  | .evaluate => (w.evaluate fuel σ).map (fun r => r.2)
  | .teardown => some (w.teardown σ)
  | .write heap => some (w, { σ with heap := heap })

/-- A sequence of actions, first to last. -/
def Watcher.performAll (fuel : Nat) : List Action → Watcher × World → Option (Watcher × World)
  | [], s => some s
  | a :: as, s =>
    match Watcher.perform fuel s.1 s.2 a with
    | none => none
    | some s1 => Watcher.performAll fuel as s1

/-! ## Closed forms used in the proofs -/

/-- The ids in `newDepIds` after `addDep` has been called on each of `ds`. -/
def collectIds : Finset Nat → List Dep → Finset Nat
  | s, [] => s
  | s, d :: ds => collectIds (insert d.id s) ds

/-- The array `newDeps` after `addDep` has been called on each of `ds`. -/
def collectDeps : Finset Nat → List Dep → List Dep → List Dep
  | _, acc, [] => acc
  | s, acc, d :: ds => collectDeps (insert d.id s) (if d.id ∈ s then acc else acc ++ [d]) ds

/-- The subscriber lists after `addDep` has been called on each of `ds`. -/
def subsAfterTrack (wid : Nat) (depIds : Finset Nat) :
    Finset Nat → (Nat → List Nat) → List Dep → (Nat → List Nat)
  | _, subs, [] => subs
  | s, subs, d :: ds =>
    subsAfterTrack wid depIds (insert d.id s)
      (if d.id ∈ s ∨ d.id ∈ depIds then subs else Function.update subs d.id (subs d.id ++ [wid])) ds

/-- The log entries of calling `addDep` on each of `ds`. -/
def logOfTrack (wid : Nat) (depIds : Finset Nat) : Finset Nat → List Dep → List Event
  | _, [] => []
  | s, d :: ds =>
    (Event.addDep wid d.id ::
      if d.id ∈ s ∨ d.id ∈ depIds then [] else [Event.addSub d.id wid]) ++
      logOfTrack wid depIds (insert d.id s) ds

/-- The subscriber lists after a backwards loop calling `removeSub` on the
entries of `deps` whose id is not in `keep`. -/
def subsAfterUnsub (wid : Nat) (keep : Finset Nat) (subs : Nat → List Nat) :
    List Dep → (Nat → List Nat)
  | [] => subs
  | d :: ds =>
    if d.id ∉ keep then
      Function.update (subsAfterUnsub wid keep subs ds) d.id
        ((subsAfterUnsub wid keep subs ds d.id).erase wid)
    else subsAfterUnsub wid keep subs ds

/-- The log entries of that loop. -/
def logOfUnsub (wid : Nat) (keep : Finset Nat) : List Dep → List Event
  | [] => []
  | d :: ds =>
    logOfUnsub wid keep ds ++ (if d.id ∉ keep then [Event.removeSub d.id wid] else [])

/-- Log entries that are an evaluator or callback invocation of the watcher. -/
def Event.invokes (wid : Nat) : Event → Bool
  | .evaluate w => w == wid
  | .callback w _ _ => w == wid
  | _ => false

/-- Log entries that are a callback invocation. -/
def Event.isCallback : Event → Bool
  | .callback _ _ _ => true
  | _ => false

/-- Log entries that are an evaluator invocation. -/
def Event.isEvaluate : Event → Bool
  | .evaluate _ => true
  | _ => false

/-- The value `get()` holds in `value` when it reaches `finally`. -/
def Watcher.getValue (w : Watcher) (σ : World) : Val :=
  match (w.getter σ.heap w.vm).outcome with
  | .ok v => v
  | .error _ => Val.undefined

/-- The deep traversal made by `get()`, if any. -/
def Watcher.getTraverse (fuel : Nat) (w : Watcher) (σ : World) :
    Option (Finset Nat × List Touch) :=
  if w.deep then traverse fuel σ.heap (w.getValue σ) σ.seenObjects
  else some (σ.seenObjects, [])

/-- Every `Dep` passed to `addDep` during one `get()`: those of the evaluator,
then those of the traversal. -/
def Watcher.getReads (w : Watcher) (σ : World) (touches : List Touch) : List Dep :=
  (w.getter σ.heap w.vm).reads ++ touchedDeps σ.heap touches

/-- The completion of `get()`. -/
def Watcher.getResult (w : Watcher) (σ : World) : Except Val Val :=
  match (w.getter σ.heap w.vm).outcome with
  | .ok v => .ok v
  | .error e => if w.user then .ok Val.undefined else .error e

/-- The `handleError` entry of `get()`, if any. -/
def Watcher.getErrorLog (w : Watcher) (σ : World) : List Event :=
  match (w.getter σ.heap w.vm).outcome with
  | .ok _ => []
  | .error e =>
    if w.user then [Event.handleError e w.vm ("getter for watcher \"" ++ w.expression ++ "\"")]
    else []

/-- The log entries of one `get()`. -/
def Watcher.getLog (w : Watcher) (σ : World) (touches : List Touch) : List Event :=
  Event.evaluate w.id ::
    logOfTrack w.id w.depIds w.newDepIds (w.getter σ.heap w.vm).reads ++
    w.getErrorLog σ ++
    logOfTrack w.id w.depIds (collectIds w.newDepIds (w.getter σ.heap w.vm).reads)
      (touchedDeps σ.heap touches) ++
    logOfUnsub w.id (collectIds w.newDepIds (w.getReads σ touches)) w.deps

/-- The watcher after one `get()`. -/
def Watcher.afterGet (w : Watcher) (σ : World) (touches : List Touch) : Watcher :=
  { w with depIds := collectIds w.newDepIds (w.getReads σ touches),
           newDepIds := ∅,
           deps := collectDeps w.newDepIds w.newDeps (w.getReads σ touches),
           newDeps := [] }

/-- The world after one `get()`. -/
def Watcher.worldAfterGet (w : Watcher) (σ : World) (seen : Finset Nat)
    (touches : List Touch) : World :=
  { σ with seenObjects := seen,
           subs := subsAfterUnsub w.id (collectIds w.newDepIds (w.getReads σ touches))
             (subsAfterTrack w.id w.depIds w.newDepIds σ.subs (w.getReads σ touches)) w.deps,
           log := σ.log ++ w.getLog σ touches }

/-! ## Invariants and measures used in the proofs -/

/-- The subscription invariant of one watcher: it is in each subscriber list
at most once, and only in lists of `Dep`s whose id it holds. -/
def SubInv (wid : Nat) (depIds newDepIds : Finset Nat) (subs : Nat → List Nat) : Prop :=
  (∀ d, (subs d).count wid ≤ 1) ∧ (∀ d, wid ∈ subs d → d ∈ depIds ∨ d ∈ newDepIds)

/-- The invariant linking a watcher and the subscriber lists: `SubInv`, and
every id in a set has its `Dep` in the matching array. -/
def Watcher.Inv (w : Watcher) (σ : World) : Prop :=
  SubInv w.id w.depIds w.newDepIds σ.subs ∧
  (∀ d ∈ w.depIds, Dep.mk d ∈ w.deps) ∧
  (∀ d ∈ w.newDepIds, Dep.mk d ∈ w.newDeps)

/-- The fields of a watcher that are set once, by the constructor. -/
def Watcher.SameConfig (w w1 : Watcher) : Prop :=
  w1.vm = w.vm ∧ w1.expression = w.expression ∧ w1.cb = w.cb ∧ w1.id = w.id ∧
  w1.deep = w.deep ∧ w1.user = w.user ∧ w1.lazy = w.lazy ∧ w1.sync = w.sync ∧
  w1.before = w.before ∧ w1.getter = w.getter

/-- The ids `__ob__.dep.id` carried by the containers of a heap. -/
def obIds (heap : Heap) : Finset Nat := (heap.filterMap Obj.ob).toFinset

/-- A container that `_traverse` descends into without consulting `seen`: not
frozen, not a VNode, and without `__ob__`. -/
def Obj.plain (o : Obj) : Bool := !o.frozen && !o.isVNode && o.ob.isNone

/-- The rank of a value that is a plain container (plus one), else zero. -/
def weight (heap : Heap) (rank : Nat → Nat) : Val → Nat
  | .ref a =>
    match heap[a]? with
    | some o => if o.plain then rank a + 1 else 0
    | none => 0
  | _ => 0

/-- A bound on the weights in a heap, plus one. -/
def weightBound (heap : Heap) (rank : Nat → Nat) : Nat :=
  (Finset.range heap.length).sup rank + 2

/-- What a completed traversal from `seen` to `seen1` with trace `t` satisfies:
`seen` only grows, and a container with `__ob__` is entered only if its id was
not in `seen`, its id is in `seen1` afterwards, and it is entered at most
once. -/
def Once (heap : Heap) (seen seen1 : Finset Nat) (t : List Touch) : Prop :=
  seen ⊆ seen1 ∧
  ∀ a o d, heap[a]? = some o → o.ob = some d →
    (d ∈ seen → Touch.enter a ∉ t) ∧ (Touch.enter a ∈ t → d ∈ seen1) ∧
    t.count (Touch.enter a) ≤ 1

/-! ## Sample states -/

/-- The process state before anything has run, over a given heap. -/
def World.init (heap : Heap) : World :=
  { production := false, heap := heap, uid := 0, subs := fun _ => [], targetStack := [],
    vms := fun _ => ⟨[], false, none⟩, queue := [], has := ∅, flushing := false,
    waiting := false, index := 0, seenObjects := ∅, log := [] }

/-- A callback that returns. -/
def cbQuiet : Callback := fun _ _ _ => none

/-- A callback that throws the string `"boom"`. -/
def cbThrow : Callback := fun _ _ _ => some (Val.str "boom")

/-- An evaluator that throws the string `"bad"`. -/
def getterThrow : Getter := fun _ _ => ⟨[], .error (Val.str "bad")⟩

/-- A watcher record with nothing in it. -/
def Watcher.blank : Watcher :=
  { vm := 0, expression := "", cb := cbQuiet, id := 0, deep := false, user := false,
    lazy := false, sync := false, dirty := false, active := false, deps := [], newDeps := [],
    depIds := ∅, newDepIds := ∅, before := none, getter := noop, value := Val.undefined }

/-- The watcher and world left by a method that returned or threw. -/
def stateOf {α : Type} (r : Option (α × Watcher × World)) : Watcher × World :=
  match r with
  | some (_, w, σ) => (w, σ)
  | none => (Watcher.blank, World.init [])

/-- The context `{a, b: 1, c: 2}` at address 0, all three properties reactive
(`Dep`s 1, 2, 3). -/
def heapABC (a : Bool) : Heap :=
  [ ⟨false, false, false, some 100,
      [⟨"a", .bool a, some 1⟩, ⟨"b", .num 1, some 2⟩, ⟨"c", .num 2, some 3⟩]⟩ ]

/-- The evaluator `function () { return this.a ? this.b : this.c }`. -/
def ternary : Getter := fun heap vm =>
  let a := readProp heap (.ref vm) "a"
  let k := if a.1.truthy then readProp heap (.ref vm) "b" else readProp heap (.ref vm) "c"
  ⟨a.2 ++ k.2, .ok k.1⟩

/-- A watcher on `a ? b : c`, constructed while `a` is true. -/
def watcherABC : Watcher × World :=
  stateOf (Watcher.constructor 0 (.fn "a ? b : c" ternary) cbQuiet none false 0
    (World.init (heapABC true)))

/-- The context `{x: {y: y}}`: the context at address 0, the inner object at
address 1, both properties reactive (`Dep`s 10 and 11). -/
def heapXY (y : Int) : Heap :=
  [ ⟨false, false, false, some 100, [⟨"x", .ref 1, some 10⟩]⟩,
    ⟨false, false, false, some 101, [⟨"y", .num y, some 11⟩]⟩ ]

/-- A watcher on the path `"x.y"` over `{x: {y: 1}}`. -/
def watcherXY : Watcher × World :=
  stateOf (Watcher.constructor 0 (.path "x.y") cbQuiet none false 0 (World.init (heapXY 1)))

/-- The world of `watcherABC` after `a` has been set to false. -/
def worldABCFlipped : World := { watcherABC.2 with heap := heapABC false }

/-- The watcher on `"x.y"` after `y` was set to 2 and the watcher was run,
notified and evaluated. -/
def watcherXYLater : Watcher × World :=
  (Watcher.performAll 0 [.write (heapXY 2), .run, .update, .evaluate] watcherXY).getD
    (Watcher.blank, World.init [])

/-- A plain assignment `heap[addr][key] = v` to an existing property. -/
def setProp (heap : Heap) (addr : Nat) (key : String) (v : Val) : Heap :=
  heap.modify
    (fun o => ⟨o.isArray, o.frozen, o.isVNode, o.ob,
      o.props.map (fun p => if p.key == key then ⟨p.key, v, p.dep⟩ else p)⟩)
    addr

/-- The world of `watcherXY` after the write `x.y = y`. -/
def worldXY (y : Int) : World :=
  { watcherXY.2 with heap := setProp watcherXY.2.heap 1 "y" (.num y) }

/-- An options object with `lazy` and `sync` both set. -/
def optionsLazySync : Options := ⟨false, false, true, true, none⟩

/-- An options object with only `sync` set. -/
def optionsSync : Options := ⟨false, false, false, true, none⟩

/-- An options object with only `lazy` set. -/
def optionsLazy : Options := ⟨false, false, true, false, none⟩

/-- A lazy and sync watcher on `a ? b : c`. -/
def watcherLazySync : Watcher × World :=
  stateOf (Watcher.constructor 0 (.fn "a ? b : c" ternary) cbQuiet (some optionsLazySync)
    false 0 (World.init (heapABC true)))

/-- A sync watcher on the path `"x.y"` over `{x: {y: 1}}`. -/
def watcherSync : Watcher × World :=
  stateOf (Watcher.constructor 0 (.path "x.y") cbQuiet (some optionsSync) false 0
    (World.init (heapXY 1)))

/-- A lazy watcher on `a ? b : c`. -/
def watcherLazy : Watcher × World :=
  stateOf (Watcher.constructor 0 (.fn "a ? b : c" ternary) cbQuiet (some optionsLazy)
    false 0 (World.init (heapABC true)))

/-- An options object with only `user` set. -/
def optionsUser : Options := ⟨false, true, false, false, none⟩

/-- An options object with `user` and `deep` set. -/
def optionsUserDeep : Options := ⟨true, true, false, false, none⟩

/-- A user watcher on the path `"x.y"` over `{x: {y: 1}}`. -/
def watcherUser : Watcher × World :=
  stateOf (Watcher.constructor 0 (.path "x.y") cbQuiet (some optionsUser) false 0
    (World.init (heapXY 1)))

/-- The same watcher with its evaluator replaced by one that throws. -/
def watcherUserThrowing : Watcher := { watcherUser.1 with getter := getterThrow }

/-- The watcher of `"x.y"` (not a user watcher) with its evaluator replaced by
one that throws. -/
def watcherThrowing : Watcher := { watcherXY.1 with getter := getterThrow }

/-- A user watcher on `"x.y"` over `{x: {y: 1}}` whose callback throws. -/
def watcherUserCbThrow : Watcher × World :=
  stateOf (Watcher.constructor 0 (.path "x.y") cbThrow (some optionsUser) false 0
    (World.init (heapXY 1)))

/-- A plain watcher on `"x.y"` over `{x: {y: 1}}` whose callback throws. -/
def watcherCbThrow : Watcher × World :=
  stateOf (Watcher.constructor 0 (.path "x.y") cbThrow none false 0 (World.init (heapXY 1)))

/-- A plain object that holds a reference to itself: `o = {}; o.self = o`. -/
def heapSelfPlain : Heap :=
  [ ⟨false, false, false, none, [⟨"self", .ref 0, none⟩]⟩ ]

/-- A plain object `{p: s, q: s}` whose two properties hold the same plain
object `s = {n: 1}`. -/
def heapShared : Heap :=
  [ ⟨false, false, false, none, [⟨"p", .ref 1, none⟩, ⟨"q", .ref 1, none⟩]⟩,
    ⟨false, false, false, none, [⟨"n", .num 1, none⟩]⟩ ]

/-- A reactive object that holds a reference to itself (its `__ob__.dep.id`
is 7) and to a reactive array `[self, self]`. -/
def heapSelfReactive : Heap :=
  [ ⟨false, false, false, some 7,
      [⟨"self", .ref 0, some 1⟩, ⟨"list", .ref 1, some 2⟩]⟩,
    ⟨true, false, false, some 8, [⟨"0", .ref 0, none⟩, ⟨"1", .ref 0, none⟩]⟩ ]

/-- A plain object `{r, s}` at address 0, where `r` is a reactive object
`{self: r, up: <the object at 0>}` (its `__ob__.dep.id` is 9) and `s` is the
plain object `{n: 1}`: every cycle passes through `r`. -/
def heapMixed : Heap :=
  [ ⟨false, false, false, none, [⟨"r", .ref 1, none⟩, ⟨"s", .ref 2, none⟩]⟩,
    ⟨false, false, false, some 9, [⟨"self", .ref 1, some 3⟩, ⟨"up", .ref 0, some 4⟩]⟩,
    ⟨false, false, false, none, [⟨"n", .num 1, none⟩]⟩ ]

/-- A rank for `heapMixed`: the object at 0 above the plain object it holds. -/
def rankMixed : Nat → Nat := fun a => if a = 0 then 1 else 0

/-- What no method of a watcher changes in the world: the mode, the heap, the
`uid` counter and the stack of active watchers. -/
def World.SameBase (σ σ1 : World) : Prop :=
  σ1.production = σ.production ∧ σ1.heap = σ.heap ∧ σ1.uid = σ.uid ∧
  σ1.targetStack = σ.targetStack

/-- The scheduler's part of the world is unchanged. -/
def World.SameQueue (σ σ1 : World) : Prop :=
  σ1.queue = σ.queue ∧ σ1.has = σ.has ∧ σ1.flushing = σ.flushing ∧
  σ1.waiting = σ.waiting ∧ σ1.index = σ.index

/-- The worlds that can follow a world: any number of method calls on any
watchers, heap writes and constructions of further watchers. -/
inductive Later : World → World → Prop where
  | refl (σ : World) : Later σ σ
  | perform {σ σ1 σ2 : World} (fuel : Nat) (w : Watcher) (a : Action) (w1 : Watcher) :
      Later σ σ1 → w.perform fuel σ1 a = some (w1, σ2) → Later σ σ2
  | construct {σ σ1 σ2 : World} (vm : Nat) (expOrFn : ExpOrFn) (cb : Callback)
      (options : Option Options) (isRenderWatcher : Bool) (fuel : Nat)
      (res : Except Val Unit) (w : Watcher) :
      Later σ σ1 →
      Watcher.constructor vm expOrFn cb options isRenderWatcher fuel σ1 = some (res, w, σ2) →
      Later σ σ2

/-- A first watcher built in the world of the `"x.y"` scenario. -/
def firstBuilt : Watcher × World :=
  stateOf (Watcher.constructor 0 (.path "x.y") cbQuiet none false 0 (World.init (heapXY 1)))

/-- The world after the first watcher was run once following the write
`x.y = 2`. -/
def worldBetween : World :=
  (stateOf (firstBuilt.1.run 0 { firstBuilt.2 with heap := heapXY 2 })).2

/-- A second watcher built after that. -/
def secondBuilt : Watcher × World :=
  stateOf (Watcher.constructor 0 (.fn "() => 1" noop) cbQuiet (some optionsLazy) false 0
    worldBetween)

/-- The two operations that touch a watcher's dependency arrays and sets. -/
inductive DepOp where
  | addDep (dep : Dep)
  | cleanupDeps

/-- One such operation. -/
def Watcher.depOp (w : Watcher) (σ : World) : DepOp → Watcher × World
  | .addDep dep => w.addDep dep σ
  | .cleanupDeps => w.cleanupDeps σ

/-- A sequence of such operations, first to last. -/
def Watcher.depOps : List DepOp → Watcher × World → Watcher × World
  | [], s => s
  | op :: ops, s => Watcher.depOps ops (Watcher.depOp s.1 s.2 op)

/-- The id sets agree with the arrays, and no array holds an id twice. -/
def Watcher.IdsAgree (w : Watcher) : Prop :=
  (∀ x, x ∈ w.depIds ↔ x ∈ w.deps.map Dep.id) ∧
  (∀ x, x ∈ w.newDepIds ↔ x ∈ w.newDeps.map Dep.id) ∧
  (w.deps.map Dep.id).Nodup ∧ (w.newDeps.map Dep.id).Nodup

/-- A user watcher on `"x.y"` over `{x: {y: 1}}` with a throwing evaluator and
`deep` set. -/
def watcherUserDeepThrowing : Watcher :=
  { watcherUser.1 with getter := getterThrow, deep := true, value := Val.undefined }

/-- The world of `watcherXY` while its component is being destroyed. -/
def worldXYDestroying : World :=
  { watcherXY.2 with
    vms := Function.update watcherXY.2.vms 0
      { watcherXY.2.vms 0 with _isBeingDestroyed := true } }

/-- A container on which `_traverse` returns at its first guard: frozen, or a
VNode. -/
def Obj.skipped (o : Obj) : Bool := o.frozen || o.isVNode

/-- A plain object `{f, v, n}` at address 0 that holds a frozen object (at 1),
a VNode (at 2) and a number. -/
def heapSkipped : Heap :=
  [ ⟨false, false, false, none,
      [⟨"f", .ref 1, some 1⟩, ⟨"v", .ref 2, some 2⟩, ⟨"n", .num 3, some 3⟩]⟩,
    ⟨false, true, false, some 20, [⟨"a", .num 1, some 4⟩]⟩,
    ⟨false, false, true, some 21, [⟨"tag", .str "div", some 5⟩]⟩ ]

/-- The containers that a value reaches through containers that are not
skipped: the value itself when it is such a container, and every such container
held by a property (or element) of one that is reached. -/
inductive Reach (heap : Heap) (v : Val) : Nat → Prop where
  | root (a : Nat) (o : Obj) : v = Val.ref a → heap[a]? = some o → o.skipped = false →
      Reach heap v a
  | step (a : Nat) (o : Obj) (p : Property) (b : Nat) (o1 : Obj) : Reach heap v a →
      heap[a]? = some o → p ∈ o.props → p.val = Val.ref b → heap[b]? = some o1 →
      o1.skipped = false → Reach heap v b

/-- A value has been dealt with: if it is a container that is not skipped, the
trace enters it or its `__ob__` id is in the visited set. -/
def Handled (heap : Heap) (seen : Finset Nat) (t : List Touch) (v : Val) : Prop :=
  ∀ b o, v = Val.ref b → heap[b]? = some o → o.skipped = false →
    Touch.enter b ∈ t ∨ ∃ d, o.ob = some d ∧ d ∈ seen

/-- What a completed traversal from `seen` to `seen1` with trace `t` has read:
an id is added to the set only for a container that is entered, and an entered
container has every property read and every child dealt with. -/
def Covers (heap : Heap) (seen seen1 : Finset Nat) (t : List Touch) : Prop :=
  seen ⊆ seen1 ∧
  (∀ d ∈ seen1, d ∈ seen ∨ ∃ a o, heap[a]? = some o ∧ o.ob = some d ∧ Touch.enter a ∈ t) ∧
  (∀ a, Touch.enter a ∈ t → ∃ o, heap[a]? = some o ∧
    (∀ i, i < o.props.length → Touch.read a i ∈ t) ∧
    ∀ p ∈ o.props, Handled heap seen1 t p.val)

/-! ## The scheduler's flush -/

/-- What a flush does with the watchers of the queue, in order. -/
inductive FlushStep where
  | before (watcher hook : Nat)
  | run (watcher : Nat)
  deriving DecidableEq, Repr

/-- The watcher whose `run()` a step invokes. -/
def FlushStep.runOf : FlushStep → Option Nat
  | .run w => some w
  | .before _ _ => none

/-- The `run()` invocations of a flush, in order. -/
def runsOf (tr : List FlushStep) : List Nat := tr.filterMap FlushStep.runOf

/-- Modelled from the spec: the bound of the flush on re-triggers of one
watcher ("a fixed bound (e.g. 100)"). -/
def MAX_UPDATE_COUNT : Nat := 100

/-- The state of a flush: the watchers by id, the world, the re-trigger counts
and the steps taken so far. -/
structure FlushState where
  table : Nat → Watcher
  world : World
  circular : Nat → Nat
  trace : List FlushStep

/-- Modelled from the spec: the `before` hook of the flush procedure ("invoke
its `before` hook if present"). -/
def beforeStep (w : Watcher) (id : Nat) (tr : List FlushStep) : List FlushStep :=
  match w.before with
  | some hook => tr ++ [FlushStep.before id hook]
  | none => tr

/-- Modelled from the spec: the loop of the flush procedure of
`core/observer/scheduler.js`, which is not among the sources ("Iterate with a
cursor; for each watcher: clear its pending mark, invoke its `before` hook if
present, then call `run()`. Detect and fail loudly ... if a single watcher
re-triggers itself more than a fixed bound (e.g. 100) times within one
flush"). `notified id` lists the watchers that the writes made during the
`run()` of watcher `id` hand to `queueWatcher` ("watchers that trigger further
watchers during flush"). The first argument bounds the number of iterations;
a `run()` that rethrows ends the flush with that error. -/
def flushLoop (notified : Nat → List Nat) (runFuel : Nat) :
    Nat → FlushState → Option (Except Val Unit × FlushState)
  | 0, _ => none
  | n + 1, s =>
    match s.world.queue[s.world.index]? with
    | none => some (.ok (), s)
    | some id =>
      let tr := beforeStep (s.table id) id s.trace ++ [FlushStep.run id]
      match (s.table id).run runFuel { s.world with has := s.world.has.erase id } with
      | none => none
      | some (.error e, w1, σ2) =>
        some (.error e, ⟨Function.update s.table id w1, σ2, s.circular, tr⟩)
      | some (.ok (), w1, σ2) =>
        let σ3 := (notified id).foldl (fun τ k => queueWatcher k τ) σ2
        let table := Function.update s.table id w1
        if id ∈ σ3.has then
          let circular := Function.update s.circular id (s.circular id + 1)
          if s.circular id + 1 > MAX_UPDATE_COUNT then
            some (.ok (),
              ⟨table, warn "You may have an infinite update loop" w1.vm σ3, circular, tr⟩)
          else
            flushLoop notified runFuel n
              ⟨table, { σ3 with index := σ3.index + 1 }, circular, tr⟩
        else
          flushLoop notified runFuel n
            ⟨table, { σ3 with index := σ3.index + 1 }, s.circular, tr⟩

/-- Modelled from the spec: the end of a flush ("reset flush state, clear the
pending-mark table"). -/
def resetSchedulerState (σ : World) : World :=
  { σ with index := 0, queue := [], has := ∅, waiting := false, flushing := false }

/-- Modelled from the spec: the start of a flush ("sort the queue by ascending
watcher id"), with the cursor on the first watcher. -/
def flushStart (table : Nat → Watcher) (σ : World) : FlushState :=
  { table := table,
    world := { σ with flushing := true,
                      queue := σ.queue.insertionSort (fun a b => a ≤ b), index := 0 },
    circular := fun _ => 0,
    trace := [] }

/-- Modelled from the spec: the flush procedure of `core/observer/scheduler.js`
("sort the queue by ascending watcher id ... Iterate with a cursor ... After
the pass, reset flush state"). The "flush completed" callbacks are not
modelled. -/
def flushSchedulerQueue (notified : Nat → List Nat) (runFuel loopFuel : Nat)
    (table : Nat → Watcher) (σ : World) : Option (Except Val Unit × FlushState) :=
  match flushLoop notified runFuel loopFuel (flushStart table σ) with
  | none => none
  | some (.error e, s) => some (.error e, s)
  | some (.ok (), s) => some (.ok (), { s with world := resetSchedulerState s.world })

/-- The scheduler between two flushes: no watcher is queued twice, and the
queued watchers are those that carry the pending mark. -/
def World.Pending (σ : World) : Prop :=
  σ.flushing = false ∧ σ.queue.Nodup ∧ ∀ id, id ∈ σ.queue ↔ id ∈ σ.has

/-- What holds at the head of the flush loop: the watchers from the cursor on
are pairwise different and marked pending, and the `run()` invocations so far
of a watcher plus its remaining entries are at most one more than the times it
was notified during the flush. -/
def FlushInv (notified : Nat → List Nat) (s : FlushState) : Prop :=
  s.world.flushing = true ∧
  (s.world.queue.drop s.world.index).Nodup ∧
  (∀ id ∈ s.world.queue.drop s.world.index, id ∈ s.world.has) ∧
  ∀ j, (runsOf s.trace).count j + (s.world.queue.drop s.world.index).count j
    ≤ 1 + ((runsOf s.trace).flatMap notified).count j

/-- A second watcher on `"x.y"`, built after `firstBuilt`. -/
def pairSecond : Watcher × World :=
  stateOf (Watcher.constructor 0 (.path "x.y") cbQuiet none false 0 firstBuilt.2)

/-- The two watchers on `"x.y"`, by id. -/
def pairTable : Nat → Watcher := fun id => if id = 1 then firstBuilt.1 else pairSecond.1

/-- The world after the write `x.y = 2` notified the two watchers, the first
of them three times. -/
def pairQueued : World :=
  [1, 2, 1, 1].foldl (fun τ k => queueWatcher k τ) { pairSecond.2 with heap := heapXY 2 }

/-- No `run()` of the flush writes reactive state. -/
def notifiedNone : Nat → List Nat := fun _ => []

/-- The `run()` of watcher 2 writes what watcher 1 reads. -/
def notifiedBack : Nat → List Nat := fun id => if id = 2 then [1] else []

/-- The state a flush ended in. -/
def flushed (r : Option (Except Val Unit × FlushState)) : FlushState :=
  match r with
  | some (_, s) => s
  | none => ⟨fun _ => Watcher.blank, World.init [], fun _ => 0, []⟩

/-! ## `options.js`: values -/

/-- Values of option objects, as finite trees. A function, an array and an
object carry a tag that stands for their identity (`===` compares tags); an
object is the list of its own string-keyed properties in creation order, of
which `"__ob__"`, when present, is the one that is not enumerable. Prototype
chains are not part of a value; the members an object literal inherits from
`Object.prototype` are given by `objectPrototype` and read by
`JS.getInherited`. The data objects that `mergeData` changes in place are not
of this type: they live on a heap of their own (`DataHeap`). -/
inductive JS where
  | undefined
  | null
  | bool (b : Bool)
  | num (n : Int)
  | str (s : String)
  | fn (tag : Nat) (options : JS)
  | arr (tag : Nat) (elems : List JS)
  | obj (tag : Nat) (props : List (String × JS))
  deriving Repr

/-- JavaScript truthiness. -/
def JS.truthy : JS → Bool
  | .undefined => false
  | .null => false
  | .bool b => b
  | .num n => n != 0
  | .str s => s != ""
  | _ => true

/-- The comparison `===`: by value on primitives, by identity on functions,
arrays and objects. -/
def JS.strictEq : JS → JS → Bool
  | .undefined, .undefined => true
  | .null, .null => true
  | .bool a, .bool b => a == b
  | .num a, .num b => a == b
  | .str a, .str b => a == b
  | .fn a _, .fn b _ => a == b
  | .arr a _, .arr b _ => a == b
  | .obj a _, .obj b _ => a == b
  | _, _ => false

/-- The test `Array.isArray`. -/
def JS.isArray : JS → Bool
  | .arr _ _ => true
  | _ => false

/-- The test `typeof v === 'function'`. -/
def JS.isFunction : JS → Bool
  | .fn _ _ => true
  | _ => false

/-- Modelled from the spec: the util `isPlainObject` of `shared/util`, which is
not among the sources: true of objects, false of arrays, functions and
primitives. -/
def isPlainObject : JS → Bool
  | .obj _ _ => true
  | _ => false

/-- The first value stored under a key, `undefined` when there is none. -/
def lookup (key : String) : List (String × JS) → JS
  | [] => JS.undefined
  | (k, v) :: ps => if k == key then v else lookup key ps

/-- The read `o[key]` of an own property. -/
def JS.get : JS → String → JS
  | .obj _ ps, key => lookup key ps
  | _, _ => JS.undefined

/-- The own keys of an object, `"__ob__"` included. -/
def JS.ownKeys : JS → List String
  | .obj _ ps => ps.map Prod.fst
  | _ => []

/-- Modelled from the spec: the util `hasOwn` of `shared/util`
(`Object.prototype.hasOwnProperty`). -/
def hasOwn (o : JS) (key : String) : Bool := o.ownKeys.contains key

/-- The own enumerable properties of an object, in order: what `for ... in`
and `Object.keys` go through. On other values the model yields none. -/
def JS.entries : JS → List (String × JS)
  | .obj _ ps => ps.filter (fun p => p.1 != "__ob__")
  | _ => []

/-- The keys of `for (key in o)`. -/
def JS.keys (o : JS) : List String := o.entries.map Prod.fst

/-- Store a value under a key: in place of the old value if the key is there,
else behind the last property. -/
def store (key : String) (v : JS) : List (String × JS) → List (String × JS)
  | [] => [(key, v)]
  | (k, w) :: ps => if k == key then (k, v) :: ps else (k, w) :: store key v ps

/-- The assignment `o[key] = v`, as the object afterwards. -/
def JS.set : JS → String → JS → JS
  | .obj tag ps, key, v => .obj tag (store key v ps)
  | o, _, _ => o

/-- The identity of a function, array or object. -/
def JS.tag : JS → Option Nat
  | .fn t _ => some t
  | .arr t _ => some t
  | .obj t _ => some t
  | _ => none

/-- The allocation state: the tag the next new array or object gets, and the
tags of the objects assigned to so far, in order. -/
structure Alloc where
  next : Nat
  written : List Nat
  deriving DecidableEq, Repr

/-- A new object without own properties (`{}` or `Object.create(null)`). What
`{}` inherits is not part of the value: a read that may reach
`Object.prototype` is `JS.getInherited`. -/
def newObject (h : Alloc) : JS × Alloc :=
  (JS.obj h.next [], { h with next := h.next + 1 })

/-- A new object with the given properties (an object literal). -/
def newObjectOf (ps : List (String × JS)) (h : Alloc) : JS × Alloc :=
  (JS.obj h.next ps, { h with next := h.next + 1 })

/-- A new array with the given elements. -/
def newArray (xs : List JS) (h : Alloc) : JS × Alloc :=
  (JS.arr h.next xs, { h with next := h.next + 1 })

/-- The assignment `o[key] = v` with its record in the write log. -/
def assign (o : JS) (key : String) (v : JS) (h : Alloc) : JS × Alloc :=
  (o.set key v, { h with written := h.written ++ o.tag.toList })

/-- Modelled from the spec: the util `extend (to, _from)` of `shared/util`,
which is not among the sources ("mix properties into target object"):
`for (key in _from) to[key] = _from[key]`, returning `to`. -/
def extend (to_ _from : JS) (h : Alloc) : JS × Alloc :=
  _from.keys.foldl (fun st key => assign st.1 key (_from.get key) st.2) (to_, h)

/-! ## `options.js`: `mergeData` -/

/-- An object of a data option, at one address of the data heap: whether
`isPlainObject` holds of it (an array or a function is not plain), and its own
string-keyed properties in creation order, of which `"__ob__"`, when present,
is the one that is not enumerable. A property holds a primitive or the address
of an object (`Val.ref`), so that two properties may hold the same object and
an object may hold itself. -/
structure DataObj where
  plain : Bool
  props : List (String × Val)
  deriving DecidableEq, Repr

/-- The data heap: the object at address `a` is `heap[a]?`. -/
abbrev DataHeap := List DataObj

/-- The own keys of an object, `"__ob__"` included. -/
def DataObj.keys (o : DataObj) : List String := o.props.map Prod.fst

/-- The first value stored under a key, `undefined` when there is none. -/
def lookupVal (key : String) : List (String × Val) → Val
  | [] => Val.undefined
  | (k, v) :: ps => if k == key then v else lookupVal key ps

/-- The read `obj[key]` of an own property of the object at an address. -/
def getProp (heap : DataHeap) (addr : Nat) (key : String) : Val :=
  match heap[addr]? with
  | some o => lookupVal key o.props
  | none => Val.undefined

/-- Modelled from the spec: the util `hasOwn` of `shared/util`
(`Object.prototype.hasOwnProperty`), on the object at an address. -/
def hasOwnAt (heap : DataHeap) (addr : Nat) (key : String) : Bool :=
  match heap[addr]? with
  | some o => o.keys.contains key
  | none => false

/-- Modelled from the spec: the util `isPlainObject` of `shared/util`, which is
not among the sources: true of a reference to a plain object, false of arrays,
functions and primitives. -/
def isPlainAt (heap : DataHeap) : Val → Bool
  | .ref a =>
    match heap[a]? with
    | some o => o.plain
    | none => false
  | _ => false

/-- Modelled from the spec: `set (target, key, val)` of `core/observer`, which
is not among the sources, on a key the target lacks: it adds the property
behind the last one, in place. -/
def set (heap : DataHeap) (target : Nat) (key : String) (val : Val) : DataHeap :=
  heap.modify (fun o => { o with props := o.props ++ [(key, val)] }) target

/-- The keys the loop of `mergeData` goes through: `Reflect.ownKeys(from)` when
`hasSymbol` (all own keys, `"__ob__"` among them), `Object.keys(from)`
otherwise (the enumerable ones). Keys that are symbols are not modelled. -/
def keysOf (hasSymbol : Bool) (o : DataObj) : List String :=
  if hasSymbol then o.keys else o.keys.filter (fun k => k != "__ob__")

/-- The loop `for (let i = 0; i < keys.length; i++)` of `mergeData`, on the
keys still to come; `rec` is `mergeData` one call deeper, `to_` and `from_` are
the addresses of `to` and `from`. -/
def mergeDataLoop (rec : DataHeap → Nat → Val → Option DataHeap) (to_ from_ : Nat) :
    List String → DataHeap → Option DataHeap
  | [], heap => some heap
  | key :: keys, heap =>
    if key == "__ob__" then mergeDataLoop rec to_ from_ keys heap
    else
      let toVal := getProp heap to_ key
      let fromVal := getProp heap from_ key
      if !hasOwnAt heap to_ key then
        mergeDataLoop rec to_ from_ keys (set heap to_ key fromVal)
      else if toVal.strictNe fromVal && isPlainAt heap toVal && isPlainAt heap fromVal then
        match toVal with
        | .ref t1 =>
          match rec heap t1 fromVal with
          | none => none
          | some heap1 => mergeDataLoop rec to_ from_ keys heap1
        | _ => mergeDataLoop rec to_ from_ keys heap
      else mergeDataLoop rec to_ from_ keys heap

/-- The function `mergeData (to, from)`, as the data heap afterwards: the call
works in place on the object at `to_` and returns `to`. The first argument
bounds the depth of the recursion: `none` means the budget was not enough. The
result is also `none` on a `from` that is truthy and not an object, which the
annotation `?Object` excludes. -/
def mergeData (hasSymbol : Bool) : Nat → DataHeap → Nat → Val → Option DataHeap
  | 0, _, _, _ => none
  | fuel + 1, heap, to_, from_ =>
    if !from_.truthy then some heap
    else
      match from_ with
      | .ref f =>
        match heap[f]? with
        | some o => mergeDataLoop (mergeData hasSymbol fuel) to_ f (keysOf hasSymbol o) heap
        | none => none
      | _ => none

/-- The regions of a list of values, when they are pairwise apart: `rec` gives
the region of one value. -/
def childrenShape (rec : Val → Option (List Nat)) : List Val → Option (List Nat)
  | [] => some []
  | v :: vs =>
    match rec v, childrenShape rec vs with
    | some S1, some S2 => if S1.all (fun a => decide (a ∉ S2)) then some (S1 ++ S2) else none
    | _, _ => none

/-- The plain objects a value holds, at any depth but through plain objects
only, when they form a tree: the addresses are returned if no plain object is
reached twice (in particular none reaches itself) and no address dangles; the
first argument bounds the depth. A primitive and an object that is not plain
hold none. -/
def treeShape : Nat → DataHeap → Val → Option (List Nat)
  | 0, _, .ref _ => none
  | n + 1, heap, .ref a =>
    match heap[a]? with
    | none => none
    | some o =>
      if o.plain then
        match childrenShape (treeShape n heap) (o.props.map Prod.snd) with
        | none => none
        | some S => if a ∈ S then none else some (a :: S)
      else some []
  | _, _, _ => some []

/-- A set of addresses that holds, with each object, every object it holds, and
in which every object has pairwise different keys. -/
def fromRegion (heap : DataHeap) (F : List Nat) : Bool :=
  F.all (fun a =>
    match heap[a]? with
    | some o =>
      decide o.keys.Nodup &&
        o.props.all (fun p =>
          match p.2 with
          | .ref b => decide (b ∈ F)
          | _ => true)
    | none => false)

/-- The properties `mergeData` adds to `to` (`ot` before the call) for the
keys `keys` of `from` (`of`): one for each key other than `"__ob__"` that `ot`
lacks, holding the value `of` has. -/
def additions (keys : List String) (ot of : DataObj) : List (String × Val) :=
  (keys.filter (fun k => k != "__ob__" && !ot.keys.contains k)).map
    (fun k => (k, lookupVal k of.props))

/-- What `mergeData (to, from)` is to make of the data heap `heap`, as a rule
on the heaps before and after: `to` keeps its properties and gains those of
`additions`; and for
every key that both have, holding two different plain objects, the object that
`to` holds is merged with the one `from` holds by the same rule. -/
inductive Merged (hasSymbol : Bool) (heap heap1 : DataHeap) : Nat → Nat → Prop where
  | node (t f : Nat) (ot of : DataObj) :
      heap[t]? = some ot → heap[f]? = some of →
      heap1[t]? = some ⟨ot.plain, ot.props ++ additions (keysOf hasSymbol of) ot of⟩ →
      (∀ key t1 f1, key ∈ keysOf hasSymbol of → key ≠ "__ob__" →
        ot.keys.contains key = true →
        lookupVal key ot.props = Val.ref t1 → lookupVal key of.props = Val.ref f1 → t1 ≠ f1 →
        isPlainAt heap (Val.ref t1) = true → isPlainAt heap (Val.ref f1) = true →
        Merged hasSymbol heap heap1 t1 f1) →
      Merged hasSymbol heap heap1 t f

/-- The state of the loop of `mergeData (to, from)` after the keys `done`:
`heap0` is the heap before the call, `ot` and `of` are `to` and `from` in it,
`Sc` holds the trees below the properties of `to`, of depth at most `m`. The
object `to` has gained the properties of `additions`; nothing else is changed
but the trees below the keys done, where the objects held by both are merged;
and whether an object is plain never changes. -/
structure MergeInv (hasSymbol : Bool) (heap0 : DataHeap) (t : Nat) (ot of : DataObj)
    (m : Nat) (Sc : List Nat) (heap : DataHeap) (done : List String) : Prop where
  cell : heap[t]? = some ⟨ot.plain, ot.props ++ additions done ot of⟩
  outside : ∀ a, a ∉ t :: Sc → heap[a]? = heap0[a]?
  touched : ∀ a ∈ Sc, heap[a]? ≠ heap0[a]? →
    ∃ key ∈ done, ∃ S1, key ∈ ot.props.map Prod.fst ∧
      treeShape m heap0 (lookupVal key ot.props) = some S1 ∧ a ∈ S1
  plain : ∀ a : Nat, (heap[a]?).map DataObj.plain = (heap0[a]?).map DataObj.plain
  merged : ∀ key ∈ done, ∀ t1 f1, key ≠ "__ob__" → ot.keys.contains key = true →
    lookupVal key ot.props = Val.ref t1 → lookupVal key of.props = Val.ref f1 → t1 ≠ f1 →
    isPlainAt heap0 (Val.ref t1) = true → isPlainAt heap0 (Val.ref f1) = true →
    Merged hasSymbol heap0 heap t1 f1

/-- A data heap: `to = {a: 1, o: {x: 1}}` at address 0 (its `o` at 2), and the
observed `from = {a: 9, b: 2, o: {y: 5}}` at address 1 (its `o` at 3, its
`__ob__` at 4). -/
def dataHeap : DataHeap :=
  [ ⟨true, [("a", .num 1), ("o", .ref 2)]⟩,
    ⟨true, [("a", .num 9), ("b", .num 2), ("__ob__", .ref 4), ("o", .ref 3)]⟩,
    ⟨true, [("x", .num 1)]⟩,
    ⟨true, [("y", .num 5)]⟩,
    ⟨true, []⟩ ]

/-- Two objects that each hold themselves: `to.self = to` at address 0,
`from.self = from` at address 1. -/
def dataCyclic : DataHeap :=
  [ ⟨true, [("self", .ref 0)]⟩, ⟨true, [("self", .ref 1)]⟩ ]

/-- An object held twice: `to = {a: X, keep: X}` at address 0 with
`X = {p: 1}` at 2, and `from = {a: {q: 2}}` at address 1 (its `a` at 3). -/
def dataShared : DataHeap :=
  [ ⟨true, [("a", .ref 2), ("keep", .ref 2)]⟩,
    ⟨true, [("a", .ref 3)]⟩,
    ⟨true, [("p", .num 1)]⟩,
    ⟨true, [("q", .num 2)]⟩ ]

/-- An object held by both: `to = {a: X, b: Y}` at address 0 and
`from = {a: G, b: X}` at address 1, with `X = {p: 1}` at 2, `Y = {}` at 3 and
`G = {q: 2}` at 4. -/
def dataAliased : DataHeap :=
  [ ⟨true, [("a", .ref 2), ("b", .ref 3)]⟩,
    ⟨true, [("a", .ref 4), ("b", .ref 2)]⟩,
    ⟨true, [("p", .num 1)]⟩,
    ⟨true, []⟩,
    ⟨true, [("q", .num 2)]⟩ ]

/-! ## `options.js`: hooks -/

/-- The elements of `xs.concat(v)`: those of `xs`, then those of `v` when `v`
is an array, else `v` itself. -/
def concat (xs : List JS) (v : JS) : List JS :=
  match v with
  | .arr _ ys => xs ++ ys
  | _ => xs ++ [v]

/-- The test `res.indexOf(x) === -1`. -/
def notIn (res : List JS) (x : JS) : Bool := !res.any (fun y => y.strictEq x)

/-- The function `dedupeHooks (hooks)`. The result is `none` on a value that is
not an array, which the callers' annotations exclude. -/
def dedupeHooks (hooks : JS) (h : Alloc) : Option (JS × Alloc) :=
  match hooks with
  | .arr _ xs =>
    some (newArray (xs.foldl (fun res x => if notIn res x then res ++ [x] else res) []) h)
  | _ => none

/-- The function `mergeHook (parentVal, childVal)`. The result is `none` when
`parentVal` is truthy and not an array, which the annotation
`?Array<Function>` excludes. -/
def mergeHook (parentVal childVal : JS) (h : Alloc) : Option (JS × Alloc) :=
  let res : Option (JS × Alloc) :=
    if childVal.truthy then
      if parentVal.truthy then
        match parentVal with
        | .arr _ ps => some (newArray (concat ps childVal) h)
        | _ => none
      else if childVal.isArray then some (childVal, h)
      else some (newArray [childVal] h)
    else some (parentVal, h)
  match res with
  | none => none
  | some (r, h1) => if r.truthy then dedupeHooks r h1 else some (r, h1)

/-- The elements of an array, none for any other value. -/
def JS.elems : JS → List JS
  | .arr _ xs => xs
  | _ => []

/-- A list with duplicates removed, keeping the first occurrence of each
element: the head, then the rest without what equals the head. -/
def dedupFirst : List JS → List JS
  | [] => []
  | x :: xs => x :: dedupFirst (xs.filter (fun y => !x.strictEq y))
termination_by xs => xs.length
decreasing_by
  simp only [List.length_cons]
  exact Nat.lt_succ_of_le (List.length_filter_le _ _)

/-- The hooks a child option stands for: the elements of an array, a single
function, none when absent. -/
def hooksOf (v : JS) : List JS :=
  if v.truthy then (match v with
    | .arr _ xs => xs
    | _ => [v])
  else []

/-- Three hook functions. -/
def hookA : JS := .fn 101 .undefined

/-- The second hook. -/
def hookB : JS := .fn 102 .undefined

/-- The third hook. -/
def hookC : JS := .fn 103 .undefined

/-- An allocation state with the tags below 1000 in use. -/
def alloc0 : Alloc := ⟨1000, []⟩

/-! ## `options.js`: the strategies of `props` and `watch` -/

/-- The strategy `strats.props = strats.methods = strats.inject =
strats.computed`. The check `assertObjectType` only warns and is not
modelled. -/
def strats.props (parentVal childVal : JS) (h : Alloc) : JS × Alloc :=
  if !parentVal.truthy then (childVal, h)
  else
    let r := newObject h
    let r1 := extend r.1 parentVal r.2
    if childVal.truthy then extend r1.1 childVal r1.2 else r1

/-- The value that one turn of the loop of `strats.watch` assigns: `parent` is
`ret[key]`, `child` is `childVal[key]`. -/
def watchValue (parent child : JS) (h : Alloc) : JS × Alloc :=
  let p : JS × Alloc :=
    if parent.truthy && !parent.isArray then newArray [parent] h else (parent, h)
  if p.1.truthy then newArray (concat p.1.elems child) p.2
  else if child.isArray then (child, p.2)
  else newArray [child] p.2

/-- The members every object literal inherits from `Object.prototype`: the
functions of the language, each with an identity of its own (tags 901 to 912),
and on a host with `Object.prototype.watch` (Firefox) that function, which is
`nativeWatch`, and `unwatch`. The accessor `__proto__` is not among them. -/
def objectPrototype (nativeWatch : JS) : List (String × JS) :=
  [("constructor", .fn 901 .undefined), ("hasOwnProperty", .fn 902 .undefined),
    ("isPrototypeOf", .fn 903 .undefined), ("propertyIsEnumerable", .fn 904 .undefined),
    ("toLocaleString", .fn 905 .undefined), ("toString", .fn 906 .undefined),
    ("valueOf", .fn 907 .undefined), ("__defineGetter__", .fn 908 .undefined),
    ("__defineSetter__", .fn 909 .undefined), ("__lookupGetter__", .fn 910 .undefined),
    ("__lookupSetter__", .fn 911 .undefined)] ++
  (if nativeWatch.truthy then [("watch", nativeWatch), ("unwatch", .fn 912 .undefined)]
   else [])

/-- The read `o[key]` on an object created by a literal `{}`: the own property
when there is one, else what `Object.prototype` holds under the key. -/
def JS.getInherited (nativeWatch : JS) (o : JS) (key : String) : JS :=
  if hasOwn o key then o.get key else lookup key (objectPrototype nativeWatch)

/-- One turn of the loop `for (const key in childVal)` of `strats.watch`; the
read `ret[key]` is on the object literal `ret`. -/
def watchStep (nativeWatch childVal : JS) (st : JS × Alloc) (key : String) : JS × Alloc :=
  let v := watchValue (JS.getInherited nativeWatch st.1 key) (childVal.get key) st.2
  assign st.1 key v.1 v.2

/-- The strategy `strats.watch`; `nativeWatch` is `({}).watch` of the host
(`undefined` outside Firefox). The result is `none` where the model has no
value for what the source returns: `Object.create(parentVal)` on a present
`parentVal`, an object with a prototype; and a merge in which a key is
`"__proto__"`, where the assignment to the object literal `ret` goes through
the accessor it inherits and changes its prototype. The check
`assertObjectType` only warns and is not modelled. -/
def strats.watch (nativeWatch : JS) (parentVal childVal : JS) (h : Alloc) :
    Option (JS × Alloc) :=
  let parentVal := if parentVal.strictEq nativeWatch then JS.undefined else parentVal
  let childVal := if childVal.strictEq nativeWatch then JS.undefined else childVal
  if !childVal.truthy then
    if parentVal.truthy then none else some (newObject h)
  else if !parentVal.truthy then some (childVal, h)
  else if parentVal.keys.contains "__proto__" || childVal.keys.contains "__proto__" then none
  else
    let r := newObject h
    let r1 := extend r.1 parentVal r.2
    some (childVal.keys.foldl (watchStep nativeWatch childVal) r1)

/-- The handlers a value of a child's `watch` option stands for: the elements
of an array, else the value itself. -/
def handlersOf (v : JS) : List JS :=
  match v with
  | .arr _ xs => xs
  | _ => [v]

/-- The `props` of a parent: `{a: 1, b: 2}`. -/
def propsParent : JS := .obj 10 [("a", .num 1), ("b", .num 2)]

/-- The `props` of a child: `{b: 3, c: 4}`. -/
def propsChild : JS := .obj 11 [("b", .num 3), ("c", .num 4)]

/-- The `watch` of a parent: `{x: A, y: [A, B]}`. -/
def watchParent : JS := .obj 12 [("x", hookA), ("y", .arr 13 [hookA, hookB])]

/-- The `watch` of a child: `{y: C, z: [B, C]}`. -/
def watchChild : JS := .obj 14 [("y", hookC), ("z", .arr 15 [hookB, hookC])]

/-- The `watch` of a parent: `{x: A}`. -/
def watchParentX : JS := .obj 16 [("x", hookA)]

/-- The `watch` of a child: `{toString: C}`. -/
def watchChildToString : JS := .obj 17 [("toString", hookC)]

/-! ## `options.js`: `mergeOptions` -/

/-- A merge strategy, called as `strat(parentVal, childVal, vm, key)`. -/
abbrev Strategy := JS → JS → JS → String → Alloc → JS × Alloc

/-- The default strategy `defaultStrat (parentVal, childVal)`. -/
def defaultStrat (parentVal childVal : JS) : JS :=
  if childVal.strictEq JS.undefined then parentVal else childVal

/-- The property key a value is used as in `normalized[inject[i]]`: exact on
primitives (numbers being integers); an object gives `"[object Object]"`, and
so do, in the model only, arrays and functions. -/
def toKey : JS → String
  | .str s => s
  | .num n => toString n
  | .bool b => toString b
  | .undefined => "undefined"
  | .null => "null"
  | _ => "[object Object]"

/-- The function `normalizeProps (options, vm)`, as `options` afterwards;
`camelize` is the util of `shared/util`, which is not among the sources. The
warnings are not modelled. -/
def normalizeProps (camelize : String → String) (options : JS) (h : Alloc) : JS × Alloc :=
  let props := options.get "props"
  if !props.truthy then (options, h)
  else
    let res := newObject h
    let filled : JS × Alloc :=
      match props with
      | .arr _ xs =>
        xs.reverse.foldl (fun st val =>
          match val with
          | .str s =>
            let o := newObjectOf [("type", JS.null)] st.2
            assign st.1 (camelize s) o.1 o.2
          | _ => st) res
      | .obj _ _ =>
        props.keys.foldl (fun st key =>
          let val := props.get key
          if isPlainObject val then assign st.1 (camelize key) val st.2
          else
            let o := newObjectOf [("type", val)] st.2
            assign st.1 (camelize key) o.1 o.2) res
      | _ => res
    assign options "props" filled.1 filled.2

/-- The function `normalizeInject (options, vm)`, as `options` afterwards: the
object `normalized` is assigned to `options.inject` empty and then filled. The
warnings are not modelled. -/
def normalizeInject (options : JS) (h : Alloc) : JS × Alloc :=
  let inject := options.get "inject"
  if !inject.truthy then (options, h)
  else
    let n0 := newObject h
    let o1 := assign options "inject" n0.1 n0.2
    let filled : JS × Alloc :=
      match inject with
      | .arr _ xs =>
        xs.foldl (fun st x =>
          let o := newObjectOf [("from", x)] st.2
          assign st.1 (toKey x) o.1 o.2) (n0.1, o1.2)
      | .obj _ _ =>
        inject.keys.foldl (fun st key =>
          let val := inject.get key
          if isPlainObject val then
            let o := newObjectOf [("from", JS.str key)] st.2
            let e := extend o.1 val o.2
            assign st.1 key e.1 e.2
          else
            let o := newObjectOf [("from", val)] st.2
            assign st.1 key o.1 o.2) (n0.1, o1.2)
      | _ => (n0.1, o1.2)
    (o1.1.set "inject" filled.1, filled.2)

/-- The function `normalizeDirectives (options)`, as `options` afterwards: the
object `dirs` is changed in place and so is what `options.directives` holds. -/
def normalizeDirectives (options : JS) (h : Alloc) : JS × Alloc :=
  let dirs := options.get "directives"
  if dirs.truthy then
    let filled : JS × Alloc :=
      dirs.keys.foldl (fun st key =>
        let d := st.1.get key
        if d.isFunction then
          let o := newObjectOf [("bind", d), ("update", d)] st.2
          assign st.1 key o.1 o.2
        else st) (dirs, h)
    (options.set "directives" filled.1, filled.2)
  else (options, h)

/-- The three normalisations of `mergeOptions`, in order. -/
def normalize (camelize : String → String) (child : JS) (h : Alloc) : JS × Alloc :=
  let c1 := normalizeProps camelize child h
  let c2 := normalizeInject c1.1 c1.2
  normalizeDirectives c2.1 c2.2

/-- The inner function `mergeField (key)` of `mergeOptions`; `strats` is
`config.optionMergeStrategies`, which is not among the sources, and `st` holds
`options`. -/
def mergeField (strats : String → Option Strategy) (vm parent child : JS)
    (st : JS × Alloc) (key : String) : JS × Alloc :=
  let v : JS × Alloc :=
    match strats key with
    | some strat => strat (parent.get key) (child.get key) vm key st.2
    | none => (defaultStrat (parent.get key) (child.get key), st.2)
  assign st.1 key v.1 v.2

/-- The keys `mergeField` is called on, in order: those of `for (key in
parent)`, then those of `for (key in child)` with `!hasOwn(parent, key)`. -/
def fieldKeys (parent child : JS) : List String :=
  parent.keys ++ child.keys.filter (fun key => !hasOwn parent key)

/-- The part of `mergeOptions` under `if (!child._base)`: `child.extends`, then
each element of `child.mixins` in order, is merged onto `parent` by `rec`
(`mergeOptions` one call deeper). -/
def applyMixins (rec : JS → JS → Alloc → Option (JS × Alloc)) (parent child : JS)
    (h : Alloc) : Option (JS × Alloc) :=
  let e : Option (JS × Alloc) :=
    if (child.get "extends").truthy then rec parent (child.get "extends") h
    else some (parent, h)
  match e with
  | none => none
  | some p1 =>
    if (child.get "mixins").truthy then
      (child.get "mixins").elems.foldl (fun acc m =>
        match acc with
        | none => none
        | some p => rec p.1 m p.2) (some p1)
    else some p1

/-- The value `child` stands for in `mergeOptions`: the `options` of a
constructor, else the value itself. -/
def optionsOf (child : JS) : JS :=
  match child with
  | .fn _ o => o
  | c => c

/-- The body of `mergeOptions (parent, child, vm)`, with `rec` for the function
itself in the calls on `extends` and `mixins`. `checkComponents` only warns and
is not modelled. The normalisations change `child` in place; the model applies
them to the value it was given, and what `child` is afterwards is not part of
the result. -/
def mergeOptionsBody (strats : String → Option Strategy) (camelize : String → String)
    (vm : JS) (rec : JS → JS → Alloc → Option (JS × Alloc)) (parent child : JS) (h : Alloc) :
    Option (JS × Alloc) :=
  let c := normalize camelize (optionsOf child) h
  let merged : Option (JS × Alloc) :=
    if !(c.1.get "_base").truthy then applyMixins rec parent c.1 c.2
    else some (parent, c.2)
  match merged with
  | none => none
  | some p =>
    some ((fieldKeys p.1 c.1).foldl (mergeField strats vm p.1 c.1) (newObject p.2))

/-- The function `mergeOptions (parent, child, vm)`. The first argument bounds
the depth of the recursion through `extends` and `mixins`: `none` means the
budget was not enough. -/
def mergeOptions (strats : String → Option Strategy) (camelize : String → String) (vm : JS) :
    Nat → JS → JS → Alloc → Option (JS × Alloc)
  | 0 => fun _ _ _ => none
  | fuel + 1 => mergeOptionsBody strats camelize vm (mergeOptions strats camelize vm fuel)

/-- No registered strategy: every key is merged by `defaultStrat`. -/
def noStrats : String → Option Strategy := fun _ => none

/-- The options `{a: 1, b: 1, c: 1, d: 1}` of a parent. -/
def optsParent : JS := .obj 20 [("a", .num 1), ("b", .num 1), ("c", .num 1), ("d", .num 1)]

/-- A child `{extends: {b: 2, c: 2, d: 2}, mixins: [{c: 3, d: 3}, {d: 4}], e: 5}`. -/
def optsChild : JS :=
  .obj 21 [("extends", .obj 22 [("b", .num 2), ("c", .num 2), ("d", .num 2)]),
    ("mixins", .arr 23 [.obj 24 [("c", .num 3), ("d", .num 3)], .obj 25 [("d", .num 4)]]),
    ("e", .num 5)]

/-- The same child marked as the result of an earlier merge: `_base` is set. -/
def optsChildBase : JS :=
  .obj 21 [("_base", .fn 1 .undefined),
    ("extends", .obj 22 [("b", .num 2), ("c", .num 2), ("d", .num 2)]),
    ("mixins", .arr 23 [.obj 24 [("c", .num 3), ("d", .num 3)], .obj 25 [("d", .num 4)]]),
    ("e", .num 5)]

/-- The nesting depth of a value. -/
def JS.depth : JS → Nat
  | .fn _ o => depth o + 1
  | .arr _ xs => depthList xs + 1
  | .obj _ ps => depthProps ps + 1
  | _ => 0
where
  depthList : List JS → Nat
    | [] => 0
    | x :: xs => max (depth x) (depthList xs)
  depthProps : List (String × JS) → Nat
    | [] => 0
    | (_, v) :: ps => max (depth v) (depthProps ps)

/-- What `mergeOptions` merges onto `parent` before the fields: `child.extends`
when present, then the elements of `child.mixins` in order. -/
def mixinsOf (child : JS) : List JS :=
  (if (child.get "extends").truthy then [child.get "extends"] else []) ++
  (if (child.get "mixins").truthy then (child.get "mixins").elems else [])

/-- An options value whose merge onto a parent involves no further `extends`
or `mixins`: it has none, or it carries `_base`. -/
def Flat (m : JS) : Prop :=
  ((optionsOf m).get "_base").truthy = true ∨
  (((optionsOf m).get "extends").truthy = false ∧ ((optionsOf m).get "mixins").truthy = false)

/-- The result of a call that returned. -/
def optionsAfter (r : Option (JS × Alloc)) : JS × Alloc :=
  r.getD (JS.undefined, ⟨0, []⟩)

/-- The evaluator `() => NaN`. -/
def getterNaN : Getter := fun _ _ => ⟨[], .ok Val.nan⟩

/-- A watcher on `() => NaN`, `deep` unset, after construction. -/
def watcherNaN : Watcher × World :=
  stateOf (Watcher.constructor 0 (.fn "() => NaN" getterNaN) cbQuiet none false 0
    (World.init (heapXY 1)))

/-- The error an engine throws when the call stack is exhausted: a
`RangeError`, here the string it prints as. -/
def stackOverflow : Val := .str "RangeError: Maximum call stack size exceeded"

/-- The loop `while (i--) _traverse(val[i], seen)` on a call stack of bounded
depth: `rec` is `_traverse` one call deeper. The boolean is false when a call
below exhausted the stack; the loop is then abandoned, and the set and the
trace are those reached by then. -/
def traverseChildrenBounded (rec : Val → Finset Nat → Bool × Finset Nat × List Touch)
    (addr : Nat) : List Property → Finset Nat → Bool × Finset Nat × List Touch
  | [], seen => (true, seen, [])
  | p :: ps, seen =>
    let r1 := rec p.val seen
    if r1.1 then
      let r2 := traverseChildrenBounded rec addr ps r1.2.1
      (r2.1, r2.2.1, Touch.read addr ps.length :: r1.2.2 ++ r2.2.2)
    else (false, r1.2.1, Touch.read addr ps.length :: r1.2.2)

/-- The function `_traverse (val, seen)` on a call stack that holds as many
nested calls on containers as the first argument says. The boolean is false
when the stack was exhausted; the set and the trace are then those reached at
that point. -/
def _traverseBounded : Nat → Heap → Val → Finset Nat → Bool × Finset Nat × List Touch
  | 0, _, .ref _, seen => (false, seen, [])
  | fuel + 1, heap, .ref a, seen =>
    match heap[a]? with
    | none => (true, seen, [])
    | some o =>
      if o.frozen || o.isVNode then (true, seen, [])
      else
        match o.ob with
        | some depId =>
          if depId ∈ seen then (true, seen, [])
          else
            let r := traverseChildrenBounded (_traverseBounded fuel heap) a o.props.reverse
              (insert depId seen)
            (r.1, r.2.1, Touch.enter a :: r.2.2)
        | none =>
          let r := traverseChildrenBounded (_traverseBounded fuel heap) a o.props.reverse seen
          (r.1, r.2.1, Touch.enter a :: r.2.2)
  | _, _, _, seen => (true, seen, [])

/-- The function `traverse (val)` on a bounded call stack: when `_traverse`
exhausts the stack, `seenObjects.clear()` is not reached. -/
def traverseBounded (fuel : Nat) (heap : Heap) (val : Val) (seenObjects : Finset Nat) :
    Bool × Finset Nat × List Touch :=
  let r := _traverseBounded fuel heap val seenObjects
  if r.1 then (true, ∅, r.2.2) else (false, r.2.1, r.2.2)

/-- The method `get ()` on a call stack of bounded depth. When `traverse`
exhausts the stack, its error leaves the `finally` block at once: `popTarget()`
and `cleanupDeps()` are not reached, and `get()` throws that error. -/
def Watcher.getBounded (fuel : Nat) (w : Watcher) (σ : World) :
    Except Val Val × Watcher × World :=
  let σ1 := pushTarget w.id σ
  let r := w.getter σ1.heap w.vm
  let st := w.track (σ1.emit (Event.evaluate w.id)) r.reads
  let w2 := st.1
  let value : Val := match r.outcome with
    | .ok v => v
    | .error _ => Val.undefined
  let σ2 : World := match r.outcome with
    | .ok _ => st.2
    | .error e =>
      if w2.user then
        handleError e w2.vm ("getter for watcher \"" ++ w2.expression ++ "\"") st.2
      else st.2
  let tr : Bool × Finset Nat × List Touch :=
    if w2.deep then traverseBounded fuel σ2.heap value σ2.seenObjects
    else (true, σ2.seenObjects, [])
  let st3 := w2.track { σ2 with seenObjects := tr.2.1 } (touchedDeps σ2.heap tr.2.2)
  if tr.1 then
    let st4 := st3.1.cleanupDeps (popTarget st3.2)
    match r.outcome with
    | .ok v => (.ok v, st4)
    | .error e => if w2.user then (.ok Val.undefined, st4) else (.error e, st4)
  else (.error stackOverflow, st3)

/-- Whether the deep traversal made by `get()` exhausts a call stack of the
given depth. -/
def Watcher.overflows (fuel : Nat) (w : Watcher) (σ : World) : Bool :=
  w.deep && !(traverseBounded fuel σ.heap (w.getValue σ) σ.seenObjects).1

/-- The evaluator `function () { return this }`. -/
def getterSelf : Getter := fun _ vm => ⟨[], .ok (.ref vm)⟩

/-- An options object with only `deep` set. -/
def optionsDeep : Options := ⟨true, false, false, false, none⟩

/-- A plain object `o = {self: null}`. -/
def heapSelfNull : Heap :=
  [ ⟨false, false, false, none, [⟨"self", .null, none⟩]⟩ ]

/-- A deep watcher on `function () { return this }`, constructed over
`o = {self: null}`. -/
def watcherDeepSelf : Watcher × World :=
  stateOf (Watcher.constructor 0 (.fn "function () { return this }" getterSelf) cbQuiet
    (some optionsDeep) false 1 (World.init heapSelfNull))

/-- The world of `watcherDeepSelf` after the assignment `o.self = o`. -/
def worldDeepSelf : World := { watcherDeepSelf.2 with heap := heapSelfPlain }

/-- A lazy watcher (`user` unset) whose evaluator throws. -/
def watcherLazyThrowing : Watcher × World :=
  stateOf (Watcher.constructor 0 (.fn "() => fail()" getterThrow) cbQuiet
    (some optionsLazy) false 0 (World.init (heapABC true)))

/-! ## Lemmas on `addDep` and `cleanupDeps` -/

@[simp] theorem emit_log (σ : World) (e : Event) : (σ.emit e).log = σ.log ++ [e] := rfl

theorem addDep_fst (w : Watcher) (dep : Dep) (σ : World) :
    (w.addDep dep σ).1 =
      { w with newDepIds := insert dep.id w.newDepIds,
               newDeps := if dep.id ∈ w.newDepIds then w.newDeps else w.newDeps ++ [dep] } := by
  unfold Watcher.addDep
  by_cases h : dep.id ∈ w.newDepIds
  · simp [h]
  · by_cases h2 : dep.id ∈ w.depIds <;> simp [h, h2]

theorem addDep_snd (w : Watcher) (dep : Dep) (σ : World) :
    (w.addDep dep σ).2 =
      { σ with
        subs := if dep.id ∈ w.newDepIds ∨ dep.id ∈ w.depIds then σ.subs
                else Function.update σ.subs dep.id (σ.subs dep.id ++ [w.id]),
        log := σ.log ++ (Event.addDep w.id dep.id ::
                if dep.id ∈ w.newDepIds ∨ dep.id ∈ w.depIds then [] else [Event.addSub dep.id w.id]) } := by
  unfold Watcher.addDep
  by_cases h : dep.id ∈ w.newDepIds
  · simp [h, World.emit]
  · by_cases h2 : dep.id ∈ w.depIds <;> simp [h, h2, World.emit, Dep.addSub]

theorem track_fst (w : Watcher) (σ : World) (ds : List Dep) :
    (w.track σ ds).1 =
      { w with newDepIds := collectIds w.newDepIds ds,
               newDeps := collectDeps w.newDepIds w.newDeps ds } := by
  induction ds generalizing w σ with
  | nil => rfl
  | cons d ds ih =>
    rw [Watcher.track, ih, addDep_fst]
    simp [collectIds, collectDeps]

theorem track_snd (w : Watcher) (σ : World) (ds : List Dep) :
    (w.track σ ds).2 =
      { σ with subs := subsAfterTrack w.id w.depIds w.newDepIds σ.subs ds,
               log := σ.log ++ logOfTrack w.id w.depIds w.newDepIds ds } := by
  induction ds generalizing w σ with
  | nil => simp [Watcher.track, subsAfterTrack, logOfTrack]
  | cons d ds ih =>
    rw [Watcher.track, ih, addDep_fst, addDep_snd]
    simp [subsAfterTrack, logOfTrack]

theorem unsubscribeStale_eq (w : Watcher) (σ : World) :
    w.unsubscribeStale σ =
      { σ with subs := subsAfterUnsub w.id w.newDepIds σ.subs w.deps,
               log := σ.log ++ logOfUnsub w.id w.newDepIds w.deps } := by
  unfold Watcher.unsubscribeStale
  induction w.deps with
  | nil => simp [subsAfterUnsub, logOfUnsub]
  | cons d ds ih =>
    rw [List.foldr_cons, ih]
    by_cases h : d.id ∈ w.newDepIds <;>
      simp [h, subsAfterUnsub, logOfUnsub, Dep.removeSub, World.emit]

theorem collectIds_append (s : Finset Nat) (xs ys : List Dep) :
    collectIds s (xs ++ ys) = collectIds (collectIds s xs) ys := by
  induction xs generalizing s with
  | nil => rfl
  | cons d ds ih => simp [collectIds, ih]

theorem collectDeps_append (s : Finset Nat) (acc xs ys : List Dep) :
    collectDeps s acc (xs ++ ys) = collectDeps (collectIds s xs) (collectDeps s acc xs) ys := by
  induction xs generalizing s acc with
  | nil => rfl
  | cons d ds ih => simp [collectIds, collectDeps, ih]

theorem subsAfterTrack_append (wid : Nat) (depIds s : Finset Nat) (subs : Nat → List Nat)
    (xs ys : List Dep) :
    subsAfterTrack wid depIds s subs (xs ++ ys) =
      subsAfterTrack wid depIds (collectIds s xs) (subsAfterTrack wid depIds s subs xs) ys := by
  induction xs generalizing s subs with
  | nil => rfl
  | cons d ds ih => simp [collectIds, subsAfterTrack, ih]

/-- The method `get()` in closed form: it returns exactly when its traversal
does, and then leaves the watcher and world given by `afterGet` and
`worldAfterGet`. -/
theorem get_eq (fuel : Nat) (w : Watcher) (σ : World) :
    w.get fuel σ =
      (w.getTraverse fuel σ).map (fun st =>
        (w.getResult σ, w.afterGet σ st.2, w.worldAfterGet σ st.1 st.2)) := by
  unfold Watcher.get Watcher.getTraverse
  simp only [track_fst, track_snd, pushTarget, popTarget, Watcher.cleanupDeps,
    unsubscribeStale_eq, World.emit, handleError]
  cases hd : w.deep <;> cases ho : (w.getter σ.heap w.vm).outcome <;> cases hu : w.user <;>
    simp [hd, ho, hu, Watcher.getResult, Watcher.afterGet, Watcher.worldAfterGet,
      Watcher.getLog, Watcher.getReads, Watcher.getErrorLog, Watcher.getValue,
      collectIds_append, collectDeps_append, subsAfterTrack_append] <;>
    split <;> simp_all

theorem Dep.eq_of_id {a b : Dep} (h : a.id = b.id) : a = b := by
  cases a; cases b; simp_all

theorem mem_collectIds (x : Nat) (s : Finset Nat) (ds : List Dep) :
    x ∈ collectIds s ds ↔ x ∈ s ∨ Dep.mk x ∈ ds := by
  induction ds generalizing s with
  | nil => simp [collectIds]
  | cons d ds ih =>
    simp only [collectIds, ih, Finset.mem_insert, List.mem_cons]
    constructor
    · rintro ((h | h) | h)
      · exact Or.inr (Or.inl (Dep.eq_of_id h))
      · exact Or.inl h
      · exact Or.inr (Or.inr h)
    · rintro (h | h | h)
      · exact Or.inl (Or.inr h)
      · exact Or.inl (Or.inl (by rw [← h]))
      · exact Or.inr h

theorem mem_collectDeps (x : Dep) (s : Finset Nat) (acc ds : List Dep) :
    x ∈ collectDeps s acc ds ↔ x ∈ acc ∨ (x ∈ ds ∧ x.id ∉ s) := by
  induction ds generalizing s acc with
  | nil => simp [collectDeps]
  | cons d ds ih =>
    simp only [collectDeps, ih, Finset.mem_insert, List.mem_cons]
    by_cases hd : d.id ∈ s
    · simp only [hd, if_true]
      constructor
      · rintro (h | ⟨h1, h2⟩)
        · exact Or.inl h
        · exact Or.inr ⟨Or.inr h1, fun h => h2 (Or.inr h)⟩
      · rintro (h | ⟨h1 | h1, h2⟩)
        · exact Or.inl h
        · exact absurd (h1 ▸ hd) h2
        · refine Or.inr ⟨h1, ?_⟩
          rintro (h | h)
          · exact h2 (h ▸ hd)
          · exact h2 h
    · simp only [hd, if_false, List.mem_append, List.mem_singleton]
      constructor
      · rintro ((h | h) | ⟨h1, h2⟩)
        · exact Or.inl h
        · exact Or.inr ⟨Or.inl h, h ▸ hd⟩
        · exact Or.inr ⟨Or.inr h1, fun h => h2 (Or.inr h)⟩
      · rintro (h | ⟨h1 | h1, h2⟩)
        · exact Or.inl (Or.inl h)
        · exact Or.inl (Or.inr h1)
        · by_cases hx : x.id = d.id
          · exact Or.inl (Or.inr (Dep.eq_of_id hx))
          · refine Or.inr ⟨h1, ?_⟩
            rintro (h | h)
            · exact hx h
            · exact h2 h

theorem addDep_mem_logOfTrack (wid : Nat) (depIds s : Finset Nat) (ds : List Dep)
    (v x : Nat) :
    Event.addDep v x ∈ logOfTrack wid depIds s ds ↔ v = wid ∧ Dep.mk x ∈ ds := by
  induction ds generalizing s with
  | nil => simp [logOfTrack]
  | cons d ds ih =>
    simp only [logOfTrack, List.cons_append, List.mem_cons, List.mem_append, ih,
      Event.addDep.injEq]
    constructor
    · rintro (⟨h1, h2⟩ | h | ⟨h1, h2⟩)
      · exact ⟨h1, Or.inl (Dep.eq_of_id h2)⟩
      · split at h <;> simp at h
      · exact ⟨h1, Or.inr h2⟩
    · rintro ⟨h1, h2 | h2⟩
      · exact Or.inl ⟨h1, by rw [← h2]⟩
      · exact Or.inr (Or.inr ⟨h1, h2⟩)

theorem removeSub_mem_logOfUnsub (wid : Nat) (keep : Finset Nat) (ds : List Dep)
    (x v : Nat) :
    Event.removeSub x v ∈ logOfUnsub wid keep ds ↔ v = wid ∧ Dep.mk x ∈ ds ∧ x ∉ keep := by
  induction ds with
  | nil => simp [logOfUnsub]
  | cons d ds ih =>
    simp only [logOfUnsub, List.mem_append, ih, List.mem_cons]
    constructor
    · rintro (⟨h1, h2, h3⟩ | h)
      · exact ⟨h1, Or.inr h2, h3⟩
      · split at h
        · simp only [List.mem_singleton, Event.removeSub.injEq] at h
          rename_i hk
          exact ⟨h.2, Or.inl (Dep.eq_of_id h.1), h.1 ▸ hk⟩
        · simp at h
    · rintro ⟨h1, h2 | h2, h3⟩
      · right
        have : d.id = x := by rw [← h2]
        simp [this, h3, h1]
      · exact Or.inl ⟨h1, h2, h3⟩

theorem mem_logOfTrack_cases {wid : Nat} {depIds s : Finset Nat} {ds : List Dep} {e : Event}
    (h : e ∈ logOfTrack wid depIds s ds) :
    (∃ x, e = Event.addDep wid x) ∨ (∃ x, e = Event.addSub x wid) := by
  induction ds generalizing s with
  | nil => simp [logOfTrack] at h
  | cons d ds ih =>
    simp only [logOfTrack, List.cons_append, List.mem_cons, List.mem_append] at h
    rcases h with h | h | h
    · exact Or.inl ⟨_, h⟩
    · split at h
      · simp at h
      · simp only [List.mem_singleton] at h
        exact Or.inr ⟨_, h⟩
    · exact ih h

theorem mem_logOfUnsub_cases {wid : Nat} {keep : Finset Nat} {ds : List Dep} {e : Event}
    (h : e ∈ logOfUnsub wid keep ds) : ∃ x, e = Event.removeSub x wid := by
  induction ds with
  | nil => simp [logOfUnsub] at h
  | cons d ds ih =>
    simp only [logOfUnsub, List.mem_append] at h
    rcases h with h | h
    · exact ih h
    · split at h
      · simp only [List.mem_singleton] at h
        exact ⟨_, h⟩
      · simp at h

theorem mem_getErrorLog {w : Watcher} {σ : World} {e : Event} (h : e ∈ w.getErrorLog σ) :
    ∃ err, e = Event.handleError err w.vm ("getter for watcher \"" ++ w.expression ++ "\"") := by
  unfold Watcher.getErrorLog at h
  split at h
  · simp at h
  · split at h
    · simp only [List.mem_singleton] at h
      exact ⟨_, h⟩
    · simp at h

theorem mem_getLog (w : Watcher) (σ : World) (touches : List Touch) (e : Event) :
    e ∈ w.getLog σ touches ↔
      e = Event.evaluate w.id ∨
      e ∈ logOfTrack w.id w.depIds w.newDepIds (w.getter σ.heap w.vm).reads ∨
      e ∈ w.getErrorLog σ ∨
      e ∈ logOfTrack w.id w.depIds (collectIds w.newDepIds (w.getter σ.heap w.vm).reads)
        (touchedDeps σ.heap touches) ∨
      e ∈ logOfUnsub w.id (collectIds w.newDepIds (w.getReads σ touches)) w.deps := by
  unfold Watcher.getLog
  simp only [List.mem_cons, List.mem_append]
  tauto

theorem addDep_mem_getLog (w : Watcher) (σ : World) (touches : List Touch) (x : Nat) :
    Event.addDep w.id x ∈ w.getLog σ touches ↔ Dep.mk x ∈ w.getReads σ touches := by
  rw [mem_getLog]
  constructor
  · rintro (h | h | h | h | h)
    · cases h
    · exact List.mem_append_left _ ((addDep_mem_logOfTrack _ _ _ _ _ _).1 h).2
    · obtain ⟨_, h⟩ := mem_getErrorLog h
      cases h
    · exact List.mem_append_right _ ((addDep_mem_logOfTrack _ _ _ _ _ _).1 h).2
    · obtain ⟨_, h⟩ := mem_logOfUnsub_cases h
      cases h
  · intro h
    rcases List.mem_append.1 h with h | h
    · exact Or.inr (Or.inl ((addDep_mem_logOfTrack _ _ _ _ _ _).2 ⟨rfl, h⟩))
    · exact Or.inr (Or.inr (Or.inr (Or.inl ((addDep_mem_logOfTrack _ _ _ _ _ _).2 ⟨rfl, h⟩))))

theorem removeSub_mem_getLog (w : Watcher) (σ : World) (touches : List Touch) (x : Nat) :
    Event.removeSub x w.id ∈ w.getLog σ touches ↔
      Dep.mk x ∈ w.deps ∧ x ∉ collectIds w.newDepIds (w.getReads σ touches) := by
  rw [mem_getLog]
  constructor
  · rintro (h | h | h | h | h)
    · cases h
    · rcases mem_logOfTrack_cases h with ⟨_, h⟩ | ⟨_, h⟩ <;> cases h
    · obtain ⟨_, h⟩ := mem_getErrorLog h
      cases h
    · rcases mem_logOfTrack_cases h with ⟨_, h⟩ | ⟨_, h⟩ <;> cases h
    · exact ((removeSub_mem_logOfUnsub _ _ _ _ _).1 h).2
  · intro h
    exact Or.inr (Or.inr (Or.inr (Or.inr ((removeSub_mem_logOfUnsub _ _ _ _ _).2 ⟨rfl, h⟩))))

/-- A watcher between two evaluations: the scratch array and set are empty. -/
theorem get_idle {fuel : Nat} {w : Watcher} {σ : World} {res : Except Val Val}
    {w1 : Watcher} {σ1 : World} (h : w.get fuel σ = some (res, w1, σ1)) :
    w1.newDeps = [] ∧ w1.newDepIds = ∅ := by
  rw [get_eq] at h
  cases ht : w.getTraverse fuel σ with
  | none => simp [ht] at h
  | some st =>
    simp only [ht, Option.map_some', Option.some.injEq, Prod.mk.injEq] at h
    obtain ⟨-, hw, -⟩ := h
    subst hw
    exact ⟨rfl, rfl⟩

/-! ## The subscription invariant -/

theorem count_addSub_logOfTrack (wid : Nat) (depIds s : Finset Nat) (ds : List Dep) (d : Nat) :
    (d ∈ s ∨ d ∈ depIds → (logOfTrack wid depIds s ds).count (Event.addSub d wid) = 0) ∧
    (logOfTrack wid depIds s ds).count (Event.addSub d wid) ≤ 1 := by
  induction ds generalizing s with
  | nil => simp [logOfTrack]
  | cons x xs ih =>
    have ih1 := (ih (insert x.id s)).1
    have ih2 := (ih (insert x.id s)).2
    simp only [logOfTrack, List.cons_append, List.count_cons, List.count_append]
    have hne : (Event.addDep wid x.id == Event.addSub d wid) = false := by simp
    simp only [hne, Bool.false_eq_true, if_false, add_zero]
    by_cases hx : x.id ∈ s ∨ x.id ∈ depIds
    · simp only [hx, if_true, List.count_nil, zero_add]
      refine ⟨fun h => ih1 ?_, ih2⟩
      rcases h with h | h
      · exact Or.inl (Finset.mem_insert_of_mem h)
      · exact Or.inr h
    · simp only [hx, if_false, List.count_singleton]
      by_cases hd : x.id = d
      · subst hd
        have h0 := ih1 (Or.inl (Finset.mem_insert_self _ _))
        simp only [beq_self_eq_true, if_true, h0]
        exact ⟨fun h => absurd h hx, le_refl _⟩
      · have hne2 : (Event.addSub x.id wid == Event.addSub d wid) = false := by simp [hd]
        simp only [hne2, Bool.false_eq_true, if_false, zero_add]
        refine ⟨fun h => ih1 ?_, ih2⟩
        rcases h with h | h
        · exact Or.inl (Finset.mem_insert_of_mem h)
        · exact Or.inr h

theorem subInv_track {wid : Nat} {depIds s : Finset Nat} {subs : Nat → List Nat}
    (ds : List Dep) (h : SubInv wid depIds s subs) :
    SubInv wid depIds (collectIds s ds) (subsAfterTrack wid depIds s subs ds) := by
  induction ds generalizing s subs with
  | nil => exact h
  | cons x xs ih =>
    simp only [collectIds, subsAfterTrack]
    apply ih
    by_cases hx : x.id ∈ s ∨ x.id ∈ depIds
    · simp only [hx, if_true]
      exact ⟨h.1, fun d hd => (h.2 d hd).imp id (fun h' => Finset.mem_insert_of_mem h')⟩
    · simp only [hx, if_false]
      have hnot : wid ∉ subs x.id := fun hm => hx ((h.2 _ hm).symm)
      constructor
      · intro d
        by_cases hd : d = x.id
        · subst hd
          simp [List.count_eq_zero_of_not_mem hnot]
        · simp only [Function.update_noteq hd]
          exact h.1 d
      · intro d hm
        by_cases hd : d = x.id
        · subst hd
          exact Or.inr (Finset.mem_insert_self _ _)
        · simp only [Function.update_noteq hd] at hm
          exact (h.2 d hm).imp id (fun h' => Finset.mem_insert_of_mem h')

theorem count_subsAfterUnsub_le (wid : Nat) (keep : Finset Nat) (subs : Nat → List Nat)
    (ds : List Dep) (x : Nat) :
    (subsAfterUnsub wid keep subs ds x).count wid ≤ (subs x).count wid := by
  induction ds with
  | nil => exact le_refl _
  | cons d ds ih =>
    simp only [subsAfterUnsub]
    by_cases hk : d.id ∈ keep
    · simpa [hk] using ih
    · simp only [hk, not_false_eq_true, if_true]
      by_cases hx : x = d.id
      · subst hx
        simp only [Function.update_same, List.count_erase_self]
        omega
      · simpa [Function.update_noteq hx] using ih

theorem not_mem_subsAfterUnsub (wid : Nat) (keep : Finset Nat) (subs : Nat → List Nat)
    (ds : List Dep) (x : Nat) (hx : Dep.mk x ∈ ds) (hk : x ∉ keep)
    (hc : (subs x).count wid ≤ 1) : wid ∉ subsAfterUnsub wid keep subs ds x := by
  induction ds with
  | nil => simp at hx
  | cons d ds ih =>
    have hle := count_subsAfterUnsub_le wid keep subs ds x
    simp only [subsAfterUnsub]
    by_cases hd : x = d.id
    · subst hd
      simp only [hk, not_false_eq_true, if_true, Function.update_same]
      rw [← List.count_eq_zero, List.count_erase_self]
      omega
    · have hx2 : Dep.mk x ∈ ds := by
        rcases List.mem_cons.1 hx with h | h
        · exact absurd (by rw [← h]) hd
        · exact h
      by_cases hk2 : d.id ∈ keep
      · simpa [hk2] using ih hx2
      · simpa [hk2, Function.update_noteq hd] using ih hx2

theorem subInv_unsub {wid : Nat} {depIds keep : Finset Nat} {subs : Nat → List Nat}
    {ds : List Dep} (h : SubInv wid depIds keep subs) (hds : ∀ d ∈ depIds, Dep.mk d ∈ ds) :
    SubInv wid keep ∅ (subsAfterUnsub wid keep subs ds) := by
  constructor
  · intro d
    exact le_trans (count_subsAfterUnsub_le wid keep subs ds d) (h.1 d)
  · intro d hm
    left
    by_contra hk
    have hold : wid ∈ subs d := by
      rw [← List.one_le_count_iff] at hm ⊢
      exact le_trans hm (count_subsAfterUnsub_le wid keep subs ds d)
    rcases h.2 d hold with h1 | h1
    · exact not_mem_subsAfterUnsub wid keep subs ds d (hds d h1) hk (h.1 d) hm
    · exact hk h1

theorem subInv_unsub_all {wid : Nat} {depIds newDepIds : Finset Nat} {subs : Nat → List Nat}
    (ds : List Dep) (h : SubInv wid depIds newDepIds subs) :
    SubInv wid depIds newDepIds (subsAfterUnsub wid ∅ subs ds) := by
  constructor
  · intro d
    exact le_trans (count_subsAfterUnsub_le wid ∅ subs ds d) (h.1 d)
  · intro d hm
    apply h.2
    rw [← List.one_le_count_iff] at hm ⊢
    exact le_trans hm (count_subsAfterUnsub_le wid ∅ subs ds d)

theorem ids_collect {s : Finset Nat} {acc : List Dep} (ds : List Dep)
    (h : ∀ d ∈ s, Dep.mk d ∈ acc) :
    ∀ d ∈ collectIds s ds, Dep.mk d ∈ collectDeps s acc ds := by
  intro d hd
  rw [mem_collectIds] at hd
  rw [mem_collectDeps]
  by_cases hs : d ∈ s
  · exact Or.inl (h d hs)
  · rcases hd with hd | hd
    · exact absurd hd hs
    · exact Or.inr ⟨hd, hs⟩

theorem inv_track {w : Watcher} {σ : World} (ds : List Dep) (h : w.Inv σ) :
    (w.track σ ds).1.Inv (w.track σ ds).2 := by
  rw [track_fst, track_snd]
  exact ⟨subInv_track ds h.1, h.2.1, ids_collect ds h.2.2⟩

theorem inv_get {fuel : Nat} {w : Watcher} {σ : World} {res : Except Val Val}
    {w1 : Watcher} {σ1 : World} (h : w.Inv σ) (hget : w.get fuel σ = some (res, w1, σ1)) :
    w1.Inv σ1 ∧ w1.id = w.id := by
  rw [get_eq] at hget
  cases ht : w.getTraverse fuel σ with
  | none => simp [ht] at hget
  | some st =>
    simp only [ht, Option.map_some', Option.some.injEq, Prod.mk.injEq] at hget
    obtain ⟨-, hw, hσ⟩ := hget
    subst hw hσ
    refine ⟨⟨?_, ?_, ?_⟩, rfl⟩
    · exact subInv_unsub (subInv_track _ h.1) h.2.1
    · exact ids_collect _ h.2.2
    · intro d hd
      simp [Watcher.afterGet] at hd

theorem inv_congr {w w1 : Watcher} {σ σ1 : World} (h : w.Inv σ) (hid : w1.id = w.id)
    (h1 : w1.depIds = w.depIds) (h2 : w1.newDepIds = w.newDepIds) (h3 : w1.deps = w.deps)
    (h4 : w1.newDeps = w.newDeps) (h5 : σ1.subs = σ.subs) : w1.Inv σ1 := by
  unfold Watcher.Inv at h ⊢
  rw [hid, h1, h2, h3, h4, h5]
  exact h

theorem inv_run {fuel : Nat} {w : Watcher} {σ : World} {res : Except Val Unit}
    {w1 : Watcher} {σ1 : World} (h : w.Inv σ) (hrun : w.run fuel σ = some (res, w1, σ1)) :
    w1.Inv σ1 ∧ w1.id = w.id := by
  unfold Watcher.run at hrun
  split at hrun
  · split at hrun
    · simp at hrun
    · rename_i hget
      simp only [Option.some.injEq, Prod.mk.injEq] at hrun
      obtain ⟨-, hw, hσ⟩ := hrun
      subst hw hσ
      exact inv_get h hget
    · rename_i hget
      have hg := inv_get h hget
      split at hrun
      · dsimp only at hrun
        split at hrun
        · simp only [Option.some.injEq, Prod.mk.injEq] at hrun
          obtain ⟨-, hw, hσ⟩ := hrun
          subst hw hσ
          exact ⟨inv_congr hg.1 rfl rfl rfl rfl rfl rfl, hg.2⟩
        · split at hrun
          · simp only [Option.some.injEq, Prod.mk.injEq] at hrun
            obtain ⟨-, hw, hσ⟩ := hrun
            subst hw hσ
            exact ⟨inv_congr hg.1 rfl rfl rfl rfl rfl rfl, hg.2⟩
          · simp only [Option.some.injEq, Prod.mk.injEq] at hrun
            obtain ⟨-, hw, hσ⟩ := hrun
            subst hw hσ
            exact ⟨inv_congr hg.1 rfl rfl rfl rfl rfl rfl, hg.2⟩
      · simp only [Option.some.injEq, Prod.mk.injEq] at hrun
        obtain ⟨-, hw, hσ⟩ := hrun
        subst hw hσ
        exact hg
  · simp only [Option.some.injEq, Prod.mk.injEq] at hrun
    obtain ⟨-, hw, hσ⟩ := hrun
    subst hw hσ
    exact ⟨h, rfl⟩

theorem queueWatcher_subs (wid : Nat) (σ : World) : (queueWatcher wid σ).subs = σ.subs := by
  unfold queueWatcher
  simp only [World.emit]
  split <;> rfl

theorem inv_update {fuel : Nat} {w : Watcher} {σ : World} {res : Except Val Unit}
    {w1 : Watcher} {σ1 : World} (h : w.Inv σ) (hup : w.update fuel σ = some (res, w1, σ1)) :
    w1.Inv σ1 ∧ w1.id = w.id := by
  unfold Watcher.update at hup
  split at hup
  · simp only [Option.some.injEq, Prod.mk.injEq] at hup
    obtain ⟨-, hw, hσ⟩ := hup
    subst hw hσ
    exact ⟨inv_congr h rfl rfl rfl rfl rfl rfl, rfl⟩
  · split at hup
    · exact inv_run h hup
    · simp only [Option.some.injEq, Prod.mk.injEq] at hup
      obtain ⟨-, hw, hσ⟩ := hup
      subst hw hσ
      exact ⟨inv_congr h rfl rfl rfl rfl rfl (queueWatcher_subs _ _), rfl⟩

theorem inv_evaluate {fuel : Nat} {w : Watcher} {σ : World} {res : Except Val Unit}
    {w1 : Watcher} {σ1 : World} (h : w.Inv σ) (hev : w.evaluate fuel σ = some (res, w1, σ1)) :
    w1.Inv σ1 ∧ w1.id = w.id := by
  unfold Watcher.evaluate at hev
  split at hev
  · simp at hev
  · rename_i hget
    simp only [Option.some.injEq, Prod.mk.injEq] at hev
    obtain ⟨-, hw, hσ⟩ := hev
    subst hw hσ
    exact inv_get h hget
  · rename_i hget
    have hg := inv_get h hget
    simp only [Option.some.injEq, Prod.mk.injEq] at hev
    obtain ⟨-, hw, hσ⟩ := hev
    subst hw hσ
    exact ⟨inv_congr hg.1 rfl rfl rfl rfl rfl rfl, hg.2⟩

theorem removeAll_eq (w : Watcher) (σ : World) :
    w.deps.foldr (fun dep s => dep.removeSub w.id s) σ =
      { σ with subs := subsAfterUnsub w.id ∅ σ.subs w.deps,
               log := σ.log ++ logOfUnsub w.id ∅ w.deps } := by
  induction w.deps with
  | nil => simp [subsAfterUnsub, logOfUnsub]
  | cons d ds ih =>
    rw [List.foldr_cons, ih]
    simp [subsAfterUnsub, logOfUnsub, Dep.removeSub, World.emit]

theorem inv_teardown {w : Watcher} {σ : World} (h : w.Inv σ) :
    (w.teardown σ).1.Inv (w.teardown σ).2 ∧ (w.teardown σ).1.id = w.id := by
  unfold Watcher.teardown
  split
  · dsimp only
    rw [removeAll_eq]
    refine ⟨⟨?_, h.2.1, h.2.2⟩, rfl⟩
    have := @subInv_unsub_all w.id _ _ _ w.deps h.1
    split <;> exact this
  · exact ⟨h, rfl⟩

theorem inv_perform {fuel : Nat} {w : Watcher} {σ : World} {a : Action}
    {w1 : Watcher} {σ1 : World} (h : w.Inv σ) (hp : w.perform fuel σ a = some (w1, σ1)) :
    w1.Inv σ1 ∧ w1.id = w.id := by
  cases a with
  | get =>
    simp only [Watcher.perform, Option.map_eq_some'] at hp
    obtain ⟨⟨res, w2, σ2⟩, hget, heq⟩ := hp
    cases heq
    exact inv_get h hget
  | run =>
    simp only [Watcher.perform, Option.map_eq_some'] at hp
    obtain ⟨⟨res, w2, σ2⟩, hget, heq⟩ := hp
    cases heq
    exact inv_run h hget
  | update =>
    simp only [Watcher.perform, Option.map_eq_some'] at hp
    obtain ⟨⟨res, w2, σ2⟩, hget, heq⟩ := hp
    cases heq
    exact inv_update h hget
  | evaluate =>
    simp only [Watcher.perform, Option.map_eq_some'] at hp
    obtain ⟨⟨res, w2, σ2⟩, hget, heq⟩ := hp
    cases heq
    exact inv_evaluate h hget
  | teardown =>
    simp only [Watcher.perform, Option.some.injEq] at hp
    have ht := inv_teardown h
    rw [hp] at ht
    exact ht
  | write heap =>
    simp only [Watcher.perform, Option.some.injEq, Prod.mk.injEq] at hp
    obtain ⟨hw, hσ⟩ := hp
    subst hw hσ
    exact ⟨inv_congr h rfl rfl rfl rfl rfl rfl, rfl⟩

theorem inv_performAll {fuel : Nat} (acts : List Action) {s s1 : Watcher × World}
    (h : s.1.Inv s.2) (hp : Watcher.performAll fuel acts s = some s1) :
    s1.1.Inv s1.2 ∧ s1.1.id = s.1.id := by
  induction acts generalizing s with
  | nil =>
    simp only [Watcher.performAll, Option.some.injEq] at hp
    subst hp
    exact ⟨h, rfl⟩
  | cons a as ih =>
    simp only [Watcher.performAll] at hp
    split at hp
    · simp at hp
    · rename_i s2 hs2
      have h2 := @inv_perform fuel _ _ a s2.1 s2.2 h hs2
      have h3 := ih h2.1 hp
      exact ⟨h3.1, h3.2.trans h2.2⟩

theorem inv_constructor {vm : Nat} {expOrFn : ExpOrFn} {cb : Callback}
    {options : Option Options} {isRenderWatcher : Bool} {fuel : Nat} {σ : World}
    {res : Except Val Unit} {w : Watcher} {σ1 : World}
    (hfresh : ∀ d, σ.uid + 1 ∉ σ.subs d)
    (hnew : Watcher.constructor vm expOrFn cb options isRenderWatcher fuel σ
      = some (res, w, σ1)) :
    w.Inv σ1 ∧ w.id = σ.uid + 1 := by
  unfold Watcher.constructor at hnew
  dsimp only at hnew
  split at hnew
  · simp only [Option.some.injEq, Prod.mk.injEq] at hnew
    obtain ⟨-, hw, hσ⟩ := hnew
    subst hw hσ
    refine ⟨⟨⟨?_, ?_⟩, by simp, by simp⟩, rfl⟩
    · intro d
      have hs : ∀ τ : World, τ.subs = σ.subs → (τ.subs d).count (σ.uid + 1) ≤ 1 := by
        intro τ hτ
        rw [hτ, List.count_eq_zero_of_not_mem (hfresh d)]
        exact Nat.zero_le _
      apply hs
      split <;> [skip; rfl]
      split <;> rfl
    · intro d hd
      exfalso
      have hs : ∀ τ : World, τ.subs = σ.subs → σ.uid + 1 ∉ τ.subs d := by
        intro τ hτ
        rw [hτ]
        exact hfresh d
      refine hs _ ?_ hd
      split <;> [skip; rfl]
      split <;> rfl
  · have hinit : ∀ (τ : World) (w0 : Watcher), τ.subs = σ.subs → w0.id = σ.uid + 1 →
        w0.depIds = ∅ → w0.newDepIds = ∅ → w0.Inv τ := by
      intro τ w0 hτ hid h1 h2
      refine ⟨⟨?_, ?_⟩, by simp [h1], by simp [h2]⟩
      · intro d
        rw [hτ, hid, List.count_eq_zero_of_not_mem (hfresh d)]
        exact Nat.zero_le _
      · intro d hd
        rw [hτ, hid] at hd
        exact absurd hd (hfresh d)
    split at hnew
    · simp at hnew
    · rename_i hget
      simp only [Option.some.injEq, Prod.mk.injEq] at hnew
      obtain ⟨-, hw, hσ⟩ := hnew
      subst hw hσ
      refine inv_get (hinit _ _ ?_ rfl rfl rfl) hget
      split <;> [skip; rfl]
      split <;> rfl
    · rename_i hget
      simp only [Option.some.injEq, Prod.mk.injEq] at hnew
      obtain ⟨-, hw, hσ⟩ := hnew
      subst hw hσ
      have hg := inv_get (hinit _ _ ?_ rfl rfl rfl) hget
      · exact ⟨inv_congr hg.1 rfl rfl rfl rfl rfl rfl, hg.2⟩
      · split <;> [skip; rfl]
        split <;> rfl

/-- C2. (a) However a watcher's evaluation calls `addDep` (any list `ds` of
Dependencies, with repetitions), `dep.addSub(watcher)` is invoked at most once
per Dependency id, and not at all for an id already in `depIds`. (b) Hence,
for a watcher made by the constructor (whose fresh id is in no subscriber
list) and taken through any sequence of its methods and heap writes, and then
any number of `addDep` calls of a further evaluation, the watcher occurs at
most once in the subscriber list of every Dependency. -/
theorem C2_subscribed_at_most_once (fuel : Nat) (vm : Nat) (expOrFn : ExpOrFn)
    (cb : Callback) (options : Option Options) (isRenderWatcher : Bool) (σ0 : World)
    (res : Except Val Unit) (w0 : Watcher) (σ1 : World) (acts : List Action)
    (w : Watcher) (σ : World) (ds : List Dep)
    (hfresh : ∀ d, σ0.uid + 1 ∉ σ0.subs d)
    (hnew : Watcher.constructor vm expOrFn cb options isRenderWatcher fuel σ0
      = some (res, w0, σ1))
    (hacts : Watcher.performAll fuel acts (w0, σ1) = some (w, σ)) :
    (∃ seg : List Event, (w.track σ ds).2.log = σ.log ++ seg ∧
      ∀ d, seg.count (Event.addSub d w.id) ≤ 1 ∧
        (d ∈ w.depIds → Event.addSub d w.id ∉ seg)) ∧
    (∀ d, ((w.track σ ds).2.subs d).count w.id ≤ 1) := by
  constructor
  · refine ⟨logOfTrack w.id w.depIds w.newDepIds ds, by rw [track_snd], fun d => ?_⟩
    have h := count_addSub_logOfTrack w.id w.depIds w.newDepIds ds d
    exact ⟨h.2, fun hd => List.count_eq_zero.1 (h.1 (Or.inr hd))⟩
  · have h0 := inv_constructor hfresh hnew
    have h1 := @inv_performAll fuel acts (w0, σ1) (w, σ) h0.1 hacts
    have h2 := inv_track ds h1.1
    intro d
    have h3 := h2.1.1 d
    rw [track_fst] at h3
    exact h3

/-- C2 on the watcher of `"x.y"`: after a write, a run, an update and an
evaluate, a further evaluation that reads `x` twice, `y` and a new Dependency
subscribes only to the new one, once. -/
theorem C2_subscribed_at_most_once_witness :
    (∀ d, (World.init (heapXY 1)).uid + 1 ∉ (World.init (heapXY 1)).subs d) ∧
    (watcherXYLater.1.track watcherXYLater.2 [⟨10⟩, ⟨10⟩, ⟨11⟩, ⟨12⟩, ⟨12⟩]).2.log =
      watcherXYLater.2.log ++
        [.addDep 1 10, .addDep 1 10, .addDep 1 11, .addDep 1 12, .addSub 12 1, .addDep 1 12] ∧
    (∃ seg : List Event,
      (watcherXYLater.1.track watcherXYLater.2 [⟨10⟩, ⟨10⟩, ⟨11⟩, ⟨12⟩, ⟨12⟩]).2.log =
        watcherXYLater.2.log ++ seg ∧
      ∀ d, seg.count (Event.addSub d watcherXYLater.1.id) ≤ 1 ∧
        (d ∈ watcherXYLater.1.depIds → Event.addSub d watcherXYLater.1.id ∉ seg)) ∧
    (∀ d, ((watcherXYLater.1.track watcherXYLater.2
      [⟨10⟩, ⟨10⟩, ⟨11⟩, ⟨12⟩, ⟨12⟩]).2.subs d).count watcherXYLater.1.id ≤ 1) :=
  ⟨fun _ => List.not_mem_nil _, by decide,
    C2_subscribed_at_most_once 0 0 (.path "x.y") cbQuiet none false (World.init (heapXY 1))
      (.ok ()) watcherXY.1 watcherXY.2 [.write (heapXY 2), .run, .update, .evaluate]
      watcherXYLater.1 watcherXYLater.2 [⟨10⟩, ⟨10⟩, ⟨11⟩, ⟨12⟩, ⟨12⟩]
      (fun _ => List.not_mem_nil _) (by rfl) (by rfl)⟩

/-- C1. Once `get()` has completed on a watcher whose scratch array and set
were empty when the evaluation began (as they are for the record the
constructor starts from, after construction and after every completed method:
`idle_constructor`, `idle_performAll`), `deps` and `depIds` hold exactly the
Dependencies passed to `addDep` during that evaluation, every Dependency of
the previous `deps` that was not passed to `addDep` has had `removeSub(watcher)`
called on it, and `newDeps` and `newDepIds` are empty. -/
theorem C1_get_reconciles (fuel : Nat) (w : Watcher) (σ : World) (res : Except Val Val)
    (w1 : Watcher) (σ1 : World)
    (hidle : w.newDeps = [] ∧ w.newDepIds = ∅)
    (hget : w.get fuel σ = some (res, w1, σ1)) :
    ∃ seg : List Event, σ1.log = σ.log ++ seg ∧
      (∀ d : Dep, d ∈ w1.deps ↔ Event.addDep w.id d.id ∈ seg) ∧
      (∀ x : Nat, x ∈ w1.depIds ↔ Event.addDep w.id x ∈ seg) ∧
      (∀ d ∈ w.deps, Event.addDep w.id d.id ∉ seg → Event.removeSub d.id w.id ∈ seg) ∧
      w1.newDeps = [] ∧ w1.newDepIds = ∅ := by
  have hi := get_idle hget
  rw [get_eq] at hget
  cases ht : w.getTraverse fuel σ with
  | none => simp [ht] at hget
  | some st =>
    simp only [ht, Option.map_some', Option.some.injEq, Prod.mk.injEq] at hget
    obtain ⟨-, hw, hσ⟩ := hget
    subst hw hσ
    refine ⟨w.getLog σ st.2, rfl, ?_, ?_, ?_, hi⟩
    · intro d
      rw [addDep_mem_getLog]
      simp [Watcher.afterGet, mem_collectDeps, hidle.1, hidle.2]
    · intro x
      rw [addDep_mem_getLog]
      simp [Watcher.afterGet, mem_collectIds, hidle.2]
    · intro d hd hnot
      rw [addDep_mem_getLog] at hnot
      rw [removeSub_mem_getLog]
      exact ⟨hd, by simp [mem_collectIds, hidle.2, hnot]⟩

/-- C1 on the watcher of `a ? b : c` after `a` was flipped: `deps` moves from
`{a, b}` to `{a, c}` and `b` is unsubscribed. -/
theorem C1_get_reconciles_witness :
    (watcherABC.1.newDeps = [] ∧ watcherABC.1.newDepIds = ∅) ∧
    watcherABC.1.deps = [⟨1⟩, ⟨2⟩] ∧
    (stateOf (watcherABC.1.get 0 worldABCFlipped)).1.deps = [⟨1⟩, ⟨3⟩] ∧
    (stateOf (watcherABC.1.get 0 worldABCFlipped)).2.log = worldABCFlipped.log ++
      [.evaluate 1, .addDep 1 1, .addDep 1 3, .addSub 3 1, .removeSub 2 1] ∧
    ∃ seg : List Event,
      (stateOf (watcherABC.1.get 0 worldABCFlipped)).2.log = worldABCFlipped.log ++ seg ∧
      (∀ d : Dep, d ∈ (stateOf (watcherABC.1.get 0 worldABCFlipped)).1.deps ↔
        Event.addDep watcherABC.1.id d.id ∈ seg) ∧
      (∀ x : Nat, x ∈ (stateOf (watcherABC.1.get 0 worldABCFlipped)).1.depIds ↔
        Event.addDep watcherABC.1.id x ∈ seg) ∧
      (∀ d ∈ watcherABC.1.deps, Event.addDep watcherABC.1.id d.id ∉ seg →
        Event.removeSub d.id watcherABC.1.id ∈ seg) ∧
      (stateOf (watcherABC.1.get 0 worldABCFlipped)).1.newDeps = [] ∧
      (stateOf (watcherABC.1.get 0 worldABCFlipped)).1.newDepIds = ∅ :=
  ⟨by decide, by decide, by decide, by decide,
    C1_get_reconciles 0 watcherABC.1 worldABCFlipped (.ok (Val.num 2)) _ _ (by decide) (by rfl)⟩

/-! ## What `get()` and `run()` log -/

theorem get_cases {fuel : Nat} {w : Watcher} {σ : World} {res : Except Val Val}
    {w1 : Watcher} {σ1 : World} (h : w.get fuel σ = some (res, w1, σ1)) :
    ∃ seen touches, w.getTraverse fuel σ = some (seen, touches) ∧ res = w.getResult σ ∧
      w1 = w.afterGet σ touches ∧ σ1 = w.worldAfterGet σ seen touches := by
  rw [get_eq] at h
  cases ht : w.getTraverse fuel σ with
  | none => simp [ht] at h
  | some st =>
    simp only [ht, Option.map_some', Option.some.injEq, Prod.mk.injEq] at h
    exact ⟨st.1, st.2, rfl, h.1.symm, h.2.1.symm, h.2.2.symm⟩

/-- A filter that ignores `addDep`, `addSub`, `removeSub` and `handleError`
entries sees only the `evaluate` entry of a `get()`. -/
theorem filter_getLog (p : Event → Bool) (w : Watcher) (σ : World) (touches : List Touch)
    (h1 : ∀ a b, p (Event.addDep a b) = false) (h2 : ∀ a b, p (Event.addSub a b) = false)
    (h3 : ∀ a b, p (Event.removeSub a b) = false)
    (h4 : ∀ a b c, p (Event.handleError a b c) = false) :
    (w.getLog σ touches).filter p = [Event.evaluate w.id].filter p := by
  have ht : ∀ s ds, (logOfTrack w.id w.depIds s ds).filter p = [] := by
    intro s ds
    rw [List.filter_eq_nil_iff]
    intro e he
    rcases mem_logOfTrack_cases he with ⟨x, hx⟩ | ⟨x, hx⟩
    · simp [hx, h1]
    · simp [hx, h2]
  have hu : ∀ keep ds, (logOfUnsub w.id keep ds).filter p = [] := by
    intro keep ds
    rw [List.filter_eq_nil_iff]
    intro e he
    obtain ⟨x, hx⟩ := mem_logOfUnsub_cases he
    simp [hx, h3]
  have he : (w.getErrorLog σ).filter p = [] := by
    rw [List.filter_eq_nil_iff]
    intro e he
    obtain ⟨x, hx⟩ := mem_getErrorLog he
    simp [hx, h4]
  unfold Watcher.getLog
  rw [← List.singleton_append, List.append_assoc, List.append_assoc, List.append_assoc,
    List.filter_append, List.filter_append, List.filter_append, List.filter_append,
    ht, ht, hu, he]
  simp

/-- For an active watcher on which `get()` returns or throws, `run()`
completes having invoked the evaluator once, and it invokes the callback
exactly when `get()` returned a value `v` with `v !== this.value`, or a
container, or `deep` is set: then the callback is called once, with that value
and the old one, and the value is stored; otherwise the callback is not called
and the stored value is unchanged. When `get()` rethrows, `run()` rethrows and
nothing is called or stored. -/
theorem run_fires_iff (fuel : Nat) (w : Watcher) (σ : World) (gres : Except Val Val)
    (wg : Watcher) (σg : World) (hact : w.active = true)
    (hget : w.get fuel σ = some (gres, wg, σg)) :
    ∃ (res : Except Val Unit) (w1 : Watcher) (σ1 : World) (seg : List Event),
      w.run fuel σ = some (res, w1, σ1) ∧ σ1.log = σ.log ++ seg ∧
      seg.filter Event.isEvaluate = [Event.evaluate w.id] ∧
      (∀ v, gres = .ok v →
        ((v.strictNe w.value = true ∨ isObject v = true ∨ w.deep = true) →
          seg.filter Event.isCallback = [Event.callback w.id v w.value] ∧ w1.value = v) ∧
        (¬ (v.strictNe w.value = true ∨ isObject v = true ∨ w.deep = true) →
          seg.filter Event.isCallback = [] ∧ w1.value = w.value ∧ res = .ok ())) ∧
      (∀ e, gres = .error e →
        seg.filter Event.isCallback = [] ∧ w1.value = w.value ∧ res = .error e) := by
  obtain ⟨seen, touches, -, -, hw, hσ⟩ := get_cases hget
  have hcb : (w.getLog σ touches).filter Event.isCallback = [] := by
    rw [filter_getLog] <;> simp [Event.isCallback]
  have hev : (w.getLog σ touches).filter Event.isEvaluate = [Event.evaluate w.id] := by
    rw [filter_getLog] <;> simp [Event.isEvaluate]
  have hlog : σg.log = σ.log ++ w.getLog σ touches := by rw [hσ]; rfl
  have hval : wg.value = w.value := by rw [hw]; rfl
  have hid : wg.id = w.id := by rw [hw]; rfl
  have hdeep : wg.deep = w.deep := by rw [hw]; rfl
  unfold Watcher.run
  simp only [hact, if_true, hget]
  cases gres with
  | error e =>
    refine ⟨_, _, _, w.getLog σ touches, rfl, hlog, hev, ?_, ?_⟩
    · intro v hv
      cases hv
    intro e1 he1
    cases he1
    exact ⟨hcb, hval, rfl⟩
  | ok v =>
    dsimp only
    by_cases hf : v.strictNe w.value = true ∨ isObject v = true ∨ w.deep = true
    · have hf1 : v.strictNe wg.value = true ∨ isObject v = true ∨ wg.deep = true := by
        rw [hval, hdeep]; exact hf
      simp only [hf1, if_true]
      cases hc : wg.cb wg.vm v wg.value with
      | none =>
        refine ⟨_, _, _, w.getLog σ touches ++ [Event.callback w.id v w.value], rfl, ?_, ?_,
          ?_, (fun e he => by cases he)⟩
        · simp [World.emit, hlog, hid, hval]
        · simp [hev, Event.isEvaluate]
        · intro v1 hv1
          cases hv1
          exact ⟨fun _ => ⟨by simp [hcb, Event.isCallback], rfl⟩, fun hn => absurd hf hn⟩
      | some e =>
        by_cases hu : wg.user = true
        · simp only [hu, if_true]
          refine ⟨_, _, _, w.getLog σ touches ++ [Event.callback w.id v w.value,
            Event.handleError e wg.vm ("callback for watcher \"" ++ wg.expression ++ "\"")],
            rfl, ?_, ?_, ?_, (fun e he => by cases he)⟩
          · simp [World.emit, handleError, hlog, hid, hval]
          · simp [hev, Event.isEvaluate]
          · intro v1 hv1
            cases hv1
            exact ⟨fun _ => ⟨by simp [hcb, Event.isCallback], rfl⟩, fun hn => absurd hf hn⟩
        · simp only [hu, if_false]
          refine ⟨_, _, _, w.getLog σ touches ++ [Event.callback w.id v w.value], rfl, ?_, ?_,
            ?_, (fun e he => by cases he)⟩
          · simp [World.emit, hlog, hid, hval]
          · simp [hev, Event.isEvaluate]
          · intro v1 hv1
            cases hv1
            exact ⟨fun _ => ⟨by simp [hcb, Event.isCallback], rfl⟩, fun hn => absurd hf hn⟩
    · have hf1 : ¬ (v.strictNe wg.value = true ∨ isObject v = true ∨ wg.deep = true) := by
        rw [hval, hdeep]; exact hf
      simp only [hf1, if_false]
      refine ⟨_, _, _, w.getLog σ touches, rfl, hlog, hev, ?_, (fun e he => by cases he)⟩
      intro v1 hv1
      cases hv1
      exact ⟨fun h => absurd h hf, fun _ => ⟨hcb, hval, rfl⟩⟩

/-- The path `"x.y"` over `{x: {y: 1}}`: after the write `x.y = 2` a run
calls the callback once, with `(2, 1)`; after the write `x.y = 1` a run does
not call it. -/
theorem run_fires_iff_example :
    watcherXY.1.active = true ∧ watcherXY.1.value = Val.num 1 ∧
    (stateOf (watcherXY.1.run 0 (worldXY 2))).2.log.filter Event.isCallback
      = [Event.callback 1 (Val.num 2) (Val.num 1)] ∧
    (stateOf (watcherXY.1.run 0 (worldXY 2))).1.value = Val.num 2 ∧
    (stateOf (watcherXY.1.run 0 (worldXY 1))).2.log.filter Event.isCallback = [] ∧
    (stateOf (watcherXY.1.run 0 (worldXY 1))).1.value = Val.num 1 ∧
    ∃ (res : Except Val Unit) (w1 : Watcher) (σ1 : World) (seg : List Event),
      watcherXY.1.run 0 (worldXY 2) = some (res, w1, σ1) ∧
      σ1.log = (worldXY 2).log ++ seg ∧
      seg.filter Event.isEvaluate = [Event.evaluate watcherXY.1.id] ∧
      (∀ v, (Except.ok (Val.num 2) : Except Val Val) = .ok v →
        ((v.strictNe watcherXY.1.value = true ∨ isObject v = true ∨ watcherXY.1.deep = true) →
          seg.filter Event.isCallback = [Event.callback watcherXY.1.id v watcherXY.1.value] ∧
            w1.value = v) ∧
        (¬ (v.strictNe watcherXY.1.value = true ∨ isObject v = true ∨ watcherXY.1.deep = true) →
          seg.filter Event.isCallback = [] ∧ w1.value = watcherXY.1.value ∧ res = .ok ())) ∧
      (∀ e, (Except.ok (Val.num 2) : Except Val Val) = .error e →
        seg.filter Event.isCallback = [] ∧ w1.value = watcherXY.1.value ∧ res = .error e) :=
  ⟨by decide, by decide, by decide, by decide, by decide, by decide,
    run_fires_iff 0 watcherXY.1 (worldXY 2) (.ok (Val.num 2))
      (stateOf (watcherXY.1.get 0 (worldXY 2))).1 (stateOf (watcherXY.1.get 0 (worldXY 2))).2
      (by decide) (by rfl)⟩

/-- C3 fails on `NaN`. A watcher on `() => NaN` with `deep` unset holds `NaN`
after construction; a `run()` computes `NaN` again, which is not a container,
and yet calls the callback once, with `(NaN, NaN)`, because `value !==
this.value` holds of `NaN` and itself. -/
theorem C3_run_fires_on_unchanged_NaN :
    watcherNaN.1.active = true ∧ watcherNaN.1.deep = false ∧
    watcherNaN.1.value = Val.nan ∧
    (watcherNaN.1.getter watcherNaN.2.heap watcherNaN.1.vm).outcome = .ok Val.nan ∧
    (watcherNaN.1.get 0 watcherNaN.2).map (fun r => r.1) = some (.ok Val.nan) ∧
    isObject Val.nan = false ∧
    (watcherNaN.1.run 0 watcherNaN.2).map (fun r => r.1) = some (.ok ()) ∧
    (stateOf (watcherNaN.1.run 0 watcherNaN.2)).2.log.filter Event.isCallback
      = [Event.callback 1 Val.nan Val.nan] ∧
    (stateOf (watcherNaN.1.run 0 watcherNaN.2)).1.value = Val.nan :=
  ⟨by decide, by decide, by decide, by rfl, by rfl, by decide, by rfl, by decide, by decide⟩

/-! ## Fields that never change, and `update()` -/

theorem sameConfig_refl (w : Watcher) : w.SameConfig w :=
  ⟨rfl, rfl, rfl, rfl, rfl, rfl, rfl, rfl, rfl, rfl⟩

theorem sameConfig_trans {a b c : Watcher} (h1 : a.SameConfig b) (h2 : b.SameConfig c) :
    a.SameConfig c := by
  obtain ⟨a1, a2, a3, a4, a5, a6, a7, a8, a9, a10⟩ := h1
  obtain ⟨b1, b2, b3, b4, b5, b6, b7, b8, b9, b10⟩ := h2
  exact ⟨b1.trans a1, b2.trans a2, b3.trans a3, b4.trans a4, b5.trans a5, b6.trans a6,
    b7.trans a7, b8.trans a8, b9.trans a9, b10.trans a10⟩

/-- What `get()` leaves alone in the watcher. -/
theorem get_frame {fuel : Nat} {w : Watcher} {σ : World} {res : Except Val Val}
    {w1 : Watcher} {σ1 : World} (h : w.get fuel σ = some (res, w1, σ1)) :
    w.SameConfig w1 ∧ w1.value = w.value ∧ w1.dirty = w.dirty ∧ w1.active = w.active := by
  obtain ⟨_, _, -, -, hw, -⟩ := get_cases h
  subst hw
  exact ⟨sameConfig_refl _, rfl, rfl, rfl⟩

/-- What `run()` leaves alone in the watcher. -/
theorem run_frame {fuel : Nat} {w : Watcher} {σ : World} {res : Except Val Unit}
    {w1 : Watcher} {σ1 : World} (h : w.run fuel σ = some (res, w1, σ1)) :
    w.SameConfig w1 ∧ w1.dirty = w.dirty ∧ w1.active = w.active := by
  unfold Watcher.run at h
  split at h
  · split at h
    · simp at h
    · rename_i hget
      simp only [Option.some.injEq, Prod.mk.injEq] at h
      obtain ⟨-, hw, -⟩ := h
      subst hw
      exact ⟨(get_frame hget).1, (get_frame hget).2.2⟩
    · rename_i hget
      have hg := get_frame hget
      split at h
      · dsimp only at h
        split at h
        · simp only [Option.some.injEq, Prod.mk.injEq] at h
          obtain ⟨-, hw, -⟩ := h
          subst hw
          exact ⟨hg.1, hg.2.2⟩
        · split at h <;>
          · simp only [Option.some.injEq, Prod.mk.injEq] at h
            obtain ⟨-, hw, -⟩ := h
            subst hw
            exact ⟨hg.1, hg.2.2⟩
      · simp only [Option.some.injEq, Prod.mk.injEq] at h
        obtain ⟨-, hw, -⟩ := h
        subst hw
        exact ⟨hg.1, hg.2.2⟩
  · simp only [Option.some.injEq, Prod.mk.injEq] at h
    obtain ⟨-, hw, -⟩ := h
    subst hw
    exact ⟨sameConfig_refl _, rfl, rfl⟩

theorem queueWatcher_log (wid : Nat) (σ : World) :
    (queueWatcher wid σ).log = σ.log ++ [Event.queueWatcher wid] := by
  unfold queueWatcher
  simp only [World.emit]
  split <;> rfl

/-- C4. `update()` is decided by the mode flags alone. If `lazy` is set (whatever
`sync` is) it returns at once with `dirty` true and nothing else changed: the
world, and so the log and the queue, is untouched. Otherwise, if `sync` is set,
it is `run()`. Otherwise it returns at once with the watcher unchanged and the
world that `queueWatcher(this)` leaves, whose log has the one new entry of that
call and so no evaluator or callback invocation. -/
theorem C4_update_dispatch (fuel : Nat) (w : Watcher) (σ : World) :
    (w.lazy = true →
      w.update fuel σ = some (.ok (), { w with dirty := true }, σ)) ∧
    (w.lazy = false → w.sync = true → w.update fuel σ = w.run fuel σ) ∧
    (w.lazy = false → w.sync = false →
      w.update fuel σ = some (.ok (), w, queueWatcher w.id σ) ∧
      (queueWatcher w.id σ).log = σ.log ++ [Event.queueWatcher w.id]) := by
  refine ⟨fun h => ?_, fun h1 h2 => ?_, fun h1 h2 => ⟨?_, queueWatcher_log _ _⟩⟩
  · simp [Watcher.update, h]
  · simp [Watcher.update, h1, h2]
  · simp [Watcher.update, h1, h2]

/-- C4 on three watchers: one lazy and sync (only `dirty` changes), one sync
(the callback runs at once), one with neither flag (it is queued). -/
theorem C4_update_dispatch_witness :
    (watcherLazySync.1.lazy = true ∧ watcherLazySync.1.sync = true ∧
      watcherLazySync.1.update 0 watcherLazySync.2 =
        some (.ok (), { watcherLazySync.1 with dirty := true }, watcherLazySync.2)) ∧
    (watcherSync.1.update 0 { watcherSync.2 with heap := heapXY 2 } =
        watcherSync.1.run 0 { watcherSync.2 with heap := heapXY 2 } ∧
      (stateOf (watcherSync.1.update 0 { watcherSync.2 with heap := heapXY 2 })).2.log
        = watcherSync.2.log ++
          [.evaluate 1, .addDep 1 10, .addDep 1 11, .callback 1 (.num 2) (.num 1)]) ∧
    ((stateOf (watcherXY.1.update 0 (worldXY 2))).2.log
        = (worldXY 2).log ++ [.queueWatcher 1] ∧
      (stateOf (watcherXY.1.update 0 (worldXY 2))).2.queue = [1]) :=
  ⟨⟨by decide, by decide, (C4_update_dispatch 0 watcherLazySync.1 watcherLazySync.2).1 (by decide)⟩,
    ⟨(C4_update_dispatch 0 watcherSync.1 _).2.1 (by decide) (by decide), by decide⟩,
    ⟨by decide, by decide⟩⟩

/-! ## `teardown()` -/

theorem teardown_active (w : Watcher) (σ : World) : (w.teardown σ).1.active = false := by
  unfold Watcher.teardown
  split
  · rfl
  · rename_i h
    simpa using h

theorem teardown_id (w : Watcher) (σ : World) : (w.teardown σ).1.id = w.id := by
  unfold Watcher.teardown
  split <;> rfl

theorem teardown_of_inactive {w : Watcher} {σ : World} (h : w.active = false) :
    w.teardown σ = (w, σ) := by
  simp [Watcher.teardown, h]

/-- On a watcher that is not active, `update()`, `run()` and a heap write
return, log at most a `queueWatcher` entry and leave it inactive. -/
theorem inactive_perform {fuel : Nat} {w : Watcher} {σ : World} {a : Action}
    (hin : w.active = false)
    (ha : a = Action.update ∨ a = Action.run ∨ ∃ h, a = Action.write h) :
    ∃ (w1 : Watcher) (σ1 : World) (seg : List Event),
      w.perform fuel σ a = some (w1, σ1) ∧ σ1.log = σ.log ++ seg ∧
      (∀ e ∈ seg, e = Event.queueWatcher w.id) ∧ w1.active = false ∧ w1.id = w.id := by
  have hrun : w.run fuel σ = some (.ok (), w, σ) := by simp [Watcher.run, hin]
  rcases ha with ha | ha | ⟨h, ha⟩ <;> subst ha
  · by_cases hl : w.lazy = true
    · refine ⟨{ w with dirty := true }, σ, [], ?_, by simp, by simp, hin, rfl⟩
      simp [Watcher.perform, Watcher.update, hl]
    · by_cases hs : w.sync = true
      · refine ⟨w, σ, [], ?_, by simp, by simp, hin, rfl⟩
        simp [Watcher.perform, Watcher.update, hl, hs, hrun]
      · refine ⟨w, queueWatcher w.id σ, [Event.queueWatcher w.id], ?_, queueWatcher_log _ _,
          by simp, hin, rfl⟩
        simp [Watcher.perform, Watcher.update, hl, hs]
  · exact ⟨w, σ, [], by simp [Watcher.perform, hrun], by simp, by simp, hin, rfl⟩
  · exact ⟨w, { σ with heap := h }, [], by simp [Watcher.perform], by simp, by simp, hin, rfl⟩

theorem inactive_performAll {fuel : Nat} (acts : List Action) {w : Watcher} {σ : World}
    (hin : w.active = false)
    (ha : ∀ a ∈ acts, a = Action.update ∨ a = Action.run ∨ ∃ h, a = Action.write h) :
    ∃ (w1 : Watcher) (σ1 : World) (seg : List Event),
      Watcher.performAll fuel acts (w, σ) = some (w1, σ1) ∧ σ1.log = σ.log ++ seg ∧
      (∀ e ∈ seg, e = Event.queueWatcher w.id) ∧ w1.active = false ∧ w1.id = w.id := by
  induction acts generalizing w σ with
  | nil => exact ⟨w, σ, [], rfl, by simp, by simp, hin, rfl⟩
  | cons a as ih =>
    obtain ⟨w1, σ1, seg1, hp, hl1, hs1, hin1, hid1⟩ :=
      @inactive_perform fuel w σ a hin (ha a (List.mem_cons_self _ _))
    obtain ⟨w2, σ2, seg2, hp2, hl2, hs2, hin2, hid2⟩ :=
      @ih w1 σ1 hin1 (fun b hb => ha b (List.mem_cons_of_mem _ hb))
    refine ⟨w2, σ2, seg1 ++ seg2, ?_, ?_, ?_, hin2, hid2.trans hid1⟩
    · simp only [Watcher.performAll, hp]
      exact hp2
    · rw [hl2, hl1, List.append_assoc]
    · intro e he
      rcases List.mem_append.1 he with h | h
      · exact hs1 e h
      · rw [← hid1]
        exact hs2 e h

/-- C5. A second `teardown()` changes nothing. After `teardown()`, `run()` is a
no-op, and any sequence of `update()` and `run()` calls (with heap writes in
between) returns having logged nothing but `queueWatcher` entries: no
evaluator and no callback invocation of the watcher, whatever its mode. -/
theorem C5_teardown_final (fuel : Nat) (w : Watcher) (σ : World) (acts : List Action)
    (hacts : ∀ a ∈ acts, a = Action.update ∨ a = Action.run ∨ ∃ h, a = Action.write h) :
    (w.teardown σ).1.teardown (w.teardown σ).2 = w.teardown σ ∧
    (w.teardown σ).1.run fuel (w.teardown σ).2 = some (.ok (), w.teardown σ) ∧
    ∃ (w1 : Watcher) (σ1 : World) (seg : List Event),
      Watcher.performAll fuel acts (w.teardown σ) = some (w1, σ1) ∧
      σ1.log = (w.teardown σ).2.log ++ seg ∧
      (∀ e ∈ seg, e = Event.queueWatcher w.id) ∧
      seg.filter (Event.invokes w.id) = [] ∧
      w1.active = false := by
  have hin := teardown_active w σ
  refine ⟨?_, ?_, ?_⟩
  · exact teardown_of_inactive hin
  · simp [Watcher.run, hin]
  · obtain ⟨w1, σ1, seg, hp, hl, hs, hin1, -⟩ :=
      @inactive_performAll fuel acts (w.teardown σ).1 (w.teardown σ).2 hin hacts
    rw [teardown_id] at hs
    refine ⟨w1, σ1, seg, hp, hl, hs, ?_, hin1⟩
    rw [List.filter_eq_nil_iff]
    intro e he
    rw [hs e he]
    simp [Event.invokes]

/-- C5 on the sync watcher of `"x.y"`: after `teardown()`, the write `x.y = 2`
followed by `update()`, `run()`, `update()` logs nothing at all. -/
theorem C5_teardown_final_witness :
    (∀ a ∈ [Action.write (heapXY 2), Action.update, Action.run, Action.update],
      a = Action.update ∨ a = Action.run ∨ ∃ h, a = Action.write h) ∧
    (stateOf ((Watcher.performAll 0 [.write (heapXY 2), .update, .run, .update]
      (watcherSync.1.teardown watcherSync.2)).map (fun s => ((), s)))).2.log
      = watcherSync.2.log ++ [.removeSub 11 1, .removeSub 10 1] ∧
    (watcherSync.1.teardown watcherSync.2).1.teardown (watcherSync.1.teardown watcherSync.2).2
      = watcherSync.1.teardown watcherSync.2 ∧
    (watcherSync.1.teardown watcherSync.2).1.run 0 (watcherSync.1.teardown watcherSync.2).2
      = some (.ok (), watcherSync.1.teardown watcherSync.2) ∧
    ∃ (w1 : Watcher) (σ1 : World) (seg : List Event),
      Watcher.performAll 0 [.write (heapXY 2), .update, .run, .update]
        (watcherSync.1.teardown watcherSync.2) = some (w1, σ1) ∧
      σ1.log = (watcherSync.1.teardown watcherSync.2).2.log ++ seg ∧
      (∀ e ∈ seg, e = Event.queueWatcher watcherSync.1.id) ∧
      seg.filter (Event.invokes watcherSync.1.id) = [] ∧
      w1.active = false :=
  ⟨by
      intro a ha
      simp only [List.mem_cons, List.mem_singleton, List.not_mem_nil, or_false] at ha
      rcases ha with rfl | rfl | rfl | rfl
      · exact Or.inr (Or.inr ⟨_, rfl⟩)
      · exact Or.inl rfl
      · exact Or.inr (Or.inl rfl)
      · exact Or.inl rfl,
    by decide,
    C5_teardown_final 0 watcherSync.1 watcherSync.2
      [.write (heapXY 2), .update, .run, .update]
      (by
        intro a ha
        simp only [List.mem_cons, List.mem_singleton, List.not_mem_nil, or_false] at ha
        rcases ha with rfl | rfl | rfl | rfl
        · exact Or.inr (Or.inr ⟨_, rfl⟩)
        · exact Or.inl rfl
        · exact Or.inr (Or.inl rfl)
        · exact Or.inl rfl)⟩

/-! ## Lazy watchers -/

theorem update_frame {fuel : Nat} {w : Watcher} {σ : World} {res : Except Val Unit}
    {w1 : Watcher} {σ1 : World} (h : w.update fuel σ = some (res, w1, σ1)) :
    w.SameConfig w1 ∧ w1.active = w.active := by
  unfold Watcher.update at h
  split at h
  · simp only [Option.some.injEq, Prod.mk.injEq] at h
    obtain ⟨-, hw, -⟩ := h
    subst hw
    exact ⟨sameConfig_refl _, rfl⟩
  · split at h
    · exact ⟨(run_frame h).1, (run_frame h).2.2⟩
    · simp only [Option.some.injEq, Prod.mk.injEq] at h
      obtain ⟨-, hw, -⟩ := h
      subst hw
      exact ⟨sameConfig_refl _, rfl⟩

/-- What `evaluate()` does to the watcher: when `get()` returns `v` it stores
`v` and clears `dirty`; when `get()` rethrows it stores nothing. -/
theorem evaluate_cases {fuel : Nat} {w : Watcher} {σ : World} {res : Except Val Unit}
    {w1 : Watcher} {σ1 : World} (h : w.evaluate fuel σ = some (res, w1, σ1)) :
    ∃ gres wg, w.get fuel σ = some (gres, wg, σ1) ∧ w.SameConfig w1 ∧ w1.active = w.active ∧
      ((∃ v, gres = .ok v ∧ res = .ok () ∧ w1.value = v ∧ w1.dirty = false) ∨
       (∃ e, gres = .error e ∧ res = .error e ∧ w1.value = w.value ∧ w1.dirty = w.dirty)) := by
  unfold Watcher.evaluate at h
  split at h
  · simp at h
  · rename_i e wg σg hget
    simp only [Option.some.injEq, Prod.mk.injEq] at h
    obtain ⟨hr, hw, hσ⟩ := h
    subst hr hw hσ
    have hg := get_frame hget
    exact ⟨_, _, hget, hg.1, hg.2.2.2, Or.inr ⟨e, rfl, rfl, hg.2.1, hg.2.2.1⟩⟩
  · rename_i v wg σg hget
    simp only [Option.some.injEq, Prod.mk.injEq] at h
    obtain ⟨hr, hw, hσ⟩ := h
    subst hr hw hσ
    have hg := get_frame hget
    exact ⟨_, _, hget, hg.1, hg.2.2.2, Or.inl ⟨v, rfl, rfl, rfl, rfl⟩⟩

theorem teardown_frame (w : Watcher) (σ : World) :
    w.SameConfig (w.teardown σ).1 ∧ (w.teardown σ).1.dirty = w.dirty ∧
      (w.teardown σ).1.value = w.value := by
  unfold Watcher.teardown
  split
  · exact ⟨sameConfig_refl _, rfl, rfl⟩
  · exact ⟨sameConfig_refl _, rfl, rfl⟩

theorem perform_frame {fuel : Nat} {w : Watcher} {σ : World} {a : Action}
    {w1 : Watcher} {σ1 : World} (hp : w.perform fuel σ a = some (w1, σ1)) :
    w.SameConfig w1 := by
  cases a with
  | get =>
    simp only [Watcher.perform, Option.map_eq_some'] at hp
    obtain ⟨⟨res, w2, σ2⟩, hget, heq⟩ := hp
    cases heq
    exact (get_frame hget).1
  | run =>
    simp only [Watcher.perform, Option.map_eq_some'] at hp
    obtain ⟨⟨res, w2, σ2⟩, hget, heq⟩ := hp
    cases heq
    exact (run_frame hget).1
  | update =>
    simp only [Watcher.perform, Option.map_eq_some'] at hp
    obtain ⟨⟨res, w2, σ2⟩, hget, heq⟩ := hp
    cases heq
    exact (update_frame hget).1
  | evaluate =>
    simp only [Watcher.perform, Option.map_eq_some'] at hp
    obtain ⟨⟨res, w2, σ2⟩, hget, heq⟩ := hp
    cases heq
    obtain ⟨_, _, -, h, -⟩ := evaluate_cases hget
    exact h
  | teardown =>
    simp only [Watcher.perform, Option.some.injEq] at hp
    have ht := (teardown_frame w σ).1
    rw [hp] at ht
    exact ht
  | write heap =>
    simp only [Watcher.perform, Option.some.injEq, Prod.mk.injEq] at hp
    obtain ⟨hw, -⟩ := hp
    subst hw
    exact sameConfig_refl _

theorem performAll_frame {fuel : Nat} (acts : List Action) {s s1 : Watcher × World}
    (hp : Watcher.performAll fuel acts s = some s1) : s.1.SameConfig s1.1 := by
  induction acts generalizing s with
  | nil =>
    simp only [Watcher.performAll, Option.some.injEq] at hp
    subst hp
    exact sameConfig_refl _
  | cons a as ih =>
    simp only [Watcher.performAll] at hp
    split at hp
    · simp at hp
    · rename_i s2 hs2
      exact sameConfig_trans (@perform_frame fuel _ _ a s2.1 s2.2 hs2) (ih hp)

/-- No method other than `update()` sets `dirty`. -/
theorem perform_dirty {fuel : Nat} {w : Watcher} {σ : World} {a : Action}
    {w1 : Watcher} {σ1 : World} (ha : a ≠ Action.update) (hd : w.dirty = false)
    (hp : w.perform fuel σ a = some (w1, σ1)) : w1.dirty = false := by
  cases a with
  | get =>
    simp only [Watcher.perform, Option.map_eq_some'] at hp
    obtain ⟨⟨res, w2, σ2⟩, hget, heq⟩ := hp
    cases heq
    rw [(get_frame hget).2.2.1, hd]
  | run =>
    simp only [Watcher.perform, Option.map_eq_some'] at hp
    obtain ⟨⟨res, w2, σ2⟩, hget, heq⟩ := hp
    cases heq
    rw [(run_frame hget).2.1, hd]
  | update => exact absurd rfl ha
  | evaluate =>
    simp only [Watcher.perform, Option.map_eq_some'] at hp
    obtain ⟨⟨res, w2, σ2⟩, hget, heq⟩ := hp
    cases heq
    obtain ⟨_, _, -, -, -, h | h⟩ := evaluate_cases hget
    · exact h.choose_spec.2.2.2
    · rw [h.choose_spec.2.2.2, hd]
  | teardown =>
    simp only [Watcher.perform, Option.some.injEq] at hp
    have ht := (teardown_frame w σ).2.1
    rw [hp] at ht
    rw [ht, hd]
  | write heap =>
    simp only [Watcher.perform, Option.some.injEq, Prod.mk.injEq] at hp
    obtain ⟨hw, -⟩ := hp
    subst hw
    exact hd

/-- The log entries of one `get()` hold exactly one evaluator invocation. -/
theorem get_evaluates_once {fuel : Nat} {w : Watcher} {σ : World} {res : Except Val Val}
    {w1 : Watcher} {σ1 : World} (h : w.get fuel σ = some (res, w1, σ1)) :
    ∃ seg, σ1.log = σ.log ++ seg ∧ seg.filter Event.isEvaluate = [Event.evaluate w.id] ∧
      seg.filter Event.isCallback = [] := by
  obtain ⟨seen, touches, -, -, -, hσ⟩ := get_cases h
  subst hσ
  refine ⟨w.getLog σ touches, rfl, ?_, ?_⟩
  · rw [filter_getLog] <;> simp [Event.isEvaluate]
  · rw [filter_getLog] <;> simp [Event.isCallback]

/-! ## Errors in the evaluator -/

theorem traverse_undefined (fuel : Nat) (heap : Heap) (seen : Finset Nat) :
    traverse fuel heap Val.undefined seen = some (∅, []) := by
  cases fuel <;> simp [traverse, _traverse]

/-! ## Errors in the callback -/

/-- C8. When `run()` on an active watcher fires the callback (`get()` returned
`v` and the firing condition holds) and the callback throws `e`: with `user`
set `e` is passed to `handleError` with the description
`callback for watcher "<expression>"` and `run()` returns; with `user` unset
`run()` throws `e`. In both cases the watcher left behind stores `v`: the
assignment came before the call. -/
theorem C8_run_callback_error (fuel : Nat) (w : Watcher) (σ : World) (v : Val)
    (wg : Watcher) (σg : World) (e : Val)
    (hact : w.active = true)
    (hget : w.get fuel σ = some (.ok v, wg, σg))
    (hfire : v.strictNe w.value = true ∨ isObject v = true ∨ w.deep = true)
    (hthrow : w.cb w.vm v w.value = some e) :
    ∃ (w1 : Watcher) (σ1 : World),
      w.run fuel σ = some (if w.user then .ok () else .error e, w1, σ1) ∧
      w1.value = v ∧
      σ1.log = σg.log ++ (Event.callback w.id v w.value ::
        if w.user then
          [Event.handleError e w.vm ("callback for watcher \"" ++ w.expression ++ "\"")]
        else []) := by
  obtain ⟨hcfg, hval, -, -⟩ := get_frame hget
  obtain ⟨hvm, hexp, hcb, hid, hdeep, huser, -⟩ := hcfg
  have hf1 : v.strictNe wg.value = true ∨ isObject v = true ∨ wg.deep = true := by
    rw [hval, hdeep]; exact hfire
  have hc : wg.cb wg.vm v wg.value = some e := by rw [hcb, hvm, hval]; exact hthrow
  unfold Watcher.run
  simp only [hact, if_true, hget]
  simp only [hf1, if_true, hc]
  by_cases hu : w.user = true
  · have hu1 : wg.user = true := by rw [huser]; exact hu
    simp only [hu, hu1, if_true]
    refine ⟨_, _, rfl, rfl, ?_⟩
    simp [handleError, World.emit, hid, hval, hvm, hexp]
  · have hu1 : ¬ wg.user = true := by rw [huser]; exact hu
    simp only [hu, hu1, if_false]
    refine ⟨_, _, rfl, rfl, ?_⟩
    simp [World.emit, hid, hval]

/-- C8 on the path `"x.y"` with a throwing callback, after the write
`x.y = 2`: the user watcher reports the error and returns, the plain watcher
throws, and both store 2. -/
theorem C8_run_callback_error_witness :
    (watcherUserCbThrow.1.run 0 { watcherUserCbThrow.2 with heap := heapXY 2 }).map
      (fun r => r.1) = some (.ok ()) ∧
    (stateOf (watcherUserCbThrow.1.run 0 { watcherUserCbThrow.2 with heap := heapXY 2 })).2.log
      = watcherUserCbThrow.2.log ++
        [.evaluate 1, .addDep 1 10, .addDep 1 11, .callback 1 (.num 2) (.num 1),
          .handleError (.str "boom") 0 "callback for watcher \"x.y\""] ∧
    (watcherCbThrow.1.run 0 { watcherCbThrow.2 with heap := heapXY 2 }).map
      (fun r => r.1) = some (.error (.str "boom")) ∧
    (stateOf (watcherCbThrow.1.run 0 { watcherCbThrow.2 with heap := heapXY 2 })).1.value
      = Val.num 2 ∧
    ∃ (w1 : Watcher) (σ1 : World),
      watcherUserCbThrow.1.run 0 { watcherUserCbThrow.2 with heap := heapXY 2 } =
        some (if watcherUserCbThrow.1.user then .ok () else .error (.str "boom"), w1, σ1) ∧
      w1.value = Val.num 2 ∧
      σ1.log =
        (stateOf (watcherUserCbThrow.1.get 0
          { watcherUserCbThrow.2 with heap := heapXY 2 })).2.log ++
        (Event.callback watcherUserCbThrow.1.id (.num 2) watcherUserCbThrow.1.value ::
          if watcherUserCbThrow.1.user then
            [Event.handleError (.str "boom") watcherUserCbThrow.1.vm
              ("callback for watcher \"" ++ watcherUserCbThrow.1.expression ++ "\"")]
          else []) :=
  ⟨by rfl, by decide, by rfl, by decide,
    C8_run_callback_error 0 watcherUserCbThrow.1 { watcherUserCbThrow.2 with heap := heapXY 2 }
      (.num 2)
      (stateOf (watcherUserCbThrow.1.get 0 { watcherUserCbThrow.2 with heap := heapXY 2 })).1
      (stateOf (watcherUserCbThrow.1.get 0 { watcherUserCbThrow.2 with heap := heapXY 2 })).2
      (.str "boom") (by decide) (by rfl) (by decide) (by rfl)⟩

/-! ## Unparseable paths -/

theorem get_noop (fuel : Nat) (w : Watcher) (σ : World) (h : w.getter = noop) :
    w.get fuel σ = some (.ok Val.undefined, w.afterGet σ [],
      w.worldAfterGet σ (if w.deep then ∅ else σ.seenObjects) []) := by
  have hv : w.getValue σ = Val.undefined := by simp [Watcher.getValue, h, noop]
  have hr : w.getResult σ = .ok Val.undefined := by simp [Watcher.getResult, h, noop]
  rw [get_eq, hr]
  unfold Watcher.getTraverse
  by_cases hd : w.deep = true
  · simp [hd, hv, traverse_undefined]
  · simp [hd]

theorem idle_perform {fuel : Nat} {w : Watcher} {σ : World} {a : Action}
    {w1 : Watcher} {σ1 : World} (hi : w.newDeps = [] ∧ w.newDepIds = ∅)
    (hp : w.perform fuel σ a = some (w1, σ1)) : w1.newDeps = [] ∧ w1.newDepIds = ∅ := by
  have hrun : ∀ {res w2 σ2}, w.run fuel σ = some (res, w2, σ2) →
      w2.newDeps = [] ∧ w2.newDepIds = ∅ := by
    intro res w2 σ2 h
    unfold Watcher.run at h
    split at h
    · split at h
      · simp at h
      · rename_i hget
        simp only [Option.some.injEq, Prod.mk.injEq] at h
        obtain ⟨-, hw, -⟩ := h
        subst hw
        exact get_idle hget
      · rename_i hget
        have hg := get_idle hget
        split at h
        · dsimp only at h
          split at h
          · simp only [Option.some.injEq, Prod.mk.injEq] at h
            obtain ⟨-, hw, -⟩ := h
            subst hw
            exact hg
          · split at h <;>
            · simp only [Option.some.injEq, Prod.mk.injEq] at h
              obtain ⟨-, hw, -⟩ := h
              subst hw
              exact hg
        · simp only [Option.some.injEq, Prod.mk.injEq] at h
          obtain ⟨-, hw, -⟩ := h
          subst hw
          exact hg
    · simp only [Option.some.injEq, Prod.mk.injEq] at h
      obtain ⟨-, hw, -⟩ := h
      subst hw
      exact hi
  cases a with
  | get =>
    simp only [Watcher.perform, Option.map_eq_some'] at hp
    obtain ⟨⟨res, w2, σ2⟩, hget, heq⟩ := hp
    cases heq
    exact get_idle hget
  | run =>
    simp only [Watcher.perform, Option.map_eq_some'] at hp
    obtain ⟨⟨res, w2, σ2⟩, hget, heq⟩ := hp
    cases heq
    exact hrun hget
  | update =>
    simp only [Watcher.perform, Option.map_eq_some'] at hp
    obtain ⟨⟨res, w2, σ2⟩, hup, heq⟩ := hp
    cases heq
    unfold Watcher.update at hup
    split at hup
    · simp only [Option.some.injEq, Prod.mk.injEq] at hup
      obtain ⟨-, hw, -⟩ := hup
      subst hw
      exact hi
    · split at hup
      · exact hrun hup
      · simp only [Option.some.injEq, Prod.mk.injEq] at hup
        obtain ⟨-, hw, -⟩ := hup
        subst hw
        exact hi
  | evaluate =>
    simp only [Watcher.perform, Option.map_eq_some'] at hp
    obtain ⟨⟨res, w2, σ2⟩, hev, heq⟩ := hp
    cases heq
    unfold Watcher.evaluate at hev
    split at hev
    · simp at hev
    · rename_i hget
      simp only [Option.some.injEq, Prod.mk.injEq] at hev
      obtain ⟨-, hw, -⟩ := hev
      subst hw
      have hg := get_idle hget
      exact hg
    · rename_i hget
      simp only [Option.some.injEq, Prod.mk.injEq] at hev
      obtain ⟨-, hw, -⟩ := hev
      subst hw
      have hg := get_idle hget
      exact hg
  | teardown =>
    simp only [Watcher.perform, Option.some.injEq] at hp
    have ht : (w.teardown σ).1.newDeps = [] ∧ (w.teardown σ).1.newDepIds = ∅ := by
      unfold Watcher.teardown
      split <;> exact hi
    rw [hp] at ht
    exact ht
  | write heap =>
    simp only [Watcher.perform, Option.some.injEq, Prod.mk.injEq] at hp
    obtain ⟨hw, -⟩ := hp
    subst hw
    exact hi

/-- Between two methods the scratch array and set are empty. -/
theorem idle_performAll {fuel : Nat} (acts : List Action) {s s1 : Watcher × World}
    (hi : s.1.newDeps = [] ∧ s.1.newDepIds = ∅)
    (hp : Watcher.performAll fuel acts s = some s1) :
    s1.1.newDeps = [] ∧ s1.1.newDepIds = ∅ := by
  induction acts generalizing s with
  | nil =>
    simp only [Watcher.performAll, Option.some.injEq] at hp
    subst hp
    exact hi
  | cons a as ih =>
    simp only [Watcher.performAll] at hp
    split at hp
    · simp at hp
    · rename_i s2 hs2
      exact ih (@idle_perform fuel _ _ a s2.1 s2.2 hi hs2) hp

/-- After construction the scratch array and set are empty. -/
theorem idle_constructor {vm : Nat} {expOrFn : ExpOrFn} {cb : Callback}
    {options : Option Options} {isRenderWatcher : Bool} {fuel : Nat} {σ : World}
    {res : Except Val Unit} {w : Watcher} {σ1 : World}
    (hnew : Watcher.constructor vm expOrFn cb options isRenderWatcher fuel σ
      = some (res, w, σ1)) :
    w.newDeps = [] ∧ w.newDepIds = ∅ := by
  unfold Watcher.constructor at hnew
  dsimp only at hnew
  split at hnew
  · simp only [Option.some.injEq, Prod.mk.injEq] at hnew
    obtain ⟨-, hw, -⟩ := hnew
    subst hw
    exact ⟨rfl, rfl⟩
  · split at hnew
    · simp at hnew
    · rename_i hget
      simp only [Option.some.injEq, Prod.mk.injEq] at hnew
      obtain ⟨-, hw, -⟩ := hnew
      subst hw
      have hg := get_idle hget
      exact hg
    · rename_i hget
      simp only [Option.some.injEq, Prod.mk.injEq] at hnew
      obtain ⟨-, hw, -⟩ := hnew
      subst hw
      have hg := get_idle hget
      exact hg

/-- C9. For a path that `parsePath` rejects, the constructor returns (it does
not throw, whatever the options): the watcher has the no-op evaluator, its id
is in `vm._watchers`, its value is `undefined`, and outside production the
failure is reported through `warn`. After any sequence of methods and heap
writes, `get()` returns `undefined` without a single `addDep` call and leaves
`deps` and `depIds` empty. -/
theorem C9_unparseable_path (fuel : Nat) (vm : Nat) (path : String) (cb : Callback)
    (options : Option Options) (isRenderWatcher : Bool) (σ : World)
    (hrej : parsePath path = none) :
    ∃ (w : Watcher) (σ1 : World),
      Watcher.constructor vm (.path path) cb options isRenderWatcher fuel σ
        = some (.ok (), w, σ1) ∧
      w.getter = noop ∧
      w.id ∈ (σ1.vms vm)._watchers ∧
      w.value = Val.undefined ∧
      (σ.production = false → ∃ msg, Event.warn msg vm ∈ σ1.log) ∧
      ∀ (acts : List Action) (wa : Watcher) (σa : World),
        Watcher.performAll fuel acts (w, σ1) = some (wa, σa) →
        ∃ (w2 : Watcher) (σ2 : World) (seg : List Event),
          wa.get fuel σa = some (.ok Val.undefined, w2, σ2) ∧
          σ2.log = σa.log ++ seg ∧ (∀ a b, Event.addDep a b ∉ seg) ∧
          w2.deps = [] ∧ w2.depIds = ∅ := by
  have hc : ∃ (w : Watcher) (σ1 : World),
      Watcher.constructor vm (.path path) cb options isRenderWatcher fuel σ
        = some (.ok (), w, σ1) ∧
      w.getter = noop ∧ w.id ∈ (σ1.vms vm)._watchers ∧ w.value = Val.undefined ∧
      (σ.production = false → ∃ msg, Event.warn msg vm ∈ σ1.log) := by
    unfold Watcher.constructor
    simp only [hrej, Option.getD_none]
    split
    · refine ⟨_, _, rfl, rfl, ?_, rfl, ?_⟩
      · by_cases hp : σ.production = true <;> simp [hp, warn, World.emit]
      · intro hp
        simp [hp, warn, World.emit]
    · rw [get_noop _ _ _ rfl]
      refine ⟨_, _, rfl, rfl, ?_, rfl, ?_⟩
      · by_cases hp : σ.production = true <;>
          simp [Watcher.worldAfterGet, Watcher.afterGet, hp, warn, World.emit]
      · intro hp
        refine ⟨"Failed watching path: \"" ++ path ++ "\" " ++
          "Watcher only accepts simple dot-delimited paths. " ++
          "For full control, use a function instead.", ?_⟩
        simp only [Watcher.worldAfterGet, hp, warn, World.emit]
        exact List.mem_append_left _ (List.mem_append_right _ (List.mem_singleton_self _))
  obtain ⟨w, σ1, hnew, hg, hmem, hval, hwarn⟩ := hc
  refine ⟨w, σ1, hnew, hg, hmem, hval, hwarn, ?_⟩
  intro acts wa σa hacts
  have hsame := @performAll_frame fuel acts (w, σ1) (wa, σa) hacts
  have hga : wa.getter = noop := by rw [hsame.2.2.2.2.2.2.2.2.2]; exact hg
  have hidle := @idle_performAll fuel acts (w, σ1) (wa, σa) (idle_constructor hnew) hacts
  have hreads : wa.getReads σa [] = [] := by
    simp [Watcher.getReads, touchedDeps, hga, noop]
  refine ⟨_, _, wa.getLog σa [], get_noop fuel wa σa hga, rfl, ?_, ?_, ?_⟩
  · intro a b hab
    rw [mem_getLog] at hab
    rcases hab with h | h | h | h | h
    · cases h
    · simp [hga, noop, logOfTrack] at h
    · obtain ⟨_, h⟩ := mem_getErrorLog h
      cases h
    · simp [touchedDeps, logOfTrack] at h
    · obtain ⟨_, h⟩ := mem_logOfUnsub_cases h
      cases h
  · have h1 : wa.newDeps = [] := hidle.1
    simp [Watcher.afterGet, hreads, collectDeps, h1]
  · have h2 : wa.newDepIds = ∅ := hidle.2
    simp [Watcher.afterGet, hreads, collectIds, h2]

/-- C9 on the path `"a[0]"`, rejected by `parsePath`, with `deep` and `user`
set: the constructor returns, logs only the warning, and a later `get()`
returns `undefined`. -/
theorem C9_unparseable_path_witness :
    (parsePath "a[0]").isSome = false ∧
    (stateOf (Watcher.constructor 0 (.path "a[0]") cbQuiet (some optionsUserDeep) false 0
      (World.init (heapXY 1)))).2.log =
      [.warn ("Failed watching path: \"a[0]\" Watcher only accepts simple dot-delimited " ++
        "paths. For full control, use a function instead.") 0, .evaluate 1] ∧
    ∃ (w : Watcher) (σ1 : World),
      Watcher.constructor 0 (.path "a[0]") cbQuiet (some optionsUserDeep) false 0
        (World.init (heapXY 1)) = some (.ok (), w, σ1) ∧
      w.getter = noop ∧
      w.id ∈ (σ1.vms 0)._watchers ∧
      w.value = Val.undefined ∧
      ((World.init (heapXY 1)).production = false → ∃ msg, Event.warn msg 0 ∈ σ1.log) ∧
      ∀ (acts : List Action) (wa : Watcher) (σa : World),
        Watcher.performAll 0 acts (w, σ1) = some (wa, σa) →
        ∃ (w2 : Watcher) (σ2 : World) (seg : List Event),
          wa.get 0 σa = some (.ok Val.undefined, w2, σ2) ∧
          σ2.log = σa.log ++ seg ∧ (∀ a b, Event.addDep a b ∉ seg) ∧
          w2.deps = [] ∧ w2.depIds = ∅ :=
  ⟨by rfl, by decide,
    C9_unparseable_path 0 0 "a[0]" cbQuiet (some optionsUserDeep) false (World.init (heapXY 1))
      (by rfl)⟩

/-! ## Deep traversal -/

theorem traverse_selfPlain_none (fuel : Nat) (seen : Finset Nat) :
    _traverse fuel heapSelfPlain (.ref 0) seen = none := by
  induction fuel with
  | zero => rfl
  | succ n ih =>
    simp [_traverse, heapSelfPlain, traverseChildren] at ih ⊢
    simp [ih]

theorem ob_mem_obIds {heap : Heap} {a : Nat} {o : Obj} {d : Nat}
    (ha : heap[a]? = some o) (hd : o.ob = some d) : d ∈ obIds heap := by
  unfold obIds
  rw [List.mem_toFinset, List.mem_filterMap]
  exact ⟨o, List.getElem?_mem ha, hd⟩

theorem unseen_mono (heap : Heap) {seen seen1 : Finset Nat} (h : seen ⊆ seen1) :
    (obIds heap \ seen1).card ≤ (obIds heap \ seen).card :=
  Finset.card_le_card (Finset.sdiff_subset_sdiff (Finset.Subset.refl _) h)

theorem unseen_insert (heap : Heap) {seen : Finset Nat} {d : Nat}
    (hd : d ∈ obIds heap) (hs : d ∉ seen) :
    (obIds heap \ insert d seen).card + 1 ≤ (obIds heap \ seen).card := by
  have hlt : (obIds heap \ insert d seen) ⊂ (obIds heap \ seen) := by
    rw [Finset.ssubset_iff_of_subset
      (Finset.sdiff_subset_sdiff (Finset.Subset.refl _) (Finset.subset_insert d seen))]
    exact ⟨d, Finset.mem_sdiff.2 ⟨hd, hs⟩, fun h =>
      (Finset.mem_sdiff.1 h).2 (Finset.mem_insert_self d seen)⟩
  exact Finset.card_lt_card hlt

theorem weight_lt_bound (heap : Heap) (rank : Nat → Nat) (v : Val) :
    weight heap rank v + 1 ≤ weightBound heap rank := by
  unfold weightBound
  cases v with
  | ref a =>
    cases ha : heap[a]? with
    | none => simp [weight, ha]
    | some o =>
      by_cases hp : o.plain = true
      · have hlt : a < heap.length := by
          by_contra hge
          rw [List.getElem?_eq_none (Nat.le_of_not_lt hge)] at ha
          cases ha
        have := Finset.le_sup (f := rank) (Finset.mem_range.2 hlt)
        simp only [weight, ha, hp, if_true]
        omega
      · simp [weight, ha, hp]
  | _ => simp [weight]

/-- The loop over the children returns when each child call does. -/
theorem children_fuel (heap : Heap) (rank : Nat → Nat) (f : Nat)
    (ih : ∀ v seen, (obIds heap \ seen).card * weightBound heap rank + weight heap rank v + 1 ≤ f →
      ∃ seen1 t, _traverse f heap v seen = some (seen1, t) ∧ seen ⊆ seen1)
    (a : Nat) (n : Nat) :
    ∀ (ps : List Property) (seen : Finset Nat), (obIds heap \ seen).card ≤ n →
      (∀ p ∈ ps, n * weightBound heap rank + weight heap rank p.val + 1 ≤ f) →
      ∃ seen1 t, traverseChildren (_traverse f heap) a ps seen = some (seen1, t) ∧
        seen ⊆ seen1 := by
  intro ps
  induction ps with
  | nil =>
    intro seen _ _
    exact ⟨seen, [], rfl, Finset.Subset.refl _⟩
  | cons p ps ihps =>
    intro seen hn hps
    have hp := hps p (List.mem_cons_self _ _)
    have hle : (obIds heap \ seen).card * weightBound heap rank ≤ n * weightBound heap rank :=
      Nat.mul_le_mul_right _ hn
    obtain ⟨s1, t1, h1, hs1⟩ := ih p.val seen (by omega)
    obtain ⟨s2, t2, h2, hs2⟩ := ihps s1 (le_trans (unseen_mono heap hs1) hn)
      (fun q hq => hps q (List.mem_cons_of_mem _ hq))
    refine ⟨s2, Touch.read a ps.length :: t1 ++ t2, ?_, hs1.trans hs2⟩
    simp only [traverseChildren, h1, h2]

/-- With a rank that falls along every edge from a plain container to a plain
container, `_traverse` returns once the budget exceeds a bound given by the
number of `__ob__` ids not yet seen and the rank of the value. -/
theorem traverse_fuel (heap : Heap) (rank : Nat → Nat)
    (hrank : ∀ a o, heap[a]? = some o → o.plain = true → ∀ p ∈ o.props, ∀ b o1,
      p.val = Val.ref b → heap[b]? = some o1 → o1.plain = true → rank b < rank a) :
    ∀ fuel v seen,
      (obIds heap \ seen).card * weightBound heap rank + weight heap rank v + 1 ≤ fuel →
      ∃ seen1 t, _traverse fuel heap v seen = some (seen1, t) ∧ seen ⊆ seen1 := by
  intro fuel
  induction fuel with
  | zero =>
    intro v seen h
    omega
  | succ f ih =>
    intro v seen h
    cases v with
    | ref a =>
      unfold _traverse
      cases ha : heap[a]? with
      | none => exact ⟨seen, [], rfl, Finset.Subset.refl _⟩
      | some o =>
        dsimp only
        by_cases hskip : (o.frozen || o.isVNode) = true
        · simp only [hskip, if_true]
          exact ⟨seen, [], rfl, Finset.Subset.refl _⟩
        · simp only [hskip, if_false]
          cases hob : o.ob with
          | some d =>
            dsimp only
            by_cases hd : d ∈ seen
            · simp only [hd, if_true]
              exact ⟨seen, [], rfl, Finset.Subset.refl _⟩
            · simp only [hd, if_false]
              have hin := unseen_insert heap (ob_mem_obIds ha hob) hd
              have hK : ∀ p ∈ o.props.reverse,
                  (obIds heap \ insert d seen).card * weightBound heap rank +
                    weight heap rank p.val + 1 ≤ f := by
                intro p _
                have hw := weight_lt_bound heap rank p.val
                have hmul : ((obIds heap \ insert d seen).card + 1) * weightBound heap rank ≤
                    (obIds heap \ seen).card * weightBound heap rank :=
                  Nat.mul_le_mul_right _ hin
                rw [Nat.add_mul, Nat.one_mul] at hmul
                omega
              obtain ⟨s1, t1, h1, hs1⟩ :=
                children_fuel heap rank f ih a _ o.props.reverse (insert d seen) (le_refl _) hK
              refine ⟨s1, Touch.enter a :: t1, ?_, (Finset.subset_insert d seen).trans hs1⟩
              simp [h1]
          | none =>
            dsimp only
            have hplain : o.plain = true := by
              simp only [Bool.or_eq_true, not_or, Bool.not_eq_true] at hskip
              simp [Obj.plain, hskip.1, hskip.2, hob]
            have hw : weight heap rank (Val.ref a) = rank a + 1 := by
              simp [weight, ha, hplain]
            rw [hw] at h
            have hK : ∀ p ∈ o.props.reverse,
                (obIds heap \ seen).card * weightBound heap rank +
                  weight heap rank p.val + 1 ≤ f := by
              intro p hp
              have hp1 : p ∈ o.props := List.mem_reverse.1 hp
              have hle : weight heap rank p.val ≤ rank a := by
                cases hv : p.val with
                | ref b =>
                  simp only [weight]
                  cases hb : heap[b]? with
                  | none => simp
                  | some o1 =>
                    by_cases hp2 : o1.plain = true
                    · simp only [hp2, if_true]
                      exact hrank a o ha hplain p hp1 b o1 hv hb hp2
                    · simp [hp2]
                | _ => simp [weight]
              omega
            obtain ⟨s1, t1, h1, hs1⟩ :=
              children_fuel heap rank f ih a _ o.props.reverse seen (le_refl _) hK
            refine ⟨s1, Touch.enter a :: t1, ?_, hs1⟩
            simp [h1]
    | undefined => exact ⟨seen, [], by simp [_traverse], Finset.Subset.refl _⟩
    | null => exact ⟨seen, [], by simp [_traverse], Finset.Subset.refl _⟩
    | bool b => exact ⟨seen, [], by simp [_traverse], Finset.Subset.refl _⟩
    | num n => exact ⟨seen, [], by simp [_traverse], Finset.Subset.refl _⟩
    | str s => exact ⟨seen, [], by simp [_traverse], Finset.Subset.refl _⟩
    | nan => exact ⟨seen, [], by simp [_traverse], Finset.Subset.refl _⟩

theorem once_nil (heap : Heap) (seen : Finset Nat) : Once heap seen seen [] :=
  ⟨Finset.Subset.refl _, fun _ _ _ _ _ => ⟨fun _ => List.not_mem_nil _,
    fun h => absurd h (List.not_mem_nil _), by simp⟩⟩

theorem once_append {heap : Heap} {seen s1 s2 : Finset Nat} {t1 t2 : List Touch}
    (h1 : Once heap seen s1 t1) (h2 : Once heap s1 s2 t2) : Once heap seen s2 (t1 ++ t2) := by
  refine ⟨h1.1.trans h2.1, fun a o d ha hd => ?_⟩
  obtain ⟨p1, q1, c1⟩ := h1.2 a o d ha hd
  obtain ⟨p2, q2, c2⟩ := h2.2 a o d ha hd
  refine ⟨fun hs hm => ?_, fun hm => ?_, ?_⟩
  · rcases List.mem_append.1 hm with h | h
    · exact p1 hs h
    · exact p2 (h1.1 hs) h
  · rcases List.mem_append.1 hm with h | h
    · exact h2.1 (q1 h)
    · exact q2 h
  · rw [List.count_append]
    by_cases hm : Touch.enter a ∈ t1
    · have : t2.count (Touch.enter a) = 0 := List.count_eq_zero.2 (p2 (q1 hm))
      omega
    · have : t1.count (Touch.enter a) = 0 := List.count_eq_zero.2 hm
      omega

theorem once_read {heap : Heap} {seen s1 : Finset Nat} {t : List Touch} (b i : Nat)
    (h : Once heap seen s1 t) : Once heap seen s1 (Touch.read b i :: t) := by
  refine ⟨h.1, fun a o d ha hd => ?_⟩
  obtain ⟨p, q, c⟩ := h.2 a o d ha hd
  refine ⟨fun hs hm => ?_, fun hm => ?_, ?_⟩
  · rcases List.mem_cons.1 hm with h1 | h1
    · cases h1
    · exact p hs h1
  · rcases List.mem_cons.1 hm with h1 | h1
    · cases h1
    · exact q h1
  · rw [List.count_cons_of_ne (by simp)]
    exact c

theorem children_once {heap : Heap}
    {rec : Val → Finset Nat → Option (Finset Nat × List Touch)}
    (hrec : ∀ v seen s1 t, rec v seen = some (s1, t) → Once heap seen s1 t) (a : Nat) :
    ∀ (ps : List Property) (seen s1 : Finset Nat) (t : List Touch),
      traverseChildren rec a ps seen = some (s1, t) → Once heap seen s1 t := by
  intro ps
  induction ps with
  | nil =>
    intro seen s1 t h
    simp only [traverseChildren, Option.some.injEq, Prod.mk.injEq] at h
    obtain ⟨h1, h2⟩ := h
    subst h1 h2
    exact once_nil heap seen
  | cons p ps ih =>
    intro seen s1 t h
    simp only [traverseChildren] at h
    split at h
    · simp at h
    · rename_i sa ta hp
      split at h
      · simp at h
      · rename_i sb tb hps
        simp only [Option.some.injEq, Prod.mk.injEq] at h
        obtain ⟨h1, h2⟩ := h
        subst h1 h2
        exact once_read a ps.length (once_append (hrec _ _ _ _ hp) (ih _ _ _ hps))

/-- Entering a container whose `__ob__` id `d` was not in `seen`. -/
theorem once_enter_observed {heap : Heap} {seen s1 : Finset Nat} {t : List Touch}
    {a : Nat} {o : Obj} {d : Nat} (ha : heap[a]? = some o) (hob : o.ob = some d)
    (hd : d ∉ seen) (h : Once heap (insert d seen) s1 t) :
    Once heap seen s1 (Touch.enter a :: t) := by
  refine ⟨(Finset.subset_insert d seen).trans h.1, fun a1 o1 d1 ha1 hd1 => ?_⟩
  obtain ⟨p, q, c⟩ := h.2 a1 o1 d1 ha1 hd1
  by_cases hEq : a1 = a
  · subst hEq
    rw [ha] at ha1
    cases ha1
    rw [hob] at hd1
    cases hd1
    have hnot : Touch.enter a1 ∉ t := p (Finset.mem_insert_self _ _)
    refine ⟨fun hs => absurd hs hd, fun _ => h.1 (Finset.mem_insert_self _ _), ?_⟩
    rw [List.count_cons_self, List.count_eq_zero.2 hnot]
  · have hne : Touch.enter a ≠ Touch.enter a1 := fun hc => hEq (by cases hc; rfl)
    refine ⟨fun hs hm => ?_, fun hm => ?_, ?_⟩
    · rcases List.mem_cons.1 hm with h1 | h1
      · exact hne h1.symm
      · exact p (Finset.mem_insert_of_mem hs) h1
    · rcases List.mem_cons.1 hm with h1 | h1
      · exact absurd h1.symm hne
      · exact q h1
    · rw [List.count_cons_of_ne hne.symm]
      exact c

/-- Entering a container without `__ob__`. -/
theorem once_enter_plain {heap : Heap} {seen s1 : Finset Nat} {t : List Touch}
    {a : Nat} {o : Obj} (ha : heap[a]? = some o) (hob : o.ob = none)
    (h : Once heap seen s1 t) : Once heap seen s1 (Touch.enter a :: t) := by
  refine ⟨h.1, fun a1 o1 d1 ha1 hd1 => ?_⟩
  obtain ⟨p, q, c⟩ := h.2 a1 o1 d1 ha1 hd1
  have hEq : a1 ≠ a := by
    rintro rfl
    rw [ha] at ha1
    cases ha1
    rw [hob] at hd1
    cases hd1
  have hne : Touch.enter a ≠ Touch.enter a1 := fun hc => hEq (by cases hc; rfl)
  refine ⟨fun hs hm => ?_, fun hm => ?_, ?_⟩
  · rcases List.mem_cons.1 hm with h1 | h1
    · exact hne h1.symm
    · exact p hs h1
  · rcases List.mem_cons.1 hm with h1 | h1
    · exact absurd h1.symm hne
    · exact q h1
  · rw [List.count_cons_of_ne hne.symm]
    exact c

/-- Every completed `_traverse` enters each container with `__ob__` at most
once. -/
theorem traverse_once (heap : Heap) :
    ∀ fuel v seen s1 t, _traverse fuel heap v seen = some (s1, t) → Once heap seen s1 t := by
  intro fuel
  induction fuel with
  | zero =>
    intro v seen s1 t h
    cases v <;> simp [_traverse] at h <;>
      (obtain ⟨h1, h2⟩ := h; subst h1 h2; exact once_nil heap seen)
  | succ f ih =>
    intro v seen s1 t h
    cases v with
    | ref a =>
      unfold _traverse at h
      cases ha : heap[a]? with
      | none =>
        simp only [ha, Option.some.injEq, Prod.mk.injEq] at h
        obtain ⟨h1, h2⟩ := h
        subst h1 h2
        exact once_nil heap seen
      | some o =>
        simp only [ha] at h
        split at h
        · simp only [Option.some.injEq, Prod.mk.injEq] at h
          obtain ⟨h1, h2⟩ := h
          subst h1 h2
          exact once_nil heap seen
        · split at h
          · rename_i d hob
            split at h
            · simp only [Option.some.injEq, Prod.mk.injEq] at h
              obtain ⟨h1, h2⟩ := h
              subst h1 h2
              exact once_nil heap seen
            · rename_i hd
              split at h
              · simp at h
              · rename_i sa ta hc
                simp only [Option.some.injEq, Prod.mk.injEq] at h
                obtain ⟨h1, h2⟩ := h
                subst h1 h2
                exact once_enter_observed ha hob hd (children_once ih a _ _ _ _ hc)
          · rename_i hob
            split at h
            · simp at h
            · rename_i sa ta hc
              simp only [Option.some.injEq, Prod.mk.injEq] at h
              obtain ⟨h1, h2⟩ := h
              subst h1 h2
              exact once_enter_plain ha hob (children_once ih a _ _ _ _ hc)
    | undefined | null | bool _ | num _ | str _ | nan =>
      simp only [_traverse, Option.some.injEq, Prod.mk.injEq] at h
      obtain ⟨h1, h2⟩ := h
      subst h1 h2
      exact once_nil heap seen

/-- C10, as stated, fails: on the plain object `o` with `o.self = o` no budget
lets `traverse` return, and on `{p: s, q: s}` with a plain shared `s` the
traversal descends into `s` twice. -/
theorem C10_traverse_counterexample :
    (¬ ∃ fuel, (traverse fuel heapSelfPlain (.ref 0) ∅).isSome = true) ∧
    (traverse 2 heapShared (.ref 0) ∅).map (fun r => r.2.count (Touch.enter 1)) = some 2 := by
  constructor
  · rintro ⟨fuel, h⟩
    simp [traverse, traverse_selfPlain_none] at h
  · decide

/-- C10, amended. Over a finite heap with no cycle made only of plain
containers (not frozen, not a VNode, without `__ob__`): there is a rank that
falls along every edge from a plain container to a plain container,
`traverse(value)` returns for every large enough budget; this covers every
self-referential container that carries `__ob__`. And every completed
traversal, over any heap, descends at most once into each container that
carries `__ob__`. -/
theorem C10_traverse_terminates (heap : Heap) (rank : Nat → Nat) (val : Val)
    (seenObjects : Finset Nat)
    (hrank : ∀ a o, heap[a]? = some o → o.plain = true → ∀ p ∈ o.props, ∀ b o1,
      p.val = Val.ref b → heap[b]? = some o1 → o1.plain = true → rank b < rank a) :
    (∃ n, ∀ fuel, n ≤ fuel → ∃ t, traverse fuel heap val seenObjects = some (∅, t)) ∧
    (∀ fuel s t, traverse fuel heap val seenObjects = some (s, t) →
      ∀ a o d, heap[a]? = some o → o.ob = some d → t.count (Touch.enter a) ≤ 1) := by
  constructor
  · refine ⟨(obIds heap \ seenObjects).card * weightBound heap rank + weight heap rank val + 1,
      fun fuel hfuel => ?_⟩
    obtain ⟨s1, t, h, -⟩ := traverse_fuel heap rank hrank fuel val seenObjects hfuel
    exact ⟨t, by simp [traverse, h]⟩
  · intro fuel s t h a o d ha hd
    unfold traverse at h
    split at h
    · simp at h
    · rename_i s1 t1 h1
      simp only [Option.some.injEq, Prod.mk.injEq] at h
      obtain ⟨-, ht⟩ := h
      subst ht
      exact ((traverse_once heap fuel val seenObjects s1 t1 h1).2 a o d ha hd).2.2

/-- C10 (amended) on `heapMixed`, whose cycles all pass through the reactive
object at address 1: the traversal returns with budget 4, entering the
reactive object once (and the plain objects twice each); and on the reactive
self-referential object of `heapSelfReactive` it returns with budget 3. -/
theorem C10_traverse_terminates_witness :
    (traverse 4 heapMixed (.ref 0) ∅).map
      (fun r => (r.2.count (Touch.enter 1), r.2.count (Touch.enter 0))) = some (1, 2) ∧
    (traverse 3 heapSelfReactive (.ref 0) ∅).map (fun r => r.2) =
      some [.enter 0, .read 0 1, .enter 1, .read 1 1, .read 1 0, .read 0 0] ∧
    (∃ n, ∀ fuel, n ≤ fuel → ∃ t, traverse fuel heapMixed (.ref 0) ∅ = some (∅, t)) ∧
    (∀ fuel s t, traverse fuel heapMixed (.ref 0) ∅ = some (s, t) →
      ∀ a o d, heapMixed[a]? = some o → o.ob = some d → t.count (Touch.enter a) ≤ 1) :=
  ⟨by decide, by decide,
    C10_traverse_terminates heapMixed rankMixed (.ref 0) ∅ (by
      intro a o ha hp p hpm b o1 hv hb hp1
      rcases a with _ | _ | _ | a
      · simp only [heapMixed, List.getElem?_cons_zero, Option.some.injEq] at ha
        subst ha
        simp only [List.mem_cons, List.mem_singleton, List.not_mem_nil, or_false] at hpm
        rcases hpm with rfl | rfl
        · simp only [Val.ref.injEq] at hv
          subst hv
          simp only [heapMixed, List.getElem?_cons_succ, List.getElem?_cons_zero,
            Option.some.injEq] at hb
          subst hb
          simp [Obj.plain] at hp1
        · simp only [Val.ref.injEq] at hv
          subst hv
          simp [rankMixed]
      · simp only [heapMixed, List.getElem?_cons_succ, List.getElem?_cons_zero,
          Option.some.injEq] at ha
        subst ha
        simp [Obj.plain] at hp
      · simp only [heapMixed, List.getElem?_cons_succ, List.getElem?_cons_zero,
          Option.some.injEq] at ha
        subst ha
        simp only [List.mem_singleton] at hpm
        subst hpm
        simp at hv
      · simp [heapMixed] at ha)⟩

/-! ## What the methods leave alone in the world -/

theorem sameBase_refl (σ : World) : σ.SameBase σ := ⟨rfl, rfl, rfl, rfl⟩

theorem sameBase_trans {a b c : World} (h1 : a.SameBase b) (h2 : b.SameBase c) :
    a.SameBase c :=
  ⟨h2.1.trans h1.1, h2.2.1.trans h1.2.1, h2.2.2.1.trans h1.2.2.1, h2.2.2.2.trans h1.2.2.2⟩

theorem sameQueue_refl (σ : World) : σ.SameQueue σ := ⟨rfl, rfl, rfl, rfl, rfl⟩

/-- The world after `get()`: only the subscriber lists, the log and (for a deep
watcher) `seenObjects` differ. -/
theorem get_world {fuel : Nat} {w : Watcher} {σ : World} {res : Except Val Val}
    {w1 : Watcher} {σ1 : World} (h : w.get fuel σ = some (res, w1, σ1)) :
    σ.SameBase σ1 ∧ σ.SameQueue σ1 ∧ σ1.vms = σ.vms ∧
      σ1.seenObjects = (if w.deep then ∅ else σ.seenObjects) := by
  obtain ⟨seen, touches, ht, -, -, hσ⟩ := get_cases h
  subst hσ
  refine ⟨⟨rfl, rfl, rfl, rfl⟩, ⟨rfl, rfl, rfl, rfl, rfl⟩, rfl, ?_⟩
  unfold Watcher.getTraverse at ht
  cases hd : w.deep with
  | true =>
    simp only [hd, if_true] at ht ⊢
    unfold traverse at ht
    split at ht
    · simp at ht
    · simp only [Option.some.injEq, Prod.mk.injEq] at ht
      exact ht.1.symm
  | false =>
    simp only [hd, Bool.false_eq_true, if_false, Option.some.injEq, Prod.mk.injEq] at ht ⊢
    exact ht.1.symm

/-- The world after `run()`. -/
theorem run_world {fuel : Nat} {w : Watcher} {σ : World} {res : Except Val Unit}
    {w1 : Watcher} {σ1 : World} (h : w.run fuel σ = some (res, w1, σ1)) :
    σ.SameBase σ1 ∧ σ.SameQueue σ1 ∧ σ1.vms = σ.vms ∧
      (σ.seenObjects = ∅ → σ1.seenObjects = ∅) := by
  have hseen : ∀ {r wg σg}, w.get fuel σ = some (r, wg, σg) →
      (σ.seenObjects = ∅ → σg.seenObjects = ∅) := by
    intro r wg σg hg h0
    rw [(get_world hg).2.2.2]
    split
    · rfl
    · exact h0
  unfold Watcher.run at h
  split at h
  · split at h
    · simp at h
    · rename_i hget
      simp only [Option.some.injEq, Prod.mk.injEq] at h
      obtain ⟨-, -, hσ⟩ := h
      subst hσ
      exact ⟨(get_world hget).1, (get_world hget).2.1, (get_world hget).2.2.1, hseen hget⟩
    · rename_i hget
      have hg := get_world hget
      have hs := hseen hget
      split at h
      · dsimp only at h
        split at h
        · simp only [Option.some.injEq, Prod.mk.injEq] at h
          obtain ⟨-, -, hσ⟩ := h
          subst hσ
          exact ⟨hg.1, hg.2.1, hg.2.2.1, hs⟩
        · split at h <;>
          · simp only [Option.some.injEq, Prod.mk.injEq] at h
            obtain ⟨-, -, hσ⟩ := h
            subst hσ
            exact ⟨hg.1, hg.2.1, hg.2.2.1, hs⟩
      · simp only [Option.some.injEq, Prod.mk.injEq] at h
        obtain ⟨-, -, hσ⟩ := h
        subst hσ
        exact ⟨hg.1, hg.2.1, hg.2.2.1, hs⟩
  · simp only [Option.some.injEq, Prod.mk.injEq] at h
    obtain ⟨-, -, hσ⟩ := h
    subst hσ
    exact ⟨sameBase_refl _, sameQueue_refl _, rfl, id⟩

theorem queueWatcher_world (wid : Nat) (σ : World) :
    σ.SameBase (queueWatcher wid σ) ∧ (queueWatcher wid σ).vms = σ.vms ∧
      (queueWatcher wid σ).seenObjects = σ.seenObjects := by
  unfold queueWatcher
  simp only [World.emit]
  split <;> exact ⟨⟨rfl, rfl, rfl, rfl⟩, rfl, rfl⟩

/-- The world after `update()`. -/
theorem update_world {fuel : Nat} {w : Watcher} {σ : World} {res : Except Val Unit}
    {w1 : Watcher} {σ1 : World} (h : w.update fuel σ = some (res, w1, σ1)) :
    σ.SameBase σ1 ∧ σ1.vms = σ.vms ∧ (σ.seenObjects = ∅ → σ1.seenObjects = ∅) := by
  unfold Watcher.update at h
  split at h
  · simp only [Option.some.injEq, Prod.mk.injEq] at h
    obtain ⟨-, -, hσ⟩ := h
    subst hσ
    exact ⟨sameBase_refl _, rfl, id⟩
  · split at h
    · exact ⟨(run_world h).1, (run_world h).2.2.1, (run_world h).2.2.2⟩
    · simp only [Option.some.injEq, Prod.mk.injEq] at h
      obtain ⟨-, -, hσ⟩ := h
      subst hσ
      have hq := queueWatcher_world w.id σ
      exact ⟨hq.1, hq.2.1, fun h0 => hq.2.2.trans h0⟩

/-- The world after `teardown()`: the heap, `uid`, the stack, the scheduler and
`seenObjects` are untouched. -/
theorem teardown_world (w : Watcher) (σ : World) :
    σ.SameBase (w.teardown σ).2 ∧ σ.SameQueue (w.teardown σ).2 ∧
      (w.teardown σ).2.seenObjects = σ.seenObjects := by
  unfold Watcher.teardown
  split
  · dsimp only
    rw [removeAll_eq]
    split <;> exact ⟨⟨rfl, rfl, rfl, rfl⟩, ⟨rfl, rfl, rfl, rfl, rfl⟩, rfl⟩
  · exact ⟨sameBase_refl _, sameQueue_refl _, rfl⟩

/-- No action moves the `uid` counter or the stack of active watchers. -/
theorem perform_world {fuel : Nat} {w : Watcher} {σ : World} {a : Action}
    {w1 : Watcher} {σ1 : World} (hp : w.perform fuel σ a = some (w1, σ1)) :
    σ1.uid = σ.uid ∧ σ1.targetStack = σ.targetStack ∧
      (σ.seenObjects = ∅ → σ1.seenObjects = ∅) := by
  cases a with
  | get =>
    simp only [Watcher.perform, Option.map_eq_some'] at hp
    obtain ⟨⟨res, w2, σ2⟩, hget, heq⟩ := hp
    cases heq
    have hg := get_world hget
    refine ⟨hg.1.2.2.1, hg.1.2.2.2, fun h0 => ?_⟩
    rw [hg.2.2.2]
    split
    · rfl
    · exact h0
  | run =>
    simp only [Watcher.perform, Option.map_eq_some'] at hp
    obtain ⟨⟨res, w2, σ2⟩, hget, heq⟩ := hp
    cases heq
    have hg := run_world hget
    exact ⟨hg.1.2.2.1, hg.1.2.2.2, hg.2.2.2⟩
  | update =>
    simp only [Watcher.perform, Option.map_eq_some'] at hp
    obtain ⟨⟨res, w2, σ2⟩, hget, heq⟩ := hp
    cases heq
    have hg := update_world hget
    exact ⟨hg.1.2.2.1, hg.1.2.2.2, hg.2.2⟩
  | evaluate =>
    simp only [Watcher.perform, Option.map_eq_some'] at hp
    obtain ⟨⟨res, w2, σ2⟩, hev, heq⟩ := hp
    cases heq
    obtain ⟨gres, wg, hget, -⟩ := evaluate_cases hev
    have hg := get_world hget
    refine ⟨hg.1.2.2.1, hg.1.2.2.2, fun h0 => ?_⟩
    rw [hg.2.2.2]
    split
    · rfl
    · exact h0
  | teardown =>
    simp only [Watcher.perform, Option.some.injEq] at hp
    have ht := teardown_world w σ
    rw [hp] at ht
    exact ⟨ht.1.2.2.1, ht.1.2.2.2, fun h0 => ht.2.2.trans h0⟩
  | write heap =>
    simp only [Watcher.perform, Option.some.injEq, Prod.mk.injEq] at hp
    obtain ⟨-, hσ⟩ := hp
    subst hσ
    exact ⟨rfl, rfl, id⟩

/-! ## The visited set, the active-watcher stack and watcher ids -/

/-- C21. A `traverse` call that returns leaves `seenObjects` empty, whatever it
held and whatever was visited; hence a traversal that follows (of any value,
over any heap) is the traversal from the empty set, and a `get()` that starts
with `seenObjects` empty ends with it empty, as does every method. -/
theorem C21_seenObjects_cleared (fuel : Nat) (heap : Heap) (val : Val)
    (seenObjects : Finset Nat) :
    (∀ s t, traverse fuel heap val seenObjects = some (s, t) → s = ∅) ∧
    (∀ s t fuel2 heap2 val2, traverse fuel heap val seenObjects = some (s, t) →
      traverse fuel2 heap2 val2 s = traverse fuel2 heap2 val2 ∅) ∧
    (∀ (w : Watcher) (σ : World) (a : Action) w1 σ1,
      σ.seenObjects = ∅ → w.perform fuel σ a = some (w1, σ1) → σ1.seenObjects = ∅) := by
  have h1 : ∀ s t, traverse fuel heap val seenObjects = some (s, t) → s = ∅ := by
    intro s t h
    unfold traverse at h
    split at h
    · simp at h
    · simp only [Option.some.injEq, Prod.mk.injEq] at h
      exact h.1.symm
  refine ⟨h1, ?_, ?_⟩
  · intro s t fuel2 heap2 val2 h
    rw [h1 s t h]
  · intro w σ a w1 σ1 h0 hp
    exact (perform_world hp).2.2 h0

/-- C21 on `heapMixed`: the traversal visits the reactive object (id 9) and
returns the empty set. -/
theorem C21_seenObjects_cleared_witness :
    (_traverse 4 heapMixed (.ref 0) ∅).map (fun r => r.1) = some {9} ∧
    (traverse 4 heapMixed (.ref 0) ∅).map (fun r => r.1) = some ∅ ∧
    (∀ s t, traverse 4 heapMixed (.ref 0) {9} = some (s, t) → s = ∅) :=
  ⟨by decide, by decide, (C21_seenObjects_cleared 4 heapMixed (.ref 0) {9}).1⟩

theorem constructor_uid {vm : Nat} {expOrFn : ExpOrFn} {cb : Callback}
    {options : Option Options} {isRenderWatcher : Bool} {fuel : Nat} {σ : World}
    {res : Except Val Unit} {w : Watcher} {σ1 : World}
    (hnew : Watcher.constructor vm expOrFn cb options isRenderWatcher fuel σ
      = some (res, w, σ1)) :
    w.id = σ.uid + 1 ∧ σ1.uid = σ.uid + 1 := by
  unfold Watcher.constructor at hnew
  dsimp only at hnew
  split at hnew
  · simp only [Option.some.injEq, Prod.mk.injEq] at hnew
    obtain ⟨-, hw, hσ⟩ := hnew
    subst hw hσ
    refine ⟨rfl, ?_⟩
    split
    · split <;> rfl
    · rfl
  · split at hnew
    · simp at hnew
    · rename_i hget
      simp only [Option.some.injEq, Prod.mk.injEq] at hnew
      obtain ⟨-, hw, hσ⟩ := hnew
      subst hw hσ
      have hf := get_frame hget
      have hg := get_world hget
      refine ⟨hf.1.2.2.2.1, hg.1.2.2.1.trans ?_⟩
      split
      · split <;> rfl
      · rfl
    · rename_i hget
      simp only [Option.some.injEq, Prod.mk.injEq] at hnew
      obtain ⟨-, hw, hσ⟩ := hnew
      subst hw hσ
      have hf := get_frame hget
      have hg := get_world hget
      refine ⟨hf.1.2.2.2.1, hg.1.2.2.1.trans ?_⟩
      split
      · split <;> rfl
      · rfl

/-- The `uid` counter never goes down. -/
theorem later_uid {σ σ1 : World} (h : Later σ σ1) : σ.uid ≤ σ1.uid := by
  induction h with
  | refl => exact le_refl _
  | perform fuel w a w1 _ hp ih => rw [(perform_world hp).1]; exact ih
  | construct vm e cb o r fuel res w _ hnew ih =>
    rw [(constructor_uid hnew).2]
    exact Nat.le_succ_of_le ih

/-- C22. If the constructor of `W1` ran before that of `W2` (with any method
calls on any watchers, heap writes and further constructions in between) then
`W1.id < W2.id`, so ids are unique; and no sequence of methods changes a
watcher's id. -/
theorem C22_ids_increase (vmA vmB : Nat) (expA expB : ExpOrFn) (cbA cbB : Callback)
    (optA optB : Option Options) (renderA renderB : Bool) (fuelA fuelB : Nat)
    (σ σ1 σ2 σ3 : World) (resA resB : Except Val Unit) (wA wB : Watcher)
    (hA : Watcher.constructor vmA expA cbA optA renderA fuelA σ = some (resA, wA, σ1))
    (hlater : Later σ1 σ2)
    (hB : Watcher.constructor vmB expB cbB optB renderB fuelB σ2 = some (resB, wB, σ3)) :
    wA.id < wB.id ∧
    (∀ fuel acts τ wA1 τ1, Watcher.performAll fuel acts (wA, τ) = some (wA1, τ1) →
      wA1.id = wA.id) ∧
    (∀ fuel acts τ wB1 τ1, Watcher.performAll fuel acts (wB, τ) = some (wB1, τ1) →
      wB1.id = wB.id) := by
  have h1 := constructor_uid hA
  have h2 := constructor_uid hB
  have h3 := later_uid hlater
  refine ⟨by omega, ?_, ?_⟩
  · intro fuel acts τ wA1 τ1 hp
    exact (@performAll_frame fuel acts (wA, τ) (wA1, τ1) hp).2.2.2.1
  · intro fuel acts τ wB1 τ1 hp
    exact (@performAll_frame fuel acts (wB, τ) (wB1, τ1) hp).2.2.2.1

/-- C22 on two watchers: the first is built, the heap is written and the first
is run, then the second is built; their ids are 1 and 2. -/
theorem C22_ids_increase_witness :
    firstBuilt.1.id = 1 ∧ secondBuilt.1.id = 2 ∧
    (firstBuilt.1.id < secondBuilt.1.id ∧
      (∀ fuel acts τ wA1 τ1,
        Watcher.performAll fuel acts (firstBuilt.1, τ) = some (wA1, τ1) →
          wA1.id = firstBuilt.1.id) ∧
      (∀ fuel acts τ wB1 τ1,
        Watcher.performAll fuel acts (secondBuilt.1, τ) = some (wB1, τ1) →
          wB1.id = secondBuilt.1.id)) :=
  ⟨by decide, by decide,
    C22_ids_increase 0 0 (.path "x.y") (.fn "() => 1" noop) cbQuiet cbQuiet none
      (some optionsLazy) false false 0 0 (World.init (heapXY 1)) firstBuilt.2 worldBetween
      secondBuilt.2 (.ok ()) (.ok ()) firstBuilt.1 secondBuilt.1 (by rfl)
      (Later.perform 0 firstBuilt.1 .run
        (stateOf (firstBuilt.1.run 0 { firstBuilt.2 with heap := heapXY 2 })).1
        (Later.perform 0 firstBuilt.1 (.write (heapXY 2)) firstBuilt.1
          (Later.refl firstBuilt.2) (by rfl))
        (by rfl))
      (by rfl)⟩

/-! ## The id sets and the arrays -/

theorem idsAgree_addDep {w : Watcher} (dep : Dep) (σ : World) (h : w.IdsAgree) :
    (w.addDep dep σ).1.IdsAgree := by
  rw [addDep_fst]
  obtain ⟨h1, h2, h3, h4⟩ := h
  by_cases hm : dep.id ∈ w.newDepIds
  · refine ⟨h1, ?_, h3, ?_⟩
    · intro x
      simp only [hm, if_true, Finset.mem_insert]
      constructor
      · rintro (hx | hx)
        · rw [hx]; exact (h2 _).1 hm
        · exact (h2 x).1 hx
      · intro hx
        exact Or.inr ((h2 x).2 hx)
    · simpa [hm] using h4
  · refine ⟨h1, ?_, h3, ?_⟩
    · intro x
      simp only [hm, if_false, Finset.mem_insert, List.map_append, List.map_cons, List.map_nil,
        List.mem_append, List.mem_singleton]
      rw [h2 x]
      tauto
    · simp only [hm, if_false, List.map_append, List.map_cons, List.map_nil]
      rw [List.nodup_append]
      refine ⟨h4, List.nodup_singleton _, ?_⟩
      intro a ha hb
      rw [List.mem_singleton] at hb
      subst hb
      exact hm ((h2 _).2 ha)

theorem idsAgree_cleanupDeps {w : Watcher} (σ : World) (h : w.IdsAgree) :
    (w.cleanupDeps σ).1.IdsAgree := by
  obtain ⟨h1, h2, h3, h4⟩ := h
  exact ⟨h2, by simp [Watcher.cleanupDeps], h4, by simp [Watcher.cleanupDeps]⟩

theorem idsAgree_track {w : Watcher} (σ : World) (ds : List Dep) (h : w.IdsAgree) :
    (w.track σ ds).1.IdsAgree := by
  induction ds generalizing w σ with
  | nil => exact h
  | cons d ds ih =>
    rw [Watcher.track]
    exact ih _ (idsAgree_addDep d σ h)

theorem idsAgree_congr {w w1 : Watcher} (h : w.IdsAgree) (h1 : w1.depIds = w.depIds)
    (h2 : w1.newDepIds = w.newDepIds) (h3 : w1.deps = w.deps) (h4 : w1.newDeps = w.newDeps) :
    w1.IdsAgree := by
  unfold Watcher.IdsAgree at h ⊢
  rw [h1, h2, h3, h4]
  exact h

theorem idsAgree_get {fuel : Nat} {w : Watcher} {σ : World} {res : Except Val Val}
    {w1 : Watcher} {σ1 : World} (h : w.IdsAgree) (hget : w.get fuel σ = some (res, w1, σ1)) :
    w1.IdsAgree := by
  obtain ⟨seen, touches, -, -, hw, -⟩ := get_cases hget
  have ht := idsAgree_cleanupDeps σ (idsAgree_track σ (w.getReads σ touches) h)
  rw [track_fst] at ht
  subst hw
  exact idsAgree_congr ht rfl rfl rfl rfl

theorem idsAgree_perform {fuel : Nat} {w : Watcher} {σ : World} {a : Action}
    {w1 : Watcher} {σ1 : World} (h : w.IdsAgree) (hp : w.perform fuel σ a = some (w1, σ1)) :
    w1.IdsAgree := by
  have hrun : ∀ {res w2 σ2}, w.run fuel σ = some (res, w2, σ2) → w2.IdsAgree := by
    intro res w2 σ2 hr
    unfold Watcher.run at hr
    split at hr
    · split at hr
      · simp at hr
      · rename_i hget
        simp only [Option.some.injEq, Prod.mk.injEq] at hr
        obtain ⟨-, hw, -⟩ := hr
        subst hw
        exact idsAgree_get h hget
      · rename_i hget
        have hg := idsAgree_get h hget
        split at hr
        · dsimp only at hr
          split at hr
          · simp only [Option.some.injEq, Prod.mk.injEq] at hr
            obtain ⟨-, hw, -⟩ := hr
            subst hw
            exact idsAgree_congr hg rfl rfl rfl rfl
          · split at hr <;>
            · simp only [Option.some.injEq, Prod.mk.injEq] at hr
              obtain ⟨-, hw, -⟩ := hr
              subst hw
              exact idsAgree_congr hg rfl rfl rfl rfl
        · simp only [Option.some.injEq, Prod.mk.injEq] at hr
          obtain ⟨-, hw, -⟩ := hr
          subst hw
          exact hg
    · simp only [Option.some.injEq, Prod.mk.injEq] at hr
      obtain ⟨-, hw, -⟩ := hr
      subst hw
      exact h
  cases a with
  | get =>
    simp only [Watcher.perform, Option.map_eq_some'] at hp
    obtain ⟨⟨res, w2, σ2⟩, hget, heq⟩ := hp
    cases heq
    exact idsAgree_get h hget
  | run =>
    simp only [Watcher.perform, Option.map_eq_some'] at hp
    obtain ⟨⟨res, w2, σ2⟩, hr, heq⟩ := hp
    cases heq
    exact hrun hr
  | update =>
    simp only [Watcher.perform, Option.map_eq_some'] at hp
    obtain ⟨⟨res, w2, σ2⟩, hup, heq⟩ := hp
    cases heq
    unfold Watcher.update at hup
    split at hup
    · simp only [Option.some.injEq, Prod.mk.injEq] at hup
      obtain ⟨-, hw, -⟩ := hup
      subst hw
      exact idsAgree_congr h rfl rfl rfl rfl
    · split at hup
      · exact hrun hup
      · simp only [Option.some.injEq, Prod.mk.injEq] at hup
        obtain ⟨-, hw, -⟩ := hup
        subst hw
        exact h
  | evaluate =>
    simp only [Watcher.perform, Option.map_eq_some'] at hp
    obtain ⟨⟨res, w2, σ2⟩, hev, heq⟩ := hp
    cases heq
    unfold Watcher.evaluate at hev
    split at hev
    · simp at hev
    · rename_i hget
      simp only [Option.some.injEq, Prod.mk.injEq] at hev
      obtain ⟨-, hw, -⟩ := hev
      subst hw
      exact idsAgree_get h hget
    · rename_i hget
      have hg := idsAgree_get h hget
      simp only [Option.some.injEq, Prod.mk.injEq] at hev
      obtain ⟨-, hw, -⟩ := hev
      subst hw
      exact idsAgree_congr hg rfl rfl rfl rfl
  | teardown =>
    simp only [Watcher.perform, Option.some.injEq] at hp
    have ht : (w.teardown σ).1.IdsAgree := by
      unfold Watcher.teardown
      split
      · exact idsAgree_congr h rfl rfl rfl rfl
      · exact h
    rw [hp] at ht
    exact ht
  | write heap =>
    simp only [Watcher.perform, Option.some.injEq, Prod.mk.injEq] at hp
    obtain ⟨hw, -⟩ := hp
    subst hw
    exact h

theorem idsAgree_performAll {fuel : Nat} (acts : List Action) {s s1 : Watcher × World}
    (h : s.1.IdsAgree) (hp : Watcher.performAll fuel acts s = some s1) : s1.1.IdsAgree := by
  induction acts generalizing s with
  | nil =>
    simp only [Watcher.performAll, Option.some.injEq] at hp
    subst hp
    exact h
  | cons a as ih =>
    simp only [Watcher.performAll] at hp
    split at hp
    · simp at hp
    · rename_i s2 hs2
      exact ih (@idsAgree_perform fuel _ _ a s2.1 s2.2 h hs2) hp

theorem idsAgree_depOps (ops : List DepOp) {s : Watcher × World} (h : s.1.IdsAgree) :
    (Watcher.depOps ops s).1.IdsAgree := by
  induction ops generalizing s with
  | nil => exact h
  | cons op ops ih =>
    rw [Watcher.depOps]
    apply ih
    cases op with
    | addDep dep => exact idsAgree_addDep dep s.2 h
    | cleanupDeps => exact idsAgree_cleanupDeps s.2 h

theorem idsAgree_constructor {vm : Nat} {expOrFn : ExpOrFn} {cb : Callback}
    {options : Option Options} {isRenderWatcher : Bool} {fuel : Nat} {σ : World}
    {res : Except Val Unit} {w : Watcher} {σ1 : World}
    (hnew : Watcher.constructor vm expOrFn cb options isRenderWatcher fuel σ
      = some (res, w, σ1)) : w.IdsAgree := by
  have hinit : ∀ w0 : Watcher, w0.depIds = ∅ → w0.newDepIds = ∅ → w0.deps = [] →
      w0.newDeps = [] → w0.IdsAgree := by
    intro w0 h1 h2 h3 h4
    unfold Watcher.IdsAgree
    rw [h1, h2, h3, h4]
    simp
  unfold Watcher.constructor at hnew
  dsimp only at hnew
  split at hnew
  · simp only [Option.some.injEq, Prod.mk.injEq] at hnew
    obtain ⟨-, hw, -⟩ := hnew
    subst hw
    exact hinit _ rfl rfl rfl rfl
  · split at hnew
    · simp at hnew
    · rename_i hget
      simp only [Option.some.injEq, Prod.mk.injEq] at hnew
      obtain ⟨-, hw, -⟩ := hnew
      subst hw
      exact idsAgree_get (hinit _ rfl rfl rfl rfl) hget
    · rename_i hget
      have hg := idsAgree_get (hinit _ rfl rfl rfl rfl) hget
      simp only [Option.some.injEq, Prod.mk.injEq] at hnew
      obtain ⟨-, hw, -⟩ := hnew
      subst hw
      exact idsAgree_congr hg rfl rfl rfl rfl

/-- C23. For a watcher made by the constructor, taken through any sequence of
its methods and heap writes and then through any sequence of `addDep` and
`cleanupDeps` calls (so also in the middle of an evaluation): `depIds` is
exactly the set of ids of the Dependencies in `deps`, `newDepIds` exactly that
of `newDeps`, and neither array holds two Dependencies with the same id. -/
theorem C23_ids_agree (fuel : Nat) (vm : Nat) (expOrFn : ExpOrFn) (cb : Callback)
    (options : Option Options) (isRenderWatcher : Bool) (σ0 : World)
    (res : Except Val Unit) (w0 : Watcher) (σ1 : World) (acts : List Action)
    (w : Watcher) (σ : World) (ops : List DepOp)
    (hnew : Watcher.constructor vm expOrFn cb options isRenderWatcher fuel σ0
      = some (res, w0, σ1))
    (hacts : Watcher.performAll fuel acts (w0, σ1) = some (w, σ)) :
    (∀ x, x ∈ (Watcher.depOps ops (w, σ)).1.depIds ↔
      x ∈ (Watcher.depOps ops (w, σ)).1.deps.map Dep.id) ∧
    (∀ x, x ∈ (Watcher.depOps ops (w, σ)).1.newDepIds ↔
      x ∈ (Watcher.depOps ops (w, σ)).1.newDeps.map Dep.id) ∧
    ((Watcher.depOps ops (w, σ)).1.deps.map Dep.id).Nodup ∧
    ((Watcher.depOps ops (w, σ)).1.newDeps.map Dep.id).Nodup :=
  idsAgree_depOps ops
    (@idsAgree_performAll fuel acts (w0, σ1) (w, σ) (idsAgree_constructor hnew) hacts)

/-- C23 on the watcher of `"x.y"` in the middle of a further evaluation that has
read `x` twice and a new Dependency (12), then after `cleanupDeps` and one more
read. -/
theorem C23_ids_agree_witness :
    (Watcher.depOps [.addDep ⟨10⟩, .addDep ⟨12⟩, .addDep ⟨10⟩] watcherXYLater).1.newDeps
      = [⟨10⟩, ⟨12⟩] ∧
    (Watcher.depOps [.addDep ⟨10⟩, .addDep ⟨12⟩, .addDep ⟨10⟩] watcherXYLater).1.newDepIds
      = {10, 12} ∧
    (Watcher.depOps [.addDep ⟨10⟩, .addDep ⟨12⟩, .addDep ⟨10⟩, .cleanupDeps, .addDep ⟨11⟩]
      watcherXYLater).1.deps = [⟨10⟩, ⟨12⟩] ∧
    ((∀ x, x ∈ (Watcher.depOps [.addDep ⟨10⟩, .addDep ⟨12⟩, .addDep ⟨10⟩]
        (watcherXYLater.1, watcherXYLater.2)).1.depIds ↔
      x ∈ (Watcher.depOps [.addDep ⟨10⟩, .addDep ⟨12⟩, .addDep ⟨10⟩]
        (watcherXYLater.1, watcherXYLater.2)).1.deps.map Dep.id) ∧
    (∀ x, x ∈ (Watcher.depOps [.addDep ⟨10⟩, .addDep ⟨12⟩, .addDep ⟨10⟩]
        (watcherXYLater.1, watcherXYLater.2)).1.newDepIds ↔
      x ∈ (Watcher.depOps [.addDep ⟨10⟩, .addDep ⟨12⟩, .addDep ⟨10⟩]
        (watcherXYLater.1, watcherXYLater.2)).1.newDeps.map Dep.id) ∧
    ((Watcher.depOps [.addDep ⟨10⟩, .addDep ⟨12⟩, .addDep ⟨10⟩]
        (watcherXYLater.1, watcherXYLater.2)).1.deps.map Dep.id).Nodup ∧
    ((Watcher.depOps [.addDep ⟨10⟩, .addDep ⟨12⟩, .addDep ⟨10⟩]
        (watcherXYLater.1, watcherXYLater.2)).1.newDeps.map Dep.id).Nodup) :=
  ⟨by decide, by decide, by decide,
    C23_ids_agree 0 0 (.path "x.y") cbQuiet none false (World.init (heapXY 1))
      (.ok ()) watcherXY.1 watcherXY.2 [.write (heapXY 2), .run, .update, .evaluate]
      watcherXYLater.1 watcherXYLater.2 [.addDep ⟨10⟩, .addDep ⟨12⟩, .addDep ⟨10⟩]
      (by rfl) (by rfl)⟩

/-! ## A throwing evaluator under `run()` -/

/-- With a throwing evaluator `get()` completes, whatever the budget. -/
theorem get_of_throw (fuel : Nat) {w : Watcher} {σ : World} {e : Val}
    (he : (w.getter σ.heap w.vm).outcome = .error e) :
    ∃ seen, w.get fuel σ =
      some (if w.user then .ok Val.undefined else .error e, w.afterGet σ [],
        w.worldAfterGet σ seen []) := by
  have hv : w.getValue σ = Val.undefined := by simp [Watcher.getValue, he]
  have hres : w.getResult σ = if w.user then .ok Val.undefined else .error e := by
    simp [Watcher.getResult, he]
  have ht : ∃ seen, w.getTraverse fuel σ = some (seen, []) := by
    unfold Watcher.getTraverse
    split
    · exact ⟨∅, by rw [hv, traverse_undefined]⟩
    · exact ⟨_, rfl⟩
  obtain ⟨seen, hseen⟩ := ht
  exact ⟨seen, by rw [get_eq, hseen, ← hres]; rfl⟩

/-- What `run()` does on an active watcher after `get()` returned `v`. -/
theorem run_of_get_ok {fuel : Nat} {w : Watcher} {σ : World} {v : Val}
    {wg : Watcher} {σg : World} (hact : w.active = true)
    (hget : w.get fuel σ = some (.ok v, wg, σg)) :
    ∃ (res : Except Val Unit) (w1 : Watcher) (σ1 : World) (tail : List Event),
      w.run fuel σ = some (res, w1, σ1) ∧ σ1.log = σg.log ++ tail ∧
      ((v.strictNe w.value = true ∨ isObject v = true ∨ w.deep = true) →
        tail.filter Event.isCallback = [Event.callback w.id v w.value] ∧ w1.value = v ∧
        (w.user = true → res = .ok ())) ∧
      (¬ (v.strictNe w.value = true ∨ isObject v = true ∨ w.deep = true) →
        tail = [] ∧ w1.value = w.value ∧ res = .ok ()) := by
  obtain ⟨hcfg, hval, -, -⟩ := get_frame hget
  obtain ⟨hvm, hexp, hcb, hid, hdeep, huser, -⟩ := hcfg
  unfold Watcher.run
  simp only [hact, if_true, hget]
  by_cases hf : v.strictNe w.value = true ∨ isObject v = true ∨ w.deep = true
  · have hf1 : v.strictNe wg.value = true ∨ isObject v = true ∨ wg.deep = true := by
      rw [hval, hdeep]; exact hf
    simp only [hf1, if_true]
    cases hc : wg.cb wg.vm v wg.value with
    | none =>
      refine ⟨_, _, _, [Event.callback w.id v w.value], rfl, ?_, ?_, fun hn => absurd hf hn⟩
      · simp [World.emit, hid, hval]
      · intro _
        exact ⟨by simp [Event.isCallback], rfl, fun _ => rfl⟩
    | some e =>
      by_cases hu : wg.user = true
      · simp only [hu, if_true]
        refine ⟨_, _, _, [Event.callback w.id v w.value,
          Event.handleError e wg.vm ("callback for watcher \"" ++ wg.expression ++ "\"")],
          rfl, ?_, ?_, fun hn => absurd hf hn⟩
        · simp [World.emit, handleError, hid, hval]
        · intro _
          exact ⟨by simp [Event.isCallback], rfl, fun _ => rfl⟩
      · simp only [hu, if_false]
        refine ⟨_, _, _, [Event.callback w.id v w.value], rfl, ?_, ?_, fun hn => absurd hf hn⟩
        · simp [World.emit, hid, hval]
        · intro _
          refine ⟨by simp [Event.isCallback], rfl, fun hwu => ?_⟩
          rw [huser] at hu
          exact absurd hwu hu
  · have hf1 : ¬ (v.strictNe wg.value = true ∨ isObject v = true ∨ wg.deep = true) := by
      rw [hval, hdeep]; exact hf
    simp only [hf1, if_false]
    exact ⟨_, _, _, [], rfl, by simp, fun h => absurd h hf, fun _ => ⟨rfl, hval, rfl⟩⟩

/-- C24. On an active user watcher whose evaluator throws `e`, `run()` returns:
`e` is handed to `handleError` with the getter description, `get()` yields
`undefined`, and `undefined` is the new value. If the stored value was not
`undefined`, or `deep` is set, the callback is invoked once with
`(undefined, oldValue)` and the stored value becomes `undefined`; if the stored
value was `undefined` and `deep` is unset the callback is not invoked. -/
theorem C24_user_throw_in_run (fuel : Nat) (w : Watcher) (σ : World) (e : Val)
    (hact : w.active = true) (huser : w.user = true)
    (hthrow : (w.getter σ.heap w.vm).outcome = .error e) :
    ∃ (wg : Watcher) (σg : World) (w1 : Watcher) (σ1 : World) (seg : List Event),
      w.get fuel σ = some (.ok Val.undefined, wg, σg) ∧
      w.run fuel σ = some (.ok (), w1, σ1) ∧
      σ1.log = σ.log ++ seg ∧
      Event.handleError e w.vm ("getter for watcher \"" ++ w.expression ++ "\"") ∈ seg ∧
      ((w.value ≠ Val.undefined ∨ w.deep = true) →
        seg.filter Event.isCallback = [Event.callback w.id Val.undefined w.value] ∧
        w1.value = Val.undefined) ∧
      (¬ (w.value ≠ Val.undefined ∨ w.deep = true) →
        seg.filter Event.isCallback = [] ∧ w1.value = Val.undefined) := by
  obtain ⟨seen, hget⟩ := get_of_throw fuel hthrow
  simp only [huser, if_true] at hget
  obtain ⟨res, w1, σ1, tail, hrun, hlog, hfire, hquiet⟩ := run_of_get_ok hact hget
  have hcb : (w.getLog σ []).filter Event.isCallback = [] := by
    rw [filter_getLog] <;> simp [Event.isCallback]
  have herr : Event.handleError e w.vm ("getter for watcher \"" ++ w.expression ++ "\"")
      ∈ w.getLog σ [] := by
    rw [mem_getLog]
    right; right; left
    simp [Watcher.getErrorLog, hthrow, huser]
  have hiff : (Val.undefined.strictNe w.value = true ∨ isObject Val.undefined = true ∨ w.deep = true) ↔
      (w.value ≠ Val.undefined ∨ w.deep = true) := by
    simp [Val.strictNe, isObject, ne_comm]
  have hres : res = .ok () := by
    by_cases hf : Val.undefined.strictNe w.value = true ∨ isObject Val.undefined = true ∨ w.deep = true
    · exact (hfire hf).2.2 huser
    · exact (hquiet hf).2.2
  subst hres
  refine ⟨_, _, w1, σ1, w.getLog σ [] ++ tail, hget, hrun, ?_, ?_, ?_, ?_⟩
  · rw [hlog]
    simp [Watcher.worldAfterGet]
  · exact List.mem_append_left _ herr
  · intro hf
    have h := hfire (hiff.2 hf)
    exact ⟨by rw [List.filter_append, hcb, h.1]; rfl, h.2.1⟩
  · intro hf
    have h := hquiet (fun hc => hf (hiff.1 hc))
    refine ⟨by rw [List.filter_append, hcb, h.1]; rfl, ?_⟩
    rw [h.2.1]
    by_contra hne
    exact hf (Or.inl hne)

/-- C24 on the user watcher of `"x.y"` (stored value 1) with a throwing
evaluator: the callback gets `(undefined, 1)`; a second `run()`, the stored
value now being `undefined`, does not call it. -/
theorem C24_user_throw_in_run_witness :
    (stateOf (watcherUserThrowing.run 0 watcherUser.2)).2.log = watcherUser.2.log ++
      [.evaluate 1, .handleError (.str "bad") 0 "getter for watcher \"x.y\"",
        .removeSub 11 1, .removeSub 10 1, .callback 1 .undefined (.num 1)] ∧
    (stateOf ((stateOf (watcherUserThrowing.run 0 watcherUser.2)).1.run 0
      (stateOf (watcherUserThrowing.run 0 watcherUser.2)).2)).2.log.filter Event.isCallback
      = [.callback 1 .undefined (.num 1)] ∧
    ∃ (wg : Watcher) (σg : World) (w1 : Watcher) (σ1 : World) (seg : List Event),
      watcherUserThrowing.get 0 watcherUser.2 = some (.ok Val.undefined, wg, σg) ∧
      watcherUserThrowing.run 0 watcherUser.2 = some (.ok (), w1, σ1) ∧
      σ1.log = watcherUser.2.log ++ seg ∧
      Event.handleError (.str "bad") watcherUserThrowing.vm
        ("getter for watcher \"" ++ watcherUserThrowing.expression ++ "\"") ∈ seg ∧
      ((watcherUserThrowing.value ≠ Val.undefined ∨ watcherUserThrowing.deep = true) →
        seg.filter Event.isCallback =
          [Event.callback watcherUserThrowing.id Val.undefined watcherUserThrowing.value] ∧
        w1.value = Val.undefined) ∧
      (¬ (watcherUserThrowing.value ≠ Val.undefined ∨ watcherUserThrowing.deep = true) →
        seg.filter Event.isCallback = [] ∧ w1.value = Val.undefined) :=
  ⟨by decide, by decide,
    C24_user_throw_in_run 0 watcherUserThrowing watcherUser.2 (.str "bad")
      (by decide) (by decide) (by rfl)⟩

/-! ## The effects of `teardown()` -/

/-- The `removeSub` calls of the `while (i--)` loop, last `Dep` first. -/
theorem logOfUnsub_all (wid : Nat) (ds : List Dep) :
    logOfUnsub wid ∅ ds = ds.reverse.map (fun d => Event.removeSub d.id wid) := by
  induction ds with
  | nil => rfl
  | cons d ds ih => simp [logOfUnsub, ih]

/-- C19. On an active watcher `teardown()` calls `removeSub(watcher)` once on
every `Dep` of `deps` (from the last to the first) and on nothing else, each
call erasing the watcher from that `Dep`'s subscribers; it sets `active` to
false and changes no other field of the watcher; it erases the watcher from
`vm._watchers` when `vm._isBeingDestroyed` is unset and leaves every component
as it was when the flag is set; the rest of the world is unchanged. -/
theorem C19_teardown_effects (w : Watcher) (σ : World) (hact : w.active = true) :
    (w.teardown σ).1 = { w with active := false } ∧
    (w.teardown σ).1.active = false ∧
    ((w.teardown σ).1.value = w.value ∧ (w.teardown σ).1.dirty = w.dirty ∧
      (w.teardown σ).1.deps = w.deps ∧ (w.teardown σ).1.depIds = w.depIds ∧
      (w.teardown σ).1.lazy = w.lazy ∧ (w.teardown σ).1.user = w.user ∧
      (w.teardown σ).1.deep = w.deep ∧ (w.teardown σ).1.sync = w.sync) ∧
    (w.teardown σ).2.log =
      σ.log ++ w.deps.reverse.map (fun d => Event.removeSub d.id w.id) ∧
    (∀ d ∈ w.deps, Event.removeSub d.id w.id ∈ (w.teardown σ).2.log) ∧
    (w.teardown σ).2.subs = subsAfterUnsub w.id ∅ σ.subs w.deps ∧
    ((σ.vms w.vm)._isBeingDestroyed = false →
      ((w.teardown σ).2.vms w.vm)._watchers = ((σ.vms w.vm)._watchers).erase w.id ∧
      ∀ vm, vm ≠ w.vm → (w.teardown σ).2.vms vm = σ.vms vm) ∧
    ((σ.vms w.vm)._isBeingDestroyed = true → (w.teardown σ).2.vms = σ.vms) ∧
    σ.SameBase (w.teardown σ).2 ∧ σ.SameQueue (w.teardown σ).2 ∧
    (w.teardown σ).2.seenObjects = σ.seenObjects := by
  have hw : (w.teardown σ).1 = { w with active := false } := by
    unfold Watcher.teardown
    simp only [hact, if_true]
  have hlog : (w.teardown σ).2.log =
      σ.log ++ w.deps.reverse.map (fun d => Event.removeSub d.id w.id) := by
    unfold Watcher.teardown
    simp only [hact, if_true]
    rw [removeAll_eq, ← logOfUnsub_all]
    split <;> rfl
  have hsubs : (w.teardown σ).2.subs = subsAfterUnsub w.id ∅ σ.subs w.deps := by
    unfold Watcher.teardown
    simp only [hact, if_true]
    rw [removeAll_eq]
    split <;> rfl
  have hworld := teardown_world w σ
  refine ⟨hw, by rw [hw], by rw [hw]; exact ⟨rfl, rfl, rfl, rfl, rfl, rfl, rfl, rfl⟩,
    hlog, ?_, hsubs, ?_, ?_, hworld.1, hworld.2.1, hworld.2.2⟩
  · intro d hd
    rw [hlog]
    exact List.mem_append_right _
      (List.mem_map.2 ⟨d, List.mem_reverse.2 hd, rfl⟩)
  · intro hflag
    unfold Watcher.teardown
    simp only [hact, if_true]
    rw [removeAll_eq]
    simp only [hflag, Bool.not_false, if_true]
    refine ⟨by simp, ?_⟩
    intro vm hvm
    simp [Function.update, hvm]
  · intro hflag
    unfold Watcher.teardown
    simp only [hact, if_true]
    rw [removeAll_eq]
    simp [hflag]

/-- C19 on the watcher of `"x.y"` (`Dep`s 10 and 11): `removeSub` on 11, then on
10, the watcher gone from `_watchers`; with `_isBeingDestroyed` set the list is
left as it is. -/
theorem C19_teardown_effects_witness :
    watcherXY.1.deps.map Dep.id = [10, 11] ∧
    (watcherXY.2.vms 0)._watchers = [1] ∧
    (watcherXY.1.teardown watcherXY.2).2.log =
      watcherXY.2.log ++ [.removeSub 11 1, .removeSub 10 1] ∧
    ((watcherXY.1.teardown watcherXY.2).2.vms 0)._watchers = [] ∧
    ((watcherXY.1.teardown worldXYDestroying).2.vms 0)._watchers = [1] ∧
    (watcherXY.1.teardown worldXYDestroying).2.log =
      watcherXY.2.log ++ [.removeSub 11 1, .removeSub 10 1] ∧
    ((watcherXY.1.teardown watcherXY.2).2.subs 10 = [] ∧
      (watcherXY.1.teardown watcherXY.2).2.subs 11 = []) ∧
    (watcherXY.1.teardown watcherXY.2).1.active = false ∧
    ((watcherXY.2.vms watcherXY.1.vm)._isBeingDestroyed = false →
      ((watcherXY.1.teardown watcherXY.2).2.vms watcherXY.1.vm)._watchers
        = ((watcherXY.2.vms watcherXY.1.vm)._watchers).erase watcherXY.1.id ∧
      ∀ vm, vm ≠ watcherXY.1.vm → (watcherXY.1.teardown watcherXY.2).2.vms vm
        = watcherXY.2.vms vm) :=
  ⟨by decide, by decide, by decide, by decide, by decide, by decide,
    ⟨by decide, by decide⟩,
    (C19_teardown_effects watcherXY.1 watcherXY.2 (by decide)).2.1,
    (C19_teardown_effects watcherXY.1 watcherXY.2 (by decide)).2.2.2.2.2.2.1⟩

/-! ## Values that `_traverse` does not descend into -/

/-- C12. On a primitive (any value that is not a container), on a frozen
container and on a VNode, `_traverse` returns at its first guard: the visited
set it returns is the one it was given and its trace is empty, so it has read
no property and made no recursive call (every read and every call below it
leaves an entry in the trace); for a primitive this holds with any budget, for
the two containers with any budget that allows the call itself. -/
theorem C12_skipped_values (fuel : Nat) (heap : Heap) (val : Val) (seen : Finset Nat)
    (hskip : isObject val = false ∨
      ∃ a o, val = Val.ref a ∧ heap[a]? = some o ∧ (o.frozen = true ∨ o.isVNode = true)) :
    _traverse (fuel + 1) heap val seen = some (seen, []) ∧
    (isObject val = false → _traverse 0 heap val seen = some (seen, [])) := by
  refine ⟨?_, ?_⟩
  · rcases hskip with h | ⟨a, o, hv, ha, ho⟩
    · cases val <;> first | rfl | simp [isObject] at h
    · subst hv
      unfold _traverse
      simp only [ha]
      rcases ho with ho | ho <;> simp [ho]
  · intro h
    cases val <;> first | rfl | simp [isObject] at h

/-- C12 on `heapSkipped`: the frozen object and the VNode are returned from at
once with the visited set untouched, and a traversal of their parent reads the
parent's three properties and nothing below. -/
theorem C12_skipped_values_witness :
    _traverse 1 heapSkipped (.ref 1) {7} = some ({7}, []) ∧
    _traverse 5 heapSkipped (.ref 2) {7} = some ({7}, []) ∧
    _traverse 0 heapSkipped (.str "s") {7} = some ({7}, []) ∧
    _traverse 5 heapSkipped (.ref 0) ∅ =
      some (∅, [.enter 0, .read 0 2, .read 0 1, .read 0 0]) ∧
    (_traverse (0 + 1) heapSkipped (.ref 1) {7} = some ({7}, []) ∧
      (isObject (.ref 1) = false →
        _traverse 0 heapSkipped (.ref 1) {7} = some ({7}, []))) :=
  ⟨by decide, by decide, by decide, by decide,
    C12_skipped_values 0 heapSkipped (.ref 1) {7}
      (Or.inr ⟨1, ⟨false, true, false, some 20, [⟨"a", .num 1, some 4⟩]⟩, rfl, rfl,
        Or.inl rfl⟩)⟩

/-! ## What a traversal reads -/

theorem handled_mono {heap : Heap} {S S2 : Finset Nat} {t t2 : List Touch} {v : Val}
    (hS : S ⊆ S2) (ht : ∀ x ∈ t, x ∈ t2) (h : Handled heap S t v) :
    Handled heap S2 t2 v := by
  intro b o hv hb hs
  rcases h b o hv hb hs with h1 | ⟨d, hd, hm⟩
  · exact Or.inl (ht _ h1)
  · exact Or.inr ⟨d, hd, hS hm⟩

theorem children_covers {heap : Heap}
    {rec : Val → Finset Nat → Option (Finset Nat × List Touch)}
    (hrec : ∀ v S S1 t, rec v S = some (S1, t) →
      Covers heap S S1 t ∧ Handled heap S1 t v) (a : Nat) :
    ∀ ps S S1 t, traverseChildren rec a ps S = some (S1, t) →
      Covers heap S S1 t ∧ (∀ p ∈ ps, Handled heap S1 t p.val) ∧
      (∀ i, i < ps.length → Touch.read a i ∈ t) := by
  intro ps
  induction ps with
  | nil =>
    intro S S1 t h
    simp only [traverseChildren, Option.some.injEq, Prod.mk.injEq] at h
    obtain ⟨h1, h2⟩ := h
    subst h1 h2
    exact ⟨⟨subset_refl _, fun d hd => Or.inl hd, fun a h => by simp at h⟩,
      by simp, by simp⟩
  | cons p ps ih =>
    intro S S1 t h
    unfold traverseChildren at h
    cases h1 : rec p.val S with
    | none => simp [h1] at h
    | some r1 =>
      obtain ⟨Sa, ta⟩ := r1
      cases h2 : traverseChildren rec a ps Sa with
      | none => simp [h1, h2] at h
      | some r2 =>
        obtain ⟨Sb, tb⟩ := r2
        simp only [h1, h2, Option.some.injEq, Prod.mk.injEq] at h
        obtain ⟨e1, e2⟩ := h
        subst e1 e2
        obtain ⟨⟨c1, c2, c3⟩, hroot⟩ := hrec _ _ _ _ h1
        obtain ⟨⟨k1, k2, k3⟩, khand, kread⟩ := ih _ _ _ h2
        have ina : ∀ x ∈ ta, x ∈ Touch.read a ps.length :: ta ++ tb := by
          intro x hx; simp [hx]
        have inb : ∀ x ∈ tb, x ∈ Touch.read a ps.length :: ta ++ tb := by
          intro x hx; simp [hx]
        refine ⟨⟨c1.trans k1, ?_, ?_⟩, ?_, ?_⟩
        · intro d hd
          rcases k2 d hd with h3 | ⟨b, o, hb, ho, he⟩
          · rcases c2 d h3 with h4 | ⟨b, o, hb, ho, he⟩
            · exact Or.inl h4
            · exact Or.inr ⟨b, o, hb, ho, ina _ he⟩
          · exact Or.inr ⟨b, o, hb, ho, inb _ he⟩
        · intro b hb
          simp only [List.cons_append, List.mem_cons, List.mem_append] at hb
          rcases hb with hb | hb | hb
          · cases hb
          · obtain ⟨o, ho, hr, hc⟩ := c3 b hb
            exact ⟨o, ho, fun i hi => ina _ (hr i hi),
              fun q hq => handled_mono k1 ina (hc q hq)⟩
          · obtain ⟨o, ho, hr, hc⟩ := k3 b hb
            exact ⟨o, ho, fun i hi => inb _ (hr i hi),
              fun q hq => handled_mono (subset_refl _) inb (hc q hq)⟩
        · intro q hq
          rcases List.mem_cons.1 hq with hq | hq
          · subst hq
            exact handled_mono k1 ina hroot
          · exact handled_mono (subset_refl _) inb (khand q hq)
        · intro i hi
          simp only [List.length_cons] at hi
          by_cases hlast : i = ps.length
          · subst hlast
            simp
          · exact inb _ (kread i (by omega))

/-- Every completed `_traverse` reads in full each container it enters and
deals with each of its children and with its argument. -/
theorem traverse_covers (heap : Heap) :
    ∀ fuel v S S1 t, _traverse fuel heap v S = some (S1, t) →
      Covers heap S S1 t ∧ Handled heap S1 t v := by
  have hnil : ∀ (S : Finset Nat), Covers heap S S [] :=
    fun S => ⟨subset_refl _, fun d hd => Or.inl hd, fun a h => by simp at h⟩
  intro fuel
  induction fuel with
  | zero =>
    intro v S S1 t h
    cases v <;> simp [_traverse] at h <;>
      (obtain ⟨h1, h2⟩ := h; subst h1 h2
       exact ⟨hnil _, fun b o hv => by cases hv⟩)
  | succ f ih =>
    intro v S S1 t h
    cases v with
    | ref a =>
      unfold _traverse at h
      cases ha : heap[a]? with
      | none =>
        simp only [ha, Option.some.injEq, Prod.mk.injEq] at h
        obtain ⟨h1, h2⟩ := h
        subst h1 h2
        refine ⟨hnil _, fun b o hv hb => ?_⟩
        cases hv
        rw [ha] at hb
        cases hb
      | some o =>
        simp only [ha] at h
        split at h
        · rename_i hsk
          simp only [Option.some.injEq, Prod.mk.injEq] at h
          obtain ⟨h1, h2⟩ := h
          subst h1 h2
          refine ⟨hnil _, fun b o1 hv hb hs => ?_⟩
          cases hv
          rw [ha] at hb
          cases hb
          simp only [Obj.skipped] at hs
          rw [hs] at hsk
          exact absurd hsk (by decide)
        · split at h
          · rename_i d hob
            split at h
            · rename_i hd
              simp only [Option.some.injEq, Prod.mk.injEq] at h
              obtain ⟨h1, h2⟩ := h
              subst h1 h2
              refine ⟨hnil _, fun b o1 hv hb _ => ?_⟩
              cases hv
              rw [ha] at hb
              cases hb
              exact Or.inr ⟨d, hob, hd⟩
            · rename_i hd
              split at h
              · simp at h
              · rename_i sa ta hc
                simp only [Option.some.injEq, Prod.mk.injEq] at h
                obtain ⟨h1, h2⟩ := h
                subst h1 h2
                obtain ⟨⟨k1, k2, k3⟩, khand, kread⟩ := children_covers ih a _ _ _ _ hc
                have inb : ∀ x ∈ ta, x ∈ Touch.enter a :: ta := by
                  intro x hx; simp [hx]
                refine ⟨⟨(Finset.subset_insert d S).trans k1, ?_, ?_⟩, ?_⟩
                · intro d1 hd1
                  rcases k2 d1 hd1 with h3 | ⟨b, o1, hb, ho, he⟩
                  · rcases Finset.mem_insert.1 h3 with h4 | h4
                    · subst h4
                      exact Or.inr ⟨a, o, ha, hob, by simp⟩
                    · exact Or.inl h4
                  · exact Or.inr ⟨b, o1, hb, ho, inb _ he⟩
                · intro b hb
                  rcases List.mem_cons.1 hb with hb | hb
                  · cases hb
                    refine ⟨o, ha, fun i hi => inb _ (kread i (by simpa using hi)),
                      fun q hq => handled_mono (subset_refl _) inb
                        (khand q (List.mem_reverse.2 hq))⟩
                  · obtain ⟨o1, ho, hr, hch⟩ := k3 b hb
                    exact ⟨o1, ho, fun i hi => inb _ (hr i hi),
                      fun q hq => handled_mono (subset_refl _) inb (hch q hq)⟩
                · intro b o1 hv _ _
                  cases hv
                  exact Or.inl (by simp)
          · rename_i hob
            split at h
            · simp at h
            · rename_i sa ta hc
              simp only [Option.some.injEq, Prod.mk.injEq] at h
              obtain ⟨h1, h2⟩ := h
              subst h1 h2
              obtain ⟨⟨k1, k2, k3⟩, khand, kread⟩ := children_covers ih a _ _ _ _ hc
              have inb : ∀ x ∈ ta, x ∈ Touch.enter a :: ta := by
                intro x hx; simp [hx]
              refine ⟨⟨k1, ?_, ?_⟩, ?_⟩
              · intro d1 hd1
                rcases k2 d1 hd1 with h3 | ⟨b, o1, hb, ho, he⟩
                · exact Or.inl h3
                · exact Or.inr ⟨b, o1, hb, ho, inb _ he⟩
              · intro b hb
                rcases List.mem_cons.1 hb with hb | hb
                · cases hb
                  refine ⟨o, ha, fun i hi => inb _ (kread i (by simpa using hi)),
                    fun q hq => handled_mono (subset_refl _) inb
                      (khand q (List.mem_reverse.2 hq))⟩
                · obtain ⟨o1, ho, hr, hch⟩ := k3 b hb
                  exact ⟨o1, ho, fun i hi => inb _ (hr i hi),
                    fun q hq => handled_mono (subset_refl _) inb (hch q hq)⟩
              · intro b o1 hv _ _
                cases hv
                exact Or.inl (by simp)
    | undefined | null | bool _ | num _ | str _ | nan =>
      simp only [_traverse, Option.some.injEq, Prod.mk.injEq] at h
      obtain ⟨h1, h2⟩ := h
      subst h1 h2
      exact ⟨hnil _, fun b o hv => by cases hv⟩

/-- From an empty visited set, every container the value reaches is entered. -/
theorem reach_entered {heap : Heap} {v : Val} {S1 : Finset Nat} {t : List Touch}
    (huniq : ∀ (a b : Nat) (oa ob : Obj) (d : Nat), heap[a]? = some oa →
      heap[b]? = some ob → oa.ob = some d → ob.ob = some d → a = b)
    (hc : Covers heap ∅ S1 t) (hv : Handled heap S1 t v) {a : Nat} (hr : Reach heap v a) :
    Touch.enter a ∈ t := by
  have key : ∀ (u : Val), Handled heap S1 t u → ∀ b o, u = Val.ref b → heap[b]? = some o →
      o.skipped = false → Touch.enter b ∈ t := by
    intro u hu b o hub hb hs
    rcases hu b o hub hb hs with h | ⟨d, hd, hm⟩
    · exact h
    · rcases hc.2.1 d hm with h0 | ⟨c, oc, hcc, hoc, he⟩
      · simp at h0
      · have := huniq c b oc o d hcc hb hoc hd
        subst this
        exact he
  induction hr with
  | root a o hva ha hs => exact key v hv a o hva ha hs
  | step a o p b o1 _ ha hp hpv hb hs ih =>
    obtain ⟨o2, ho2, -, hch⟩ := hc.2.2 a ih
    rw [ha] at ho2
    cases ho2
    exact key p.val (hch p hp) b o1 hpv hb hs

/-- Distinct containers carry distinct `__ob__` ids when the ids of the heap
are pairwise different. -/
theorem ob_unique {heap : Heap} (huniq : (heap.filterMap Obj.ob).Nodup) :
    ∀ (a b : Nat) (oa ob : Obj) (d : Nat), heap[a]? = some oa → heap[b]? = some ob →
      oa.ob = some d → ob.ob = some d → a = b := by
  have hp := List.pairwise_filterMap.1 huniq
  rw [List.pairwise_iff_getElem] at hp
  intro a b oa ob d ha hb hoa hob
  obtain ⟨hla, hea⟩ := List.getElem?_eq_some.1 ha
  obtain ⟨hlb, heb⟩ := List.getElem?_eq_some.1 hb
  rcases Nat.lt_trichotomy a b with h | h | h
  · exact absurd rfl (hp a b hla hlb h d (by rw [hea]; exact hoa) d (by rw [heb]; exact hob))
  · exact h
  · exact absurd rfl (hp b a hlb hla h d (by rw [heb]; exact hob) d (by rw [hea]; exact hoa))

/-- A read of a reactive property registers its `Dep`. -/
theorem touchedDeps_of_read (heap : Heap) {a i : Nat} {o : Obj} {p : Property} {d : Nat}
    (ha : heap[a]? = some o) (hp : o.props[i]? = some p) (hd : p.dep = some d) :
    ∀ t : List Touch, Touch.read a i ∈ t → Dep.mk d ∈ touchedDeps heap t := by
  intro t
  induction t with
  | nil => intro h; simp at h
  | cons x t ih =>
    intro h
    cases x with
    | enter b =>
      rcases List.mem_cons.1 h with h | h
      · cases h
      · simp only [touchedDeps]
        exact ih h
    | read b j =>
      rcases List.mem_cons.1 h with h | h
      · cases h
        simp [touchedDeps, ha, hp, hd]
      · have := ih h
        simp only [touchedDeps]
        split
        · exact this
        · split
          · exact this
          · split
            · exact this
            · exact List.mem_cons_of_mem _ this

/-- The rank of `heapMixed` falls along every edge between plain containers. -/
theorem rankMixed_falls : ∀ a o, heapMixed[a]? = some o → o.plain = true →
    ∀ p ∈ o.props, ∀ b o1, p.val = Val.ref b → heapMixed[b]? = some o1 → o1.plain = true →
      rankMixed b < rankMixed a := by
  intro a o ha hp p hpm b o1 hv hb hp1
  rcases a with _ | _ | _ | a
  · simp only [heapMixed, List.getElem?_cons_zero, Option.some.injEq] at ha
    subst ha
    simp only [List.mem_cons, List.mem_singleton, List.not_mem_nil, or_false] at hpm
    rcases hpm with rfl | rfl
    · simp only [Val.ref.injEq] at hv
      subst hv
      simp only [heapMixed, List.getElem?_cons_succ, List.getElem?_cons_zero,
        Option.some.injEq] at hb
      subst hb
      simp [Obj.plain] at hp1
    · simp only [Val.ref.injEq] at hv
      subst hv
      simp [rankMixed]
  · simp only [heapMixed, List.getElem?_cons_succ, List.getElem?_cons_zero,
      Option.some.injEq] at ha
    subst ha
    simp [Obj.plain] at hp
  · simp only [heapMixed, List.getElem?_cons_succ, List.getElem?_cons_zero,
      Option.some.injEq] at ha
    subst ha
    simp only [List.mem_singleton] at hpm
    subst hpm
    simp at hv
  · simp [heapMixed] at ha

/-- What a completed top-level traversal has read. -/
theorem traverse_reads {heap : Heap} (huniq : (heap.filterMap Obj.ob).Nodup)
    {fuel : Nat} {val : Val} {s : Finset Nat} {t : List Touch}
    (h : traverse fuel heap val ∅ = some (s, t)) {a : Nat} {o : Obj}
    (hr : Reach heap val a) (ha : heap[a]? = some o) :
    Touch.enter a ∈ t ∧ (∀ i, i < o.props.length → Touch.read a i ∈ t) ∧
    (∀ (i : Nat) (p : Property) (d : Nat), o.props[i]? = some p → p.dep = some d → Dep.mk d ∈ touchedDeps heap t) := by
  unfold traverse at h
  cases h1 : _traverse fuel heap val ∅ with
  | none => simp [h1] at h
  | some r =>
    obtain ⟨s1, t1⟩ := r
    simp only [h1, Option.some.injEq, Prod.mk.injEq] at h
    obtain ⟨-, ht⟩ := h
    subst ht
    obtain ⟨hc, hv⟩ := traverse_covers heap fuel val ∅ s1 t1 h1
    have he := reach_entered (ob_unique huniq) hc hv hr
    obtain ⟨o2, ho2, hreads, -⟩ := hc.2.2 a he
    rw [ha] at ho2
    cases ho2
    refine ⟨he, hreads, fun i p d hp hd => ?_⟩
    have hi : i < o.props.length := (List.getElem?_eq_some.1 hp).1
    exact touchedDeps_of_read heap ha hp hd t1 (hreads i hi)

/-- C11. Over a heap whose containers carry pairwise different `__ob__` ids,
a `traverse(value)` that starts with the visited set empty returns, for every
large enough budget, whenever no cycle is made only of plain containers (in
particular on every value without a cycle); and every completed traversal has
entered each container that the value reaches through containers that are not
skipped, has read each of its properties (each element, for an array) and has
so registered the `Dep` of each reactive property. A container held by several
parents is among them: it is entered and read in full. -/
theorem C11_traverse_reads_all (heap : Heap) (val : Val)
    (huniq : (heap.filterMap Obj.ob).Nodup) :
    (∀ rank : Nat → Nat,
      (∀ a o, heap[a]? = some o → o.plain = true → ∀ p ∈ o.props, ∀ b o1,
        p.val = Val.ref b → heap[b]? = some o1 → o1.plain = true → rank b < rank a) →
      ∃ n, ∀ fuel, n ≤ fuel → ∃ t, traverse fuel heap val ∅ = some (∅, t) ∧
        ∀ a o, Reach heap val a → heap[a]? = some o →
          Touch.enter a ∈ t ∧ ∀ i, i < o.props.length → Touch.read a i ∈ t) ∧
    (∀ fuel s t, traverse fuel heap val ∅ = some (s, t) →
      ∀ a o, Reach heap val a → heap[a]? = some o →
        Touch.enter a ∈ t ∧ (∀ i, i < o.props.length → Touch.read a i ∈ t) ∧
        (∀ (i : Nat) (p : Property) (d : Nat), o.props[i]? = some p → p.dep = some d →
          Dep.mk d ∈ touchedDeps heap t)) := by
  constructor
  · intro rank hrank
    refine ⟨(obIds heap \ ∅).card * weightBound heap rank + weight heap rank val + 1,
      fun fuel hfuel => ?_⟩
    obtain ⟨s1, t, h, -⟩ := traverse_fuel heap rank hrank fuel val ∅ hfuel
    have ht : traverse fuel heap val ∅ = some (∅, t) := by simp [traverse, h]
    refine ⟨t, ht, fun a o hr ha => ?_⟩
    have := traverse_reads huniq ht hr ha
    exact ⟨this.1, this.2.1⟩
  · intro fuel s t h a o hr ha
    exact traverse_reads huniq h hr ha

/-- C11 on `heapMixed` (the reactive object `r` is held by the root and by
itself, and holds the root) and on `heapSelfReactive` (the object is held by
itself and twice by its array): each container is read in full. -/
theorem C11_traverse_reads_all_witness :
    (traverse 4 heapMixed (.ref 0) ∅).map (fun r => r.2) =
      some [.enter 0, .read 0 1, .enter 2, .read 2 0, .read 0 0, .enter 1, .read 1 1,
        .enter 0, .read 0 1, .enter 2, .read 2 0, .read 0 0, .read 1 0] ∧
    (traverse 3 heapSelfReactive (.ref 0) ∅).map (fun r => r.2) =
      some [.enter 0, .read 0 1, .enter 1, .read 1 1, .read 1 0, .read 0 0] ∧
    Reach heapMixed (.ref 0) 2 ∧
    (∃ n, ∀ fuel, n ≤ fuel → ∃ t, traverse fuel heapMixed (.ref 0) ∅ = some (∅, t) ∧
      ∀ a o, Reach heapMixed (.ref 0) a → heapMixed[a]? = some o →
        Touch.enter a ∈ t ∧ ∀ i, i < o.props.length → Touch.read a i ∈ t) :=
  ⟨by decide, by decide,
    Reach.step 0 ⟨false, false, false, none, [⟨"r", .ref 1, none⟩, ⟨"s", .ref 2, none⟩]⟩
      ⟨"s", .ref 2, none⟩ 2 ⟨false, false, false, none, [⟨"n", .num 1, none⟩]⟩
      (Reach.root 0 _ rfl rfl rfl) rfl (by simp) rfl rfl rfl,
    (C11_traverse_reads_all heapMixed (.ref 0) (by decide)).1 rankMixed rankMixed_falls⟩

/-! ## The flush of the scheduler -/

theorem spliceIndex_gt (queue : List Nat) (index id : Nat) :
    ∀ n, index < n → index < spliceIndex queue index id n ∧ spliceIndex queue index id n ≤ n := by
  intro n
  induction n with
  | zero => intro h; omega
  | succ i ih =>
    intro h
    unfold spliceIndex
    split
    · rename_i hc
      have := ih hc.1
      exact ⟨this.1, by omega⟩
    · exact ⟨h, le_refl _⟩

/-- During a flush `queueWatcher` leaves the queue up to the cursor alone and
adds the watcher behind the cursor exactly when it is not marked pending. -/
theorem queueWatcher_flushing (k : Nat) (τ : World) (hf : τ.flushing = true)
    (hi : τ.index < τ.queue.length) :
    (queueWatcher k τ).flushing = true ∧ (queueWatcher k τ).index = τ.index ∧
    τ.index < (queueWatcher k τ).queue.length ∧
    ((k ∈ τ.has ∧ (queueWatcher k τ).has = τ.has ∧ (queueWatcher k τ).queue = τ.queue) ∨
     (k ∉ τ.has ∧ (queueWatcher k τ).has = insert k τ.has ∧
        ∃ l1 l2, τ.queue.drop (τ.index + 1) = l1 ++ l2 ∧
          (queueWatcher k τ).queue.drop (τ.index + 1) = l1 ++ k :: l2)) := by
  by_cases hk : k ∈ τ.has
  · have e : queueWatcher k τ = τ.emit (Event.queueWatcher k) := by
      unfold queueWatcher
      simp [World.emit, hk]
    rw [e]
    exact ⟨hf, rfl, hi, Or.inl ⟨hk, rfl, rfl⟩⟩
  · obtain ⟨h1, h2⟩ := spliceIndex_gt τ.queue τ.index k τ.queue.length hi
    have e : queueWatcher k τ =
        { τ.emit (Event.queueWatcher k) with
          has := insert k τ.has,
          queue := τ.queue.take (spliceIndex τ.queue τ.index k τ.queue.length) ++
            k :: τ.queue.drop (spliceIndex τ.queue τ.index k τ.queue.length),
          waiting := true } := by
      unfold queueWatcher
      simp [World.emit, hk, hf]
    rw [e]
    generalize spliceIndex τ.queue τ.index k τ.queue.length = p at h1 h2
    have hlen : (τ.queue.take p).length = p := by simp [h2]
    refine ⟨hf, rfl, ?_, Or.inr ⟨hk, rfl, (τ.queue.take p).drop (τ.index + 1),
      τ.queue.drop p, ?_, ?_⟩⟩
    · show τ.index < (τ.queue.take p ++ k :: τ.queue.drop p).length
      simp only [List.length_append, List.length_cons, hlen]
      omega
    · show τ.queue.drop (τ.index + 1) = _
      rw [← List.drop_append_of_le_length (by rw [hlen]; omega), List.take_append_drop]
    · show (τ.queue.take p ++ k :: τ.queue.drop p).drop (τ.index + 1) = _
      rw [List.drop_append_of_le_length (by rw [hlen]; omega)]

/-- The notifications of one `run()` during a flush. -/
theorem notify_flushing : ∀ (ks : List Nat) (τ : World), τ.flushing = true →
    τ.index < τ.queue.length → (τ.queue.drop (τ.index + 1)).Nodup →
    (∀ x ∈ τ.queue.drop (τ.index + 1), x ∈ τ.has) →
    (ks.foldl (fun s k => queueWatcher k s) τ).flushing = true ∧
    (ks.foldl (fun s k => queueWatcher k s) τ).index = τ.index ∧
    ((ks.foldl (fun s k => queueWatcher k s) τ).queue.drop (τ.index + 1)).Nodup ∧
    (∀ x ∈ (ks.foldl (fun s k => queueWatcher k s) τ).queue.drop (τ.index + 1),
      x ∈ (ks.foldl (fun s k => queueWatcher k s) τ).has) ∧
    ∀ j, ((ks.foldl (fun s k => queueWatcher k s) τ).queue.drop (τ.index + 1)).count j
      ≤ (τ.queue.drop (τ.index + 1)).count j + ks.count j := by
  intro ks
  induction ks with
  | nil =>
    intro τ hf _ hn hm
    exact ⟨hf, rfl, hn, hm, fun j => by simp⟩
  | cons k ks ih =>
    intro τ hf hi hn hm
    obtain ⟨qf, qi, ql, hcase⟩ := queueWatcher_flushing k τ hf hi
    simp only [List.foldl_cons]
    rcases hcase with ⟨-, hhas, hq⟩ | ⟨hk, hhas, l1, l2, hd, hd1⟩
    · have := ih (queueWatcher k τ) qf (by rw [qi]; exact ql)
        (by rw [qi, hq]; exact hn) (by rw [qi, hq, hhas]; exact hm)
      rw [qi] at this
      refine ⟨this.1, this.2.1, this.2.2.1, this.2.2.2.1, fun j => ?_⟩
      have h5 := this.2.2.2.2 j
      rw [hq] at h5
      rw [List.count_cons]
      omega
    · have hkd : k ∉ l1 ++ l2 := by
        intro hmem
        rw [← hd] at hmem
        exact hk (hm k hmem)
      have hnd : (l1 ++ k :: l2).Nodup := by
        rw [hd] at hn
        rw [List.nodup_append] at hn ⊢
        simp only [List.mem_append, not_or] at hkd
        refine ⟨hn.1, List.nodup_cons.2 ⟨hkd.2, hn.2.1⟩, ?_⟩
        intro x hx1 hx2
        rcases List.mem_cons.1 hx2 with hx | hx
        · subst hx
          exact hkd.1 hx1
        · exact hn.2.2 hx1 hx
      have := ih (queueWatcher k τ) qf (by rw [qi]; exact ql)
        (by rw [qi, hd1]; exact hnd)
        (by
          rw [qi, hd1, hhas]
          intro x hx
          simp only [List.mem_append, List.mem_cons] at hx
          rcases hx with hx | hx | hx
          · exact Finset.mem_insert_of_mem (hm x (by rw [hd]; simp [hx]))
          · subst hx
            exact Finset.mem_insert_self _ _
          · exact Finset.mem_insert_of_mem (hm x (by rw [hd]; simp [hx])))
      rw [qi] at this
      refine ⟨this.1, this.2.1, this.2.2.1, this.2.2.2.1, fun j => ?_⟩
      have h5 := this.2.2.2.2 j
      rw [hd1] at h5
      rw [hd, List.count_cons]
      simp only [List.count_append, List.count_cons] at h5 ⊢
      omega

theorem runsOf_beforeStep (w : Watcher) (id : Nat) (tr : List FlushStep) :
    runsOf (beforeStep w id tr) = runsOf tr := by
  unfold beforeStep runsOf
  split <;> simp [FlushStep.runOf]

theorem runsOf_step (w : Watcher) (id : Nat) (tr : List FlushStep) :
    runsOf (beforeStep w id tr ++ [FlushStep.run id]) = runsOf tr ++ [id] := by
  have := runsOf_beforeStep w id tr
  unfold runsOf at this ⊢
  rw [List.filterMap_append, this]
  simp [FlushStep.runOf]

/-- In every completed flush loop a watcher's `run()` is invoked at most once
more than the watcher was notified during the loop. -/
theorem flushLoop_bound (notified : Nat → List Nat) (runFuel : Nat) :
    ∀ n s res s1, flushLoop notified runFuel n s = some (res, s1) → FlushInv notified s →
      ∀ j, (runsOf s1.trace).count j ≤ 1 + ((runsOf s1.trace).flatMap notified).count j := by
  intro n
  induction n with
  | zero => intro s res s1 h; simp [flushLoop] at h
  | succ n ih =>
    intro s res s1 h hinv j
    obtain ⟨hf, hn, hm, hc⟩ := hinv
    unfold flushLoop at h
    cases hq : s.world.queue[s.world.index]? with
    | none =>
      simp only [hq, Option.some.injEq, Prod.mk.injEq] at h
      obtain ⟨-, hs⟩ := h
      subst hs
      have := hc j
      omega
    | some id =>
      simp only [hq] at h
      obtain ⟨hlt, hget⟩ := List.getElem?_eq_some.1 hq
      have hR : s.world.queue.drop s.world.index
          = id :: s.world.queue.drop (s.world.index + 1) := by
        rw [← hget]
        exact List.drop_eq_getElem_cons hlt
      rw [hR] at hn hm hc
      have hstep : ∀ j, (runsOf (beforeStep (s.table id) id s.trace
            ++ [FlushStep.run id])).count j
          + (s.world.queue.drop (s.world.index + 1)).count j
          ≤ 1 + ((runsOf s.trace).flatMap notified).count j := by
        intro j
        have := hc j
        rw [runsOf_step, List.count_append]
        rw [List.count_cons] at this
        simp only [List.count_cons, List.count_nil]
        omega
      have hflat : ∀ j, ((runsOf (beforeStep (s.table id) id s.trace
            ++ [FlushStep.run id])).flatMap notified).count j
          = ((runsOf s.trace).flatMap notified).count j + (notified id).count j := by
        intro j
        rw [runsOf_step, List.flatMap_append, List.count_append]
        simp
      cases hrun : (s.table id).run runFuel { s.world with has := s.world.has.erase id } with
      | none => simp [hrun] at h
      | some r =>
        obtain ⟨rr, w1, σ2⟩ := r
        obtain ⟨-, ⟨hq2, hh2, hf2, -, hi2⟩, -, -⟩ := run_world hrun
        simp only at hq2 hh2 hf2 hi2
        cases rr with
        | error e =>
          simp only [hrun, Option.some.injEq, Prod.mk.injEq] at h
          obtain ⟨-, hs⟩ := h
          subst hs
          have h1 := hstep j
          have h2 := hflat j
          simp only at h1 h2 ⊢
          omega
        | ok u =>
          cases u
          simp only [hrun] at h
          have hnot := notify_flushing (notified id) σ2 (by rw [hf2]; exact hf)
            (by rw [hi2, hq2]; exact hlt)
            (by rw [hi2, hq2]; exact (List.nodup_cons.1 hn).2)
            (by
              rw [hi2, hq2, hh2]
              intro x hx
              refine Finset.mem_erase.2 ⟨?_, hm x (List.mem_cons_of_mem _ hx)⟩
              rintro rfl
              exact (List.nodup_cons.1 hn).1 hx)
          rw [hi2, hq2] at hnot
          obtain ⟨n1, n2, n3, n4, n5⟩ := hnot
          have hnext : ∀ circ, FlushInv notified
              ⟨Function.update s.table id w1,
                { (notified id).foldl (fun τ k => queueWatcher k τ) σ2 with
                  index := ((notified id).foldl (fun τ k => queueWatcher k τ) σ2).index + 1 },
                circ, beforeStep (s.table id) id s.trace ++ [FlushStep.run id]⟩ := by
            intro circ
            refine ⟨n1, ?_, ?_, ?_⟩
            · simp only [n2]; exact n3
            · simp only [n2]; exact n4
            · intro j
              simp only [n2]
              have h1 := hstep j
              have h2 := hflat j
              have h3 := n5 j
              omega
          split at h
          · split at h
            · simp only [Option.some.injEq, Prod.mk.injEq] at h
              obtain ⟨-, hs⟩ := h
              subst hs
              have h1 := hstep j
              have h2 := hflat j
              simp only at h1 h2 ⊢
              omega
            · exact ih _ _ _ h (hnext _) j
          · exact ih _ _ _ h (hnext _) j

/-- When no `run()` notifies a watcher, a flush loop that returns normally has
invoked `run()` on the watchers from the cursor on, in queue order. -/
theorem flushLoop_quiet (notified : Nat → List Nat) (runFuel : Nat)
    (hquiet : ∀ j, notified j = []) :
    ∀ n s s1, flushLoop notified runFuel n s = some (.ok (), s1) →
      runsOf s1.trace = runsOf s.trace ++ s.world.queue.drop s.world.index := by
  intro n
  induction n with
  | zero => intro s s1 h; simp [flushLoop] at h
  | succ n ih =>
    intro s s1 h
    unfold flushLoop at h
    cases hq : s.world.queue[s.world.index]? with
    | none =>
      simp only [hq, Option.some.injEq, Prod.mk.injEq] at h
      obtain ⟨-, hs⟩ := h
      subst hs
      have : s.world.queue.length ≤ s.world.index := List.getElem?_eq_none_iff.1 hq
      rw [List.drop_eq_nil_of_le this]
      simp
    | some id =>
      simp only [hq] at h
      obtain ⟨hlt, hget⟩ := List.getElem?_eq_some.1 hq
      have hR : s.world.queue.drop s.world.index
          = id :: s.world.queue.drop (s.world.index + 1) := by
        rw [← hget]
        exact List.drop_eq_getElem_cons hlt
      cases hrun : (s.table id).run runFuel { s.world with has := s.world.has.erase id } with
      | none => simp [hrun] at h
      | some r =>
        obtain ⟨rr, w1, σ2⟩ := r
        obtain ⟨-, ⟨hq2, hh2, hf2, -, hi2⟩, -, -⟩ := run_world hrun
        simp only at hq2 hh2 hf2 hi2
        cases rr with
        | error e => simp [hrun] at h
        | ok u =>
          cases u
          simp only [hrun, hquiet id, List.foldl_nil] at h
          have hnot : id ∉ σ2.has := by
            rw [hh2]
            exact Finset.not_mem_erase _ _
          simp only [hnot, if_false] at h
          have := ih _ _ h
          rw [this, runsOf_step, hR]
          simp only [hi2, hq2, List.append_assoc, List.singleton_append]

theorem pending_queueWatcher (k : Nat) {σ : World} (h : σ.Pending) :
    (queueWatcher k σ).Pending ∧ k ∈ (queueWatcher k σ).queue ∧
    ∀ j ∈ σ.queue, j ∈ (queueWatcher k σ).queue := by
  obtain ⟨hf, hn, hm⟩ := h
  by_cases hk : k ∈ σ.has
  · have e : queueWatcher k σ = σ.emit (Event.queueWatcher k) := by
      unfold queueWatcher
      simp [World.emit, hk]
    rw [e]
    exact ⟨⟨hf, hn, hm⟩, (hm k).2 hk, fun j hj => hj⟩
  · have e : queueWatcher k σ =
        { σ.emit (Event.queueWatcher k) with
          has := insert k σ.has, queue := σ.queue ++ [k], waiting := true } := by
      unfold queueWatcher
      simp [World.emit, hk, hf]
    rw [e]
    have hkq : k ∉ σ.queue := fun hq => hk ((hm k).1 hq)
    refine ⟨⟨hf, ?_, ?_⟩, ?_, ?_⟩
    · show (σ.queue ++ [k]).Nodup
      rw [List.nodup_append]
      refine ⟨hn, List.nodup_singleton k, ?_⟩
      intro x hx hx1
      rw [List.mem_singleton] at hx1
      subst hx1
      exact hkq hx
    · intro id
      show id ∈ σ.queue ++ [k] ↔ id ∈ insert k σ.has
      rw [List.mem_append, List.mem_singleton, Finset.mem_insert, hm id]
      tauto
    · show k ∈ σ.queue ++ [k]
      simp
    · intro j hj
      show j ∈ σ.queue ++ [k]
      simp [hj]

/-- Any number of `queueWatcher` calls between two flushes leaves each watcher
that was handed over in the queue once. -/
theorem pending_calls : ∀ (calls : List Nat) (σ : World), σ.Pending →
    (calls.foldl (fun τ k => queueWatcher k τ) σ).Pending ∧
    (∀ j ∈ σ.queue, j ∈ (calls.foldl (fun τ k => queueWatcher k τ) σ).queue) ∧
    ∀ j ∈ calls, j ∈ (calls.foldl (fun τ k => queueWatcher k τ) σ).queue := by
  intro calls
  induction calls with
  | nil => intro σ h; exact ⟨h, fun j hj => hj, fun j hj => by simp at hj⟩
  | cons k ks ih =>
    intro σ h
    obtain ⟨h1, h2, h3⟩ := pending_queueWatcher k h
    obtain ⟨i1, i2, i3⟩ := ih (queueWatcher k σ) h1
    simp only [List.foldl_cons]
    refine ⟨i1, fun j hj => i2 j (h3 j hj), fun j hj => ?_⟩
    rcases List.mem_cons.1 hj with hj | hj
    · subst hj
      exact i2 _ h2
    · exact i3 j hj

/-- A watcher that is not deep always returns from `run()`. -/
theorem run_returns (fuel : Nat) (w : Watcher) (σ : World) (hd : w.deep = false) :
    ∃ r, w.run fuel σ = some r := by
  have hg : ∃ g, w.get fuel σ = some g := by
    rw [get_eq]
    simp [Watcher.getTraverse, hd]
  obtain ⟨⟨rr, wg, σg⟩, hg⟩ := hg
  unfold Watcher.run
  split
  · rw [hg]
    cases rr with
    | error e => exact ⟨_, rfl⟩
    | ok v =>
      simp only
      split
      · split
        · exact ⟨_, rfl⟩
        · split <;> exact ⟨_, rfl⟩
      · exact ⟨_, rfl⟩
  · exact ⟨_, rfl⟩

/-- With no watcher deep and no notification during the flush, the loop
returns once the budget exceeds the number of watchers from the cursor on. -/
theorem flushLoop_returns (notified : Nat → List Nat) (runFuel : Nat)
    (hquiet : ∀ j, notified j = []) :
    ∀ n s, (∀ id, (s.table id).deep = false) →
      s.world.queue.length - s.world.index < n →
      ∃ r, flushLoop notified runFuel n s = some r := by
  intro n
  induction n with
  | zero => intro s _ h; omega
  | succ n ih =>
    intro s hdeep hlen
    unfold flushLoop
    cases hq : s.world.queue[s.world.index]? with
    | none => exact ⟨_, rfl⟩
    | some id =>
      obtain ⟨hlt, -⟩ := List.getElem?_eq_some.1 hq
      obtain ⟨⟨rr, w1, σ2⟩, hrun⟩ :=
        run_returns runFuel (s.table id) { s.world with has := s.world.has.erase id }
          (hdeep id)
      obtain ⟨-, ⟨hq2, hh2, -, -, hi2⟩, -, -⟩ := run_world hrun
      have hcfg := (run_frame hrun).1
      simp only at hq2 hh2 hi2
      simp only [hrun]
      cases rr with
      | error e => exact ⟨_, rfl⟩
      | ok u =>
        cases u
        simp only [hquiet id, List.foldl_nil]
        have hnot : id ∉ σ2.has := by
          rw [hh2]
          exact Finset.not_mem_erase _ _
        simp only [hnot, if_false]
        apply ih
        · intro j
          show (Function.update s.table id w1 j).deep = false
          rw [Function.update_apply]
          split
          · rw [hcfg.2.2.2.2.1]
            exact hdeep _
          · exact hdeep j
        · simp only [hq2, hi2]
          omega

/-- C13, as stated, fails: with watchers 1 and 2 queued, the `run()` of
watcher 2 hands watcher 1, whose pending mark was cleared when it ran, to
`queueWatcher` again, and the same flush invokes `run()` on watcher 1 a second
time. -/
theorem C13_flush_counterexample :
    pairQueued.queue = [1, 2] ∧
    (flushSchedulerQueue notifiedBack 0 5 pairTable pairQueued).map
      (fun r => runsOf r.2.trace) = some [1, 2, 1] ∧
    (flushSchedulerQueue notifiedBack 0 5 pairTable pairQueued).map
      (fun r => (runsOf r.2.trace).count 1) = some 2 := by
  refine ⟨by decide, by decide, by decide⟩

/-- C13, amended. Start from a scheduler with nothing pending and hand
watchers to `queueWatcher` any number of times. In every flush that completes,
`run()` is invoked on a watcher at most once more than the watcher is handed to
`queueWatcher` during that flush, hence at most once when no `run()` of the
flush notifies it. When no `run()` of the flush notifies any watcher and the
flush returns normally, `run()` is invoked exactly once on each watcher that
was handed over, in ascending id order; and such a flush does return when no
watcher is deep. -/
theorem C13_flush_runs_bounded (notified : Nat → List Nat) (runFuel loopFuel : Nat)
    (table : Nat → Watcher) (σ0 : World) (calls : List Nat)
    (res : Except Val Unit) (s : FlushState)
    (hidle : σ0.queue = [] ∧ σ0.has = ∅ ∧ σ0.flushing = false)
    (hflush : flushSchedulerQueue notified runFuel loopFuel table
      (calls.foldl (fun τ k => queueWatcher k τ) σ0) = some (res, s)) :
    (∀ j, (runsOf s.trace).count j ≤ 1 + ((runsOf s.trace).flatMap notified).count j) ∧
    (∀ j, (∀ i ∈ runsOf s.trace, j ∉ notified i) → (runsOf s.trace).count j ≤ 1) ∧
    ((∀ j, notified j = []) → res = .ok () →
      runsOf s.trace = (calls.foldl (fun τ k => queueWatcher k τ) σ0).queue.insertionSort
        (fun a b => a ≤ b) ∧
      ∀ j ∈ calls, (runsOf s.trace).count j = 1) ∧
    ((∀ j, notified j = []) → (∀ id, (table id).deep = false) → ∀ fuel,
      (calls.foldl (fun τ k => queueWatcher k τ) σ0).queue.length < fuel →
      ∃ r, flushSchedulerQueue notified runFuel fuel table
        (calls.foldl (fun τ k => queueWatcher k τ) σ0) = some r) := by
  have hpend0 : σ0.Pending := by
    obtain ⟨h1, h2, h3⟩ := hidle
    exact ⟨h3, by rw [h1]; exact List.nodup_nil, fun id => by rw [h1, h2]; simp⟩
  obtain ⟨⟨hf, hn, hm⟩, -, hcalls⟩ := pending_calls calls σ0 hpend0
  generalize calls.foldl (fun τ k => queueWatcher k τ) σ0 = σ at hflush hf hn hm hcalls ⊢
  have hperm := List.perm_insertionSort (fun a b : Nat => a ≤ b) σ.queue
  have hbound : ∀ j, (runsOf s.trace).count j
      ≤ 1 + ((runsOf s.trace).flatMap notified).count j := by
    unfold flushSchedulerQueue at hflush
    have hinv : FlushInv notified (flushStart table σ) := by
      refine ⟨rfl, ?_, ?_, ?_⟩
      · show ((σ.queue.insertionSort (fun a b => a ≤ b)).drop 0).Nodup
        rw [List.drop_zero]
        exact hperm.nodup_iff.2 hn
      · show ∀ id ∈ (σ.queue.insertionSort (fun a b => a ≤ b)).drop 0, id ∈ σ.has
        rw [List.drop_zero]
        intro id hid
        exact (hm id).1 (hperm.mem_iff.1 hid)
      · intro j
        show (runsOf []).count j + ((σ.queue.insertionSort (fun a b => a ≤ b)).drop 0).count j
          ≤ 1 + ((runsOf []).flatMap notified).count j
        rw [List.drop_zero, hperm.count_eq]
        have := List.nodup_iff_count_le_one.1 hn j
        simp only [runsOf, List.filterMap_nil, List.count_nil, zero_add]
        omega
    cases hl : flushLoop notified runFuel loopFuel (flushStart table σ) with
    | none => simp [hl] at hflush
    | some r =>
      obtain ⟨rr, s1⟩ := r
      have hb := flushLoop_bound notified runFuel loopFuel _ _ _ hl hinv
      cases rr with
      | error e =>
        simp only [hl, Option.some.injEq, Prod.mk.injEq] at hflush
        obtain ⟨-, hs⟩ := hflush
        subst hs
        exact hb
      | ok u =>
        cases u
        simp only [hl, Option.some.injEq, Prod.mk.injEq] at hflush
        obtain ⟨-, hs⟩ := hflush
        subst hs
        exact hb
  refine ⟨hbound, ?_, ?_, ?_⟩
  · intro j hj
    have h0 : ((runsOf s.trace).flatMap notified).count j = 0 := by
      rw [List.count_eq_zero]
      intro hmem
      obtain ⟨i, hi, hji⟩ := List.mem_flatMap.1 hmem
      exact hj i hi hji
    have := hbound j
    omega
  · intro hquiet hres
    subst hres
    have hruns : runsOf s.trace = σ.queue.insertionSort (fun a b => a ≤ b) := by
      unfold flushSchedulerQueue at hflush
      cases hl : flushLoop notified runFuel loopFuel (flushStart table σ) with
      | none => simp [hl] at hflush
      | some r =>
        obtain ⟨rr, s1⟩ := r
        cases rr with
        | error e => simp [hl] at hflush
        | ok u =>
          cases u
          simp only [hl, Option.some.injEq, Prod.mk.injEq, true_and] at hflush
          subst hflush
          have := flushLoop_quiet notified runFuel hquiet _ _ _ hl
          rw [this]
          show runsOf [] ++ (σ.queue.insertionSort (fun a b => a ≤ b)).drop 0 = _
          simp [runsOf]
    refine ⟨hruns, fun j hj => ?_⟩
    rw [hruns, hperm.count_eq]
    exact List.count_eq_one_of_mem hn (hcalls j hj)
  · intro hquiet hdeep fuel hfuel
    obtain ⟨⟨rr, s1⟩, hl⟩ := flushLoop_returns notified runFuel hquiet fuel
      (flushStart table σ) hdeep (by
          show (σ.queue.insertionSort (fun a b => a ≤ b)).length - 0 < fuel
          rw [hperm.length_eq]
          omega)
    unfold flushSchedulerQueue
    simp only [hl]
    cases rr with
    | error e => exact ⟨_, rfl⟩
    | ok u => exact ⟨_, rfl⟩

/-- C13 (amended) on the two watchers of `"x.y"`: watcher 1 was handed to
`queueWatcher` three times and watcher 2 once; the flush invokes `run()` once
on each, watcher 1 first. -/
theorem C13_flush_runs_bounded_witness :
    pairQueued.queue = [1, 2] ∧
    runsOf (flushed (flushSchedulerQueue notifiedNone 0 5 pairTable pairQueued)).trace
      = [1, 2] ∧
    (flushSchedulerQueue notifiedNone 0 5 pairTable pairQueued).map
      (fun r => r.2.world.log.filter Event.isCallback)
      = some [.callback 1 (.num 2) (.num 1), .callback 2 (.num 2) (.num 1)] ∧
    ∀ j ∈ [1, 2, 1, 1],
      (runsOf (flushed (flushSchedulerQueue notifiedNone 0 5 pairTable pairQueued)).trace).count j
        = 1 :=
  ⟨by decide, by decide, by decide,
    ((C13_flush_runs_bounded notifiedNone 0 5 pairTable { pairSecond.2 with heap := heapXY 2 }
      [1, 2, 1, 1] (.ok ())
      (flushed (flushSchedulerQueue notifiedNone 0 5 pairTable pairQueued))
      ⟨by decide, by decide, by decide⟩ (by rfl)).2.2.1 (fun _ => rfl) rfl).2⟩

/-! ## Properties of an object: reading and storing -/

theorem lookup_store_same (k : String) (v : JS) (ps : List (String × JS)) :
    lookup k (store k v ps) = v := by
  induction ps with
  | nil => simp [store, lookup]
  | cons p ps ih =>
    obtain ⟨k1, w⟩ := p
    by_cases h : k1 = k
    · simp [store, lookup, h]
    · simp [store, lookup, h, ih]

theorem lookup_store_ne {k key : String} (v : JS) (ps : List (String × JS)) (h : key ≠ k) :
    lookup key (store k v ps) = lookup key ps := by
  induction ps with
  | nil => simp [store, lookup, Ne.symm h]
  | cons p ps ih =>
    obtain ⟨k1, w⟩ := p
    by_cases h1 : k1 = k
    · subst h1
      simp [store, lookup, Ne.symm h]
    · by_cases h2 : k1 = key
      · subst h2
        simp [store, lookup, h1]
      · simp [store, lookup, h1, h2, ih]

theorem keys_store_mem {k : String} (v : JS) {ps : List (String × JS)}
    (h : k ∈ ps.map Prod.fst) : (store k v ps).map Prod.fst = ps.map Prod.fst := by
  induction ps with
  | nil => simp at h
  | cons p ps ih =>
    obtain ⟨k1, w⟩ := p
    by_cases h1 : k1 = k
    · simp [store, h1]
    · have : k ∈ ps.map Prod.fst := by
        simp only [List.map_cons, List.mem_cons] at h
        rcases h with h | h
        · exact absurd h.symm h1
        · exact h
      simp [store, h1, ih this]

theorem store_not_mem {k : String} (v : JS) {ps : List (String × JS)}
    (h : k ∉ ps.map Prod.fst) : store k v ps = ps ++ [(k, v)] := by
  induction ps with
  | nil => rfl
  | cons p ps ih =>
    obtain ⟨k1, w⟩ := p
    simp only [List.map_cons, List.mem_cons, not_or] at h
    simp [store, Ne.symm h.1, ih h.2]

theorem lookup_not_mem {key : String} {ps : List (String × JS)}
    (h : key ∉ ps.map Prod.fst) : lookup key ps = JS.undefined := by
  induction ps with
  | nil => rfl
  | cons p ps ih =>
    obtain ⟨k1, w⟩ := p
    simp only [List.map_cons, List.mem_cons, not_or] at h
    simp [lookup, Ne.symm h.1, ih h.2]

theorem hasOwn_obj (t : Nat) (ps : List (String × JS)) (key : String) :
    hasOwn (.obj t ps) key = true ↔ key ∈ ps.map Prod.fst := by
  simp [hasOwn, JS.ownKeys]

theorem lookup_cons_ne {key k : String} (v : JS) (ps : List (String × JS)) (h : key ≠ k) :
    lookup key ((k, v) :: ps) = lookup key ps := by
  simp [lookup, Ne.symm h]

theorem lookup_cons_same (k : String) (v : JS) (ps : List (String × JS)) :
    lookup k ((k, v) :: ps) = v := by
  simp [lookup]

theorem lookup_append_new {k : String} (v : JS) {ps : List (String × JS)}
    (h : k ∉ ps.map Prod.fst) : lookup k (ps ++ [(k, v)]) = v := by
  rw [← store_not_mem v h, lookup_store_same]

/-! ## Merging hooks -/

theorem strictEq_trans {a b c : JS} (h1 : a.strictEq b = true) (h2 : b.strictEq c = true) :
    a.strictEq c = true := by
  cases a <;> cases b <;> simp [JS.strictEq] at h1 <;> cases c <;>
    simp [JS.strictEq] at h2 ⊢ <;> (subst h1; exact h2)

theorem notIn_append (res : List JS) (x y : JS) :
    notIn (res ++ [x]) y = (notIn res y && !x.strictEq y) := by
  simp [notIn, List.any_append, Bool.not_or]

theorem dedupFirst_nil : dedupFirst [] = [] := by
  rw [dedupFirst]

theorem dedupFirst_cons (x : JS) (xs : List JS) :
    dedupFirst (x :: xs) = x :: dedupFirst (xs.filter (fun y => !x.strictEq y)) := by
  rw [dedupFirst]

/-- The loop of `dedupeHooks` from any point on. -/
theorem dedupe_loop : ∀ (xs res : List JS),
    xs.foldl (fun res x => if notIn res x then res ++ [x] else res) res
      = res ++ dedupFirst (xs.filter (fun y => notIn res y)) := by
  intro xs
  induction xs with
  | nil => intro res; simp [dedupFirst_nil]
  | cons x xs ih =>
    intro res
    simp only [List.foldl_cons]
    by_cases hx : notIn res x = true
    · simp only [hx, if_true]
      rw [ih, List.filter_cons_of_pos hx, dedupFirst_cons, List.filter_filter]
      simp only [List.append_assoc, List.singleton_append]
      congr 3
      apply List.filter_congr
      intro y _
      rw [notIn_append, Bool.and_comm]
    · have hx1 : notIn res x = false := by simpa using hx
      simp only [hx1, Bool.false_eq_true, if_false]
      rw [ih, List.filter_cons_of_neg hx]

theorem dedupe_loop_nil (xs : List JS) :
    xs.foldl (fun res x => if notIn res x then res ++ [x] else res) [] = dedupFirst xs := by
  rw [dedupe_loop]
  simp [notIn]

theorem dedupFirst_subset : ∀ (n : Nat) (xs : List JS), xs.length ≤ n →
    ∀ y ∈ dedupFirst xs, y ∈ xs := by
  intro n
  induction n with
  | zero =>
    intro xs h y hy
    have : xs = [] := List.length_eq_zero.1 (Nat.le_zero.1 h)
    subst this
    rw [dedupFirst_nil] at hy
    exact hy
  | succ n ih =>
    intro xs h y hy
    cases xs with
    | nil => rw [dedupFirst_nil] at hy; exact hy
    | cons x xs =>
      rw [dedupFirst_cons] at hy
      rcases List.mem_cons.1 hy with hy | hy
      · exact hy ▸ List.mem_cons_self _ _
      · have hl : (xs.filter (fun y => !x.strictEq y)).length ≤ n :=
          (List.length_filter_le _ _).trans (Nat.le_of_succ_le_succ h)
        exact List.mem_cons_of_mem _ (List.mem_of_mem_filter (ih _ hl y hy))

/-- No two elements of a deduplicated list are the same function. -/
theorem dedupFirst_pairwise : ∀ (n : Nat) (xs : List JS), xs.length ≤ n →
    (dedupFirst xs).Pairwise (fun a b => a.strictEq b = false) := by
  intro n
  induction n with
  | zero =>
    intro xs h
    have : xs = [] := List.length_eq_zero.1 (Nat.le_zero.1 h)
    subst this
    rw [dedupFirst_nil]
    exact List.Pairwise.nil
  | succ n ih =>
    intro xs h
    cases xs with
    | nil => rw [dedupFirst_nil]; exact List.Pairwise.nil
    | cons x xs =>
      rw [dedupFirst_cons]
      have hl : (xs.filter (fun y => !x.strictEq y)).length ≤ n :=
        (List.length_filter_le _ _).trans (Nat.le_of_succ_le_succ h)
      refine List.Pairwise.cons (fun y hy => ?_) (ih _ hl)
      have := List.of_mem_filter (dedupFirst_subset n _ hl y hy)
      simpa using this

/-- Every element of the list is, up to `===`, in the deduplicated list. -/
theorem dedupFirst_complete : ∀ (n : Nat) (xs : List JS), xs.length ≤ n →
    ∀ y ∈ xs, ∃ z ∈ dedupFirst xs, z.strictEq y = true ∨ z = y := by
  intro n
  induction n with
  | zero =>
    intro xs h y hy
    have : xs = [] := List.length_eq_zero.1 (Nat.le_zero.1 h)
    subst this
    simp at hy
  | succ n ih =>
    intro xs h y hy
    cases xs with
    | nil => simp at hy
    | cons x xs =>
      rw [dedupFirst_cons]
      have hl : (xs.filter (fun y => !x.strictEq y)).length ≤ n :=
        (List.length_filter_le _ _).trans (Nat.le_of_succ_le_succ h)
      rcases List.mem_cons.1 hy with hy | hy
      · exact ⟨x, List.mem_cons_self _ _, Or.inr hy.symm⟩
      · by_cases hxy : x.strictEq y = true
        · exact ⟨x, List.mem_cons_self _ _, Or.inl hxy⟩
        · have hm : y ∈ xs.filter (fun y => !x.strictEq y) :=
            List.mem_filter.2 ⟨hy, by simpa using hxy⟩
          obtain ⟨z, hz, hzy⟩ := ih _ hl y hm
          exact ⟨z, List.mem_cons_of_mem _ hz, hzy⟩

/-- Deduplicating `P ++ C` keeps the deduplicated `P` in front. -/
theorem dedupFirst_append (ps cs : List JS) :
    dedupFirst (ps ++ cs) =
      dedupFirst ps ++ dedupFirst (cs.filter (fun y => notIn (dedupFirst ps) y)) := by
  rw [← dedupe_loop_nil, List.foldl_append, dedupe_loop_nil, dedupe_loop]

theorem notIn_dedupFirst (ps : List JS) (y : JS) : notIn (dedupFirst ps) y = notIn ps y := by
  rw [Bool.eq_iff_iff]
  simp only [notIn, Bool.not_eq_true', Bool.eq_false_iff, ne_eq, List.any_eq_true, not_exists,
    not_and]
  constructor
  · intro h z hz hzy
    obtain ⟨w, hw, hwz⟩ := dedupFirst_complete ps.length ps (le_refl _) z hz
    rcases hwz with hwz | hwz
    · exact h w hw (strictEq_trans hwz hzy)
    · subst hwz
      exact h w hw hzy
  · intro h z hz hzy
    exact h z (dedupFirst_subset ps.length ps (le_refl _) z hz) hzy

theorem truthy_arr (t : Nat) (xs : List JS) : (JS.arr t xs).truthy = true := rfl

theorem truthy_obj (t : Nat) (ps : List (String × JS)) : (JS.obj t ps).truthy = true := rfl

/-- C15. With `parentVal` an array `P` or absent and `childVal` a function, an
array `C` or absent: when one of them is present, `mergeHook` returns a new
array whose elements are `P` followed by the child's functions with duplicates
removed, the first occurrence kept. So no function occurs twice, every function
of `P` and of the child is in it, and it is the deduplicated `P` followed by
the deduplicated child functions that are not in `P`; with the child absent it
is `P` deduplicated. When both are absent it returns `parentVal` as it is. -/
theorem C15_mergeHook (parentVal childVal : JS) (h : Alloc)
    (hP : parentVal.truthy = false ∨ parentVal.isArray = true) :
    ((parentVal.truthy = true ∨ childVal.truthy = true) →
      ∃ tag h1, mergeHook parentVal childVal h =
          some (.arr tag (dedupFirst (parentVal.elems ++ hooksOf childVal)), h1) ∧
        h.next ≤ tag ∧
        (dedupFirst (parentVal.elems ++ hooksOf childVal)).Pairwise
          (fun a b => a.strictEq b = false) ∧
        (∀ y ∈ parentVal.elems ++ hooksOf childVal,
          ∃ z ∈ dedupFirst (parentVal.elems ++ hooksOf childVal), z.strictEq y = true ∨ z = y) ∧
        (∀ y ∈ dedupFirst (parentVal.elems ++ hooksOf childVal),
          y ∈ parentVal.elems ++ hooksOf childVal) ∧
        dedupFirst (parentVal.elems ++ hooksOf childVal) =
          dedupFirst parentVal.elems ++
            dedupFirst ((hooksOf childVal).filter (fun y => notIn parentVal.elems y)) ∧
        (childVal.truthy = false →
          dedupFirst (parentVal.elems ++ hooksOf childVal) = dedupFirst parentVal.elems)) ∧
    (parentVal.truthy = false → childVal.truthy = false →
      mergeHook parentVal childVal h = some (parentVal, h)) := by
  have horder : dedupFirst (parentVal.elems ++ hooksOf childVal) =
      dedupFirst parentVal.elems ++
        dedupFirst ((hooksOf childVal).filter (fun y => notIn parentVal.elems y)) := by
    rw [dedupFirst_append]
    congr 2
    apply List.filter_congr
    intro y _
    exact notIn_dedupFirst _ y
  have hprops : ∀ tag h1, mergeHook parentVal childVal h =
        some (.arr tag (dedupFirst (parentVal.elems ++ hooksOf childVal)), h1) →
      h.next ≤ tag →
      ∃ tag h1, mergeHook parentVal childVal h =
          some (.arr tag (dedupFirst (parentVal.elems ++ hooksOf childVal)), h1) ∧
        h.next ≤ tag ∧
        (dedupFirst (parentVal.elems ++ hooksOf childVal)).Pairwise
          (fun a b => a.strictEq b = false) ∧
        (∀ y ∈ parentVal.elems ++ hooksOf childVal,
          ∃ z ∈ dedupFirst (parentVal.elems ++ hooksOf childVal), z.strictEq y = true ∨ z = y) ∧
        (∀ y ∈ dedupFirst (parentVal.elems ++ hooksOf childVal),
          y ∈ parentVal.elems ++ hooksOf childVal) ∧
        dedupFirst (parentVal.elems ++ hooksOf childVal) =
          dedupFirst parentVal.elems ++
            dedupFirst ((hooksOf childVal).filter (fun y => notIn parentVal.elems y)) ∧
        (childVal.truthy = false →
          dedupFirst (parentVal.elems ++ hooksOf childVal) = dedupFirst parentVal.elems) := by
    intro tag h1 hm ht
    refine ⟨tag, h1, hm, ht, dedupFirst_pairwise _ _ (le_refl _),
      dedupFirst_complete _ _ (le_refl _), dedupFirst_subset _ _ (le_refl _), horder, ?_⟩
    intro hc
    simp [hooksOf, hc]
  constructor
  · intro hpres
    by_cases hc : childVal.truthy = true
    · by_cases hp : parentVal.truthy = true
      · rcases hP with hP | hP
        · rw [hP] at hp; exact absurd hp (by decide)
        · cases parentVal with
          | arr pt ps =>
            refine hprops (h.next + 1) ⟨h.next + 1 + 1, h.written⟩ ?_ (Nat.le_succ _)
            have hk : hooksOf childVal = concat [] childVal := by
              simp only [hooksOf, hc, if_true, concat, List.nil_append]
            have hcat : concat ps childVal = ps ++ hooksOf childVal := by
              rw [hk]
              simp only [concat]
              split <;> simp
            simp only [mergeHook, hc, if_true, truthy_arr, newArray, dedupeHooks, hcat,
              dedupe_loop_nil, JS.elems]
          | _ => simp [JS.isArray] at hP
      · have hp1 : parentVal.truthy = false := by simpa using hp
        have hpe : parentVal.elems = [] := by
          cases parentVal <;> first | rfl | simp [JS.truthy] at hp1
        by_cases ha : childVal.isArray = true
        · cases childVal with
          | arr ct cs =>
            refine hprops h.next ⟨h.next + 1, h.written⟩ ?_ (le_refl _)
            simp only [mergeHook, truthy_arr, if_true, hp1, Bool.false_eq_true, if_false,
              JS.isArray, dedupeHooks, newArray, dedupe_loop_nil, hpe, hooksOf,
              List.nil_append]
          | _ => simp [JS.isArray] at ha
        · have ha1 : childVal.isArray = false := by simpa using ha
          refine hprops (h.next + 1) ⟨h.next + 1 + 1, h.written⟩ ?_ (Nat.le_succ _)
          have hk : hooksOf childVal = [childVal] := by
            simp only [hooksOf, hc, if_true]
            cases childVal <;> first | rfl | simp [JS.isArray] at ha1
          simp only [mergeHook, hc, if_true, hp1, Bool.false_eq_true, if_false, ha1,
            newArray, truthy_arr, dedupeHooks, dedupe_loop_nil, hpe, hk, List.nil_append]
    · have hc1 : childVal.truthy = false := by simpa using hc
      have hp : parentVal.truthy = true := by
        rcases hpres with hp | hp
        · exact hp
        · exact absurd hp hc
      rcases hP with hP | hP
      · rw [hP] at hp; exact absurd hp (by decide)
      · cases parentVal with
        | arr pt ps =>
          refine hprops h.next ⟨h.next + 1, h.written⟩ ?_ (le_refl _)
          simp only [mergeHook, hc1, Bool.false_eq_true, if_false, truthy_arr, if_true,
            dedupeHooks, newArray, dedupe_loop_nil, JS.elems, hooksOf, List.append_nil]
        | _ => simp [JS.isArray] at hP
  · intro hp hc
    simp [mergeHook, hp, hc]

/-- C15 on the hooks `[A, B]` of the parent and `[B, C, A, C]` of the child:
the result is `[A, B, C]`; with the child the single function `A` it is
`[A, B]`; with the child absent and the parent `[A, B, A]` it is `[A, B]`; with
both absent it is `undefined`. -/
theorem C15_mergeHook_witness :
    (mergeHook (.arr 1 [hookA, hookB]) (.arr 2 [hookB, hookC, hookA, hookC]) alloc0).map
      (fun r => r.1.elems.map JS.tag) = some [some 101, some 102, some 103] ∧
    (mergeHook (.arr 1 [hookA, hookB]) hookA alloc0).map
      (fun r => r.1.elems.map JS.tag) = some [some 101, some 102] ∧
    (mergeHook (.arr 1 [hookA, hookB, hookA]) .undefined alloc0).map
      (fun r => r.1.elems.map JS.tag) = some [some 101, some 102] ∧
    (mergeHook .undefined hookC alloc0).map
      (fun r => r.1.elems.map JS.tag) = some [some 103] ∧
    (JS.undefined.truthy = false → JS.undefined.truthy = false →
      mergeHook .undefined .undefined alloc0 = some (.undefined, alloc0)) :=
  ⟨by decide, by decide, by decide, by decide,
    (C15_mergeHook .undefined .undefined alloc0 (Or.inl rfl)).2⟩

/-! ## Loops that assign to one object -/

theorem mem_keys_store {k key : String} (v : JS) (ps : List (String × JS)) :
    key ∈ (store k v ps).map Prod.fst ↔ key = k ∨ key ∈ ps.map Prod.fst := by
  by_cases h : k ∈ ps.map Prod.fst
  · rw [keys_store_mem v h]
    constructor
    · exact Or.inr
    · rintro (h1 | h1)
      · rw [h1]; exact h
      · exact h1
  · rw [store_not_mem v h]
    simp only [List.map_append, List.map_cons, List.map_nil, List.mem_append,
      List.mem_singleton]
    exact Or.comm

/-- A loop over pairwise different keys in which each turn assigns to the
object, under the key it is at, a value related to the one held there. -/
theorem assign_loop (step : JS × Alloc → String → JS × Alloc)
    (Rel : String → JS → JS → Prop)
    (hstep : ∀ (t : Nat) (ps : List (String × JS)) (h : Alloc) (key : String),
      ∃ v h1, step (.obj t ps, h) key = (.obj t (store key v ps), h1) ∧
        Rel key (lookup key ps) v ∧ h.next ≤ h1.next ∧ h1.written = h.written ++ [t]) :
    ∀ (keys : List String) (t : Nat) (ps : List (String × JS)) (h : Alloc), keys.Nodup →
      ∃ ps1 h1, keys.foldl step (.obj t ps, h) = (.obj t ps1, h1) ∧
        (∀ k ∈ keys, Rel k (lookup k ps) (lookup k ps1)) ∧
        (∀ k, k ∉ keys → lookup k ps1 = lookup k ps) ∧
        (∀ k, k ∈ ps1.map Prod.fst ↔ k ∈ ps.map Prod.fst ∨ k ∈ keys) ∧
        h.next ≤ h1.next ∧ h1.written = h.written ++ List.replicate keys.length t := by
  intro keys
  induction keys with
  | nil =>
    intro t ps h _
    exact ⟨ps, h, rfl, fun k hk => by simp at hk, fun k _ => rfl, fun k => by simp,
      le_refl _, by simp⟩
  | cons key keys ih =>
    intro t ps h hn
    obtain ⟨hk, hn⟩ := List.nodup_cons.1 hn
    obtain ⟨v, h1, e, hrel, hnext, hw⟩ := hstep t ps h key
    obtain ⟨ps1, h2, e2, i1, i2, i3, i4, i5⟩ := ih t (store key v ps) h1 hn
    refine ⟨ps1, h2, ?_, ?_, ?_, ?_, hnext.trans i4, ?_⟩
    · rw [List.foldl_cons, e, e2]
    · intro k hkm
      rcases List.mem_cons.1 hkm with hkm | hkm
      · subst hkm
        rw [i2 k hk, lookup_store_same]
        exact hrel
      · have hne : k ≠ key := fun h => hk (h ▸ hkm)
        have := i1 k hkm
        rw [lookup_store_ne _ _ hne] at this
        exact this
    · intro k hkm
      simp only [List.mem_cons, not_or] at hkm
      rw [i2 k hkm.2, lookup_store_ne _ _ hkm.1]
    · intro k
      rw [i3 k, mem_keys_store, List.mem_cons]
      tauto
    · rw [i5, hw, List.length_cons, List.replicate_succ]
      simp

/-- The effect of `extend` on an object. -/
theorem extend_obj (t : Nat) (ps : List (String × JS)) (_from : JS) (h : Alloc)
    (hn : _from.keys.Nodup) :
    ∃ ps1 h1, extend (.obj t ps) _from h = (.obj t ps1, h1) ∧
      (∀ k ∈ _from.keys, lookup k ps1 = _from.get k) ∧
      (∀ k, k ∉ _from.keys → lookup k ps1 = lookup k ps) ∧
      (∀ k, k ∈ ps1.map Prod.fst ↔ k ∈ ps.map Prod.fst ∨ k ∈ _from.keys) ∧
      h1.next = h.next ∧ h1.written = h.written ++ List.replicate _from.keys.length t := by
  have hnext : ∀ (keys : List String) (st : JS × Alloc),
      (keys.foldl (fun st key => assign st.1 key (_from.get key) st.2) st).2.next
        = st.2.next := by
    intro keys
    induction keys with
    | nil => intro st; rfl
    | cons k ks ih => intro st; rw [List.foldl_cons, ih]; rfl
  obtain ⟨ps1, h1, e, i1, i2, i3, -, i5⟩ :=
    assign_loop (fun st key => assign st.1 key (_from.get key) st.2)
      (fun key _ v => v = _from.get key)
      (fun t ps h key => ⟨_from.get key, _, rfl, rfl, le_refl _, rfl⟩)
      _from.keys t ps h hn
  refine ⟨ps1, h1, e, i1, i2, i3, ?_, i5⟩
  have := hnext _from.keys (.obj t ps, h)
  rw [e] at this
  exact this

theorem get_of_not_mem_keys {v : JS} {k : String} (hk : k ∉ v.keys) (hob : k ≠ "__ob__") :
    v.get k = JS.undefined := by
  cases v with
  | obj t ps =>
    simp only [JS.get]
    apply lookup_not_mem
    intro hm
    apply hk
    simp only [JS.keys, JS.entries, List.mem_map, List.mem_filter] at hm ⊢
    obtain ⟨p, hp, hpk⟩ := hm
    exact ⟨p, ⟨hp, by rw [hpk]; simpa using hob⟩, hpk⟩
  | _ => rfl

theorem keys_of_falsy {v : JS} (h : v.truthy = false) : v.keys = [] := by
  cases v <;> first | rfl | simp [JS.truthy] at h

/-- C17. The strategy of `props`, `methods`, `inject` and `computed`, on
objects whose keys are pairwise different. With `parentVal` present the result
is a new object `r` (its identity is the next fresh tag) whose keys are those
of `parentVal` and of `childVal`, with `r[k]` equal to `childVal[k]` for a key
of `childVal` and to `parentVal[k]` for every other key (`"__ob__"`, which is
not enumerable, is not copied); every assignment made is to `r`, so
`parentVal` and `childVal` are not written to. With `parentVal` absent the
result is `childVal` itself and nothing is allocated or written. -/
theorem C17_strats_props (parentVal childVal : JS) (h : Alloc)
    (hpk : parentVal.keys.Nodup) (hck : childVal.keys.Nodup) :
    (parentVal.truthy = true →
      ∃ rps h1, strats.props parentVal childVal h = (.obj h.next rps, h1) ∧
        (∀ k, k ≠ "__ob__" → (JS.obj h.next rps).get k =
          if k ∈ childVal.keys then childVal.get k else parentVal.get k) ∧
        (∀ k, k ∈ (JS.obj h.next rps).ownKeys ↔ k ∈ parentVal.keys ∨ k ∈ childVal.keys) ∧
        (∀ t ∈ h1.written, t ∈ h.written ∨ t = h.next) ∧
        h1.next = h.next + 1) ∧
    (parentVal.truthy = false → strats.props parentVal childVal h = (childVal, h)) := by
  constructor
  · intro hp
    obtain ⟨ps1, h1, e1, a1, a2, a3, a4, a5⟩ :=
      extend_obj h.next [] parentVal { h with next := h.next + 1 } hpk
    obtain ⟨ps2, h2, e2, b1, b2, b3, b4, b5⟩ := extend_obj h.next ps1 childVal h1 hck
    have hw1 : ∀ t ∈ h1.written, t ∈ h.written ∨ t = h.next := by
      intro t ht
      rw [a5] at ht
      rcases List.mem_append.1 ht with ht | ht
      · exact Or.inl ht
      · exact Or.inr (List.eq_of_mem_replicate ht)
    have hval1 : ∀ k, k ≠ "__ob__" → lookup k ps1 = parentVal.get k := by
      intro k hob
      by_cases hk : k ∈ parentVal.keys
      · exact a1 k hk
      · rw [a2 k hk, get_of_not_mem_keys hk hob]
        rfl
    by_cases hc : childVal.truthy = true
    · refine ⟨ps2, h2, ?_, ?_, ?_, ?_, ?_⟩
      · simp only [strats.props, hp, hc, Bool.not_true, Bool.false_eq_true, if_false,
          if_true, newObject]
        rw [e1, e2]
      · intro k hob
        show lookup k ps2 = _
        by_cases hk : k ∈ childVal.keys
        · rw [if_pos hk, b1 k hk]
        · rw [if_neg hk, b2 k hk, hval1 k hob]
      · intro k
        simp only [JS.ownKeys]
        rw [b3 k, a3 k]
        simp
      · intro t ht
        rw [b5] at ht
        rcases List.mem_append.1 ht with ht | ht
        · exact hw1 t ht
        · exact Or.inr (List.eq_of_mem_replicate ht)
      · rw [b4, a4]
    · have hc1 : childVal.truthy = false := by simpa using hc
      have hkeys := keys_of_falsy hc1
      refine ⟨ps1, h1, ?_, ?_, ?_, hw1, a4⟩
      · simp only [strats.props, hp, hc1, Bool.not_true, Bool.false_eq_true, if_false,
          newObject]
        rw [e1]
      · intro k hob
        show lookup k ps1 = _
        rw [hkeys, if_neg (List.not_mem_nil k)]
        exact hval1 k hob
      · intro k
        simp only [JS.ownKeys]
        rw [a3 k, hkeys]
        simp
  · intro hp
    simp [strats.props, hp]

/-- C17 on `{a: 1, b: 2}` and `{b: 3, c: 4}`: the result is the new object
`{a: 1, b: 3, c: 4}`; without a parent it is the child. -/
theorem C17_strats_props_witness :
    (strats.props propsParent propsChild alloc0).1 =
      .obj 1000 [("a", .num 1), ("b", .num 3), ("c", .num 4)] ∧
    (strats.props propsParent propsChild alloc0).2 = ⟨1001, [1000, 1000, 1000, 1000]⟩ ∧
    (strats.props propsParent .undefined alloc0).1 = .obj 1000 [("a", .num 1), ("b", .num 2)] ∧
    (JS.undefined.truthy = false →
      strats.props .undefined propsChild alloc0 = (propsChild, alloc0)) :=
  ⟨by rfl, by rfl, by rfl,
    (C17_strats_props .undefined propsChild alloc0 (by decide) (by decide)).2⟩

theorem ne_ob_of_mem_keys {v : JS} {k : String} (hk : k ∈ v.keys) : k ≠ "__ob__" := by
  cases v with
  | obj t ps =>
    simp only [JS.keys, JS.entries, List.mem_map, List.mem_filter] at hk
    obtain ⟨p, ⟨-, hp⟩, hpk⟩ := hk
    rw [← hpk]
    simpa using hp
  | _ => simp [JS.keys, JS.entries] at hk

theorem concat_eq (xs : List JS) (v : JS) : concat xs v = xs ++ handlersOf v := by
  cases v <;> rfl

theorem isArray_arr (t : Nat) (xs : List JS) : (JS.arr t xs).isArray = true := rfl

theorem hooksOf_falsy {v : JS} (h : v.truthy = false) : hooksOf v = [] := by
  simp [hooksOf, h]

theorem hooksOf_single {v : JS} (h : v.truthy = true) (ha : v.isArray = false) :
    hooksOf v = [v] := by
  simp only [hooksOf, h, if_true]
  cases v <;> first | rfl | simp [JS.isArray] at ha

theorem handlersOf_array {v : JS} (ha : v.isArray = true) : handlersOf v = v.elems := by
  cases v <;> first | rfl | simp [JS.isArray] at ha

theorem handlersOf_single {v : JS} (ha : v.isArray = false) : handlersOf v = [v] := by
  cases v <;> first | rfl | simp [JS.isArray] at ha

/-- The value assigned by one turn of the loop of `strats.watch`. -/
theorem watchValue_spec (parent child : JS) (h : Alloc) :
    (watchValue parent child h).1.isArray = true ∧
    (watchValue parent child h).1.elems = hooksOf parent ++ handlersOf child ∧
    h.next ≤ (watchValue parent child h).2.next ∧
    (watchValue parent child h).2.written = h.written := by
  by_cases hcur : parent.truthy = true
  · by_cases harr : parent.isArray = true
    · cases parent with
      | arr at_ xs =>
        have e : watchValue (.arr at_ xs) child h =
            (.arr h.next (concat xs child), ⟨h.next + 1, h.written⟩) := by
          simp only [watchValue, truthy_arr, isArray_arr, Bool.not_true, Bool.and_false,
            Bool.false_eq_true, if_false, if_true, JS.elems, newArray]
        rw [e]
        exact ⟨rfl, by simp [JS.elems, concat_eq, hooksOf, JS.truthy], Nat.le_succ _, rfl⟩
      | _ => simp [JS.isArray] at harr
    · have harr1 : parent.isArray = false := by simpa using harr
      have e : watchValue parent child h =
          (.arr (h.next + 1) (concat [parent] child), ⟨h.next + 1 + 1, h.written⟩) := by
        simp only [watchValue, hcur, harr1, Bool.not_false, Bool.and_true, if_true, newArray,
          truthy_arr, JS.elems]
      rw [e]
      exact ⟨rfl, by simp [JS.elems, concat_eq, hooksOf_single hcur harr1], by
        show h.next ≤ h.next + 1 + 1
        omega, rfl⟩
  · have hcur1 : parent.truthy = false := by simpa using hcur
    by_cases hca : child.isArray = true
    · have e : watchValue parent child h = (child, h) := by
        simp only [watchValue, hcur1, Bool.false_and, Bool.false_eq_true, if_false, hca,
          if_true]
      rw [e]
      exact ⟨hca, by rw [hooksOf_falsy hcur1, handlersOf_array hca]; rfl, le_refl _, rfl⟩
    · have hca1 : child.isArray = false := by simpa using hca
      have e : watchValue parent child h =
          (.arr h.next [child], ⟨h.next + 1, h.written⟩) := by
        simp only [watchValue, hcur1, Bool.false_and, Bool.false_eq_true, if_false, hca1,
          newArray]
      rw [e]
      exact ⟨rfl, by rw [hooksOf_falsy hcur1, handlersOf_single hca1]; rfl, Nat.le_succ _, rfl⟩

/-! ## `mergeOptions` -/

theorem get_set_ne (o : JS) {k key : String} (v : JS) (h : key ≠ k) :
    (o.set k v).get key = o.get key := by
  cases o with
  | obj t ps => exact lookup_store_ne v ps h
  | _ => rfl

theorem assign_fst (o : JS) (key : String) (v : JS) (h : Alloc) :
    (assign o key v h).1 = o.set key v := rfl

theorem strictEq_undefined (v : JS) : v.strictEq JS.undefined = true ↔ v = JS.undefined := by
  cases v <;> simp [JS.strictEq]

theorem defaultStrat_of_defined {p c : JS} (h : c ≠ JS.undefined) : defaultStrat p c = c := by
  unfold defaultStrat
  rw [if_neg]
  rw [strictEq_undefined]
  exact h

theorem defaultStrat_undefined (p : JS) : defaultStrat p JS.undefined = p := by
  simp [defaultStrat, JS.strictEq]

/-- The normalisations leave every other property of `child` as it is. -/
theorem normalize_get (camelize : String → String) (child : JS) (h : Alloc) {key : String}
    (h1 : key ≠ "props") (h2 : key ≠ "inject") (h3 : key ≠ "directives") :
    (normalize camelize child h).1.get key = child.get key := by
  have hp : ∀ (o : JS) (a : Alloc), (normalizeProps camelize o a).1.get key = o.get key := by
    intro o a
    unfold normalizeProps
    dsimp only
    split
    · rfl
    · rw [assign_fst, get_set_ne _ _ h1]
  have hi : ∀ (o : JS) (a : Alloc), (normalizeInject o a).1.get key = o.get key := by
    intro o a
    unfold normalizeInject
    dsimp only
    split
    · rfl
    · rw [get_set_ne _ _ h2, assign_fst, get_set_ne _ _ h2]
  have hd : ∀ (o : JS) (a : Alloc), (normalizeDirectives o a).1.get key = o.get key := by
    intro o a
    unfold normalizeDirectives
    dsimp only
    split
    · rw [get_set_ne _ _ h3]
    · rfl
  unfold normalize
  dsimp only
  rw [hd, hi, hp]

/-- A loop in which each turn assigns to the object, under the key it is at, a
value that has a property of the key alone. -/
theorem assign_loop_any (step : JS × Alloc → String → JS × Alloc)
    (Rel : String → JS → Prop)
    (hstep : ∀ (t : Nat) (ps : List (String × JS)) (h : Alloc) (key : String),
      ∃ v h1, step (.obj t ps, h) key = (.obj t (store key v ps), h1) ∧ Rel key v) :
    ∀ (keys : List String) (t : Nat) (ps : List (String × JS)) (h : Alloc),
      ∃ ps1 h1, keys.foldl step (.obj t ps, h) = (.obj t ps1, h1) ∧
        (∀ k ∈ keys, Rel k (lookup k ps1)) ∧
        (∀ k, k ∉ keys → lookup k ps1 = lookup k ps) ∧
        (∀ k, k ∈ ps1.map Prod.fst ↔ k ∈ ps.map Prod.fst ∨ k ∈ keys) := by
  intro keys
  induction keys with
  | nil =>
    intro t ps h
    exact ⟨ps, h, rfl, fun k hk => by simp at hk, fun k _ => rfl, fun k => by simp⟩
  | cons key keys ih =>
    intro t ps h
    obtain ⟨v, h1, e, hrel⟩ := hstep t ps h key
    obtain ⟨ps1, h2, e2, i1, i2, i3⟩ := ih t (store key v ps) h1
    refine ⟨ps1, h2, ?_, ?_, ?_, ?_⟩
    · rw [List.foldl_cons, e, e2]
    · intro k hkm
      by_cases hin : k ∈ keys
      · exact i1 k hin
      · rcases List.mem_cons.1 hkm with hkm | hkm
        · subst hkm
          rw [i2 k hin, lookup_store_same]
          exact hrel
        · exact absurd hkm hin
    · intro k hkm
      simp only [List.mem_cons, not_or] at hkm
      rw [i2 k hkm.2, lookup_store_ne _ _ hkm.1]
    · intro k
      rw [i3 k, mem_keys_store, List.mem_cons]
      tauto

theorem mem_keys_iff {v : JS} {k : String} :
    k ∈ v.keys ↔ k ∈ v.ownKeys ∧ k ≠ "__ob__" := by
  cases v with
  | obj t ps =>
    simp only [JS.keys, JS.entries, JS.ownKeys, List.mem_map, List.mem_filter]
    constructor
    · rintro ⟨p, ⟨hp, hne⟩, hpk⟩
      exact ⟨⟨p, hp, hpk⟩, by rw [← hpk]; simpa using hne⟩
    · rintro ⟨⟨p, hp, hpk⟩, hne⟩
      exact ⟨p, ⟨hp, by rw [hpk]; simpa using hne⟩, hpk⟩
  | _ => simp [JS.keys, JS.entries, JS.ownKeys]

theorem mem_fieldKeys {p c : JS} {k : String} :
    k ∈ fieldKeys p c ↔ k ∈ p.keys ∨ k ∈ c.keys := by
  simp only [fieldKeys, List.mem_append, List.mem_filter, Bool.not_eq_true', hasOwn]
  constructor
  · rintro (h | ⟨h, -⟩)
    · exact Or.inl h
    · exact Or.inr h
  · rintro (h | h)
    · exact Or.inl h
    · by_cases hp : k ∈ p.keys
      · exact Or.inl hp
      · refine Or.inr ⟨h, ?_⟩
        rw [Bool.eq_false_iff]
        intro hc
        have : k ∈ p.ownKeys := by simpa using hc
        exact hp (mem_keys_iff.2 ⟨this, (mem_keys_iff.1 h).2⟩)

/-- Each key is merged once when the keys of each object are pairwise
different. -/
theorem fieldKeys_nodup {p c : JS} (hp : p.keys.Nodup) (hc : c.keys.Nodup) :
    (fieldKeys p c).Nodup := by
  unfold fieldKeys
  rw [List.nodup_append]
  refine ⟨hp, hc.filter _, ?_⟩
  intro k hk1 hk2
  have h2 := (List.mem_filter.1 hk2).2
  have : k ∈ p.ownKeys := (mem_keys_iff.1 hk1).1
  simp [hasOwn, this] at h2

/-- The loop of `mergeField` calls in closed form. -/
theorem mergeFields_spec (strats : String → Option Strategy) (vm p c : JS) (h : Alloc) :
    ∃ ps1 h1, (fieldKeys p c).foldl (mergeField strats vm p c) (newObject h)
        = (.obj h.next ps1, h1) ∧
      (∀ key, strats key = none → key ≠ "__ob__" →
        (JS.obj h.next ps1).get key = defaultStrat (p.get key) (c.get key)) ∧
      (∀ key, key ∈ (JS.obj h.next ps1).ownKeys ↔ key ∈ p.keys ∨ key ∈ c.keys) := by
  obtain ⟨ps1, h1, e, i1, i2, i3⟩ :=
    assign_loop_any (mergeField strats vm p c)
      (fun key v => strats key = none → v = defaultStrat (p.get key) (c.get key))
      (fun t ps a key => by
        cases hs : strats key with
        | none =>
          exact ⟨defaultStrat (p.get key) (c.get key), ⟨a.next, a.written ++ [t]⟩,
            by simp [mergeField, hs, assign, JS.set, JS.tag], fun _ => rfl⟩
        | some strat =>
          refine ⟨(strat (p.get key) (c.get key) vm key a).1,
            ⟨(strat (p.get key) (c.get key) vm key a).2.next,
              (strat (p.get key) (c.get key) vm key a).2.written ++ [t]⟩, ?_, fun hn => ?_⟩
          · simp [mergeField, hs, assign, JS.set, JS.tag]
          · rw [hs] at hn
            cases hn)
      (fieldKeys p c) h.next [] { h with next := h.next + 1 }
  refine ⟨ps1, h1, e, ?_, ?_⟩
  · intro key hs hob
    show lookup key ps1 = _
    by_cases hk : key ∈ fieldKeys p c
    · exact i1 key hk hs
    · rw [i2 key hk]
      have hk1 := fun hm => hk (mem_fieldKeys.2 hm)
      rw [get_of_not_mem_keys (fun hm => hk1 (Or.inl hm)) hob,
        get_of_not_mem_keys (fun hm => hk1 (Or.inr hm)) hob, defaultStrat_undefined]
      rfl
  · intro key
    show key ∈ ps1.map Prod.fst ↔ _
    rw [i3 key, mem_fieldKeys]
    simp

theorem mergeOptions_succ (strats : String → Option Strategy) (camelize : String → String)
    (vm : JS) (fuel : Nat) :
    mergeOptions strats camelize vm (fuel + 1) =
      mergeOptionsBody strats camelize vm (mergeOptions strats camelize vm fuel) := rfl

theorem mergeOptions_zero (strats : String → Option Strategy) (camelize : String → String)
    (vm : JS) (parent child : JS) (h : Alloc) :
    mergeOptions strats camelize vm 0 parent child h = none := rfl

/-- The merge of a completed `mergeOptions` call: `P` is the parent the fields
are merged from, the normalised child is the child. -/
theorem mergeOptions_spec {strats : String → Option Strategy} {camelize : String → String}
    {vm : JS} {fuel : Nat} {parent child : JS} {h : Alloc} {opts : JS} {h1 : Alloc}
    (hm : mergeOptions strats camelize vm (fuel + 1) parent child h = some (opts, h1)) :
    ∃ P hP,
      (if ((normalize camelize (optionsOf child) h).1.get "_base").truthy = true
        then some (P, hP) = some (parent, (normalize camelize (optionsOf child) h).2)
        else applyMixins (mergeOptions strats camelize vm fuel) parent
          (normalize camelize (optionsOf child) h).1 (normalize camelize (optionsOf child) h).2
          = some (P, hP)) ∧
      (∀ key, strats key = none → key ≠ "__ob__" →
        opts.get key =
          defaultStrat (P.get key) ((normalize camelize (optionsOf child) h).1.get key)) ∧
      (∀ key, key ∈ opts.ownKeys ↔
        key ∈ P.keys ∨ key ∈ (normalize camelize (optionsOf child) h).1.keys) := by
  rw [mergeOptions_succ] at hm
  unfold mergeOptionsBody at hm
  dsimp only at hm
  by_cases hb : ((normalize camelize (optionsOf child) h).1.get "_base").truthy = true
  · simp only [hb, Bool.not_true, Bool.false_eq_true, if_false, Option.some.injEq] at hm
    obtain ⟨ps1, h2, e, i1, i2⟩ := mergeFields_spec strats vm parent
      (normalize camelize (optionsOf child) h).1 (normalize camelize (optionsOf child) h).2
    rw [e] at hm
    obtain ⟨ho, -⟩ := Prod.mk.inj hm
    subst ho
    exact ⟨parent, _, by rw [if_pos hb], i1, i2⟩
  · have hb1 : ((normalize camelize (optionsOf child) h).1.get "_base").truthy = false := by
      simpa using hb
    simp only [hb1, Bool.not_false, if_true] at hm
    cases ha : applyMixins (mergeOptions strats camelize vm fuel) parent
        (normalize camelize (optionsOf child) h).1
        (normalize camelize (optionsOf child) h).2 with
    | none => simp [ha] at hm
    | some p =>
      obtain ⟨P, hP⟩ := p
      simp only [ha, Option.some.injEq] at hm
      obtain ⟨ps1, h2, e, i1, i2⟩ := mergeFields_spec strats vm P
        (normalize camelize (optionsOf child) h).1 hP
      rw [e] at hm
      obtain ⟨ho, -⟩ := Prod.mk.inj hm
      subst ho
      exact ⟨P, hP, by rw [if_neg hb], i1, i2⟩

theorem foldl_none {α : Type} (f : JS × Alloc → α → Option (JS × Alloc)) (ms : List α) :
    ms.foldl (fun acc m => match acc with
      | none => none
      | some p => f p m) none = none := by
  induction ms with
  | nil => rfl
  | cons m ms ih => simpa using ih

/-- The merges of `extends` and `mixins` as one loop over `mixinsOf`. -/
theorem applyMixins_eq (rec : JS → JS → Alloc → Option (JS × Alloc)) (parent child : JS)
    (h : Alloc) :
    applyMixins rec parent child h =
      (mixinsOf child).foldl (fun acc m => match acc with
        | none => none
        | some p => rec p.1 m p.2) (some (parent, h)) := by
  unfold applyMixins mixinsOf
  by_cases he : (child.get "extends").truthy = true
  · simp only [he, if_true, List.singleton_append, List.foldl_cons]
    cases hr : rec parent (child.get "extends") h with
    | none =>
      simp only
      exact (foldl_none (fun p m => rec p.1 m p.2) _).symm
    | some p1 =>
      simp only
      split <;> simp
  · simp only [he, Bool.false_eq_true, if_false, List.nil_append]
    split <;> simp

theorem depth_lookup_le (key : String) (ps : List (String × JS)) :
    (lookup key ps).depth ≤ JS.depth.depthProps ps := by
  induction ps with
  | nil => simp [lookup, JS.depth]
  | cons p ps ih =>
    obtain ⟨k, v⟩ := p
    simp only [lookup, JS.depth.depthProps]
    split
    · exact le_max_left _ _
    · exact ih.trans (le_max_right _ _)

/-- A property that is present lies less deep than its object. -/
theorem depth_get_lt (o : JS) (key : String) (h : (o.get key).truthy = true) :
    (o.get key).depth < o.depth := by
  cases o with
  | obj t ps =>
    simp only [JS.get, JS.depth]
    exact Nat.lt_succ_of_le (depth_lookup_le key ps)
  | _ => simp [JS.get, JS.truthy] at h

theorem depth_elem_lt (v x : JS) (h : x ∈ v.elems) : x.depth < v.depth := by
  cases v with
  | arr t xs =>
    simp only [JS.elems] at h
    simp only [JS.depth]
    apply Nat.lt_succ_of_le
    induction xs with
    | nil => simp at h
    | cons y ys ih =>
      simp only [JS.depth.depthList]
      rcases List.mem_cons.1 h with h | h
      · rw [h]; exact le_max_left _ _
      · exact (ih h).trans (le_max_right _ _)
  | _ => simp [JS.elems] at h

theorem depth_optionsOf_le (child : JS) : (optionsOf child).depth ≤ child.depth := by
  cases child <;> simp [optionsOf, JS.depth]

theorem depth_mixinsOf_lt (child m : JS) (h : m ∈ mixinsOf child) : m.depth < child.depth := by
  unfold mixinsOf at h
  rcases List.mem_append.1 h with h | h
  · split at h
    · rename_i ht
      rw [List.mem_singleton] at h
      rw [h]
      exact depth_get_lt child "extends" ht
    · simp at h
  · split at h
    · rename_i ht
      exact (depth_elem_lt _ _ h).trans (depth_get_lt child "mixins" ht)
    · simp at h

theorem mixinsOf_normalize (camelize : String → String) (child : JS) (h : Alloc) :
    mixinsOf (normalize camelize child h).1 = mixinsOf child := by
  unfold mixinsOf
  rw [normalize_get camelize child h (by decide) (by decide) (by decide),
    normalize_get camelize child h (by decide) (by decide) (by decide)]

/-- The recursion through `extends` and `mixins` ends: `mergeOptions` returns
with every budget above the depth of `child`. -/
theorem mergeOptions_returns (strats : String → Option Strategy)
    (camelize : String → String) (vm : JS) :
    ∀ (fuel : Nat) (parent child : JS) (h : Alloc), child.depth < fuel →
      ∃ r, mergeOptions strats camelize vm fuel parent child h = some r := by
  intro fuel
  induction fuel with
  | zero => intro parent child h hd; omega
  | succ fuel ih =>
    intro parent child h hd
    rw [mergeOptions_succ]
    unfold mergeOptionsBody
    dsimp only
    have hloop : ∀ (ms : List JS) (p : JS × Alloc), (∀ m ∈ ms, m.depth < fuel) →
        ∃ r, ms.foldl (fun acc m => match acc with
          | none => none
          | some p => mergeOptions strats camelize vm fuel p.1 m p.2) (some p) = some r := by
      intro ms
      induction ms with
      | nil => intro p _; exact ⟨p, rfl⟩
      | cons m ms ihm =>
        intro p hms
        obtain ⟨r, hr⟩ := ih p.1 m p.2 (hms m (List.mem_cons_self _ _))
        simp only [List.foldl_cons, hr]
        exact ihm r (fun x hx => hms x (List.mem_cons_of_mem _ hx))
    have hmerged : ∃ p,
        (if !((normalize camelize (optionsOf child) h).1.get "_base").truthy then
          applyMixins (mergeOptions strats camelize vm fuel) parent
            (normalize camelize (optionsOf child) h).1
            (normalize camelize (optionsOf child) h).2
        else some (parent, (normalize camelize (optionsOf child) h).2)) = some p := by
      split
      · rw [applyMixins_eq, mixinsOf_normalize]
        exact hloop (mixinsOf (optionsOf child)) (parent, (normalize camelize
          (optionsOf child) h).2) (fun m hm => by
            have h1 := depth_mixinsOf_lt _ _ hm
            have h2 := depth_optionsOf_le child
            omega)
      · exact ⟨_, rfl⟩
    obtain ⟨p, hp⟩ := hmerged
    rw [hp]
    exact ⟨_, rfl⟩

/-- With flat `extends` and `mixins`, the parent that the fields are merged
from holds, under a key without strategy, the last defined value among
`parent`, `extends` and the mixins in order. -/
theorem mixins_flat (strats : String → Option Strategy) (camelize : String → String)
    (vm : JS) (fuel : Nat) {key : String} (hs : strats key = none) (hob : key ≠ "__ob__")
    (h1 : key ≠ "props") (h2 : key ≠ "inject") (h3 : key ≠ "directives") :
    ∀ (ms : List JS) (parent : JS) (h : Alloc) (P : JS) (hP : Alloc), (∀ m ∈ ms, Flat m) →
      ms.foldl (fun acc m => match acc with
        | none => none
        | some p => mergeOptions strats camelize vm fuel p.1 m p.2) (some (parent, h))
        = some (P, hP) →
      P.get key =
        ms.foldl (fun acc m => defaultStrat acc ((optionsOf m).get key)) (parent.get key) := by
  intro ms
  induction ms with
  | nil =>
    intro parent h P hP _ hf
    simp only [List.foldl_nil, Option.some.injEq, Prod.mk.injEq] at hf
    rw [← hf.1]
    rfl
  | cons m ms ih =>
    intro parent h P hP hflat hf
    simp only [List.foldl_cons] at hf
    cases hr : mergeOptions strats camelize vm fuel parent m h with
    | none =>
      rw [hr, foldl_none (fun p m => mergeOptions strats camelize vm fuel p.1 m p.2)] at hf
      cases hf
    | some r =>
      obtain ⟨p1, a1⟩ := r
      rw [hr] at hf
      have hrest := ih p1 a1 P hP (fun x hx => hflat x (List.mem_cons_of_mem _ hx)) hf
      rw [hrest, List.foldl_cons]
      congr 1
      cases fuel with
      | zero => rw [mergeOptions_zero] at hr; cases hr
      | succ f =>
        obtain ⟨Pm, hPm, hstage, hval, -⟩ := mergeOptions_spec hr
        rw [hval key hs hob, normalize_get camelize _ _ h1 h2 h3]
        congr 1
        have hbase := normalize_get camelize (optionsOf m) h
          (show "_base" ≠ "props" by decide) (show "_base" ≠ "inject" by decide)
          (show "_base" ≠ "directives" by decide)
        rw [hbase] at hstage
        by_cases hb : ((optionsOf m).get "_base").truthy = true
        · rw [if_pos hb] at hstage
          simp only [Option.some.injEq, Prod.mk.injEq] at hstage
          rw [hstage.1]
        · rw [if_neg hb] at hstage
          have hfl := (hflat m (List.mem_cons_self _ _)).resolve_left hb
          rw [applyMixins_eq, mixinsOf_normalize] at hstage
          have hnil : mixinsOf (optionsOf m) = [] := by
            simp [mixinsOf, hfl.1, hfl.2]
          rw [hnil] at hstage
          simp only [List.foldl_nil, Option.some.injEq, Prod.mk.injEq] at hstage
          rw [← hstage.1]

/-- C14, as stated, fails. The child carries `_base` (it is the result of an
earlier merge), has no `b`, `c`, `d` of its own and has `extends` and `mixins`
that define them; no key has a strategy. Merging `extends` and the mixins onto
the parent gives `b = 2`, `c = 3`, `d = 4`, and that is what `mergeOptions`
returns for the same child without `_base`; with `_base` it returns the
parent's `1` under all three, whatever the budget. -/
theorem C14_mergeOptions_counterexample :
    ["b", "c", "d"].map optsChildBase.get = [.undefined, .undefined, .undefined] ∧
    (applyMixins (mergeOptions noStrats id .undefined 1) optsParent optsChildBase alloc0).map
      (fun r => ["b", "c", "d"].map r.1.get) = some [.num 2, .num 3, .num 4] ∧
    (mergeOptions noStrats id .undefined 2 optsParent optsChild alloc0).map
      (fun r => ["a", "b", "c", "d", "e"].map r.1.get)
      = some [.num 1, .num 2, .num 3, .num 4, .num 5] ∧
    (∀ fuel, (mergeOptions noStrats id .undefined (fuel + 1) optsParent optsChildBase alloc0).map
      (fun r => ["a", "b", "c", "d", "e"].map r.1.get)
      = some [.num 1, .num 1, .num 1, .num 1, .num 5]) :=
  ⟨by rfl, by rfl, by rfl, fun _ => by rfl⟩

/-- C14, amended. Let `mergeOptions(parent, child)` return `opts`, let `c0` be
what `child` stands for (the `options` of a constructor, else `child`) and `C`
the normalised `c0`, which agrees with `c0` outside `props`, `inject` and
`directives`. Then there is a parent `P` such that, for every key without a
registered strategy, `opts[key]` is `C[key]` when that is not `undefined` and
`P[key]` otherwise, and the keys of `opts` are those of `P` and of `C`, each
merged once. `P` is `parent` itself when `c0` carries a truthy `_base`;
otherwise `P` is the result of merging `c0.extends` (when present) and then
each element of `c0.mixins`, in order, onto `parent`, and when these are flat
`P[key]` is the last value that is not `undefined` among `parent[key]`, that of
`extends` and those of the mixins in order. The call returns for every budget
above the depth of `child`. -/
theorem C14_mergeOptions (strats : String → Option Strategy) (camelize : String → String)
    (vm : JS) (fuel : Nat) (parent child : JS) (h : Alloc) (opts : JS) (h1 : Alloc)
    (hm : mergeOptions strats camelize vm (fuel + 1) parent child h = some (opts, h1)) :
    (∃ P hP,
      (((optionsOf child).get "_base").truthy = true → P = parent) ∧
      (((optionsOf child).get "_base").truthy = false →
        (mixinsOf (optionsOf child)).foldl (fun acc m => match acc with
          | none => none
          | some p => mergeOptions strats camelize vm fuel p.1 m p.2)
          (some (parent, (normalize camelize (optionsOf child) h).2)) = some (P, hP)) ∧
      (∀ key, strats key = none → key ≠ "__ob__" →
        ((normalize camelize (optionsOf child) h).1.get key ≠ JS.undefined →
          opts.get key = (normalize camelize (optionsOf child) h).1.get key) ∧
        ((normalize camelize (optionsOf child) h).1.get key = JS.undefined →
          opts.get key = P.get key)) ∧
      (∀ key, key ∈ opts.ownKeys ↔
        key ∈ P.keys ∨ key ∈ (normalize camelize (optionsOf child) h).1.keys) ∧
      (P.keys.Nodup → (normalize camelize (optionsOf child) h).1.keys.Nodup →
        (fieldKeys P (normalize camelize (optionsOf child) h).1).Nodup) ∧
      (((optionsOf child).get "_base").truthy = false →
        (∀ m ∈ mixinsOf (optionsOf child), Flat m) →
        ∀ key, strats key = none → key ≠ "__ob__" → key ≠ "props" → key ≠ "inject" →
          key ≠ "directives" →
          P.get key = (mixinsOf (optionsOf child)).foldl
            (fun acc m => defaultStrat acc ((optionsOf m).get key)) (parent.get key))) ∧
    (∀ key, key ≠ "props" → key ≠ "inject" → key ≠ "directives" →
      (normalize camelize (optionsOf child) h).1.get key = (optionsOf child).get key) ∧
    (∀ fuel1, child.depth < fuel1 →
      ∃ r, mergeOptions strats camelize vm fuel1 parent child h = some r) := by
  refine ⟨?_, fun key k1 k2 k3 => normalize_get camelize _ h k1 k2 k3,
    fun fuel1 hd => mergeOptions_returns strats camelize vm fuel1 parent child h hd⟩
  obtain ⟨P, hP, hstage, hval, hkeys⟩ := mergeOptions_spec hm
  have hbase := normalize_get camelize (optionsOf child) h
    (show "_base" ≠ "props" by decide) (show "_base" ≠ "inject" by decide)
    (show "_base" ≠ "directives" by decide)
  rw [hbase] at hstage
  have hfold : ((optionsOf child).get "_base").truthy = false →
      (mixinsOf (optionsOf child)).foldl (fun acc m => match acc with
        | none => none
        | some p => mergeOptions strats camelize vm fuel p.1 m p.2)
        (some (parent, (normalize camelize (optionsOf child) h).2)) = some (P, hP) := by
    intro hb
    rw [if_neg (by rw [hb]; decide), applyMixins_eq, mixinsOf_normalize] at hstage
    exact hstage
  refine ⟨P, hP, ?_, hfold, ?_, hkeys, fun hp hc => fieldKeys_nodup hp hc, ?_⟩
  · intro hb
    rw [if_pos hb] at hstage
    simp only [Option.some.injEq, Prod.mk.injEq] at hstage
    exact hstage.1
  · intro key hs hob
    constructor
    · intro hdef
      rw [hval key hs hob, defaultStrat_of_defined hdef]
    · intro hund
      rw [hval key hs hob, hund, defaultStrat_undefined]
  · intro hb hflat key hs hob k1 k2 k3
    exact mixins_flat strats camelize vm fuel hs hob k1 k2 k3 _ parent _ P hP hflat (hfold hb)

/-- C14 (amended) on the parent `{a, b, c, d}` (all 1) and the child with
`extends: {b, c, d}` (all 2), `mixins: [{c, d}, {d}]` (3, then 4) and `e: 5`:
the result has `a = 1`, `b = 2`, `c = 3`, `d = 4`, `e = 5`. -/
theorem C14_mergeOptions_witness :
    (mergeOptions noStrats id .undefined 2 optsParent optsChild alloc0).map
      (fun r => ["a", "b", "c", "d", "e"].map r.1.get)
      = some [.num 1, .num 2, .num 3, .num 4, .num 5] ∧
    (mergeOptions noStrats id .undefined 2 optsParent optsChild alloc0).map
      (fun r => r.1.ownKeys) = some ["a", "b", "c", "d", "extends", "mixins", "e"] ∧
    (∀ fuel1, optsChild.depth < fuel1 →
      ∃ r, mergeOptions noStrats id .undefined fuel1 optsParent optsChild alloc0 = some r) :=
  ⟨by rfl, by rfl,
    (C14_mergeOptions noStrats id .undefined 1 optsParent optsChild alloc0
      (optionsAfter (mergeOptions noStrats id .undefined 2 optsParent optsChild alloc0)).1
      (optionsAfter (mergeOptions noStrats id .undefined 2 optsParent optsChild alloc0)).2
      (by rfl)).2.2⟩

/-! ## `get()` on a call stack of bounded depth -/

theorem traverseChildrenBounded_eq
    (rec : Val → Finset Nat → Option (Finset Nat × List Touch))
    (recB : Val → Finset Nat → Bool × Finset Nat × List Touch)
    (h : ∀ v s, rec v s = if (recB v s).1 then some ((recB v s).2.1, (recB v s).2.2) else none)
    (addr : Nat) (ps : List Property) (seen : Finset Nat) :
    traverseChildren rec addr ps seen =
      if (traverseChildrenBounded recB addr ps seen).1 then
        some ((traverseChildrenBounded recB addr ps seen).2.1,
          (traverseChildrenBounded recB addr ps seen).2.2)
      else none := by
  induction ps generalizing seen with
  | nil => simp [traverseChildren, traverseChildrenBounded]
  | cons p ps ih =>
    simp only [traverseChildren, traverseChildrenBounded, h]
    by_cases h1 : (recB p.val seen).1 = true
    · simp only [h1, if_true, ih]
      by_cases h2 : (traverseChildrenBounded recB addr ps (recB p.val seen).2.1).1 = true
      · simp [h2]
      · simp [h2]
    · simp [h1]

/-- Within the budget `_traverse` is `_traverseBounded`; it has no result
exactly when the bounded call stack is exhausted. -/
theorem _traverse_eq_bounded (fuel : Nat) (heap : Heap) (v : Val) (seen : Finset Nat) :
    _traverse fuel heap v seen =
      if (_traverseBounded fuel heap v seen).1 then
        some ((_traverseBounded fuel heap v seen).2.1, (_traverseBounded fuel heap v seen).2.2)
      else none := by
  induction fuel generalizing v seen with
  | zero => cases v <;> simp [_traverse, _traverseBounded]
  | succ f ih =>
    cases v with
    | ref a =>
      unfold _traverse _traverseBounded
      cases ha : heap[a]? with
      | none => simp
      | some o =>
        dsimp only
        by_cases hskip : (o.frozen || o.isVNode) = true
        · simp [hskip]
        · simp only [hskip, if_false]
          cases hob : o.ob with
          | some d =>
            dsimp only
            by_cases hd : d ∈ seen
            · simp [hd]
            · simp only [hd, if_false]
              rw [traverseChildrenBounded_eq (_traverse f heap) (_traverseBounded f heap)
                (fun v s => ih v s)]
              by_cases hb : (traverseChildrenBounded (_traverseBounded f heap) a o.props.reverse
                (insert d seen)).1 = true <;> simp [hb]
          | none =>
            dsimp only
            rw [traverseChildrenBounded_eq (_traverse f heap) (_traverseBounded f heap)
              (fun v s => ih v s)]
            by_cases hb : (traverseChildrenBounded (_traverseBounded f heap) a o.props.reverse
              seen).1 = true <;> simp [hb]
    | undefined | null | bool _ | num _ | str _ | nan => simp [_traverse, _traverseBounded]

theorem traverse_eq_bounded (fuel : Nat) (heap : Heap) (v : Val) (seen : Finset Nat) :
    traverse fuel heap v seen =
      if (traverseBounded fuel heap v seen).1 then
        some ((traverseBounded fuel heap v seen).2.1, (traverseBounded fuel heap v seen).2.2)
      else none := by
  unfold traverse traverseBounded
  rw [_traverse_eq_bounded]
  by_cases h : (_traverseBounded fuel heap v seen).1 = true <;> simp [h]

/-- With `deep` unset nothing is traversed, so nothing overflows. -/
theorem overflows_of_not_deep (fuel : Nat) (w : Watcher) (σ : World) (h : w.deep = false) :
    w.overflows fuel σ = false := by
  simp [Watcher.overflows, h]

theorem traverseBounded_undefined (fuel : Nat) (heap : Heap) (seen : Finset Nat) :
    traverseBounded fuel heap Val.undefined seen = (true, ∅, []) := by
  cases fuel <;> simp [traverseBounded, _traverseBounded]

/-- After a throwing evaluator the value is `undefined`, whose traversal
returns at once. -/
theorem overflows_of_throw (fuel : Nat) (w : Watcher) (σ : World) (e : Val)
    (h : (w.getter σ.heap w.vm).outcome = .error e) : w.overflows fuel σ = false := by
  have hv : w.getValue σ = Val.undefined := by simp [Watcher.getValue, h]
  simp [Watcher.overflows, hv, traverseBounded_undefined]

/-- The traversal of `get()` has a result exactly when the stack is not
exhausted. -/
theorem getTraverse_eq_none_iff (fuel : Nat) (w : Watcher) (σ : World) :
    w.getTraverse fuel σ = none ↔ w.overflows fuel σ = true := by
  unfold Watcher.getTraverse Watcher.overflows
  cases hd : w.deep
  · simp
  · simp only [if_true, traverse_eq_bounded, Bool.true_and]
    by_cases hb : (traverseBounded fuel σ.heap (w.getValue σ) σ.seenObjects).1 = true <;>
      simp [hb]

/-- The method `get()` returns or rethrows exactly when the stack is not
exhausted, and then as `getBounded` says. -/
theorem get_eq_getBounded (fuel : Nat) (w : Watcher) (σ : World) :
    w.get fuel σ = if w.overflows fuel σ then none else some (w.getBounded fuel σ) := by
  unfold Watcher.get Watcher.getBounded Watcher.overflows Watcher.getValue
  simp only [track_fst, track_snd, pushTarget, World.emit, handleError, traverse_eq_bounded]
  cases hd : w.deep
  · cases ho : (w.getter σ.heap w.vm).outcome <;> cases hu : w.user <;> simp [hd, ho, hu]
  · cases ho : (w.getter σ.heap w.vm).outcome with
    | error e =>
      generalize htb : traverseBounded fuel σ.heap Val.undefined σ.seenObjects = tb
      obtain ⟨b, s, t⟩ := tb
      cases b <;> cases hu : w.user <;> simp [hd, ho, hu, htb]
    | ok v =>
      generalize htb : traverseBounded fuel σ.heap v σ.seenObjects = tb
      obtain ⟨b, s, t⟩ := tb
      cases b <;> cases hu : w.user <;> simp [hd, ho, hu, htb]

/-- Where `get()` is when `traverse` exhausts the stack: it throws the
engine's error with the watcher still on the stack of active watchers, and
`cleanupDeps()` has not run, so `deps` and `depIds` are as before and no
`removeSub` has been called. -/
theorem getBounded_of_overflows {fuel : Nat} {w : Watcher} {σ : World}
    (h : w.overflows fuel σ = true) :
    w.deep = true ∧ (∃ v, (w.getter σ.heap w.vm).outcome = .ok v) ∧
    (w.getBounded fuel σ).1 = .error stackOverflow ∧
    (w.getBounded fuel σ).2.1.deps = w.deps ∧ (w.getBounded fuel σ).2.1.depIds = w.depIds ∧
    (w.getBounded fuel σ).2.2.targetStack = w.id :: σ.targetStack ∧
    ∃ seg, (w.getBounded fuel σ).2.2.log = σ.log ++ seg ∧ ∀ d x, Event.removeSub d x ∉ seg := by
  have hd : w.deep = true := by
    cases hd : w.deep
    · rw [overflows_of_not_deep fuel w σ hd] at h
      cases h
    · rfl
  cases ho : (w.getter σ.heap w.vm).outcome with
  | error e =>
    rw [overflows_of_throw fuel w σ e ho] at h
    cases h
  | ok v =>
    have hv : w.getValue σ = v := by simp [Watcher.getValue, ho]
    have hb : (traverseBounded fuel σ.heap v σ.seenObjects).1 = false := by
      simpa [Watcher.overflows, hd, hv] using h
    refine ⟨hd, ⟨v, rfl⟩, ?_⟩
    unfold Watcher.getBounded
    simp only [track_fst, track_snd, pushTarget, World.emit, handleError, hd, ho, if_true, hb,
      Bool.false_eq_true, if_false]
    refine ⟨trivial, trivial, trivial, trivial,
      Event.evaluate w.id :: (logOfTrack w.id w.depIds w.newDepIds (w.getter σ.heap w.vm).reads ++
      logOfTrack w.id w.depIds (collectIds w.newDepIds (w.getter σ.heap w.vm).reads)
        (touchedDeps σ.heap (traverseBounded fuel σ.heap v σ.seenObjects).2.2)), by simp, ?_⟩
    intro d x hmem
    simp only [List.mem_cons, List.mem_append, reduceCtorEq, false_or] at hmem
    rcases hmem with hmem | hmem
    · rcases mem_logOfTrack_cases hmem with ⟨y, hy⟩ | ⟨y, hy⟩ <;> cases hy
    · rcases mem_logOfTrack_cases hmem with ⟨y, hy⟩ | ⟨y, hy⟩ <;> cases hy

/-- When the stack is not exhausted `get()` restores the stack of active
watchers. -/
theorem getBounded_targetStack {fuel : Nat} {w : Watcher} {σ : World}
    (h : w.overflows fuel σ = false) :
    w.get fuel σ = some (w.getBounded fuel σ) ∧
    (w.getBounded fuel σ).2.2.targetStack = σ.targetStack := by
  have hget : w.get fuel σ = some (w.getBounded fuel σ) := by
    rw [get_eq_getBounded, h]
    rfl
  exact ⟨hget, (get_world hget).1.2.2.2⟩

/-- On the self-referencing plain object the traversal exhausts every stack. -/
theorem overflows_selfPlain (fuel : Nat) (w : Watcher) (σ : World) (hd : w.deep = true)
    (hh : σ.heap = heapSelfPlain) (hv : w.getValue σ = .ref 0) : w.overflows fuel σ = true := by
  rw [← getTraverse_eq_none_iff]
  unfold Watcher.getTraverse
  rw [hd, hh, hv]
  simp [traverse, traverse_selfPlain_none]

/-- Enough stack for the traversal of `get()`, given a rank that decreases
from each container without `__ob__` to those it holds. -/
theorem overflows_of_rank (w : Watcher) (σ : World) (rank : Nat → Nat)
    (hrank : ∀ a o, σ.heap[a]? = some o → o.plain = true → ∀ p ∈ o.props, ∀ b o1,
      p.val = Val.ref b → σ.heap[b]? = some o1 → o1.plain = true → rank b < rank a) :
    ∃ n, ∀ fuel, n ≤ fuel → w.overflows fuel σ = false := by
  refine ⟨(obIds σ.heap \ σ.seenObjects).card * weightBound σ.heap rank +
    weight σ.heap rank (w.getValue σ) + 1, ?_⟩
  intro fuel hfuel
  obtain ⟨s1, t, ht, -⟩ := traverse_fuel σ.heap rank hrank fuel (w.getValue σ) σ.seenObjects hfuel
  cases ho : w.overflows fuel σ
  · rfl
  · rw [← getTraverse_eq_none_iff] at ho
    unfold Watcher.getTraverse at ho
    split at ho
    · simp [traverse, ht] at ho
    · cases ho

/-- C7 fails where `traverse` throws: on the deep watcher of
`function () { return this }`, after `o.self = o` the evaluator returns and yet
`get()` throws, whatever the depth of the stack; `user` being set would not
change it, the error is thrown in `finally`. -/
theorem C7_get_counterexample :
    watcherDeepSelf.1.user = false ∧
    (watcherDeepSelf.1.getter worldDeepSelf.heap watcherDeepSelf.1.vm).outcome
      = .ok (Val.ref 0) ∧
    (∀ fuel, (watcherDeepSelf.1.getBounded fuel worldDeepSelf).1 = .error stackOverflow) ∧
    (∀ fuel, ({ watcherDeepSelf.1 with user := true }.getBounded fuel worldDeepSelf).1
      = .error stackOverflow) :=
  ⟨by decide, by rfl,
    fun fuel => (getBounded_of_overflows
      (overflows_selfPlain fuel watcherDeepSelf.1 worldDeepSelf (by decide) (by rfl)
        (by rfl))).2.2.1,
    fun fuel => (getBounded_of_overflows
      (overflows_selfPlain fuel { watcherDeepSelf.1 with user := true } worldDeepSelf
        (by decide) (by rfl) (by rfl))).2.2.1⟩

/-- C7, amended. When the evaluator throws `e`, `get()` completes (the
traversal of `undefined` is immediate): with `user` set it returns `undefined`
and `e` has been passed to `handleError`, once, with the description
`getter for watcher "<expression>"`; with `user` unset it throws `e` and
`handleError` is not called. Either way the watcher it leaves is what
`cleanupDeps` makes of the state after the evaluator's reads, and every stale
Dependency has had `removeSub` called. On a call stack of any depth, `get()`
throws exactly when the evaluator threw and `user` is unset, or the deep
traversal of the value the evaluator returned exhausts the stack; in the
latter case it throws the engine's error and `cleanupDeps` has not run. -/
theorem C7_get_error_routing (fuel : Nat) (w : Watcher) (σ : World) :
    (∀ e, (w.getter σ.heap w.vm).outcome = .error e →
      ∃ (w1 : Watcher) (σ1 : World) (seg : List Event),
        w.getBounded fuel σ = (if w.user then .ok Val.undefined else .error e, w1, σ1) ∧
        w.get fuel σ = some (w.getBounded fuel σ) ∧
        σ1.log = σ.log ++ seg ∧
        seg.filter (fun ev => ev matches Event.handleError _ _ _) =
          (if w.user then
            [Event.handleError e w.vm ("getter for watcher \"" ++ w.expression ++ "\"")]
           else []) ∧
        w1 = ((w.track σ (w.getter σ.heap w.vm).reads).1.cleanupDeps σ).1 ∧
        (∀ d ∈ w.deps, d.id ∉ (w.track σ (w.getter σ.heap w.vm).reads).1.newDepIds →
          Event.removeSub d.id w.id ∈ seg) ∧
        w1.newDeps = [] ∧ w1.newDepIds = ∅) ∧
    ((∃ x, (w.getBounded fuel σ).1 = .error x) ↔
      ((∃ e, (w.getter σ.heap w.vm).outcome = .error e) ∧ w.user = false) ∨
        w.overflows fuel σ = true) ∧
    (w.overflows fuel σ = true ↔ (w.deep = true ∧
      traverse fuel σ.heap (w.getValue σ) σ.seenObjects = none)) ∧
    (w.overflows fuel σ = true →
      (∃ v, (w.getter σ.heap w.vm).outcome = .ok v) ∧
      (w.getBounded fuel σ).1 = .error stackOverflow ∧
      (w.getBounded fuel σ).2.1.deps = w.deps ∧ (w.getBounded fuel σ).2.1.depIds = w.depIds ∧
      ∃ seg, (w.getBounded fuel σ).2.2.log = σ.log ++ seg ∧
        ∀ d x, Event.removeSub d x ∉ seg) ∧
    (w.overflows fuel σ = false → w.get fuel σ = some (w.getBounded fuel σ)) := by
  have hlink : w.overflows fuel σ = false → w.get fuel σ = some (w.getBounded fuel σ) := by
    intro h
    rw [get_eq_getBounded, h]
    rfl
  refine ⟨?_, ?_, ?_, ?_, hlink⟩
  · intro e he
    have hno := overflows_of_throw fuel w σ e he
    have hget := hlink hno
    have hv : w.getValue σ = Val.undefined := by simp [Watcher.getValue, he]
    have ht : ∃ seen, w.getTraverse fuel σ = some (seen, []) := by
      unfold Watcher.getTraverse
      split
      · exact ⟨∅, by rw [hv, traverse_undefined]⟩
      · exact ⟨_, rfl⟩
    obtain ⟨seen, hseen⟩ := ht
    have hres : w.getResult σ = if w.user then .ok Val.undefined else .error e := by
      simp [Watcher.getResult, he]
    have hreads : w.getReads σ [] = (w.getter σ.heap w.vm).reads := by
      simp [Watcher.getReads, touchedDeps]
    have hclosed : w.get fuel σ = some (if w.user then .ok Val.undefined else .error e,
        w.afterGet σ [], w.worldAfterGet σ seen []) := by
      rw [get_eq, hseen, ← hres]
      rfl
    refine ⟨w.afterGet σ [], w.worldAfterGet σ seen [], w.getLog σ [], ?_, hget, rfl, ?_, ?_, ?_,
      rfl, rfl⟩
    · rw [hget] at hclosed
      exact Option.some.inj hclosed
    · have hf : ∀ s ds, (logOfTrack w.id w.depIds s ds).filter
          (fun ev => ev matches Event.handleError _ _ _) = [] := by
        intro s ds
        rw [List.filter_eq_nil_iff]
        intro ev hev
        rcases mem_logOfTrack_cases hev with ⟨x, hx⟩ | ⟨x, hx⟩ <;> simp [hx]
      have hu : ∀ keep ds, (logOfUnsub w.id keep ds).filter
          (fun ev => ev matches Event.handleError _ _ _) = [] := by
        intro keep ds
        rw [List.filter_eq_nil_iff]
        intro ev hev
        obtain ⟨x, hx⟩ := mem_logOfUnsub_cases hev
        simp [hx]
      unfold Watcher.getLog
      rw [← List.singleton_append, List.append_assoc, List.append_assoc, List.append_assoc,
        List.filter_append, List.filter_append, List.filter_append, List.filter_append,
        hf, hf, hu]
      by_cases hus : w.user = true <;> simp [Watcher.getErrorLog, he, hus]
    · rw [track_fst]
      simp [Watcher.cleanupDeps, Watcher.afterGet, hreads]
    · intro d hd hnot
      rw [track_fst] at hnot
      rw [removeSub_mem_getLog, hreads]
      exact ⟨hd, hnot⟩
  · cases hov : w.overflows fuel σ
    · have hget := hlink hov
      rcases hgb : w.getBounded fuel σ with ⟨res, w1, σ1⟩
      rw [hgb] at hget
      obtain ⟨_, _, -, hres, -, -⟩ := get_cases hget
      simp only [Bool.false_eq_true, or_false]
      rw [hres]
      unfold Watcher.getResult
      cases ho : (w.getter σ.heap w.vm).outcome with
      | ok v => simp
      | error e => by_cases hus : w.user = true <;> simp [hus]
    · have h := (getBounded_of_overflows hov).2.2.1
      simp [h]
  · rw [← getTraverse_eq_none_iff]
    unfold Watcher.getTraverse
    cases hd : w.deep <;> simp
  · intro hov
    obtain ⟨-, h1, h2, h3, h4, -, h5⟩ := getBounded_of_overflows hov
    exact ⟨h1, h2, h3, h4, h5⟩

/-- C7 on the watcher of `"x.y"` with a throwing evaluator: as a user watcher
`get()` returns `undefined` and the error is handed to `handleError`; as a
plain watcher `get()` throws it; both unsubscribe from `x` and `y`. And on the
deep watcher of the self-referencing object, on a stack of depth 3: `get()`
throws the engine's error and has called no `removeSub`. -/
theorem C7_get_error_routing_witness :
    (watcherUserThrowing.get 0 watcherUser.2).map (fun r => r.1) = some (.ok Val.undefined) ∧
    (stateOf (watcherUserThrowing.get 0 watcherUser.2)).2.log = watcherUser.2.log ++
      [.evaluate 1, .handleError (.str "bad") 0 "getter for watcher \"x.y\"",
        .removeSub 11 1, .removeSub 10 1] ∧
    (stateOf (watcherUserThrowing.get 0 watcherUser.2)).1.deps = [] ∧
    (watcherThrowing.get 0 watcherXY.2).map (fun r => r.1) = some (.error (.str "bad")) ∧
    (stateOf (watcherThrowing.get 0 watcherXY.2)).2.log = watcherXY.2.log ++
      [.evaluate 1, .removeSub 11 1, .removeSub 10 1] ∧
    (watcherDeepSelf.1.getBounded 3 worldDeepSelf).2.2.log = worldDeepSelf.log ++
      [.evaluate 1] ∧
    (∃ (w1 : Watcher) (σ1 : World) (seg : List Event),
      watcherUserThrowing.getBounded 0 watcherUser.2 =
        (if watcherUserThrowing.user then .ok Val.undefined else .error (.str "bad"),
          w1, σ1) ∧
      watcherUserThrowing.get 0 watcherUser.2 =
        some (watcherUserThrowing.getBounded 0 watcherUser.2) ∧
      σ1.log = watcherUser.2.log ++ seg ∧
      seg.filter (fun ev => ev matches Event.handleError _ _ _) =
        (if watcherUserThrowing.user then
          [Event.handleError (.str "bad") watcherUserThrowing.vm
            ("getter for watcher \"" ++ watcherUserThrowing.expression ++ "\"")]
         else []) ∧
      w1 = ((watcherUserThrowing.track watcherUser.2
        (watcherUserThrowing.getter watcherUser.2.heap watcherUserThrowing.vm).reads).1.cleanupDeps
          watcherUser.2).1 ∧
      (∀ d ∈ watcherUserThrowing.deps,
        d.id ∉ (watcherUserThrowing.track watcherUser.2
          (watcherUserThrowing.getter watcherUser.2.heap watcherUserThrowing.vm).reads).1.newDepIds →
        Event.removeSub d.id watcherUserThrowing.id ∈ seg) ∧
      w1.newDeps = [] ∧ w1.newDepIds = ∅) ∧
    ((∃ v, (watcherDeepSelf.1.getter worldDeepSelf.heap watcherDeepSelf.1.vm).outcome = .ok v) ∧
      (watcherDeepSelf.1.getBounded 3 worldDeepSelf).1 = .error stackOverflow ∧
      (watcherDeepSelf.1.getBounded 3 worldDeepSelf).2.1.deps = watcherDeepSelf.1.deps ∧
      (watcherDeepSelf.1.getBounded 3 worldDeepSelf).2.1.depIds = watcherDeepSelf.1.depIds ∧
      ∃ seg, (watcherDeepSelf.1.getBounded 3 worldDeepSelf).2.2.log = worldDeepSelf.log ++ seg ∧
        ∀ d x, Event.removeSub d x ∉ seg) :=
  ⟨by rfl, by decide, by decide, by rfl, by decide, by decide,
    (C7_get_error_routing 0 watcherUserThrowing watcherUser.2).1 (.str "bad") rfl,
    (C7_get_error_routing 3 watcherDeepSelf.1 worldDeepSelf).2.2.2.1 (by decide)⟩

/-- C20 fails where `traverse` throws: on the deep watcher of
`function () { return this }`, after `o.self = o` the evaluator returns, and
`get()` leaves by the error of `traverse` with the watcher still on the stack
of active watchers, which was empty before. -/
theorem C20_target_stack_counterexample :
    worldDeepSelf.targetStack = [] ∧
    (watcherDeepSelf.1.getter worldDeepSelf.heap watcherDeepSelf.1.vm).outcome
      = .ok (Val.ref 0) ∧
    ∀ fuel, (watcherDeepSelf.1.getBounded fuel worldDeepSelf).1 = .error stackOverflow ∧
      (watcherDeepSelf.1.getBounded fuel worldDeepSelf).2.2.targetStack
        = [watcherDeepSelf.1.id] :=
  ⟨by decide, by rfl, fun fuel =>
    ⟨(getBounded_of_overflows
      (overflows_selfPlain fuel watcherDeepSelf.1 worldDeepSelf (by decide) (by rfl)
        (by rfl))).2.2.1,
     (getBounded_of_overflows
      (overflows_selfPlain fuel watcherDeepSelf.1 worldDeepSelf (by decide) (by rfl)
        (by rfl))).2.2.2.2.2.1⟩⟩

/-- C20, amended. `get()` pushes the watcher on entry. Whenever it gets past
the traversal in `finally` (the stack is not exhausted) it returns or rethrows
with the stack of active watchers identical to the one before, so the outer
watcher is active again; this is always so when `deep` is unset, when the
evaluator throws, and, on a deep enough stack, when a rank decreases from each
container without `__ob__` to those it holds. When the traversal exhausts the
stack, `get()` leaves by that error with the watcher still on the stack. -/
theorem C20_target_stack_restored (fuel : Nat) (w : Watcher) (σ : World) :
    (pushTarget w.id σ).targetStack = w.id :: σ.targetStack ∧
    (popTarget (pushTarget w.id σ)).targetStack = σ.targetStack ∧
    (w.overflows fuel σ = false →
      w.get fuel σ = some (w.getBounded fuel σ) ∧
      (w.getBounded fuel σ).2.2.targetStack = σ.targetStack ∧
      (w.getBounded fuel σ).2.2.targetStack.head? = σ.targetStack.head?) ∧
    (w.overflows fuel σ = true →
      (w.getBounded fuel σ).1 = .error stackOverflow ∧
      (w.getBounded fuel σ).2.2.targetStack = w.id :: σ.targetStack) ∧
    (w.deep = false → w.overflows fuel σ = false) ∧
    (∀ e, (w.getter σ.heap w.vm).outcome = .error e → w.overflows fuel σ = false) ∧
    (∀ rank : Nat → Nat,
      (∀ a o, σ.heap[a]? = some o → o.plain = true → ∀ p ∈ o.props, ∀ b o1,
        p.val = Val.ref b → σ.heap[b]? = some o1 → o1.plain = true → rank b < rank a) →
      ∃ n, ∀ fuel1, n ≤ fuel1 → w.overflows fuel1 σ = false) := by
  refine ⟨rfl, rfl, ?_, ?_, overflows_of_not_deep fuel w σ,
    fun e he => overflows_of_throw fuel w σ e he, fun rank hrank => overflows_of_rank w σ rank hrank⟩
  · intro h
    obtain ⟨h1, h2⟩ := getBounded_targetStack h
    exact ⟨h1, h2, by rw [h2]⟩
  · intro h
    obtain ⟨-, -, h1, -, -, h2, -⟩ := getBounded_of_overflows h
    exact ⟨h1, h2⟩

/-- C20 with an outer watcher (id 5) active: after `get()` on the watcher of
`"x.y"`, and after `get()` on it with a throwing evaluator, 5 is on top;
after `get()` on the deep watcher of the self-referencing object, on a stack
of depth 3, that watcher (id 1) is still above 5. -/
theorem C20_target_stack_restored_witness :
    (stateOf (watcherXY.1.get 0 (pushTarget 5 watcherXY.2))).2.targetStack = [5] ∧
    (stateOf (watcherThrowing.get 0 (pushTarget 5 watcherXY.2))).2.targetStack = [5] ∧
    (watcherDeepSelf.1.getBounded 3 (pushTarget 5 worldDeepSelf)).2.2.targetStack = [1, 5] ∧
    (watcherThrowing.get 0 (pushTarget 5 watcherXY.2)
        = some (watcherThrowing.getBounded 0 (pushTarget 5 watcherXY.2)) ∧
      (watcherThrowing.getBounded 0 (pushTarget 5 watcherXY.2)).2.2.targetStack
        = (pushTarget 5 watcherXY.2).targetStack ∧
      (watcherThrowing.getBounded 0 (pushTarget 5 watcherXY.2)).2.2.targetStack.head?
        = (pushTarget 5 watcherXY.2).targetStack.head?) :=
  ⟨by decide, by decide, by decide,
    (C20_target_stack_restored 0 watcherThrowing (pushTarget 5 watcherXY.2)).2.2.1 (by decide)⟩

/-! ## Lazy watchers: `evaluate()` -/

/-- What `evaluate()` does when the stack is not exhausted: `get()` completes
and `evaluate()` stores what it returned, or rethrows. -/
theorem evaluate_eq {fuel : Nat} {w : Watcher} {σ : World} (h : w.overflows fuel σ = false) :
    ∃ seen touches,
      w.evaluate fuel σ = some
        (match w.getResult σ with
          | .ok v => (.ok (), { w.afterGet σ touches with value := v, dirty := false },
              w.worldAfterGet σ seen touches)
          | .error e => (.error e, w.afterGet σ touches, w.worldAfterGet σ seen touches)) := by
  have hget : w.get fuel σ = some (w.getBounded fuel σ) := by
    rw [get_eq_getBounded, h]
    rfl
  rcases hgb : w.getBounded fuel σ with ⟨res, w1, σ1⟩
  rw [hgb] at hget
  obtain ⟨seen, touches, -, hres, hw, hσ⟩ := get_cases hget
  refine ⟨seen, touches, ?_⟩
  unfold Watcher.evaluate
  rw [hget, ← hres, ← hw, ← hσ]
  cases res <;> rfl

/-- C6 fails on a throwing evaluator: on the lazy watcher (`user` unset) of
`() => fail()`, `evaluate()` invokes the evaluator once and throws;
`value` is still `undefined` and `dirty` is still true. -/
theorem C6_lazy_evaluate_counterexample :
    watcherLazyThrowing.1.lazy = true ∧ watcherLazyThrowing.1.dirty = true ∧
    (watcherLazyThrowing.1.evaluate 0 watcherLazyThrowing.2).map (fun r => r.1)
      = some (.error (.str "bad")) ∧
    (stateOf (watcherLazyThrowing.1.evaluate 0 watcherLazyThrowing.2)).2.log.filter
      Event.isEvaluate = [Event.evaluate 1] ∧
    (stateOf (watcherLazyThrowing.1.evaluate 0 watcherLazyThrowing.2)).1.value
      = Val.undefined ∧
    (stateOf (watcherLazyThrowing.1.evaluate 0 watcherLazyThrowing.2)).1.dirty = true :=
  ⟨by decide, by decide, by rfl, by decide, by decide, by decide⟩

/-- C6, amended. Constructing a watcher with `lazy: true` returns without
invoking the evaluator and leaves `value` undefined and `dirty` true. At any
later time (after any sequence of methods and heap writes) `evaluate()`, on a
stack the traversal does not exhaust, completes having invoked the evaluator
exactly once: if the evaluator returns `v`, `value` is `v` and `dirty` is
false; if it throws `e` and `user` is set, `evaluate()` returns, `value` is
`undefined` and `dirty` is false; if it throws `e` and `user` is unset,
`evaluate()` throws `e` and `value` and `dirty` are as before. The stack is
never exhausted when `deep` is unset. No method other than `update()` turns a
false `dirty` to true; and `update()` sets `dirty` to true and touches nothing
else, so it invokes no evaluator. -/
theorem C6_lazy_evaluate (fuel : Nat) (vm : Nat) (expOrFn : ExpOrFn) (cb : Callback)
    (o : Options) (isRenderWatcher : Bool) (σ : World) (hlazy : o.lazy = true) :
    ∃ (w : Watcher) (σ1 : World),
      Watcher.constructor vm expOrFn cb (some o) isRenderWatcher fuel σ
        = some (.ok (), w, σ1) ∧
      σ1.log.filter Event.isEvaluate = σ.log.filter Event.isEvaluate ∧
      w.value = Val.undefined ∧ w.dirty = true ∧
      ∀ (acts : List Action) (wa : Watcher) (σa : World),
        Watcher.performAll fuel acts (w, σ1) = some (wa, σa) →
        (wa.overflows fuel σa = false →
          ∃ (res : Except Val Unit) (w2 : Watcher) (σ2 : World) (seg : List Event),
            wa.evaluate fuel σa = some (res, w2, σ2) ∧ σ2.log = σa.log ++ seg ∧
            seg.filter Event.isEvaluate = [Event.evaluate w.id] ∧
            (∀ v, (wa.getter σa.heap wa.vm).outcome = .ok v →
              res = .ok () ∧ w2.value = v ∧ w2.dirty = false) ∧
            (∀ e, (wa.getter σa.heap wa.vm).outcome = .error e → wa.user = true →
              res = .ok () ∧ w2.value = Val.undefined ∧ w2.dirty = false) ∧
            (∀ e, (wa.getter σa.heap wa.vm).outcome = .error e → wa.user = false →
              res = .error e ∧ w2.value = wa.value ∧ w2.dirty = wa.dirty)) ∧
        (wa.deep = false → wa.overflows fuel σa = false) ∧
        (∀ a w2 σ2, a ≠ Action.update → wa.dirty = false →
          wa.perform fuel σa a = some (w2, σ2) → w2.dirty = false) ∧
        wa.update fuel σa = some (.ok (), { wa with dirty := true }, σa) := by
  have hc : ∃ (w : Watcher) (σ1 : World),
      Watcher.constructor vm expOrFn cb (some o) isRenderWatcher fuel σ
        = some (.ok (), w, σ1) ∧
      σ1.log.filter Event.isEvaluate = σ.log.filter Event.isEvaluate ∧
      w.value = Val.undefined ∧ w.dirty = true ∧ w.lazy = true := by
    unfold Watcher.constructor
    simp only [hlazy, if_true]
    refine ⟨_, _, rfl, ?_, rfl, rfl, rfl⟩
    split
    · split
      · simp [warn, World.emit, Event.isEvaluate]
      · rfl
    · rfl
  obtain ⟨w, σ1, hnew, hlog, hval, hdirty, hl⟩ := hc
  refine ⟨w, σ1, hnew, hlog, hval, hdirty, ?_⟩
  intro acts wa σa hacts
  have hsame := @performAll_frame fuel acts (w, σ1) (wa, σa) hacts
  have hla : wa.lazy = true := by rw [hsame.2.2.2.2.2.2.1]; exact hl
  have hida : wa.id = w.id := hsame.2.2.2.1
  refine ⟨?_, overflows_of_not_deep fuel wa σa, ?_, ?_⟩
  · intro hov
    obtain ⟨seen, touches, hev⟩ := evaluate_eq hov
    have hone : (wa.getLog σa touches).filter Event.isEvaluate = [Event.evaluate w.id] := by
      rw [filter_getLog, ← hida] <;> simp [Event.isEvaluate]
    cases ho : (wa.getter σa.heap wa.vm).outcome with
    | ok v =>
      have hres : wa.getResult σa = .ok v := by simp [Watcher.getResult, ho]
      rw [hres] at hev
      exact ⟨_, _, _, wa.getLog σa touches, hev, rfl, hone,
        fun v1 hv1 => (by cases hv1; exact ⟨rfl, rfl, rfl⟩),
        fun e he _ => (by cases he), fun e he _ => (by cases he)⟩
    | error e =>
      by_cases hu : wa.user = true
      · have hres : wa.getResult σa = .ok Val.undefined := by simp [Watcher.getResult, ho, hu]
        rw [hres] at hev
        exact ⟨_, _, _, wa.getLog σa touches, hev, rfl, hone,
          fun v1 hv1 => (by cases hv1),
          fun e1 _ _ => ⟨rfl, rfl, rfl⟩,
          fun e1 _ hu1 => (by rw [hu] at hu1; cases hu1)⟩
      · have hres : wa.getResult σa = .error e := by simp [Watcher.getResult, ho, hu]
        rw [hres] at hev
        exact ⟨_, _, _, wa.getLog σa touches, hev, rfl, hone,
          fun v1 hv1 => (by cases hv1),
          fun e1 _ hu1 => absurd hu1 hu,
          fun e1 he1 _ => (by cases he1; exact ⟨rfl, rfl, rfl⟩)⟩
  · intro a w2 σ2 ha hd hp
    exact perform_dirty ha hd hp
  · simp [Watcher.update, hla]

/-- C6 on a lazy watcher of `a ? b : c` over `{a: true, b: 1, c: 2}`: nothing
is logged by the constructor, `evaluate()` logs one evaluator invocation and
stores 1, the value the evaluator returns, and `update()` then sets `dirty`
again. -/
theorem C6_lazy_evaluate_witness :
    optionsLazy.lazy = true ∧
    watcherLazy.2.log = [] ∧ watcherLazy.1.value = Val.undefined ∧
    watcherLazy.1.dirty = true ∧
    (watcherLazy.1.getter watcherLazy.2.heap watcherLazy.1.vm).outcome = .ok (Val.num 1) ∧
    (watcherLazy.1.evaluate 0 watcherLazy.2).map (fun r => r.1) = some (.ok ()) ∧
    (stateOf (watcherLazy.1.evaluate 0 watcherLazy.2)).2.log.filter Event.isEvaluate
      = [Event.evaluate 1] ∧
    (stateOf (watcherLazy.1.evaluate 0 watcherLazy.2)).1.value = Val.num 1 ∧
    (stateOf (watcherLazy.1.evaluate 0 watcherLazy.2)).1.dirty = false ∧
    (stateOf ((stateOf (watcherLazy.1.evaluate 0 watcherLazy.2)).1.update 0
      (stateOf (watcherLazy.1.evaluate 0 watcherLazy.2)).2)).1.dirty = true ∧
    ∃ (w : Watcher) (σ1 : World),
      Watcher.constructor 0 (.fn "a ? b : c" ternary) cbQuiet (some optionsLazy) false 0
        (World.init (heapABC true)) = some (.ok (), w, σ1) ∧
      σ1.log.filter Event.isEvaluate = (World.init (heapABC true)).log.filter Event.isEvaluate ∧
      w.value = Val.undefined ∧ w.dirty = true ∧
      ∀ (acts : List Action) (wa : Watcher) (σa : World),
        Watcher.performAll 0 acts (w, σ1) = some (wa, σa) →
        (wa.overflows 0 σa = false →
          ∃ (res : Except Val Unit) (w2 : Watcher) (σ2 : World) (seg : List Event),
            wa.evaluate 0 σa = some (res, w2, σ2) ∧ σ2.log = σa.log ++ seg ∧
            seg.filter Event.isEvaluate = [Event.evaluate w.id] ∧
            (∀ v, (wa.getter σa.heap wa.vm).outcome = .ok v →
              res = .ok () ∧ w2.value = v ∧ w2.dirty = false) ∧
            (∀ e, (wa.getter σa.heap wa.vm).outcome = .error e → wa.user = true →
              res = .ok () ∧ w2.value = Val.undefined ∧ w2.dirty = false) ∧
            (∀ e, (wa.getter σa.heap wa.vm).outcome = .error e → wa.user = false →
              res = .error e ∧ w2.value = wa.value ∧ w2.dirty = wa.dirty)) ∧
        (wa.deep = false → wa.overflows 0 σa = false) ∧
        (∀ a w2 σ2, a ≠ Action.update → wa.dirty = false →
          wa.perform 0 σa a = some (w2, σ2) → w2.dirty = false) ∧
        wa.update 0 σa = some (.ok (), { wa with dirty := true }, σa) :=
  ⟨by decide, by decide, by decide, by decide, by rfl, by rfl, by decide, by decide, by decide,
    by decide,
    C6_lazy_evaluate 0 0 (.fn "a ? b : c" ternary) cbQuiet optionsLazy false
      (World.init (heapABC true)) (by decide)⟩

/-! ## The strategy of `watch` -/

theorem hasOwn_store_ne {k key : String} (t : Nat) (v : JS) (ps : List (String × JS))
    (hne : k ≠ key) : hasOwn (.obj t (store key v ps)) k = hasOwn (.obj t ps) k := by
  rw [Bool.eq_iff_iff]
  simp only [hasOwn, JS.ownKeys, List.contains_iff_exists_mem_beq, beq_iff_eq]
  constructor
  · rintro ⟨a, ha, rfl⟩
    rcases (mem_keys_store v ps).1 ha with h | h
    · exact absurd h hne
    · exact ⟨_, h, rfl⟩
  · rintro ⟨a, ha, rfl⟩
    exact ⟨_, (mem_keys_store v ps).2 (Or.inr ha), rfl⟩

/-- A loop over pairwise different keys in which each turn assigns to the
object, under the key it is at, a value related to what the object holds under
that key and to whether the key is its own. -/
theorem assign_loop_own (step : JS × Alloc → String → JS × Alloc)
    (Rel : String → Bool → JS → JS → Prop)
    (hstep : ∀ (t : Nat) (ps : List (String × JS)) (h : Alloc) (key : String),
      ∃ v h1, step (.obj t ps, h) key = (.obj t (store key v ps), h1) ∧
        Rel key (hasOwn (.obj t ps) key) (lookup key ps) v ∧ h.next ≤ h1.next ∧
        h1.written = h.written ++ [t]) :
    ∀ (keys : List String) (t : Nat) (ps : List (String × JS)) (h : Alloc), keys.Nodup →
      ∃ ps1 h1, keys.foldl step (.obj t ps, h) = (.obj t ps1, h1) ∧
        (∀ k ∈ keys, Rel k (hasOwn (.obj t ps) k) (lookup k ps) (lookup k ps1)) ∧
        (∀ k, k ∉ keys → lookup k ps1 = lookup k ps) ∧
        (∀ k, k ∈ ps1.map Prod.fst ↔ k ∈ ps.map Prod.fst ∨ k ∈ keys) ∧
        h.next ≤ h1.next ∧ h1.written = h.written ++ List.replicate keys.length t := by
  intro keys
  induction keys with
  | nil =>
    intro t ps h _
    exact ⟨ps, h, rfl, fun k hk => by simp at hk, fun k _ => rfl, fun k => by simp,
      le_refl _, by simp⟩
  | cons key keys ih =>
    intro t ps h hn
    obtain ⟨hk, hn⟩ := List.nodup_cons.1 hn
    obtain ⟨v, h1, e, hrel, hnext, hw⟩ := hstep t ps h key
    obtain ⟨ps1, h2, e2, i1, i2, i3, i4, i5⟩ := ih t (store key v ps) h1 hn
    refine ⟨ps1, h2, ?_, ?_, ?_, ?_, hnext.trans i4, ?_⟩
    · rw [List.foldl_cons, e, e2]
    · intro k hkm
      rcases List.mem_cons.1 hkm with hkm | hkm
      · subst hkm
        rw [i2 k hk, lookup_store_same]
        exact hrel
      · have hne : k ≠ key := fun h => hk (h ▸ hkm)
        have := i1 k hkm
        rw [lookup_store_ne _ _ hne, hasOwn_store_ne t v ps hne] at this
        exact this
    · intro k hkm
      simp only [List.mem_cons, not_or] at hkm
      rw [i2 k hkm.2, lookup_store_ne _ _ hkm.1]
    · intro k
      rw [i3 k, mem_keys_store, List.mem_cons]
      tauto
    · rw [i5, hw, List.length_cons, List.replicate_succ]
      simp

/-- One turn of the loop of `strats.watch`: the handlers put before the
child's are those the object holds under the key or, when the key is not its
own, what `Object.prototype` holds under it. -/
theorem watchStep_obj (nativeWatch childVal : JS) (t : Nat) (ps : List (String × JS))
    (h : Alloc) (key : String) :
    ∃ v h1, watchStep nativeWatch childVal (.obj t ps, h) key
        = (.obj t (store key v ps), h1) ∧
      (v.isArray = true ∧
        v.elems = hooksOf (if hasOwn (.obj t ps) key then lookup key ps
          else lookup key (objectPrototype nativeWatch)) ++ handlersOf (childVal.get key)) ∧
      h.next ≤ h1.next ∧ h1.written = h.written ++ [t] := by
  obtain ⟨s1, s2, s3, s4⟩ :=
    watchValue_spec (JS.getInherited nativeWatch (.obj t ps) key) (childVal.get key) h
  refine ⟨(watchValue (JS.getInherited nativeWatch (.obj t ps) key) (childVal.get key) h).1,
    ⟨(watchValue (JS.getInherited nativeWatch (.obj t ps) key) (childVal.get key) h).2.next,
      (watchValue (JS.getInherited nativeWatch (.obj t ps) key) (childVal.get key)
        h).2.written ++ [t]⟩,
    rfl, ⟨s1, s2⟩, s3, ?_⟩
  show (watchValue (JS.getInherited nativeWatch (.obj t ps) key) (childVal.get key)
    h).2.written ++ [t] = h.written ++ [t]
  rw [s4]

/-- What `strats.watch` returns with `parentVal` and `childVal` both present
(and neither the host's `nativeWatch`), on objects whose keys are pairwise
different and none `"__proto__"`: a new object in which every key of
`childVal` holds an array made of the handlers before it (those of `parentVal`
for a key of `parentVal`; for any other key, what `Object.prototype` holds
under it) followed by the child's handlers; every key that only `parentVal`
has holds the value `parentVal` has; there are no other keys; and every
assignment made is to the new object. -/
theorem strats_watch_spec (nativeWatch parentVal childVal : JS) (h : Alloc)
    (hp : parentVal.truthy = true) (hc : childVal.truthy = true)
    (hpn : parentVal.strictEq nativeWatch = false)
    (hcn : childVal.strictEq nativeWatch = false)
    (hpk : parentVal.keys.Nodup) (hck : childVal.keys.Nodup)
    (hpp : "__proto__" ∉ parentVal.keys) (hcp : "__proto__" ∉ childVal.keys) :
    ∃ rps h1, strats.watch nativeWatch parentVal childVal h = some (.obj h.next rps, h1) ∧
      (∀ k ∈ childVal.keys, ((JS.obj h.next rps).get k).isArray = true ∧
        ((JS.obj h.next rps).get k).elems =
          hooksOf (if k ∈ parentVal.keys then parentVal.get k
            else lookup k (objectPrototype nativeWatch))
            ++ handlersOf (childVal.get k)) ∧
      (∀ k ∈ parentVal.keys, k ∉ childVal.keys →
        (JS.obj h.next rps).get k = parentVal.get k) ∧
      (∀ k, k ∈ (JS.obj h.next rps).ownKeys ↔ k ∈ parentVal.keys ∨ k ∈ childVal.keys) ∧
      (∀ t ∈ h1.written, t ∈ h.written ∨ t = h.next) := by
  obtain ⟨ps1, h1, e1, a1, a2, a3, a4, a5⟩ :=
    extend_obj h.next [] parentVal { h with next := h.next + 1 } hpk
  obtain ⟨ps2, h2, e2, b1, b2, b3, -, b5⟩ :=
    assign_loop_own (watchStep nativeWatch childVal)
      (fun key own cur v => v.isArray = true ∧
        v.elems = hooksOf (if own then cur else lookup key (objectPrototype nativeWatch))
          ++ handlersOf (childVal.get key))
      (watchStep_obj nativeWatch childVal) childVal.keys h.next ps1 h1 hck
  have hpp1 : parentVal.keys.contains "__proto__" = false := by
    simpa [List.contains_iff_exists_mem_beq] using hpp
  have hcp1 : childVal.keys.contains "__proto__" = false := by
    simpa [List.contains_iff_exists_mem_beq] using hcp
  refine ⟨ps2, h2, ?_, ?_, ?_, ?_, ?_⟩
  · simp only [strats.watch, hpn, hcn, Bool.false_eq_true, if_false, hp, hc, Bool.not_true,
      newObject, hpp1, hcp1, Bool.or_self]
    rw [e1, e2]
  · intro k hk
    have hown : hasOwn (.obj h.next ps1) k = decide (k ∈ parentVal.keys) := by
      rw [Bool.eq_iff_iff]
      simp only [hasOwn, JS.ownKeys, List.contains_iff_exists_mem_beq, beq_iff_eq,
        decide_eq_true_eq]
      constructor
      · rintro ⟨a, ha, rfl⟩
        simpa using (a3 _).1 ha
      · intro hkp
        exact ⟨k, (a3 k).2 (Or.inr hkp), rfl⟩
    have := b1 k hk
    rw [hown] at this
    by_cases hkp : k ∈ parentVal.keys
    · simp only [hkp, decide_True, if_true] at this ⊢
      rw [a1 k hkp] at this
      exact this
    · simp only [hkp, decide_False, Bool.false_eq_true, if_false] at this ⊢
      exact this
  · intro k hkp hkc
    show lookup k ps2 = _
    rw [b2 k hkc, a1 k hkp]
  · intro k
    show k ∈ ps2.map Prod.fst ↔ _
    rw [b3 k, a3 k]
    simp
  · intro t ht
    rw [b5, a5] at ht
    simp only [List.append_assoc, List.mem_append] at ht
    rcases ht with ht | ht | ht
    · exact Or.inl ht
    · exact Or.inr (List.eq_of_mem_replicate ht)
    · exact Or.inr (List.eq_of_mem_replicate ht)

/-- On the parent `{x: A, y: [A, B]}` and the child `{y: C, z: [B, C]}` the
result of `strats.watch` is the new object `{x: A, y: [A, B, C], z: [B, C]}`,
and all four assignments are to it. -/
theorem strats_watch_example :
    (strats.watch .undefined watchParent watchChild alloc0).map (fun r => r.1) =
      some (.obj 1000 [("x", hookA), ("y", .arr 1001 [hookA, hookB, hookC]),
        ("z", .arr 15 [hookB, hookC])]) ∧
    (strats.watch .undefined watchParent watchChild alloc0).map (fun r => r.2) =
      some ⟨1002, [1000, 1000, 1000, 1000]⟩ :=
  ⟨by rfl, by rfl⟩

/-- C16 fails on a key that names a member of `Object.prototype`. On the
parent `{x: A}` and the child `{toString: C}`, both present, the parent has no
handler for `toString`, so the handlers to merge are `[C]`; the result of
`strats.watch` holds `[Object.prototype.toString, C]` under `toString`, because
`ret[key]` on the object literal `ret` finds the inherited function. -/
theorem C16_strats_watch_inherited :
    watchParentX.truthy = true ∧ watchChildToString.truthy = true ∧
    watchChildToString.keys = ["toString"] ∧
    hasOwn watchParentX "toString" = false ∧
    hooksOf (watchParentX.get "toString") ++ handlersOf (watchChildToString.get "toString")
      = [hookC] ∧
    lookup "toString" (objectPrototype .undefined) = .fn 906 .undefined ∧
    (strats.watch .undefined watchParentX watchChildToString alloc0).map (fun r => r.1) =
      some (.obj 1000 [("x", hookA), ("toString", .arr 1002 [.fn 906 .undefined, hookC])]) :=
  ⟨by rfl, by rfl, by rfl, by rfl, by rfl, by rfl, by rfl⟩

/-! ## `mergeData` on the data heap -/

theorem set_getElem (heap : DataHeap) (t : Nat) (key : String) (v : Val) (a : Nat) :
    (set heap t key v)[a]? =
      if a = t then (heap[t]?).map (fun o => { o with props := o.props ++ [(key, v)] })
      else heap[a]? := by
  unfold set
  rw [List.getElem?_modify]
  by_cases h : a = t
  · subst h
    simp
  · have h1 : ¬ t = a := fun e => h e.symm
    simp [h, h1]

theorem childrenShape_cons {rec : Val → Option (List Nat)} {v : Val} {vs : List Val}
    {S : List Nat} (h : childrenShape rec (v :: vs) = some S) :
    ∃ S1 S2, rec v = some S1 ∧ childrenShape rec vs = some S2 ∧ (∀ a ∈ S1, a ∉ S2) ∧
      S = S1 ++ S2 := by
  unfold childrenShape at h
  cases h1 : rec v with
  | none => simp [h1] at h
  | some S1 =>
    cases h2 : childrenShape rec vs with
    | none => simp [h1, h2] at h
    | some S2 =>
      simp only [h1, h2] at h
      split at h
      · rename_i hall
        simp only [Option.some.injEq] at h
        refine ⟨S1, S2, rfl, rfl, ?_, h.symm⟩
        intro a ha
        simpa using (List.all_eq_true.1 hall) a ha
      · cases h

theorem lookupVal_cons (k key : String) (v : Val) (ps : List (String × Val)) :
    lookupVal key ((k, v) :: ps) = if k = key then v else lookupVal key ps := by
  by_cases h : k = key <;> simp [lookupVal, h]

/-- The region of the value held under a key lies in the region of the
children. -/
theorem childrenShape_lookup {rec : Val → Option (List Nat)} :
    ∀ (ps : List (String × Val)) (Sc : List Nat),
      childrenShape rec (ps.map Prod.snd) = some Sc →
      ∀ key, key ∈ ps.map Prod.fst →
        ∃ S1, rec (lookupVal key ps) = some S1 ∧ ∀ a ∈ S1, a ∈ Sc := by
  intro ps
  induction ps with
  | nil => intro Sc _ key hk; simp at hk
  | cons p ps ih =>
    intro Sc h key hk
    obtain ⟨k, v⟩ := p
    obtain ⟨S1, S2, h1, h2, -, hS⟩ := childrenShape_cons (by simpa using h)
    subst hS
    rw [lookupVal_cons]
    by_cases hkey : k = key
    · simp only [hkey, if_true]
      exact ⟨S1, h1, fun a ha => List.mem_append_left _ ha⟩
    · simp only [hkey, if_false]
      have hk1 : key ∈ ps.map Prod.fst := by
        simp only [List.map_cons, List.mem_cons] at hk
        rcases hk with hk | hk
        · exact absurd hk.symm hkey
        · exact hk
      obtain ⟨S3, h3, h4⟩ := ih S2 h2 key hk1
      exact ⟨S3, h3, fun a ha => List.mem_append_right _ (h4 a ha)⟩

/-- The regions of the values held under two different keys are apart. -/
theorem childrenShape_apart {rec : Val → Option (List Nat)} :
    ∀ (ps : List (String × Val)) (Sc : List Nat),
      childrenShape rec (ps.map Prod.snd) = some Sc →
      ∀ k1 k2, k1 ≠ k2 → k1 ∈ ps.map Prod.fst → k2 ∈ ps.map Prod.fst →
        ∀ S1 S2, rec (lookupVal k1 ps) = some S1 → rec (lookupVal k2 ps) = some S2 →
          ∀ a ∈ S1, a ∉ S2 := by
  intro ps
  induction ps with
  | nil => intro Sc _ k1 k2 _ hk; simp at hk
  | cons p ps ih =>
    intro Sc h k1 k2 hne hk1 hk2 S1 S2 h1 h2 a ha
    obtain ⟨k, v⟩ := p
    obtain ⟨A, B, hA, hB, hAB, hS⟩ := childrenShape_cons (by simpa using h)
    rw [lookupVal_cons] at h1 h2
    simp only [List.map_cons, List.mem_cons] at hk1 hk2
    by_cases e1 : k = k1
    · have e2 : ¬ k = k2 := fun e => hne (e1.symm.trans e)
      simp only [e1, if_true] at h1
      simp only [e2, if_false] at h2
      have hk2' : k2 ∈ ps.map Prod.fst := by
        rcases hk2 with hk2 | hk2
        · exact absurd hk2.symm e2
        · exact hk2
      obtain ⟨S3, h3, h4⟩ := childrenShape_lookup ps B hB k2 hk2'
      rw [h2] at h3
      cases h3
      rw [hA] at h1
      cases h1
      intro hmem
      exact hAB a ha (h4 a hmem)
    · simp only [e1, if_false] at h1
      have hk1' : k1 ∈ ps.map Prod.fst := by
        rcases hk1 with hk1 | hk1
        · exact absurd hk1.symm e1
        · exact hk1
      by_cases e2 : k = k2
      · simp only [e2, if_true] at h2
        obtain ⟨S3, h3, h4⟩ := childrenShape_lookup ps B hB k1 hk1'
        rw [h1] at h3
        cases h3
        rw [hA] at h2
        cases h2
        intro hmem
        exact hAB a hmem (h4 a ha)
      · simp only [e2, if_false] at h2
        have hk2' : k2 ∈ ps.map Prod.fst := by
          rcases hk2 with hk2 | hk2
          · exact absurd hk2.symm e2
          · exact hk2
        exact ih B hB k1 k2 hne hk1' hk2' S1 S2 h1 h2 a ha

/-- The tree below a plain object: the object itself, then the regions of its
children, which do not hold it. -/
theorem treeShape_plain {n : Nat} {heap : DataHeap} {t : Nat} {S : List Nat}
    (h : treeShape n heap (.ref t) = some S) (hp : isPlainAt heap (.ref t) = true) :
    ∃ m ot Sc, n = m + 1 ∧ heap[t]? = some ot ∧ ot.plain = true ∧
      childrenShape (treeShape m heap) (ot.props.map Prod.snd) = some Sc ∧ t ∉ Sc ∧
      S = t :: Sc := by
  cases n with
  | zero => simp [treeShape] at h
  | succ m =>
    unfold treeShape at h
    unfold isPlainAt at hp
    cases ho : heap[t]? with
    | none => simp [ho] at hp
    | some ot =>
      simp only [ho] at h hp
      simp only [hp, if_true] at h
      cases hc : childrenShape (treeShape m heap) (ot.props.map Prod.snd) with
      | none => simp [hc] at h
      | some Sc =>
        simp only [hc] at h
        split at h
        · cases h
        · rename_i hmem
          simp only [Option.some.injEq] at h
          exact ⟨m, ot, Sc, rfl, rfl, hp, hc, hmem, h.symm⟩

theorem childrenShape_congr {rec rec1 : Val → Option (List Nat)} {P : Nat → Prop}
    (hrec : ∀ v S1, rec v = some S1 → (∀ a ∈ S1, P a) → rec1 v = some S1) :
    ∀ (vs : List Val) (Sc : List Nat), childrenShape rec vs = some Sc → (∀ a ∈ Sc, P a) →
      childrenShape rec1 vs = some Sc := by
  intro vs
  induction vs with
  | nil => intro Sc h _; simpa [childrenShape] using h
  | cons v vs ih =>
    intro Sc h hP
    obtain ⟨S1, S2, h1, h2, h3, hS⟩ := childrenShape_cons h
    subst hS
    have e1 := hrec v S1 h1 (fun a ha => hP a (List.mem_append_left _ ha))
    have e2 := ih S2 h2 (fun a ha => hP a (List.mem_append_right _ ha))
    unfold childrenShape
    simp only [e1, e2]
    simp only [List.all_eq_true, decide_eq_true_eq]
    rw [if_pos h3]

/-- The tree below a value is the same in a heap that agrees on the tree and
has the same plain objects. -/
theorem treeShape_congr {heap heap1 : DataHeap}
    (hplain : ∀ a : Nat, (heap1[a]?).map DataObj.plain = (heap[a]?).map DataObj.plain) :
    ∀ (n : Nat) (v : Val) (S : List Nat), treeShape n heap v = some S →
      (∀ a ∈ S, heap1[a]? = heap[a]?) → treeShape n heap1 v = some S := by
  intro n
  induction n with
  | zero =>
    intro v S h _
    cases v <;> simp [treeShape] at h ⊢ <;> exact h
  | succ m ih =>
    intro v S h hS
    cases v with
    | ref a =>
      unfold treeShape at h ⊢
      cases ho : heap[a]? with
      | none => simp [ho] at h
      | some o =>
        simp only [ho] at h
        by_cases hp : o.plain = true
        · simp only [hp, if_true] at h
          cases hc : childrenShape (treeShape m heap) (o.props.map Prod.snd) with
          | none => simp [hc] at h
          | some Sc =>
            simp only [hc] at h
            split at h
            · cases h
            · rename_i hmem
              simp only [Option.some.injEq] at h
              subst h
              have ha : heap1[a]? = some o := by
                rw [hS a (List.mem_cons_self _ _), ho]
              have hc1 := childrenShape_congr (P := fun (b : Nat) => heap1[b]? = heap[b]?)
                (fun v S1 hv hP => ih v S1 hv hP) _ Sc hc
                (fun b hb => hS b (List.mem_cons_of_mem _ hb))
              simp only [ha, hp, if_true, hc1, hmem, if_false]
        · simp only [hp] at h
          have h1 := hplain a
          rw [ho] at h1
          cases ho1 : heap1[a]? with
          | none => simp [ho1] at h1
          | some o1 =>
            simp only [ho1, Option.map_some', Option.some.injEq] at h1
            simp only [h1, hp]
            exact h
    | undefined | null | bool _ | num _ | str _ | nan =>
      simp [treeShape] at h ⊢
      exact h

theorem lookupVal_mem {key : String} {b : Nat} :
    ∀ {ps : List (String × Val)}, lookupVal key ps = Val.ref b → (key, Val.ref b) ∈ ps := by
  intro ps
  induction ps with
  | nil => intro h; simp [lookupVal] at h
  | cons p ps ih =>
    intro h
    obtain ⟨k, v⟩ := p
    rw [lookupVal_cons] at h
    by_cases e : k = key
    · simp only [e, if_true] at h
      rw [e, h]
      exact List.mem_cons_self _ _
    · simp only [e, if_false] at h
      exact List.mem_cons_of_mem _ (ih h)

/-- What a region that is closed under the objects held gives for one of its
addresses. -/
theorem fromRegion_mem {heap : DataHeap} {F : List Nat} (hF : fromRegion heap F = true)
    {f : Nat} (hf : f ∈ F) :
    ∃ o, heap[f]? = some o ∧ o.keys.Nodup ∧
      ∀ key b, lookupVal key o.props = Val.ref b → b ∈ F := by
  unfold fromRegion at hF
  have h := (List.all_eq_true.1 hF) f hf
  cases ho : heap[f]? with
  | none => simp [ho] at h
  | some o =>
    simp only [ho, Bool.and_eq_true, decide_eq_true_eq, List.all_eq_true] at h
    refine ⟨o, rfl, h.1, ?_⟩
    intro key b hb
    have := h.2 _ (lookupVal_mem hb)
    simpa using this

theorem fromRegion_congr {heap heap1 : DataHeap} {F : List Nat}
    (hF : fromRegion heap F = true) (h : ∀ a ∈ F, heap1[a]? = heap[a]?) :
    fromRegion heap1 F = true := by
  unfold fromRegion at hF ⊢
  rw [List.all_eq_true] at hF ⊢
  intro a ha
  rw [h a ha]
  exact hF a ha

theorem isPlainAt_ref (heap : DataHeap) (a : Nat) :
    isPlainAt heap (.ref a) = ((heap[a]?).map DataObj.plain).getD false := by
  simp only [isPlainAt]
  cases heap[a]? <;> rfl

theorem isPlainAt_congr {heap heap1 : DataHeap}
    (hplain : ∀ a : Nat, (heap1[a]?).map DataObj.plain = (heap[a]?).map DataObj.plain)
    (v : Val) : isPlainAt heap1 v = isPlainAt heap v := by
  cases v with
  | ref a =>
    rw [isPlainAt_ref, isPlainAt_ref, hplain a]
  | undefined | null | bool _ | num _ | str _ | nan => rfl

theorem mem_keys_of_contains {o : DataObj} {key : String} (h : o.keys.contains key = true) :
    key ∈ o.props.map Prod.fst := by
  simpa [DataObj.keys, List.contains_iff_exists_mem_beq] using h

/-- The rule `Merged` reads the heaps only on the tree below `to` and on the
region of `from`. -/
theorem merged_frame {hasSymbol : Bool} {G G1 K K1 : DataHeap} {F : List Nat} {t f : Nat}
    (hM : Merged hasSymbol G G1 t f)
    (hF : fromRegion G F = true)
    (hplain : ∀ a : Nat, (K[a]?).map DataObj.plain = (G[a]?).map DataObj.plain)
    (hKF : ∀ a ∈ F, K[a]? = G[a]?) :
    ∀ (n : Nat) (S : List Nat), treeShape n G (.ref t) = some S →
      isPlainAt G (.ref t) = true → f ∈ F →
      (∀ a ∈ S, K[a]? = G[a]?) → (∀ a ∈ S, K1[a]? = G1[a]?) →
      Merged hasSymbol K K1 t f := by
  induction hM with
  | node t f ot of h1 h2 h3 _ ih =>
    intro n S hS hp hf hKS hK1S
    obtain ⟨m, ot1, Sc, hn, ho1, -, hc, hmem, hSc⟩ := treeShape_plain hS hp
    rw [h1] at ho1
    cases ho1
    subst hSc
    obtain ⟨of1, ho2, -, hclosed⟩ := fromRegion_mem hF hf
    rw [h2] at ho2
    cases ho2
    refine Merged.node t f ot of ?_ ?_ ?_ ?_
    · rw [hKS t (List.mem_cons_self _ _), h1]
    · rw [hKF f hf, h2]
    · rw [hK1S t (List.mem_cons_self _ _), h3]
    · intro key t1 f1 hk hob hown hv1 hv2 hne hp1 hp2
      rw [isPlainAt_congr hplain] at hp1 hp2
      obtain ⟨S1, hS1, hsub⟩ := childrenShape_lookup ot.props Sc hc key (mem_keys_of_contains hown)
      rw [hv1] at hS1
      exact ih key t1 f1 hk hob hown hv1 hv2 hne hp1 hp2 m S1 hS1 hp1 (hclosed key f1 hv2)
        (fun a ha => hKS a (List.mem_cons_of_mem _ (hsub a ha)))
        (fun a ha => hK1S a (List.mem_cons_of_mem _ (hsub a ha)))

theorem getProp_of {heap : DataHeap} {a : Nat} {o : DataObj} (h : heap[a]? = some o)
    (key : String) : getProp heap a key = lookupVal key o.props := by
  simp only [getProp, h]

theorem hasOwnAt_of {heap : DataHeap} {a : Nat} {o : DataObj} (h : heap[a]? = some o)
    (key : String) : hasOwnAt heap a key = o.keys.contains key := by
  simp only [hasOwnAt, h]

theorem isPlainAt_eq_ref {heap : DataHeap} {v : Val} (h : isPlainAt heap v = true) :
    ∃ a, v = Val.ref a := by
  cases v with
  | ref a => exact ⟨a, rfl⟩
  | undefined | null | bool _ | num _ | str _ | nan => simp [isPlainAt] at h

theorem strictNe_ref (a b : Nat) : (Val.ref a).strictNe (Val.ref b) = true ↔ a ≠ b := by
  simp [Val.strictNe]

theorem additions_append (ks1 ks2 : List String) (ot of : DataObj) :
    additions (ks1 ++ ks2) ot of = additions ks1 ot of ++ additions ks2 ot of := by
  simp [additions, List.filter_append, List.map_append]

theorem additions_keep (k : String) (ot of : DataObj)
    (h : (k != "__ob__" && !ot.keys.contains k) = false) : additions [k] ot of = [] := by
  unfold additions
  rw [List.filter_cons_of_neg (by rw [h]; simp)]
  rfl

theorem additions_add (k : String) (ot of : DataObj)
    (h : (k != "__ob__" && !ot.keys.contains k) = true) :
    additions [k] ot of = [(k, lookupVal k of.props)] := by
  unfold additions
  rw [List.filter_cons_of_pos (p := fun k => k != "__ob__" && !ot.keys.contains k) h]
  rfl

theorem additions_keys {ks : List String} {ot of : DataObj} {key : String}
    (h : key ∈ (additions ks ot of).map Prod.fst) : key ∈ ks := by
  simp only [additions, List.map_map, List.mem_map, List.mem_filter, Function.comp] at h
  obtain ⟨k, ⟨hk, -⟩, rfl⟩ := h
  exact hk

theorem lookupVal_append_left {key : String} :
    ∀ {ps : List (String × Val)} (qs : List (String × Val)), key ∈ ps.map Prod.fst →
      lookupVal key (ps ++ qs) = lookupVal key ps := by
  intro ps
  induction ps with
  | nil => intro qs h; simp at h
  | cons p ps ih =>
    intro qs h
    obtain ⟨k, v⟩ := p
    rw [List.cons_append, lookupVal_cons, lookupVal_cons]
    by_cases e : k = key
    · simp [e]
    · simp only [e, if_false]
      apply ih
      simp only [List.map_cons, List.mem_cons] at h
      rcases h with h | h
      · exact absurd h.symm e
      · exact h

theorem contains_keys_append (ps qs : List (String × Val)) (key : String)
    (h : key ∉ qs.map Prod.fst) :
    ((ps ++ qs).map Prod.fst).contains key = (ps.map Prod.fst).contains key := by
  rw [Bool.eq_iff_iff]
  simp only [List.contains_iff_exists_mem_beq, beq_iff_eq, List.map_append, List.mem_append]
  constructor
  · rintro ⟨a, ha | ha, rfl⟩
    · exact ⟨_, ha, rfl⟩
    · exact absurd ha h
  · rintro ⟨a, ha, rfl⟩
    exact ⟨_, Or.inl ha, rfl⟩

/-- The loop of `mergeData` keeps `MergeInv`, on a tree-shaped `to` apart from
the region of `from`; `IH` is the case of the objects held by `to`. -/
theorem mergeDataLoop_spec {hasSymbol : Bool} {F : List Nat} {heap0 : DataHeap} {t f : Nat}
    {ot of : DataObj} {m : Nat} {Sc : List Nat} {fuel : Nat}
    (h0f : heap0[f]? = some of)
    (hc : childrenShape (treeShape m heap0) (ot.props.map Prod.snd) = some Sc)
    (htSc : t ∉ Sc) (hF : fromRegion heap0 F = true) (hf : f ∈ F)
    (hdisj : ∀ a ∈ t :: Sc, a ∉ F)
    (IH : ∀ (H : DataHeap) (t1 f1 : Nat) (S1 : List Nat),
      treeShape m H (.ref t1) = some S1 → isPlainAt H (.ref t1) = true →
      fromRegion H F = true → f1 ∈ F → (∀ a ∈ S1, a ∉ F) →
      ∃ H1, mergeData hasSymbol fuel H t1 (.ref f1) = some H1 ∧
        Merged hasSymbol H H1 t1 f1 ∧ (∀ a, a ∉ S1 → H1[a]? = H[a]?) ∧
        (∀ a : Nat, (H1[a]?).map DataObj.plain = (H[a]?).map DataObj.plain)) :
    ∀ (ks done : List String) (heap : DataHeap), (done ++ ks).Nodup →
      MergeInv hasSymbol heap0 t ot of m Sc heap done →
      ∃ heap1, mergeDataLoop (mergeData hasSymbol fuel) t f ks heap = some heap1 ∧
        MergeInv hasSymbol heap0 t ot of m Sc heap1 (done ++ ks) := by
  obtain ⟨of1, hof1, -, hclosed⟩ := fromRegion_mem hF hf
  rw [h0f] at hof1
  cases hof1
  have hfout : f ∉ t :: Sc := fun hmem => hdisj f hmem hf
  intro ks
  induction ks with
  | nil =>
    intro done heap _ hinv
    exact ⟨heap, rfl, by simpa using hinv⟩
  | cons k ks ih =>
    intro done heap hnd hinv
    have hnd1 : ((done ++ [k]) ++ ks).Nodup := by simpa using hnd
    have hkdone : k ∉ done := by
      intro hmem
      have := List.nodup_append.1 hnd
      exact this.2.2 hmem (List.mem_cons_self _ _)
    rw [show done ++ k :: ks = (done ++ [k]) ++ ks by simp]
    have hheapf : heap[f]? = some of := by rw [hinv.outside f hfout, h0f]
    have hnotadd : k ∉ (additions done ot of).map Prod.fst := fun h => hkdone (additions_keys h)
    have hown : hasOwnAt heap t k = ot.keys.contains k := by
      rw [hasOwnAt_of hinv.cell]
      exact contains_keys_append ot.props _ k hnotadd
    -- the invariant goes on when the heap is left as it is
    have hsame : (k != "__ob__" && !ot.keys.contains k) = false →
        (∀ t1 f1, k ≠ "__ob__" → ot.keys.contains k = true →
          lookupVal k ot.props = Val.ref t1 → lookupVal k of.props = Val.ref f1 → t1 ≠ f1 →
          isPlainAt heap0 (Val.ref t1) = true → isPlainAt heap0 (Val.ref f1) = true → False) →
        MergeInv hasSymbol heap0 t ot of m Sc heap (done ++ [k]) := by
      intro hfilter hno
      refine ⟨?_, hinv.outside, ?_, hinv.plain, ?_⟩
      · rw [additions_append, additions_keep k ot of hfilter, List.append_nil]
        exact hinv.cell
      · intro a ha hne
        obtain ⟨key, hkey, rest⟩ := hinv.touched a ha hne
        exact ⟨key, List.mem_append_left _ hkey, rest⟩
      · intro key hkey t1 f1 hob hcon hv1 hv2 hne hp1 hp2
        rcases List.mem_append.1 hkey with hkey | hkey
        · exact hinv.merged key hkey t1 f1 hob hcon hv1 hv2 hne hp1 hp2
        · simp only [List.mem_singleton] at hkey
          subst hkey
          exact (hno t1 f1 hob hcon hv1 hv2 hne hp1 hp2).elim
    unfold mergeDataLoop
    by_cases hob : k = "__ob__"
    · simp only [hob, beq_self_eq_true, if_true]
      rw [hob] at hnd1 hsame
      exact ih (done ++ ["__ob__"]) heap hnd1
        (hsame (by simp) (fun _ _ h => (h rfl).elim))
    · have hob1 : (k == "__ob__") = false := by simpa using hob
      simp only [hob1, Bool.false_eq_true, if_false, hown]
      cases hcon : ot.keys.contains k with
      | false =>
        simp only [Bool.not_false, if_true]
        rw [getProp_of hheapf]
        apply ih (done ++ [k]) _ hnd1
        have hfilter : (k != "__ob__" && !ot.keys.contains k) = true := by
          rw [hcon]
          simp [hob]
        have hframe : ∀ a, a ≠ t →
            (set heap t k (lookupVal k of.props))[a]? = heap[a]? := by
          intro a ha
          rw [set_getElem, if_neg ha]
        refine ⟨?_, ?_, ?_, ?_, ?_⟩
        · rw [set_getElem, if_pos rfl, hinv.cell, additions_append, additions_add k ot of hfilter]
          simp
        · intro a ha
          rw [hframe a (fun e => ha (e ▸ List.mem_cons_self _ _))]
          exact hinv.outside a ha
        · intro a ha hne
          rw [hframe a (fun e => htSc (e ▸ ha))] at hne
          obtain ⟨key, hkey, rest⟩ := hinv.touched a ha hne
          exact ⟨key, List.mem_append_left _ hkey, rest⟩
        · intro a
          rw [set_getElem]
          by_cases e : a = t
          · rw [if_pos e, e, ← hinv.plain t]
            cases heap[t]? <;> rfl
          · rw [if_neg e]
            exact hinv.plain a
        · intro key hkey t1 f1 hob2 hcon2 hv1 hv2 hne hp1 hp2
          rcases List.mem_append.1 hkey with hkey | hkey
          · obtain ⟨S1, hS1, hsub⟩ :=
              childrenShape_lookup ot.props Sc hc key (mem_keys_of_contains hcon2)
            rw [hv1] at hS1
            exact merged_frame (hinv.merged key hkey t1 f1 hob2 hcon2 hv1 hv2 hne hp1 hp2) hF
              (fun _ => rfl) (fun _ _ => rfl) m S1 hS1 hp1 (hclosed key f1 hv2)
              (fun _ _ => rfl)
              (fun a ha => hframe a (fun e => htSc (e ▸ hsub a ha)))
          · simp only [List.mem_singleton] at hkey
            subst hkey
            rw [hcon] at hcon2
            cases hcon2
      | true =>
        simp only [Bool.not_true, Bool.false_eq_true, if_false]
        have hkmem : k ∈ ot.props.map Prod.fst := mem_keys_of_contains hcon
        have htv : getProp heap t k = lookupVal k ot.props := by
          rw [getProp_of hinv.cell]
          exact lookupVal_append_left _ hkmem
        rw [htv, getProp_of hheapf, isPlainAt_congr hinv.plain, isPlainAt_congr hinv.plain]
        have hfilter : (k != "__ob__" && !ot.keys.contains k) = false := by
          rw [hcon]
          simp
        by_cases hcond : ((lookupVal k ot.props).strictNe (lookupVal k of.props) &&
            isPlainAt heap0 (lookupVal k ot.props) &&
            isPlainAt heap0 (lookupVal k of.props)) = true
        · simp only [hcond, if_true]
          simp only [Bool.and_eq_true] at hcond
          obtain ⟨⟨hsne, hpt⟩, hpf⟩ := hcond
          obtain ⟨t1, ht1⟩ := isPlainAt_eq_ref hpt
          obtain ⟨f1, hf1⟩ := isPlainAt_eq_ref hpf
          rw [ht1, hf1] at hsne
          rw [ht1] at hpt
          rw [hf1] at hpf
          have hne : t1 ≠ f1 := (strictNe_ref t1 f1).1 hsne
          obtain ⟨S1, hS1, hsub⟩ := childrenShape_lookup ot.props Sc hc k hkmem
          have hS1' := hS1
          rw [ht1] at hS1'
          -- the tree below `t1` has not been touched
          have hfresh : ∀ a ∈ S1, heap[a]? = heap0[a]? := by
            intro a ha
            by_contra hne1
            obtain ⟨key, hkey, S2, hkm, hS2, ha2⟩ := hinv.touched a (hsub a ha) hne1
            have hkk : key ≠ k := fun e => hkdone (e ▸ hkey)
            exact childrenShape_apart ot.props Sc hc key k hkk hkm hkmem S2 S1 hS2 hS1 a ha2 ha
          have htree : treeShape m heap (.ref t1) = some S1 :=
            treeShape_congr hinv.plain m _ S1 hS1' hfresh
          have hFc : fromRegion heap F = true :=
            fromRegion_congr hF (fun a ha => hinv.outside a (fun hmem => hdisj a hmem ha))
          have hS1F : ∀ a ∈ S1, a ∉ F :=
            fun a ha => hdisj a (List.mem_cons_of_mem _ (hsub a ha))
          have hpt1 : isPlainAt heap (.ref t1) = true := by
            rw [isPlainAt_congr hinv.plain]; exact hpt
          obtain ⟨H1, hrun, hmerged, hframe, hplain1⟩ :=
            IH heap t1 f1 S1 htree hpt1 hFc (hclosed k f1 hf1) hS1F
          rw [ht1, hf1]
          simp only [hrun]
          apply ih (done ++ [k]) H1 hnd1
          have htS1 : t ∉ S1 := fun hmem => htSc (hsub t hmem)
          refine ⟨?_, ?_, ?_, ?_, ?_⟩
          · rw [hframe t htS1, additions_append, additions_keep k ot of hfilter,
              List.append_nil]
            exact hinv.cell
          · intro a ha
            rw [hframe a (fun hmem => ha (List.mem_cons_of_mem _ (hsub a hmem)))]
            exact hinv.outside a ha
          · intro a ha hne1
            by_cases ha1 : a ∈ S1
            · exact ⟨k, by simp, S1, hkmem, hS1, ha1⟩
            · rw [hframe a ha1] at hne1
              obtain ⟨key, hkey, rest⟩ := hinv.touched a ha hne1
              exact ⟨key, List.mem_append_left _ hkey, rest⟩
          · intro a
            rw [hplain1 a]
            exact hinv.plain a
          · intro key hkey t2 f2 hob2 hcon2 hv1 hv2 hne2 hp1 hp2
            rcases List.mem_append.1 hkey with hkey | hkey
            · obtain ⟨S2, hS2, hsub2⟩ :=
                childrenShape_lookup ot.props Sc hc key (mem_keys_of_contains hcon2)
              have hkk : key ≠ k := fun e => hkdone (e ▸ hkey)
              have hS2' := hS2
              rw [hv1] at hS2'
              exact merged_frame (hinv.merged key hkey t2 f2 hob2 hcon2 hv1 hv2 hne2 hp1 hp2) hF
                (fun _ => rfl) (fun _ _ => rfl) m S2 hS2' hp1 (hclosed key f2 hv2)
                (fun _ _ => rfl)
                (fun a ha => hframe a (fun hmem =>
                  childrenShape_apart ot.props Sc hc key k hkk
                    (mem_keys_of_contains hcon2) hkmem S2 S1 hS2 hS1 a ha hmem))
            · simp only [List.mem_singleton] at hkey
              subst hkey
              rw [ht1] at hv1
              rw [hf1] at hv2
              cases hv1
              cases hv2
              exact merged_frame hmerged hFc (fun a => (hinv.plain a).symm)
                (fun a ha => (hinv.outside a (fun hmem => hdisj a hmem ha)).symm) m S1 htree
                hpt1 (hclosed key f1 hf1) (fun a ha => (hfresh a ha).symm) (fun _ _ => rfl)
        · have hcond1 : ((lookupVal k ot.props).strictNe (lookupVal k of.props) &&
              isPlainAt heap0 (lookupVal k ot.props) &&
              isPlainAt heap0 (lookupVal k of.props)) = false := by
            simpa using hcond
          simp only [hcond1, Bool.false_eq_true, if_false]
          apply ih (done ++ [k]) heap hnd1
          apply hsame hfilter
          intro t1 f1 _ _ hv1 hv2 hne hp1 hp2
          rw [hv1, hv2, hp1, hp2, (strictNe_ref t1 f1).2 hne] at hcond1
          simp at hcond1

theorem keysOf_nodup (hasSymbol : Bool) {o : DataObj} (h : o.keys.Nodup) :
    (keysOf hasSymbol o).Nodup := by
  unfold keysOf
  split
  · exact h
  · exact h.filter _

/-- On a tree-shaped `to` apart from the region of `from`, `mergeData`
returns, for every budget above the depth of the tree, with the heap merged
by the rule; it writes to the tree only, and whether an object is plain does
not change. -/
theorem mergeData_tree (hasSymbol : Bool) (F : List Nat) :
    ∀ (n : Nat) (heap : DataHeap) (t f : Nat) (S : List Nat),
      treeShape n heap (.ref t) = some S → isPlainAt heap (.ref t) = true →
      fromRegion heap F = true → f ∈ F → (∀ a ∈ S, a ∉ F) →
      ∀ fuel, n ≤ fuel →
        ∃ heap1, mergeData hasSymbol fuel heap t (.ref f) = some heap1 ∧
          Merged hasSymbol heap heap1 t f ∧ (∀ a, a ∉ S → heap1[a]? = heap[a]?) ∧
          (∀ a : Nat, (heap1[a]?).map DataObj.plain = (heap[a]?).map DataObj.plain) := by
  intro n
  induction n with
  | zero =>
    intro heap t f S h
    simp [treeShape] at h
  | succ m ih =>
    intro heap t f S hS hp hF hf hdisj fuel hfuel
    obtain ⟨m1, ot, Sc, hm, hot, -, hc, htSc, hSc⟩ := treeShape_plain hS hp
    cases hm
    subst hSc
    obtain ⟨of, hof, hnd, -⟩ := fromRegion_mem hF hf
    obtain ⟨fuel1, rfl⟩ : ∃ fuel1, fuel = fuel1 + 1 := ⟨fuel - 1, by omega⟩
    have hfuel1 : m ≤ fuel1 := by omega
    have hinit : MergeInv hasSymbol heap t ot of m Sc heap [] := by
      refine ⟨?_, fun _ _ => rfl, fun a _ hne => absurd rfl hne, fun _ => rfl, ?_⟩
      · rw [hot]
        simp [additions]
      · intro key hkey
        simp at hkey
    obtain ⟨heap1, hrun, hinv⟩ :=
      @mergeDataLoop_spec hasSymbol F heap t f ot of m Sc fuel1 hof hc htSc hF hf hdisj
        (fun H t1 f1 S1 h1 h2 h3 h4 h5 => ih H t1 f1 S1 h1 h2 h3 h4 h5 fuel1 hfuel1)
        (keysOf hasSymbol of) [] heap (by simpa using keysOf_nodup hasSymbol hnd) hinit
    rw [List.nil_append] at hinv
    refine ⟨heap1, ?_, ?_, hinv.outside, hinv.plain⟩
    · unfold mergeData
      simp only [Val.truthy, Bool.not_true, Bool.false_eq_true, if_false, hof]
      exact hrun
    · exact Merged.node t f ot of hot hof hinv.cell
        (fun key t1 f1 hk hob hcon hv1 hv2 hne hp1 hp2 =>
          hinv.merged key hk t1 f1 hob hcon hv1 hv2 hne hp1 hp2)

theorem lookupVal_append_right {key : String} :
    ∀ {ps : List (String × Val)} (qs : List (String × Val)), key ∉ ps.map Prod.fst →
      lookupVal key (ps ++ qs) = lookupVal key qs := by
  intro ps
  induction ps with
  | nil => intro qs _; rfl
  | cons p ps ih =>
    intro qs h
    obtain ⟨k, v⟩ := p
    simp only [List.map_cons, List.mem_cons, not_or] at h
    rw [List.cons_append, lookupVal_cons, if_neg (fun e => h.1 e.symm)]
    exact ih qs h.2

theorem lookupVal_map (g : String → Val) (key : String) :
    ∀ (ks : List String), key ∈ ks → lookupVal key (ks.map (fun k => (k, g k))) = g key := by
  intro ks
  induction ks with
  | nil => intro h; simp at h
  | cons k ks ih =>
    intro h
    rw [List.map_cons, lookupVal_cons]
    by_cases e : k = key
    · simp [e]
    · simp only [e, if_false]
      apply ih
      simp only [List.mem_cons] at h
      rcases h with h | h
      · exact absurd h.symm e
      · exact h

/-- What the rule gives on `to` itself, key by key: a key of `from` that `to`
lacks holds the value `from` has; a key `to` has holds what it held; the keys
are those of `to`, then the keys of `from` that `to` lacks, `"__ob__"`
excepted. -/
theorem merged_top {hasSymbol : Bool} {heap heap1 : DataHeap} {t f : Nat}
    (h : Merged hasSymbol heap heap1 t f) :
    ∃ ot of ot1, heap[t]? = some ot ∧ heap[f]? = some of ∧ heap1[t]? = some ot1 ∧
      ot1.plain = ot.plain ∧
      ot1.keys = ot.keys ++
        (keysOf hasSymbol of).filter (fun k => k != "__ob__" && !ot.keys.contains k) ∧
      (∀ key ∈ keysOf hasSymbol of, key ≠ "__ob__" → hasOwnAt heap t key = false →
        getProp heap1 t key = getProp heap f key) ∧
      (∀ key, hasOwnAt heap t key = true → getProp heap1 t key = getProp heap t key) ∧
      (hasOwnAt heap t "__ob__" = false → hasOwnAt heap1 t "__ob__" = false) := by
  cases h with
  | node _ _ ot of h1 h2 h3 _ =>
    refine ⟨ot, of, _, h1, h2, h3, rfl, ?_, ?_, ?_, ?_⟩
    · show (ot.props ++ additions (keysOf hasSymbol of) ot of).map Prod.fst = _
      rw [List.map_append]
      congr 1
      unfold additions
      rw [List.map_map]
      exact List.map_id _
    · intro key hk hob hown
      rw [hasOwnAt_of h1] at hown
      have hn : key ∉ ot.props.map Prod.fst := by
        intro hmem
        have : ot.keys.contains key = true := by
          simpa [DataObj.keys, List.contains_iff_exists_mem_beq] using hmem
        rw [this] at hown
        cases hown
      rw [getProp_of h3, getProp_of h2]
      show lookupVal key (ot.props ++ _) = _
      rw [lookupVal_append_right _ hn]
      unfold additions
      apply lookupVal_map (fun k => lookupVal k of.props)
      rw [List.mem_filter]
      refine ⟨hk, ?_⟩
      rw [hown]
      simpa using hob
    · intro key hown
      rw [hasOwnAt_of h1] at hown
      rw [getProp_of h3, getProp_of h1]
      exact lookupVal_append_left _ (mem_keys_of_contains hown)
    · intro hno
      rw [hasOwnAt_of h1] at hno
      rw [hasOwnAt_of h3]
      show ((ot.props ++ _).map Prod.fst).contains "__ob__" = false
      rw [contains_keys_append]
      · exact hno
      · intro hmem
        simp [additions, List.map_map, Function.comp, List.mem_filter] at hmem

theorem mergeData_cyclic (hasSymbol : Bool) (fuel : Nat) :
    mergeData hasSymbol fuel dataCyclic 0 (.ref 1) = none := by
  induction fuel with
  | zero => rfl
  | succ n ih =>
    cases hasSymbol <;>
      simp [mergeData, mergeDataLoop, dataCyclic, keysOf, DataObj.keys, Val.truthy, getProp,
        hasOwnAt, isPlainAt, lookupVal, Val.strictNe] at ih ⊢ <;>
      simp [ih]

/-- C18 fails on data that is not a tree. On `to.self = to` and
`from.self = from`, two finite objects, `mergeData(to, from)` does not return,
whatever the budget: each call on the pair makes the same call again. On
`to = {a: X, keep: X}` and `from = {a: {q: 2}}` it returns, and the object
under `keep`, a key `from` does not have, is no longer `{p: 1}`: it has gained
`q`, because the merge under `a` is made in place on the object both keys
hold. On `to = {a: X, b: Y}` and `from = {a: G, b: X}` with `G = {q: 2}` and
`Y = {}`, the object `Y` under `b` ends with `q`, a key that `from.b` did not
have when the call was made: the merge under `a` had added it to `X`. -/
theorem C18_mergeData_counterexample :
    (∀ hasSymbol fuel, mergeData hasSymbol fuel dataCyclic 0 (.ref 1) = none) ∧
    hasOwnAt dataShared 1 "keep" = false ∧
    getProp dataShared 0 "keep" = Val.ref 2 ∧
    hasOwnAt dataShared 2 "q" = false ∧
    (mergeData true 2 dataShared 0 (.ref 1)).map (fun h => getProp h 0 "keep")
      = some (Val.ref 2) ∧
    (mergeData true 2 dataShared 0 (.ref 1)).map (fun h => getProp h 2 "q")
      = some (Val.num 2) ∧
    getProp dataAliased 0 "b" = Val.ref 3 ∧ getProp dataAliased 1 "b" = Val.ref 2 ∧
    hasOwnAt dataAliased 2 "q" = false ∧
    (mergeData true 2 dataAliased 0 (.ref 1)).map (fun h => getProp h 3 "q")
      = some (Val.num 2) :=
  ⟨mergeData_cyclic, by rfl, by rfl, by rfl, by rfl, by rfl, by rfl, by rfl, by rfl, by rfl⟩

/-- C18, amended. Let the plain objects that `to` holds, at any depth, form a
tree `S` of depth at most `n` (none is held twice, none holds itself), and let
`F` hold `from` and every object held below it, each with pairwise different
keys, and none of `S`. Then `mergeData(to, from)` returns for every budget from
`n` on, and it returns `to`, changed in place: every key of `from` other than
`"__ob__"` that `to` lacked holds the value `from` has; every key `to` had
holds what it held, and where that and the value of `from` are two different
plain objects, the object held by `to` is merged with the one held by `from`
by the same rule (`Merged`); `"__ob__"` is not copied; and nothing outside the
tree is written to, so `from` is unchanged. With `from` absent the heap is left
as it is. -/
theorem C18_mergeData (hasSymbol : Bool) (heap : DataHeap) (to_ f n : Nat) (S F : List Nat)
    (htree : treeShape n heap (.ref to_) = some S)
    (hplain : isPlainAt heap (.ref to_) = true)
    (hF : fromRegion heap F = true) (hf : f ∈ F) (hdisj : ∀ a ∈ S, a ∉ F) :
    (∀ fuel, n ≤ fuel →
      ∃ heap1, mergeData hasSymbol fuel heap to_ (.ref f) = some heap1 ∧
        Merged hasSymbol heap heap1 to_ f ∧
        (∀ a, a ∉ S → heap1[a]? = heap[a]?) ∧
        (∃ of, heap[f]? = some of ∧
          ∀ key ∈ keysOf hasSymbol of, key ≠ "__ob__" → hasOwnAt heap to_ key = false →
            getProp heap1 to_ key = getProp heap f key) ∧
        (∀ key, hasOwnAt heap to_ key = true → getProp heap1 to_ key = getProp heap to_ key) ∧
        (hasOwnAt heap to_ "__ob__" = false → hasOwnAt heap1 to_ "__ob__" = false)) ∧
    (∀ fuel from_, from_.truthy = false →
      mergeData hasSymbol (fuel + 1) heap to_ from_ = some heap) := by
  constructor
  · intro fuel hfuel
    obtain ⟨heap1, hrun, hmerged, hframe, -⟩ :=
      mergeData_tree hasSymbol F n heap to_ f S htree hplain hF hf hdisj fuel hfuel
    obtain ⟨ot, of, ot1, -, hof, -, -, -, hadd, hkeep, hob⟩ := merged_top hmerged
    exact ⟨heap1, hrun, hmerged, hframe, ⟨of, hof, hadd⟩, hkeep, hob⟩
  · intro fuel from_ hfalsy
    simp [mergeData, hfalsy]

/-- C18 on `to = {a: 1, o: {x: 1}}` and the observed
`from = {a: 9, b: 2, o: {y: 5}}`: `a` is kept, `b` is added, the object under
`o` gains `y`, `__ob__` is not copied and `from` is as before. -/
theorem C18_mergeData_witness :
    mergeData true 2 dataHeap 0 (.ref 1) = some
      [ ⟨true, [("a", .num 1), ("o", .ref 2), ("b", .num 2)]⟩,
        ⟨true, [("a", .num 9), ("b", .num 2), ("__ob__", .ref 4), ("o", .ref 3)]⟩,
        ⟨true, [("x", .num 1), ("y", .num 5)]⟩,
        ⟨true, [("y", .num 5)]⟩,
        ⟨true, []⟩ ] ∧
    mergeData false 2 dataHeap 0 (.ref 1) = mergeData true 2 dataHeap 0 (.ref 1) ∧
    mergeData true 1 dataHeap 0 .undefined = some dataHeap ∧
    ((∀ fuel, 2 ≤ fuel →
      ∃ heap1, mergeData true fuel dataHeap 0 (.ref 1) = some heap1 ∧
        Merged true dataHeap heap1 0 1 ∧
        (∀ a, a ∉ [0, 2] → heap1[a]? = dataHeap[a]?) ∧
        (∃ of, dataHeap[1]? = some of ∧
          ∀ key ∈ keysOf true of, key ≠ "__ob__" → hasOwnAt dataHeap 0 key = false →
            getProp heap1 0 key = getProp dataHeap 1 key) ∧
        (∀ key, hasOwnAt dataHeap 0 key = true →
          getProp heap1 0 key = getProp dataHeap 0 key) ∧
        (hasOwnAt dataHeap 0 "__ob__" = false → hasOwnAt heap1 0 "__ob__" = false)) ∧
    (∀ fuel from_, from_.truthy = false →
      mergeData true (fuel + 1) dataHeap 0 from_ = some dataHeap)) :=
  ⟨by rfl, by rfl, by rfl,
    C18_mergeData true dataHeap 0 1 2 [0, 2] [1, 3, 4] (by rfl) (by rfl) (by rfl) (by decide)
      (by decide)⟩

end Vue
